import Mathlib

/-!
# Augmented interval tree (`rbtree/atree.go`)

A shallow embedding of the top-down red-black interval tree of `rbtree/atree.go`.

The Go code works on heap-allocated nodes linked by pointers and mutates them in
place.  The embedding keeps this: a `Heap` maps addresses to `node` records, a
pointer is an `Option Nat` (`none` is Go's `nil`), every function of the source
becomes a function that passes the heap explicitly, and a dereference of `nil`
makes the function return `none` (a Go panic).  Loops and recursions over pointers
take a fuel argument; running out of fuel also returns `none`.

Machine integers are natural numbers; `tree.number` (a `uint64`) wraps explicitly.
-/

namespace rbtree

/-! ## Data model -/

/-- The `Interval` struct used by the tree: fields `From`, `To` and `Id`
(all `uint32` in the source, read by `readNode` and written by `writeNode`). -/
structure Interval where
  From : Nat
  To : Nat
  Id : Nat
deriving DecidableEq, Repr

/-- Modelled from the spec: the accessor `Low()` of `Interval` (its declaration is
not part of the source files); the lower bound is the field written first by
`writeNode`, that is `From`. -/
def Interval.Low (iv : Interval) : Nat := iv.From

/-- Modelled from the spec: the accessor `High()` of `Interval` (its declaration is
not part of the source files); the upper bound is the field `To`. -/
def Interval.High (iv : Interval) : Nat := iv.To

/-- Modelled from the spec: the accessor `ID()` of `Interval` (its declaration is
not part of the source files); the identifier is the field `Id`. -/
def Interval.ID (iv : Interval) : Nat := iv.Id

/-- Source `overlaps`: `high >= otherLow && low <= otherHigh`. -/
def overlaps (high otherHigh low otherLow : Nat) : Bool :=
  decide (high ≥ otherLow) && decide (low ≤ otherHigh)

/-- Modelled from the spec: the method `Overlaps` of `Interval` (its declaration is
not part of the source files), the closed-range overlap test
`high >= otherLow && low <= otherHigh`. -/
def Interval.Overlaps (a b : Interval) : Bool :=
  overlaps a.High b.High a.Low b.Low

/-- A pointer to a node: `none` is `nil`, `some a` is the node stored at address `a`. -/
abbrev Ptr := Option Nat

/-- Source `node`.  `interval` is a pointer in the source and is `nil` only in the
dummy node; `c0` and `c1` are `children[0]` and `children[1]`. -/
structure node where
  interval : Option Interval
  max : Nat
  min : Nat
  c0 : Ptr
  c1 : Ptr
  red : Bool
  id : Nat
deriving DecidableEq, Repr

/-- Read of `n.children[i]`.  Every index in the source is `0` or `1` (it comes from
`compare`, `intFromBool`, `takeOpposite` or a literal). -/
def node.child (n : node) (i : Nat) : Ptr := if i = 0 then n.c0 else n.c1

/-- Write of `n.children[i] = p`. -/
def node.setChild (n : node) (i : Nat) (p : Ptr) : node :=
  if i = 0 then { n with c0 := p } else { n with c1 := p }

/-- Source `newDummy`: the zero node. -/
def newDummy : node :=
  { interval := none, max := 0, min := 0, c0 := none, c1 := none, red := false, id := 0 }

/-- The memory: the node stored at every address, and the first address not yet
allocated.  Address `0` holds the local `dummy` of `add` and `delete`; nodes are
allocated from address `1` on. -/
structure Heap where
  cell : Nat → node
  next : Nat

/-- Field update of the node at address `a`. -/
def Heap.upd (h : Heap) (a : Nat) (f : node → node) : Heap :=
  { h with cell := Function.update h.cell a (f (h.cell a)) }

/-- Allocation of a fresh node. -/
def Heap.alloc (h : Heap) (n : node) : Heap × Nat :=
  ({ cell := Function.update h.cell h.next n, next := h.next + 1 }, h.next)

/-- The address of the local `dummy` node. -/
def dummyAddr : Nat := 0

/-- Source `tree`: the root pointer and the count, together with the memory the
nodes live in.  The field `dummy` of the source is only ever copied after
`resetDummy`, so it is the zero node up to its unused fields. -/
structure tree where
  heap : Heap
  root : Ptr
  number : Nat

/-- Source `intFromBool`. -/
def intFromBool (value : Bool) : Nat := if value then 1 else 0

/-- Source `takeOpposite`. -/
def takeOpposite (value : Nat) : Nat := 1 - value

/-- Source `compare`: the direction in which the interval goes below the node. -/
def compare (nodeLow ivLow nodeID ivID : Nat) : Nat :=
  if ivLow > nodeLow then 1
  else if ivLow < nodeLow then 0
  else intFromBool (decide (ivID > nodeID))

/-- Source `isRed`: `node != nil && node.red`. -/
def isRed (h : Heap) (n : Ptr) : Bool :=
  match n with
  | none => false
  | some a => (h.cell a).red

/-- Source `newNode` (with a present interval): allocates a red node. -/
def newNode (h : Heap) (interval : Interval) (min max : Nat) : Heap × Nat :=
  h.alloc { interval := some interval, max := max, min := min, c0 := none, c1 := none,
            red := true, id := interval.ID }

/-- Source `newTree` / `New`: an empty tree. -/
def New : tree :=
  { heap := { cell := fun _ => newDummy, next := 1 }, root := none, number := 0 }

/-- Source `Len`. -/
def tree.Len (t : tree) : Nat := t.number

/-! ## Aggregates and rotations -/

/-- Source `setMax`. -/
def setMax (h : Heap) (parent : Ptr) : Option Heap := do
  let p ← parent
  let iv ← (h.cell p).interval
  let h := h.upd p (fun n => { n with max := iv.High })
  let h :=
    match (h.cell p).c0 with
    | some c => if (h.cell c).max > (h.cell p).max
                then h.upd p (fun n => { n with max := (h.cell c).max }) else h
    | none => h
  let h :=
    match (h.cell p).c1 with
    | some c => if (h.cell c).max > (h.cell p).max
                then h.upd p (fun n => { n with max := (h.cell c).max }) else h
    | none => h
  pure h

/-- Source `setMin`. -/
def setMin (h : Heap) (parent : Ptr) : Option Heap := do
  let p ← parent
  let iv ← (h.cell p).interval
  let h := h.upd p (fun n => { n with min := iv.Low })
  let h :=
    match (h.cell p).c0 with
    | some c => if (h.cell c).min < (h.cell p).min
                then h.upd p (fun n => { n with min := (h.cell c).min }) else h
    | none => h
  let h :=
    match (h.cell p).c1 with
    | some c => if (h.cell c).min < (h.cell p).min
                then h.upd p (fun n => { n with min := (h.cell c).min }) else h
    | none => h
  let iv2 ← (h.cell p).interval
  let h := if iv2.Low < (h.cell p).min
           then h.upd p (fun n => { n with min := iv2.Low }) else h
  pure h

/-- Source `adjustRange`: `setMin` then `setMax`. -/
def adjustRange (h : Heap) (n : Ptr) : Option Heap := do
  let h ← setMin h n
  setMax h n

/-- Source `adjustRanges`: recompute the aggregates of both subtrees, then of the
node itself. -/
def adjustRanges : Nat → Heap → Ptr → Option Heap
  | 0, _, _ => none
  | fuel + 1, h, n => do
    let a ← n
    let h ← (match (h.cell a).c0 with
      | some c => adjustRanges fuel h (some c)
      | none => pure h)
    let h ← (match (h.cell a).c1 with
      | some c => adjustRanges fuel h (some c)
      | none => pure h)
    adjustRange h (some a)

/-- Source `rotate`: returns the memory after the rotation and the new subtree
root `child`. -/
def rotate (h : Heap) (parent : Ptr) (dir : Nat) : Option (Heap × Ptr) := do
  let otherDir := takeOpposite dir
  let p ← parent
  let child ← (h.cell p).child otherDir
  let h := h.upd p (fun n => n.setChild otherDir ((h.cell child).child dir))
  let h := h.upd child (fun n => n.setChild dir (some p))
  let h := h.upd p (fun n => { n with red := true })
  let h := h.upd child (fun n => { n with red := false })
  let h := h.upd child (fun n => { n with max := (h.cell p).max })
  let h ← setMax h (some child)
  let h ← setMax h (some p)
  let h ← setMin h (some child)
  let h ← setMin h (some p)
  pure (h, some child)

/-- Source `doubleRotate`. -/
def doubleRotate (h : Heap) (parent : Ptr) (dir : Nat) : Option (Heap × Ptr) := do
  let otherDir := takeOpposite dir
  let p ← parent
  let (h, r) ← rotate h ((h.cell p).child otherDir) otherDir
  let h := h.upd p (fun n => n.setChild otherDir r)
  rotate h (some p) dir

/-! ## Insertion -/

/-- The local variables of the descent loop of `add`, with the memory and count. -/
structure AddState where
  heap : Heap
  number : Nat
  helper : Ptr
  grandParent : Ptr
  parent : Ptr
  node : Ptr
  dir : Nat
  last : Nat
  otherLast : Nat

/-- The first statement of the loop body of `add`,
`if node == nil { ... } else if isRed(node.children[0]) && isRed(node.children[1]) { ... }`:
the memory, the count and the (now present) `node`. -/
def addVisit (iv : Interval) (s : AddState) : Option (Heap × Nat × Nat) :=
  match s.node with
  | none => do
    let (h, n) := newNode s.heap iv iv.Low iv.High
    let p ← s.parent
    let h := h.upd p (fun x => x.setChild s.dir (some n))
    pure (h, (s.number + 1) % 2 ^ 64, n)
  | some n =>
    if isRed s.heap (s.heap.cell n).c0 && isRed s.heap (s.heap.cell n).c1 then do
      let h := s.heap.upd n (fun x => { x with red := true })
      let a0 ← (h.cell n).c0
      let h := h.upd a0 (fun x => { x with red := false })
      let a1 ← (h.cell n).c1
      let h := h.upd a1 (fun x => { x with red := false })
      pure (h, s.number, n)
    else pure (s.heap, s.number, n)

/-- The statement `if isRed(parent) && isRed(node) { ... }` of the loop body of `add`:
the rotation around `grandParent`, attached below `helper`. -/
def addFix (s : AddState) (h : Heap) (n : Nat) : Option Heap :=
  if isRed h s.parent && isRed h (some n) then do
    let hp ← s.helper
    let localDir := intFromBool (decide ((h.cell hp).c1 = s.grandParent))
    let p ← s.parent
    let (h, r) ← (if some n = (h.cell p).child s.last
      then rotate h s.grandParent s.otherLast
      else doubleRotate h s.grandParent s.otherLast)
    pure (h.upd hp (fun x => x.setChild localDir r))
  else pure h

/-- One iteration of the `for` loop of `add`: `Sum.inr` is the `break` with the
memory and the count at that point, `Sum.inl` the state at the next loop head. -/
def addStep (iv : Interval) (s : AddState) : Option (AddState ⊕ (Heap × Nat)) := do
  let id := iv.ID
  let max := iv.High
  let ivLow := iv.Low
  let (h, number, n) ← addVisit iv s
  let h := if max > (h.cell n).max then h.upd n (fun x => { x with max := max }) else h
  let h := if ivLow < (h.cell n).min then h.upd n (fun x => { x with min := ivLow }) else h
  let h ← addFix s h n
  if (h.cell n).id = id then
    pure (Sum.inr (h, number))
  else do
    let last := s.dir
    let otherLast := takeOpposite last
    let nv ← (h.cell n).interval
    let dir := compare nv.Low ivLow (h.cell n).id id
    let helper := if s.grandParent ≠ none then s.grandParent else s.helper
    pure (Sum.inl { heap := h, number := number, helper := helper,
                    grandParent := s.parent, parent := some n,
                    node := (h.cell n).child dir,
                    dir := dir, last := last, otherLast := otherLast })

/-- The `for` loop of `add`. -/
def addLoop (iv : Interval) : Nat → AddState → Option (Heap × Nat)
  | 0, _ => none
  | fuel + 1, s => do
    let r ← addStep iv s
    match r with
    | Sum.inr r => pure r
    | Sum.inl s => addLoop iv fuel s

/-- Source `tree.add`. -/
def tree.add (fuel : Nat) (t : tree) (iv : Interval) : Option tree :=
  match t.root with
  | none =>
    let (h, n) := newNode t.heap iv iv.Low iv.High
    let h := h.upd n (fun x => { x with red := false })
    some { heap := h, root := some n, number := (t.number + 1) % 2 ^ 64 }
  | some _ => do
    -- `resetDummy`, then `dummy = tree.dummy` and `helper.children[1] = tree.root`
    let h := t.heap.upd dummyAddr (fun _ => { newDummy with c1 := t.root })
    let (h, number) ← addLoop iv fuel
      { heap := h, number := t.number, helper := some dummyAddr, grandParent := none,
        parent := none, node := t.root, dir := 0, last := 0, otherLast := 1 }
    let root ← (h.cell dummyAddr).c1
    let h := h.upd root (fun x => { x with red := false })
    pure { heap := h, root := some root, number := number }

/-- Source `tree.Add`: adds the intervals one after the other. -/
def tree.Add (fuel : Nat) (t : tree) : List Interval → Option tree
  | [] => some t
  | iv :: intervals => do
    let t ← t.add fuel iv
    t.Add fuel intervals

/-! ## Deletion -/

/-- The local variables of the descent loop of `delete`, with the memory. -/
structure DelState where
  heap : Heap
  found : Ptr
  parent : Ptr
  grandParent : Ptr
  node : Ptr
  last : Nat
  otherDir : Nat
  otherLast : Nat
  dir : Nat

/-- The case of the loop body of `delete` in which `node` and both its children are
black and the sibling `t` of `node` is present: recolouring, or a rotation around
`parent` attached below `grandParent`. -/
def deleteFix (h : Heap) (grandParent : Ptr) (p n t : Nat) (last otherLast : Nat) :
    Option Heap :=
  if !isRed h ((h.cell t).child otherLast) && !isRed h ((h.cell t).child last) then
    let h := h.upd p (fun x => { x with red := false })
    let h := h.upd n (fun x => { x with red := true })
    let h := h.upd t (fun x => { x with red := true })
    pure h
  else do
    let g ← grandParent
    let localDir := intFromBool (decide ((h.cell g).c1 = some p))
    let h ← (if isRed h ((h.cell t).child last) then do
        let (h, r) ← doubleRotate h (some p) last
        pure (h.upd g (fun x => x.setChild localDir r))
      else if isRed h ((h.cell t).child otherLast) then do
        let (h, r) ← rotate h (some p) last
        pure (h.upd g (fun x => x.setChild localDir r))
      else pure h)
    let h := h.upd n (fun x => { x with red := true })
    let r ← (h.cell g).child localDir
    let h := h.upd r (fun x => { x with red := true })
    let r ← (h.cell g).child localDir
    let r0 ← (h.cell r).c0
    let h := h.upd r0 (fun x => { x with red := false })
    let r ← (h.cell g).child localDir
    let r1 ← (h.cell r).c1
    let h := h.upd r1 (fun x => { x with red := false })
    pure h

/-- The statement `if !isRed(node) && !isRed(node.children[dir]) { ... }` of the loop
body of `delete`: the memory and the (possibly updated) `parent`. -/
def deletePush (h : Heap) (grandParent : Ptr) (p n : Nat) (dir otherDir last otherLast : Nat) :
    Option (Heap × Ptr) :=
  if !isRed h (some n) && !isRed h ((h.cell n).child dir) then
    if isRed h ((h.cell n).child otherDir) then do
      let (h, r) ← rotate h (some n) dir
      let h := h.upd p (fun x => x.setChild last r)
      pure (h, (h.cell p).child last)
    else if !isRed h ((h.cell n).child otherDir) then
      match (h.cell p).child otherLast with
      | none => pure (h, some p)
      | some t => do
        let h ← deleteFix h grandParent p n t last otherLast
        pure (h, some p)
    else pure (h, some p)
  else pure (h, some p)

/-- One iteration of the `for node.children[dir] != nil` loop of `delete`, `next`
being the present `node.children[dir]`; the result is `none` on a `nil`
dereference. -/
def deleteStep (iv : Interval) (s : DelState) (next : Nat) : Option DelState := do
  let id := iv.ID
  let ivLow := iv.Low
  let last := s.dir
  let otherLast := takeOpposite last
  let grandParent := s.parent
  let p ← s.node
  let n := next
  let nv ← (s.heap.cell n).interval
  let dir := compare nv.Low ivLow (s.heap.cell n).id id
  let otherDir := takeOpposite dir
  let found := if (s.heap.cell n).id = id then some n else s.found
  let (h, parent) ← deletePush s.heap grandParent p n dir otherDir last otherLast
  pure { heap := h, found := found, parent := parent, grandParent := grandParent,
         node := some n, last := last, otherDir := otherDir, otherLast := otherLast,
         dir := dir }

/-- The `for node.children[dir] != nil` loop of `delete`. -/
def deleteLoop (iv : Interval) : Nat → DelState → Option DelState
  | 0, _ => none
  | fuel + 1, s => do
    let n ← s.node
    match (s.heap.cell n).child s.dir with
    | none => pure s
    | some next => do
      let s ← deleteStep iv s next
      deleteLoop iv fuel s

/-- The statement `if found != nil { ... }` of `delete`: the content of `node` is
copied into `found` and `node` is unlinked from `parent`. -/
def deleteUnlink (s : DelState) (number : Nat) : Option (Heap × Nat) :=
  match s.found with
  | none => pure (s.heap, number)
  | some f => do
    let n ← s.node
    let h := s.heap
    let nd := h.cell n
    let h := h.upd f (fun x =>
      { x with interval := nd.interval, max := nd.max, min := nd.min, id := nd.id })
    let p ← s.parent
    let parentDir := intFromBool (decide ((h.cell p).c1 = some n))
    let childDir := intFromBool (decide ((h.cell n).c0 = none))
    let h := h.upd p (fun x => x.setChild parentDir ((h.cell n).child childDir))
    pure (h, (number + 2 ^ 64 - 1) % 2 ^ 64)

/-- Source `tree.delete`. -/
def tree.delete (fuel : Nat) (t : tree) (iv : Interval) : Option tree :=
  match t.root with
  | none => some t
  | some _ => do
    -- `resetDummy`, then `dummy = tree.dummy`, `node = &dummy`, `node.children[1] = tree.root`
    let h := t.heap.upd dummyAddr (fun _ => { newDummy with c1 := t.root })
    let s ← deleteLoop iv fuel
      { heap := h, found := none, parent := none, grandParent := none,
        node := some dummyAddr, last := 0, otherDir := 0, otherLast := 0, dir := 1 }
    let (h, number) ← deleteUnlink s t.number
    match (h.cell dummyAddr).c1 with
    | none => pure { heap := h, root := none, number := number }
    | some root =>
      let h := h.upd root (fun x => { x with red := false })
      pure { heap := h, root := some root, number := number }

/-- The `for` loop of `Delete`. -/
def tree.deleteAll (fuel : Nat) (t : tree) : List Interval → Option tree
  | [] => some t
  | iv :: intervals => do
    let t ← t.delete fuel iv
    t.deleteAll fuel intervals

/-- Source `tree.Delete`: removes the intervals one after the other, then
recomputes the aggregates of the whole tree. -/
def tree.Delete (fuel : Nat) (t : tree) (intervals : List Interval) : Option tree := do
  let t ← t.deleteAll fuel intervals
  match t.root with
  | none => pure t
  | some r => do
    let h ← adjustRanges fuel t.heap (some r)
    pure { t with heap := h }

/-! ## Query and traversal -/

/-- Source `intervalOverlaps`; `interval` is the optional finer probe. -/
def intervalOverlaps (h : Heap) (n : Nat) (low high : Nat) (interval : Option Interval) :
    Option Bool := do
  let nv ← (h.cell n).interval
  if !overlaps nv.High high nv.Low low then pure false
  else
    match interval with
    | none => pure true
    | some iv => if !nv.Overlaps iv then pure false else pure true

/-- Source `node.query`: in-order walk that skips a child whose `[min, max]` range
does not meet `[low, high]`, calling `fn` on every node whose interval overlaps.
The callback is a state transformer on the caller's accumulator. -/
def node.query {σ : Type} (fn : σ → Nat → σ) (low high : Nat) (interval : Option Interval) :
    Nat → Heap → Nat → σ → Option σ
  | 0, _, _, _ => none
  | fuel + 1, h, n, acc => do
    let acc ← (match (h.cell n).c0 with
      | some c =>
        if overlaps (h.cell c).max high (h.cell c).min low
        then node.query fn low high interval fuel h c acc else pure acc
      | none => pure acc)
    let b ← intervalOverlaps h n low high interval
    let acc := if b then fn acc n else acc
    match (h.cell n).c1 with
    | some c =>
      if overlaps (h.cell c).max high (h.cell c).min low
      then node.query fn low high interval fuel h c acc else pure acc
    | none => pure acc

/-- Modelled from the spec: `intervalsPool.Get()` (the pool is not part of the source
files) hands out an empty result buffer. -/
def intervalsPoolGet : List (Option Interval) := []

/-- Source `tree.Query`: the intervals (pointers in the source, hence `Option`)
appended by the callback, in the order of the walk. -/
def tree.Query (fuel : Nat) (t : tree) (interval : Interval) :
    Option (List (Option Interval)) :=
  match t.root with
  | none => some []
  | some r =>
    node.query (fun acc n => acc ++ [(t.heap.cell n).interval])
      interval.Low interval.High (some interval) fuel t.heap r intervalsPoolGet

/-- The loop of `Traverse`; the slice `nodes` is a list whose head is the top of
the stack (the last element of the slice). -/
def traverseLoop {σ : Type} (fn : σ → Option Interval → σ) (h : Heap) :
    Nat → List Ptr → σ → Option σ
  | 0, _, _ => none
  | _ + 1, [], acc => some acc
  | fuel + 1, none :: nodes, acc => traverseLoop fn h fuel nodes acc
  | fuel + 1, some c :: nodes, acc =>
    let acc := fn acc (h.cell c).interval
    let nodes := if (h.cell c).c0 ≠ none then (h.cell c).c0 :: nodes else nodes
    let nodes := if (h.cell c).c1 ≠ none then (h.cell c).c1 :: nodes else nodes
    traverseLoop fn h fuel nodes acc

/-- Source `tree.Traverse`, with the callback as a state transformer. -/
def tree.Traverse {σ : Type} (fuel : Nat) (t : tree) (fn : σ → Option Interval → σ)
    (acc : σ) : Option σ :=
  traverseLoop fn t.heap fuel [t.root] acc

/-! ## Binary codec -/

/-- `binary.BigEndian` encoding of a `uint32`. -/
def putUint32 (v : Nat) : List Nat :=
  [v / 2 ^ 24 % 256, v / 2 ^ 16 % 256, v / 2 ^ 8 % 256, v % 256]

/-- `binary.BigEndian` encoding of a `uint64`. -/
def putUint64 (v : Nat) : List Nat :=
  [v / 2 ^ 56 % 256, v / 2 ^ 48 % 256, v / 2 ^ 40 % 256, v / 2 ^ 32 % 256,
   v / 2 ^ 24 % 256, v / 2 ^ 16 % 256, v / 2 ^ 8 % 256, v % 256]

/-- `binary.BigEndian.Uint32` / `Uint64`: big-endian value of a byte slice. -/
def bigEndian (b : List Nat) : Nat := b.foldl (fun acc x => acc * 256 + x) 0

/-- Errors of the decoder: `eof` is `io.EOF`; `fuel` is not an error of the source
but the exhaustion of the recursion bound of the model. -/
inductive ReadError where
  | eof
  | fuel
deriving DecidableEq, Repr

/-- `bytes.Buffer.Read` into a fresh zeroed slice of `n > 0` bytes: `io.EOF` when the
buffer is empty, otherwise the next bytes (fewer than `n` if the buffer is
drained, the rest of the slice staying zero) and the remaining buffer. -/
def bufRead (b : List Nat) (n : Nat) : Except ReadError (List Nat × List Nat) :=
  if b = [] then Except.error ReadError.eof
  else Except.ok (b.take n ++ List.replicate (n - (b.take n).length) 0, b.drop n)

/-- Source `readNode`: decodes one node record and, as the flags say, its children,
allocating the nodes; returns the memory, the node and the unread bytes. -/
def readNode : Nat → Heap → List Nat → Except ReadError (Heap × Nat × List Nat)
  | 0, _, _ => Except.error ReadError.fuel
  | fuel + 1, h, r => do
    let (fromb, r) ← bufRead r 4
    let (tob, r) ← bufRead r 4
    let (iidb, r) ← bufRead r 4
    let (maxb, r) ← bufRead r 4
    let (minb, r) ← bufRead r 4
    let (redb, r) ← bufRead r 1
    let (cc, r) ← bufRead r 1
    let iv : Interval :=
      { From := bigEndian fromb, To := bigEndian tob, Id := bigEndian iidb }
    let (h, n) := h.alloc
      { interval := some iv, max := bigEndian maxb, min := bigEndian minb, c0 := none,
        c1 := none, red := decide (bigEndian redb = 1), id := iv.Id }
    let (h, r) ← (if bigEndian cc &&& 1 = 1 then do
        let (h, c, r) ← readNode fuel h r
        pure (h.upd n (fun x => { x with c0 := some c }), r)
      else pure (h, r))
    let (h, r) ← (if bigEndian cc &&& 2 = 2 then do
        let (h, c, r) ← readNode fuel h r
        pure (h.upd n (fun x => { x with c1 := some c }), r)
      else pure (h, r))
    pure (h, n, r)

/-- Source `NewFromFile`, from the content of the file (`none` if the file does not
exist).  The result is the returned `Tree`, `none` for the `nil` tree returned
with a `nil` error when the count is zero. -/
def NewFromFile (fuel : Nat) (file : Option (List Nat)) : Except ReadError (Option tree) :=
  match file with
  | none => pure (some New)
  | some fp => do
    let (nb, b) ← bufRead fp 8
    let number := bigEndian nb
    if number = 0 then pure none
    else do
      let (h, root, _) ← readNode fuel New.heap b
      pure (some { heap := h, root := some root, number := number })

/-- Source `writeNode`: appends the record of `n` and of its children to the
writer `w`; `none` is the panic on a `nil` node or interval. -/
def writeNode : Nat → Heap → List Nat → Ptr → Option (List Nat)
  | 0, _, _, _ => none
  | fuel + 1, h, w, n => do
    let a ← n
    let iv ← (h.cell a).interval
    let w := w ++ putUint32 iv.From
    let w := w ++ putUint32 iv.To
    let w := w ++ putUint32 iv.Id
    let w := w ++ putUint32 (h.cell a).max
    let w := w ++ putUint32 (h.cell a).min
    let w := w ++ [if (h.cell a).red then 1 else 0]
    let cc : Nat := 0
    let cc := if (h.cell a).c0 ≠ none then cc ||| 1 else cc
    let cc := if (h.cell a).c1 ≠ none then cc ||| 2 else cc
    let w := w ++ [cc]
    let w ← (if cc &&& 1 = 1 then writeNode fuel h w (h.cell a).c0 else pure w)
    let w ← (if cc &&& 2 = 2 then writeNode fuel h w (h.cell a).c1 else pure w)
    pure w

/-- Source `WriteToFile`: the bytes handed to `ioutil.WriteFile`. -/
def WriteToFile (fuel : Nat) (t : tree) : Option (List Nat) :=
  writeNode fuel t.heap (putUint64 t.number) t.root

/-! ## Trees in memory

The pointer structure that a call receives is described by a finite binary tree
`T` whose nodes carry their address and their fields; `Models h t` says that the
memory `h` holds, at every address of `t`, the node record with exactly these
fields and with child pointers to the roots of the two subtrees. -/

/-- The fields of a node other than its child pointers. -/
structure Item where
  interval : Interval
  max : Nat
  min : Nat
  red : Bool
  id : Nat
deriving DecidableEq, Repr

/-- A finite binary tree of nodes placed at addresses. -/
inductive T where
  | leaf
  | nd (l : T) (a : Nat) (d : Item) (r : T)
deriving DecidableEq, Repr

namespace T

/-- The pointer to the root of the tree: `nil` for the empty tree. -/
def ptr : T → Ptr
  | leaf => none
  | nd _ a _ _ => some a

/-- The node record of a node with fields `d` and subtrees `l` and `r`. -/
def cellOf (l : T) (d : Item) (r : T) : node :=
  { interval := some d.interval, max := d.max, min := d.min, c0 := l.ptr, c1 := r.ptr,
    red := d.red, id := d.id }

/-- The memory `h` holds the tree `t`. -/
def Models (h : Heap) : T → Prop
  | leaf => True
  | nd l a d r => h.cell a = cellOf l d r ∧ Models h l ∧ Models h r

/-- The addresses of the nodes, in order. -/
def addrs : T → List Nat
  | leaf => []
  | nd l a _ r => l.addrs ++ a :: r.addrs

/-- The nodes in order (left subtree, node, right subtree). -/
def items : T → List Item
  | leaf => []
  | nd l _ d r => l.items ++ d :: r.items

/-- The stored intervals, in order. -/
def intervals (t : T) : List Interval := t.items.map Item.interval

/-- Number of nodes. -/
def size : T → Nat
  | leaf => 0
  | nd l _ _ r => l.size + 1 + r.size

/-- Height: the number of nodes on the longest path from the root. -/
def height : T → Nat
  | leaf => 0
  | nd l _ _ r => Nat.max l.height r.height + 1

/-- The aggregates are bounds: the `max` of every node is at least every high
bound, and its `min` at most every low bound, of the intervals of its subtree. -/
def Bounded : T → Prop
  | leaf => True
  | nd l a d r =>
    (∀ iv ∈ (nd l a d r).intervals, iv.High ≤ d.max ∧ d.min ≤ iv.Low) ∧
      Bounded l ∧ Bounded r

end T

/-- The closed-range overlap test of the claim: `iv.high >= q.low && iv.low <= q.high`. -/
def closedOverlap (q iv : Interval) : Bool :=
  decide (iv.High ≥ q.Low) && decide (iv.Low ≤ q.High)

/-- The tree value whose memory holds `t`, with root pointer to its root. -/
def treeOf (h : Heap) (t : T) (number : Nat) : tree :=
  { heap := h, root := t.ptr, number := number }

/-! ## Auxiliary definitions used in the proofs -/

/-- The guarded recursive call of `node.query` on a child pointer, for the callback
of `Query`. -/
def queryChild (h : Heap) (q : Interval) (fuel : Nat) (c : Ptr)
    (acc : List (Option Interval)) : Option (List (Option Interval)) :=
  match c with
  | some c =>
    if overlaps (h.cell c).max q.High (h.cell c).min q.Low
    then node.query (fun acc n => acc ++ [(h.cell n).interval]) q.Low q.High (some q) fuel h c acc
    else some acc
  | none => some acc

/-! ## Concrete trees -/

/-- The tree of the scenario of the specification: `New()` followed by `Add` of
`(10,20,1)`, `(5,15,2)` and `(30,40,3)`. -/
def scenarioTree : tree :=
  (New.Add 4 [⟨10, 20, 1⟩, ⟨5, 15, 2⟩, ⟨30, 40, 3⟩]).getD New

/-- The shape of `scenarioTree` in memory. -/
def scenarioT : T :=
  T.nd (T.nd T.leaf 2 ⟨⟨5, 15, 2⟩, 15, 5, true, 2⟩ T.leaf) 1 ⟨⟨10, 20, 1⟩, 40, 5, false, 1⟩
    (T.nd T.leaf 3 ⟨⟨30, 40, 3⟩, 40, 30, true, 3⟩ T.leaf)

/-! ## Decision procedures for the predicates on trees -/

instance T.decModels (h : Heap) : (t : T) → Decidable (t.Models h)
  | .leaf => isTrue trivial
  | .nd l _ _ r =>
    have := T.decModels h l
    have := T.decModels h r
    inferInstanceAs (Decidable (_ ∧ _ ∧ _))

instance T.decBounded : (t : T) → Decidable t.Bounded
  | .leaf => isTrue trivial
  | .nd l _ _ r =>
    have := T.decBounded l
    have := T.decBounded r
    inferInstanceAs (Decidable (_ ∧ _ ∧ _))

namespace T

/-- The nodes (address and fields) in order. -/
def nodes : T → List (Nat × Item)
  | leaf => []
  | nd l a d r => l.nodes ++ (a, d) :: r.nodes

/-- The nodes in the order in which the stack of `Traverse` pops them: the node,
then its right subtree, then its left subtree. -/
def visitOrder : T → List (Nat × Item)
  | leaf => []
  | nd l a d r => (a, d) :: (r.visitOrder ++ l.visitOrder)

/-- Number of iterations `Traverse` spends on a stack entry: one for a `nil`
pointer, one per node otherwise. -/
def pops : T → Nat
  | leaf => 1
  | nd l _ _ r => l.size + 1 + r.size

end T

/-- The stack entry pushed by `Traverse` for a child: nothing for an absent child. -/
def pushed : T → List T
  | T.leaf => []
  | t => [t]

/-! ## The file format, as the specification words it -/

/-- The child flag byte of the specification: bit 0 set iff the left child is
present, bit 1 set iff the right child is present. -/
def specFlags (l r : T) : Nat :=
  (if l = T.leaf then 0 else 1) + (if r = T.leaf then 0 else 2)

/-- The pre-order node records of the specification: `low`, `high`, `id`, `max`, `min`
(4 bytes big-endian each), the colour byte (1 for red, 0 for black), the child
flags, then the left child's records, then the right child's. -/
def specRecords : T → List Nat
  | T.leaf => []
  | T.nd l _ d r =>
    putUint32 d.interval.Low ++ putUint32 d.interval.High ++ putUint32 d.interval.ID ++
      putUint32 d.max ++ putUint32 d.min ++ [if d.red then 1 else 0] ++ [specFlags l r] ++
      specRecords l ++ specRecords r

/-- The encoding of the specification: the 8-byte big-endian count followed by the
node records. -/
def specEncoding (number : Nat) (t : T) : List Nat :=
  putUint64 number ++ specRecords t
namespace T

/-- The tree with its nodes placed as `readNode` allocates them: the node at `k`,
its left subtree from `k + 1` on, its right subtree after the left one. -/
def relabel : Nat → T → T
  | _, leaf => leaf
  | k, nd l _ d r => nd (relabel (k + 1) l) k d (relabel (k + 1 + l.size) r)

/-- All stored numbers fit their machine types (`uint32`). -/
def Wide : T → Prop
  | leaf => True
  | nd l _ d r =>
    (d.interval.From < 2 ^ 32 ∧ d.interval.To < 2 ^ 32 ∧ d.interval.Id < 2 ^ 32 ∧
      d.max < 2 ^ 32 ∧ d.min < 2 ^ 32) ∧ Wide l ∧ Wide r

/-- The field `id` of every node is the copy of the identifier of its interval. -/
def IdCached : T → Prop
  | leaf => True
  | nd l _ d r => d.id = d.interval.ID ∧ IdCached l ∧ IdCached r

end T

/-- A binary tree of node fields, without addresses. -/
inductive Shape where
  | leaf
  | nd (l : Shape) (d : Item) (r : Shape)
deriving DecidableEq, Repr

/-- The shape, intervals, ids, aggregates and colours of a tree in memory. -/
def T.shape : T → Shape
  | T.leaf => Shape.leaf
  | T.nd l _ d r => Shape.nd l.shape d r.shape

instance T.decWide : (t : T) → Decidable t.Wide
  | .leaf => isTrue trivial
  | .nd l _ _ r =>
    have := T.decWide l
    have := T.decWide r
    inferInstanceAs (Decidable (_ ∧ _ ∧ _))

instance T.decIdCached : (t : T) → Decidable t.IdCached
  | .leaf => isTrue trivial
  | .nd l _ _ r =>
    have := T.decIdCached l
    have := T.decIdCached r
    inferInstanceAs (Decidable (_ ∧ _ ∧ _))

/-! ## Colours, black height and aggregates of trees in memory -/

namespace T

/-- The colour test `isRed` on a subtree: an absent child is not red. -/
def isRed : T → Bool
  | leaf => false
  | nd _ _ d _ => d.red

/-- The `max` field of the root, `0` for the empty tree. -/
def rootMax : T → Nat
  | leaf => 0
  | nd _ _ d _ => d.max

/-- The smaller of `m` and the `min` field of the root (`m` for the empty tree). -/
def minWith : T → Nat → Nat
  | leaf, m => m
  | nd _ _ d _, m => if d.min < m then d.min else m

/-- Number of black nodes on the leftmost path. -/
def bh : T → Nat
  | leaf => 0
  | nd l _ d _ => l.bh + (if d.red then 0 else 1)

/-- Every path from a node to an absent child link passes through the same number
of black nodes. -/
def Balanced : T → Prop
  | leaf => True
  | nd l _ _ r => l.bh = r.bh ∧ Balanced l ∧ Balanced r

/-- No red node has a red child. -/
def NoRR : T → Prop
  | leaf => True
  | nd l _ d r => (d.red = true → l.isRed = false ∧ r.isRed = false) ∧ NoRR l ∧ NoRR r

/-- The red-black invariants: black root, no red node with a red child, equal
number of black nodes on every path. -/
def RedBlack (t : T) : Prop := t.isRed = false ∧ t.NoRR ∧ t.Balanced

/-- The aggregates of every node are those that `setMax` and `setMin` compute from
its interval and the aggregates of its children. -/
def LExact : T → Prop
  | leaf => True
  | nd l _ d r =>
    d.max = Nat.max (Nat.max d.interval.High l.rootMax) r.rootMax ∧
      d.min = r.minWith (l.minWith d.interval.Low) ∧ LExact l ∧ LExact r

/-- The aggregates are exact: `max` of every node is the largest high bound, and
`min` the smallest low bound, among its own interval and the intervals of both
subtrees. -/
def Exact : T → Prop
  | leaf => True
  | nd l a d r =>
    ((∀ iv ∈ (nd l a d r).intervals, iv.High ≤ d.max ∧ d.min ≤ iv.Low) ∧
      (∃ iv ∈ (nd l a d r).intervals, iv.High = d.max) ∧
      (∃ iv ∈ (nd l a d r).intervals, iv.Low = d.min)) ∧ Exact l ∧ Exact r

end T

/-- The fields of a node after `setMax` and `setMin`, with children `l` and `r`. -/
def Item.agg (d : Item) (l r : T) : Item :=
  { d with max := Nat.max (Nat.max d.interval.High l.rootMax) r.rootMax,
           min := r.minWith (l.minWith d.interval.Low) }

/-- The `max` field read through a child pointer, `0` for `nil`. -/
def hmax (h : Heap) (c : Ptr) : Nat :=
  match c with
  | none => 0
  | some a => (h.cell a).max

/-- The smaller of `m` and the `min` field read through a child pointer. -/
def hminWith (h : Heap) (c : Ptr) (m : Nat) : Nat :=
  match c with
  | none => m
  | some a => if (h.cell a).min < m then (h.cell a).min else m

/-- The effect of `rotate(parent, dir)` on the subtree rooted at `parent`. -/
def rotT : Nat → T → T
  | 0, T.nd A p dp (T.nd B c dc C) =>
    T.nd (T.nd A p (Item.agg { dp with red := true } A B) B) c
      (Item.agg { dc with red := false } (T.nd A p dp B) C) C
  | _ + 1, T.nd (T.nd A c dc B) p dp C =>
    T.nd A c (Item.agg { dc with red := false } A (T.nd B p dp C))
      (T.nd B p (Item.agg { dp with red := true } B C) C)
  | _, t => t
/-- Write of a whole node record at address `a`. -/
def Heap.set (h : Heap) (a : Nat) (n : node) : Heap :=
  { h with cell := Function.update h.cell a n }
/-- The high bound of the interval of a node record (`0` if the record has none). -/
def node.high (n : node) : Nat := (n.interval.map Interval.High).getD 0

/-- The low bound of the interval of a node record (`0` if the record has none). -/
def node.low (n : node) : Nat := (n.interval.map Interval.Low).getD 0

/-! ## Paths: the nodes between the root and the current node -/

/-- One node on the path from the root to the current node: its address and fields,
the index `dir` of the child through which the path goes on, and the subtree `sib`
at the other child. -/
structure Frame where
  addr : Nat
  d : Item
  dir : Nat
  sib : T

/-- The tree rooted at the node of the frame, with `t` below it on the path. -/
def Frame.plug (f : Frame) (t : T) : T :=
  if f.dir = 0 then T.nd t f.addr f.d f.sib else T.nd f.sib f.addr f.d t

/-- The whole tree: `t` below the path `ctx` (innermost frame first). -/
def plug : List Frame → T → T
  | [], t => t
  | f :: fs, t => plug fs (f.plug t)

/-- The node record of the frame when its path child is the pointer `p`. -/
def Frame.cellWith (f : Frame) (p : Ptr) : node :=
  if f.dir = 0 then
    { interval := some f.d.interval, max := f.d.max, min := f.d.min, c0 := p, c1 := f.sib.ptr,
      red := f.d.red, id := f.d.id }
  else
    { interval := some f.d.interval, max := f.d.max, min := f.d.min, c0 := f.sib.ptr, c1 := p,
      red := f.d.red, id := f.d.id }

/-- The memory holds the path `ctx` above a subtree whose root pointer is `p`, and
the local `dummy` (at address `0`) points to the root of the whole tree. -/
def CtxModels (h : Heap) : List Frame → Ptr → Prop
  | [], p => (h.cell dummyAddr).c1 = p
  | f :: fs, p => h.cell f.addr = f.cellWith p ∧ f.sib.Models h ∧ CtxModels h fs (some f.addr)

/-- The addresses of the nodes on the path and in the subtrees beside it. -/
def ctxAddrs : List Frame → List Nat
  | [] => []
  | f :: fs => f.addr :: (f.sib.addrs ++ ctxAddrs fs)

/-- The nodes of the whole tree that come, in order, before the subtree below the
path. -/
def ctxL : List Frame → List (Nat × Item)
  | [] => []
  | f :: fs => ctxL fs ++ (if f.dir = 0 then [] else f.sib.nodes ++ [(f.addr, f.d)])

/-- The nodes of the whole tree that come, in order, after the subtree below the
path. -/
def ctxR : List Frame → List (Nat × Item)
  | [] => []
  | f :: fs => (if f.dir = 0 then (f.addr, f.d) :: f.sib.nodes else []) ++ ctxR fs

/-- The path is balanced around a subtree of black height `n`. -/
def CtxBal : List Frame → Nat → Prop
  | [], _ => True
  | f :: fs, n => f.sib.bh = n ∧ f.sib.Balanced ∧ CtxBal fs (n + (if f.d.red then 0 else 1))

/-- No red node of the path or beside it has a red child, the subtree below the path
having a root of colour `c` (`true` for red). -/
def CtxNoRR : List Frame → Bool → Prop
  | [], _ => True
  | f :: fs, c =>
    (f.d.red = true → c = false ∧ f.sib.isRed = false) ∧ f.sib.NoRR ∧ CtxNoRR fs f.d.red

/-- The smaller of `m` and an optional `min` aggregate. -/
def optMin (m : Option Nat) (x : Nat) : Nat :=
  match m with
  | none => x
  | some v => if v < x then v else x

/-- The `min` field of the root, if there is one. -/
def T.rootMin : T → Option Nat
  | T.leaf => none
  | T.nd _ _ d _ => some d.min

/-- The aggregates of the path are those computed from the children, the subtree
below the path counting with `max` aggregate `M` and `min` aggregate `m`. -/
def CtxAgg : List Frame → Nat → Option Nat → Prop
  | [], _, _ => True
  | f :: fs, M, m =>
    f.d.max = Nat.max (Nat.max f.d.interval.High M) f.sib.rootMax ∧
      f.d.min = f.sib.minWith (optMin m f.d.interval.Low) ∧ f.sib.LExact ∧
      CtxAgg fs f.d.max (some f.d.min)

/-- The memory after the write that attaches the pointer `p` below the path: into
the path child of the innermost frame, or into `dummy.children[1]`. -/
def attach (h : Heap) (ctx : List Frame) (p : Ptr) : Heap :=
  match ctx with
  | [] => h.set dummyAddr { h.cell dummyAddr with c1 := p }
  | f :: _ => h.set f.addr (f.cellWith p)

/-! ## The effect of the statements of `add` on trees -/

/-- The colour flip of `add`: a node with two red children becomes red and its
children black. -/
def flipT : T → T
  | T.nd (T.nd ll la dl lr) n d (T.nd rl ra dr rr) =>
    if dl.red && dr.red then
      T.nd (T.nd ll la { dl with red := false } lr) n { d with red := true }
        (T.nd rl ra { dr with red := false } rr)
    else T.nd (T.nd ll la dl lr) n d (T.nd rl ra dr rr)
  | t => t

/-- The two statements `if max > node.max` and `if ivLow < node.min` of `add`, on
the fields of the node. -/
def Item.bump (iv : Interval) (d : Item) : Item :=
  { d with max := if iv.High > d.max then iv.High else d.max,
           min := if iv.Low < d.min then iv.Low else d.min }

/-- The update of the aggregates of the visited node. -/
def bumpT (iv : Interval) : T → T
  | T.leaf => T.leaf
  | T.nd l n d r => T.nd l n (d.bump iv) r

/-- The same two statements on the memory. -/
def bumpH (iv : Interval) (h : Heap) (n : Nat) : Heap :=
  let h := if iv.High > (h.cell n).max then h.upd n (fun x => { x with max := iv.High }) else h
  if iv.Low < (h.cell n).min then h.upd n (fun x => { x with min := iv.Low }) else h

/-- The fields of the node made by `newNode(iv, ivLow, max)`. -/
def newItem (iv : Interval) : Item :=
  { interval := iv, max := iv.High, min := iv.Low, red := true, id := iv.ID }
/-- The fields of the node of a frame after `setMax` and `setMin`, with `t` as its
path child. -/
def Frame.aggItem (f : Frame) (t : T) : Item :=
  if f.dir = 0 then f.d.agg t f.sib else f.d.agg f.sib t

/-- The node at the top of the path, or the `dummy` when the path is empty: the node
below which a rotated subtree is attached. -/
def helperOf (ctx : List Frame) : Nat :=
  match ctx with
  | [] => dummyAddr
  | f :: _ => f.addr

/-- Single rotation of `add` around the grandparent `fg`, the parent `fp` being on
the same side of `fg` as the current node is of `fp`: the grandparent, red, with
the inner subtree of the parent in place of the parent. -/
def sglG (fp fg : Frame) : Frame :=
  { addr := fg.addr,
    d := Frame.aggItem { fg with d := { fg.d with red := true } } fp.sib,
    dir := fg.dir, sib := fg.sib }

/-- Single rotation of `add`: the parent, black, with the grandparent as its other
child. -/
def sglP (fp fg : Frame) (q : T) : Frame :=
  { addr := fp.addr,
    d := Frame.aggItem
      { fp with d := { fp.d with red := false }, dir := fg.dir, sib := fg.plug fp.sib } q,
    dir := fg.dir, sib := (sglG fp fg).plug fp.sib }

/-- The child of a tree at index `i`. -/
def T.child : T → Nat → T
  | T.leaf, _ => T.leaf
  | T.nd l _ _ r, i => if i = 0 then l else r

/-- The fields of the root of a (non-empty) tree. -/
def T.item : T → Item
  | T.leaf => { interval := ⟨0, 0, 0⟩, max := 0, min := 0, red := false, id := 0 }
  | T.nd _ _ d _ => d

/-- The address of the root of a (non-empty) tree. -/
def T.addr : T → Nat
  | T.leaf => 0
  | T.nd _ a _ _ => a

/-- Double rotation of `add`: the parent, red, keeping its outer subtree and getting
the subtree of the current node `q` that was on the grandparent's side. -/
def dblP (fp fg : Frame) (q : T) : Frame :=
  { addr := fp.addr,
    d := Frame.aggItem { fp with d := { fp.d with red := true } } (q.child fg.dir),
    dir := fp.dir, sib := fp.sib }

/-- Double rotation of `add`: the grandparent, red, getting the other subtree of the
current node. -/
def dblG (fp fg : Frame) (q : T) : Frame :=
  { addr := fg.addr,
    d := Frame.aggItem { fg with d := { fg.d with red := true } } (q.child fp.dir),
    dir := fg.dir, sib := fg.sib }

/-- Double rotation of `add`: the current node `q`, black, on top, with the parent
and the grandparent as its children. -/
def dblQ (fp fg : Frame) (q : T) : Frame :=
  { addr := q.addr,
    d := Frame.aggItem
      { addr := q.addr, d := { q.item with red := false }, dir := fg.dir,
        sib := fg.plug (q.child fp.dir) } ((dblP fp fg q).plug (q.child fg.dir)),
    dir := fg.dir, sib := (dblG fp fg q).plug (q.child fp.dir) }

/-! ## The descent of `add` on trees -/

/-- The node of a (non-empty) tree as a frame of the path going to its child `i`. -/
def T.frame (t : T) (i : Nat) : Frame :=
  { addr := t.addr, d := t.item, dir := i, sib := t.child (takeOpposite i) }

/-- The state of the descent of `add` on trees: the path `ctx` from the current node
up to the root (innermost frame first), the subtree `focus` at `node`, and whether
the variables `grandParent` (with `last`) and `helper` still name the second and the
third node of the path. -/
structure AddAbs where
  ctx : List Frame
  focus : T
  gsync : Bool
  hsync : Bool

/-- The first statement of the loop body of `add` on the subtree at `node`: a new
red node at the address `fresh` in place of `nil`, the colour flip otherwise. -/
def visitT (iv : Interval) (fresh : Nat) : T → T
  | T.leaf => T.nd T.leaf fresh (newItem iv) T.leaf
  | t => flipT t

/-- The statement `if isRed(parent) && isRed(node) { ... }` on trees: the path, the
subtree at `node`, and whether `parent`, `grandParent` and `helper` name the first
three nodes of the path afterwards.  No result when the rotation would go through a
variable that does not name its node any more. -/
def fixT (a : AddAbs) (q : T) : Option (List Frame × T × Bool × Bool × Bool) :=
  match a.ctx with
  | [] => some ([], q, true, a.gsync, a.hsync)
  | fp :: rest1 =>
    if fp.d.red && q.isRed then
      match rest1 with
      | [] => none
      | fg :: rest =>
        if a.gsync && a.hsync then
          if fp.dir = fg.dir then some (sglP fp fg q :: rest, q, true, false, false)
          else some (rest, (dblQ fp fg q).plug ((dblP fp fg q).plug (q.child fg.dir)),
            false, false, false)
        else none
    else some (a.ctx, q, true, a.gsync, a.hsync)

/-- One iteration of the loop of `add` on trees: at the `break` the whole tree and
whether a node has been made, the next state otherwise. -/
def addStepT (iv : Interval) (fresh : Nat) (a : AddAbs) : Option (AddAbs ⊕ (T × Bool)) :=
  if a.focus.ptr = none ∧ a.ctx.length = 0 then none
  else
    match fixT a (bumpT iv (visitT iv fresh a.focus)) with
    | none => none
    | some (ctx, w, ps, gs, hs) =>
      if w.item.id = iv.ID then some (Sum.inr (plug ctx w, decide (a.focus.ptr = none)))
      else
        let dir := compare w.item.interval.Low iv.Low w.item.id iv.ID
        some (Sum.inl { ctx := w.frame dir :: ctx, focus := w.child dir, gsync := ps,
                        hsync := gs && (decide (2 ≤ ctx.length) || hs) })

/-- The loop of `add` on trees. -/
def addLoopT (iv : Interval) (fresh : Nat) : Nat → AddAbs → Option (T × Bool)
  | 0, _ => none
  | fuel + 1, a =>
    match addStepT iv fresh a with
    | none => none
    | some (Sum.inr t) => some t
    | some (Sum.inl a') => addLoopT iv fresh fuel a'

/-- The colour of the root set to black. -/
def T.blacken : T → T
  | T.leaf => T.leaf
  | T.nd l a d r => T.nd l a { d with red := false } r

/-- Source `add` on trees, the new node being placed at the address `fresh`: the
tree and whether a node has been made. -/
def addT (fuel : Nat) (fresh : Nat) (t : T) (iv : Interval) : Option (T × Bool) :=
  match t with
  | T.leaf => some (T.nd T.leaf fresh { newItem iv with red := false } T.leaf, true)
  | t =>
    match addLoopT iv fresh fuel { ctx := [], focus := t, gsync := true, hsync := true } with
    | none => none
    | some (t', c) => some (t'.blacken, c)

/-- The local variables of the loop of `add` and the memory hold the state `a` of
the descent on trees. -/
structure AddRel (s : AddState) (a : AddAbs) : Prop where
  node : s.node = a.focus.ptr
  models : a.focus.Models s.heap
  ctx : CtxModels s.heap a.ctx a.focus.ptr
  nodup : (dummyAddr :: (a.focus.addrs ++ ctxAddrs a.ctx)).Nodup
  lt : ∀ x ∈ dummyAddr :: (a.focus.addrs ++ ctxAddrs a.ctx), x < s.heap.next
  parent : s.parent = a.ctx.head?.map Frame.addr
  dir : ∀ f ∈ a.ctx.head?, s.dir = f.dir
  dirs : ∀ f ∈ a.ctx, f.dir ≤ 1
  gp : a.gsync = true → s.grandParent = a.ctx.tail.head?.map Frame.addr ∧
    ∀ f ∈ a.ctx.tail.head?, s.last = f.dir
  helper : a.hsync = true → s.helper = some (helperOf (a.ctx.drop 2))
  ol : s.otherLast = takeOpposite s.last

/-- The memory of the tree `tr` holds the finite tree `t`: the nodes are at
pairwise distinct allocated addresses, none being the `dummy`. -/
def Rep (tr : tree) (t : T) : Prop :=
  t.Models tr.heap ∧ tr.root = t.ptr ∧ (dummyAddr :: t.addrs).Nodup ∧
    ∀ x ∈ dummyAddr :: t.addrs, x < tr.heap.next

/-! ## Invariants of the descent of `add` -/

/-- The direction `add` takes at the root of `t`. -/
def T.stepDir (iv : Interval) (t : T) : Nat :=
  compare t.item.interval.Low iv.Low t.item.id iv.ID

/-- Number of nodes `add` visits from the root of `t` down to the `nil` link where
the new node goes. -/
def pathLen (iv : Interval) : T → Nat
  | T.leaf => 0
  | T.nd l _ d r =>
    1 + (if compare d.interval.Low iv.Low d.id iv.ID = 0 then pathLen iv l else pathLen iv r)

/-- Both children of the root are red: `add` flips the colours at such a node. -/
def T.Flip : T → Bool
  | T.nd l _ _ r => l.isRed && r.isRed
  | T.leaf => false

/-- A black node whose children are not both red: `add` passes it without a
change of colour. -/
def T.Quiet : T → Prop
  | T.leaf => False
  | T.nd l _ d r => d.red = false ∧ (l.isRed && r.isRed) = false

/-- Every node of the path records the direction `add` took at it. -/
def CtxDirs (iv : Interval) (ctx : List Frame) : Prop :=
  ∀ f ∈ ctx, f.dir = compare f.d.interval.Low iv.Low f.d.id iv.ID

/-- A red current node has a black sibling. -/
def AddI1 (ctx : List Frame) (focus : T) : Prop :=
  focus.isRed = true → ∃ f rest, ctx = f :: rest ∧ f.sib.isRed = false

/-- A red parent has a parent, and its sibling is black. -/
def AddI2 (ctx : List Frame) : Prop :=
  ∀ f rest, ctx = f :: rest → f.d.red = true →
    ∃ g rest', rest = g :: rest' ∧ g.sib.isRed = false

/-- The state right after a double rotation: the current node is one of the two red
children of the rotated subtree, and the next node on the way is a black node that
is passed without a change of colour. -/
def AddB (iv : Interval) (a : AddAbs) : Prop :=
  (∃ f rest, a.ctx = f :: rest ∧ f.d.red = false) ∧ a.focus.isRed = true ∧
    (a.focus.child 0).isRed = false ∧ (a.focus.child 1).isRed = false ∧
    (a.focus.child (a.focus.stepDir iv)).Quiet

/-- The three kinds of states of the descent: all variables name the nodes of the
path; or `helper` may be out of date and the current node is passed without a
rotation; or the state after a double rotation. -/
def AddPhase (iv : Interval) (a : AddAbs) : Prop :=
  (a.gsync = true ∧ a.hsync = true ∧ AddI1 a.ctx a.focus ∧ AddI2 a.ctx) ∨
  (a.gsync = true ∧ (a.ctx.length ≤ 1 → a.hsync = true) ∧ a.focus.Quiet) ∨
  (a.gsync = false ∧ AddB iv a)

/-- The red-black part of the invariant of the loop of `add`. -/
def AddRB (iv : Interval) (a : AddAbs) : Prop :=
  a.focus.NoRR ∧ a.focus.Balanced ∧ CtxNoRR a.ctx a.focus.isRed ∧ CtxBal a.ctx a.focus.bh ∧
    CtxDirs iv a.ctx ∧ AddPhase iv a ∧ (a.focus.ptr = none → a.ctx ≠ [])

/-- The number of iterations left, up to a factor. -/
def addMeasure (iv : Interval) (a : AddAbs) : Nat :=
  2 * pathLen iv a.focus + (if a.gsync = true then 1 else 0)

/-- The aggregates of the root are those of `setMax` and `setMin` enlarged by the
bounds of `iv`, and the aggregates below the root are exact: the state of a node
`add` has visited. -/
def BAgg (iv : Interval) : T → Prop
  | T.leaf => False
  | T.nd l _ d r =>
    d.max = Nat.max (Nat.max (Nat.max d.interval.High l.rootMax) r.rootMax) iv.High ∧
      d.min = Nat.min (r.minWith (l.minWith d.interval.Low)) iv.Low ∧ l.LExact ∧ r.LExact

/-- The aggregates part of the invariant of the loop of `add`. -/
def AddAgg (iv : Interval) (a : AddAbs) : Prop :=
  a.focus.LExact ∧
    CtxAgg a.ctx (Nat.max a.focus.rootMax iv.High) (some (a.focus.minWith iv.Low))

/-! ## Recomputation of the aggregates -/

/-- The recursive call of `adjustRanges` on a child pointer, guarded by
`n.children[i] != nil`. -/
def adjustChild (fuel : Nat) (h : Heap) (c : Ptr) : Option Heap :=
  match c with
  | some c => adjustRanges fuel h (some c)
  | none => some h

/-- The tree with the aggregates of every node recomputed bottom-up by `setMin` and
`setMax`. -/
def T.fixAgg : T → T
  | T.leaf => T.leaf
  | T.nd l a d r => T.nd l.fixAgg a (d.agg l.fixAgg r.fixAgg) r.fixAgg

/-- The tree without its aggregates: the links, the addresses, the colours, the
intervals and the ids. -/
def T.skel : T → T
  | T.leaf => T.leaf
  | T.nd l a d r => T.nd l.skel a { d with max := 0, min := 0 } r.skel

/-- The tree of the scenario with aggregates that are not those of its intervals. -/
def staleT : T :=
  T.nd (T.nd T.leaf 2 ⟨⟨5, 15, 2⟩, 0, 99, true, 2⟩ T.leaf) 1 ⟨⟨10, 20, 1⟩, 7, 7, false, 1⟩
    (T.nd T.leaf 3 ⟨⟨30, 40, 3⟩, 1000, 0, true, 3⟩ T.leaf)

/-- A memory holding `staleT`. -/
def staleHeap : Heap :=
  ((scenarioTree.heap.set 2 (T.cellOf T.leaf ⟨⟨5, 15, 2⟩, 0, 99, true, 2⟩ T.leaf)).set 3
    (T.cellOf T.leaf ⟨⟨30, 40, 3⟩, 1000, 0, true, 3⟩ T.leaf)).set 1
    { interval := some ⟨10, 20, 1⟩, max := 7, min := 7, c0 := some 2, c1 := some 3,
      red := false, id := 1 }

/-! ## The stored intervals in order -/

/-- The part of the fields of a node that `add` and `delete` never recompute: the
interval and the id. -/
def Item.core (d : Item) : Interval × Nat := (d.interval, d.id)

/-- The intervals and ids of the nodes, in order. -/
def T.cores (t : T) : List (Interval × Nat) := t.items.map Item.core

/-- The intervals and ids of the nodes that come before the subtree below the path. -/
def ctxCL (ctx : List Frame) : List (Interval × Nat) := (ctxL ctx).map (fun x => x.2.core)

/-- The intervals and ids of the nodes that come after the subtree below the path. -/
def ctxCR (ctx : List Frame) : List (Interval × Nat) := (ctxR ctx).map (fun x => x.2.core)

/-- The order of the tree on (interval, id) pairs: by low bound, then by id. -/
def coreLt (a b : Interval × Nat) : Prop :=
  a.1.Low < b.1.Low ∨ (a.1.Low = b.1.Low ∧ a.2 < b.2)

instance (a b : Interval × Nat) : Decidable (coreLt a b) := by
  unfold coreLt; infer_instance

/-- The part of the invariant of the loop of `add` on the stored intervals and the
aggregates: the intervals and ids in order are `K`; every node of the path records
the direction taken at it and has another id than `iv`; the aggregates below the
current node are exact and those on the path count the bounds of `iv` in. -/
def AddCA (iv : Interval) (K : List (Interval × Nat)) (a : AddAbs) : Prop :=
  (plug a.ctx a.focus).cores = K ∧ CtxDirs iv a.ctx ∧ (∀ f ∈ a.ctx, f.d.id ≠ iv.ID) ∧
    a.focus.LExact ∧
    CtxAgg a.ctx (Nat.max a.focus.rootMax iv.High) (some (a.focus.minWith iv.Low)) ∧
    (a.focus.ptr = none → a.ctx ≠ [])

/-! ## Valid trees -/

/-- The binary-search-tree order: the nodes in order are strictly ascending in
(low, id). -/
def T.Sorted (t : T) : Prop := t.cores.Pairwise coreLt

/-- The structural invariants: red-black, search-tree order, and `id` the copy of the
identifier of the interval. -/
def T.Struct (t : T) : Prop := t.RedBlack ∧ t.Sorted ∧ t.IdCached

/-- The tree `tr` in memory is the finite tree `t`, which satisfies the structural
invariants, and its count is the number of nodes (as a `uint64`). -/
def Valid (tr : tree) (t : T) : Prop :=
  Rep tr t ∧ t.Struct ∧ tr.number = t.size % 2 ^ 64

/-- The ids of the nodes, in order. -/
def T.ids (t : T) : List Nat := t.cores.map Prod.snd

/-- The state between two public calls: a valid tree with exact aggregates and
pairwise distinct ids. -/
def Good (tr : tree) (t : T) : Prop := Valid tr t ∧ t.LExact ∧ t.ids.Nodup

/-- The interval and id that `add` stores for `iv`. -/
def coreOf (iv : Interval) : Interval × Nat := (iv, iv.ID)

/-- A public call that changes the tree. -/
inductive Call where
  | Add (intervals : List Interval)
  | Delete (intervals : List Interval)

/-- A sequence of public calls, one after the other. -/
def tree.run (fuel : Nat) (t : tree) : List Call → Option tree
  | [] => some t
  | Call.Add ivs :: calls => do
    let t ← t.Add fuel ivs
    t.run fuel calls
  | Call.Delete ivs :: calls => do
    let t ← t.Delete fuel ivs
    t.run fuel calls

/-! ## The descent of `delete` on trees -/

/-- The colour of the root set to `b`. -/
def T.setRed (b : Bool) : T → T
  | T.leaf => T.leaf
  | T.nd l a d r => T.nd l a { d with red := b } r

/-- The tree with `c` in place of the child `i` of the root. -/
def T.setChild (t : T) (i : Nat) (c : T) : T :=
  match t with
  | T.leaf => T.leaf
  | T.nd l a d r => if i = 0 then T.nd c a d r else T.nd l a d c

/-- The path `ctx` extended from the root of `t` down the directions `is`, and the
subtree reached. -/
def zipDown : List Frame → T → List Nat → List Frame × T
  | ctx, t, [] => (ctx, t)
  | ctx, t, i :: is => zipDown (t.frame i :: ctx) (t.child i) is

/-- The state of the descent of `delete` on trees at a loop head: the path `ctx` from
`node` up to the root (innermost frame first, empty while `node` is the `dummy`); the
subtree `focus` at `node.children[dir]`; the address of `found`. -/
structure DelAbs where
  ctx : List Frame
  focus : T
  found : Option Nat

/-- The recolouring of `delete` on the subtree `P` at `parent`: `parent` black, `node`
and its sibling red. -/
def delRecolT (last : Nat) (P : T) : T :=
  ((P.setRed false).setChild last ((P.child last).setRed true)).setChild (takeOpposite last)
    ((P.child (takeOpposite last)).setRed true)

/-- The rotation of `delete` around `parent`, on the subtree `P` at `parent`: a double
rotation when the child of the sibling on the side of `node` is red, a single rotation
when only its other child is red. -/
def delRotT (last : Nat) (P : T) : T :=
  if ((P.child (takeOpposite last)).child last).isRed then
    rotT last (P.setChild (takeOpposite last) (rotT (takeOpposite last) (P.child (takeOpposite last))))
  else if ((P.child (takeOpposite last)).child (takeOpposite last)).isRed then rotT last P
  else P

/-- The colour writes of `delete` after the rotation, on the rotated subtree `X`:
`node` red, the root of the subtree red, both children of the root black. -/
def delPaintT (last : Nat) (X : T) : T :=
  let X1 := X.setChild last ((X.child last).setChild last (((X.child last).child last).setRed true))
  let X2 := X1.setRed true
  let X3 := X2.setChild 0 ((X2.child 0).setRed false)
  X3.setChild 1 ((X3.child 1).setRed false)

/-- The case of the loop body of `delete` in which `node` and its children are black
and the sibling `t` of `node` is present, on the subtree `P` at `parent`: the subtree
after the recolouring or the rotation, and the directions from its root to `node`. -/
def delFixT (last : Nat) (P : T) : T × List Nat :=
  if !((P.child (takeOpposite last)).child (takeOpposite last)).isRed &&
      !((P.child (takeOpposite last)).child last).isRed then
    (delRecolT last P, [last])
  else (delPaintT last (delRotT last P), [last, last])

/-- The statement `if !isRed(node) && !isRed(node.children[dir]) { ... }` of the loop
body of `delete` on trees, `q` being the subtree at `node`: the path down to `node`
and the subtree at `node.children[dir]` afterwards. -/
def delPushT (ctx : List Frame) (q : T) (dir : Nat) : List Frame × T :=
  if !q.isRed && !(q.child dir).isRed then
    if (q.child (takeOpposite dir)).isRed then zipDown ctx (rotT dir q) [dir, dir]
    else
      match ctx with
      | [] => zipDown ctx q [dir]
      | fp :: rest =>
        if fp.sib.ptr = none then zipDown ctx q [dir]
        else zipDown rest (delFixT fp.dir (fp.plug q)).1 ((delFixT fp.dir (fp.plug q)).2 ++ [dir])
  else zipDown ctx q [dir]

/-- One iteration of the loop of `delete` on trees. -/
def delStepT (iv : Interval) (a : DelAbs) : DelAbs :=
  let dir := a.focus.stepDir iv
  { ctx := (delPushT a.ctx a.focus dir).1, focus := (delPushT a.ctx a.focus dir).2,
    found := if a.focus.item.id = iv.ID then some a.focus.addr else a.found }

/-- The loop of `delete` on trees. -/
def delLoopT (iv : Interval) : Nat → DelAbs → Option DelAbs
  | 0, _ => none
  | fuel + 1, a =>
    if a.focus.ptr = none then some a else delLoopT iv fuel (delStepT iv a)

/-- The frame with the interval, the aggregates and the id of `c`: the assignment
`found.interval, found.max, found.min, found.id = ...` of `delete`. -/
def Frame.setContent (c : Item) (f : Frame) : Frame :=
  { f with d := { f.d with interval := c.interval, max := c.max, min := c.min, id := c.id } }

/-- The statement `if found != nil { ... }` of `delete` on trees: the whole tree, and
whether a node has been unlinked. -/
def delUnlinkT (a : DelAbs) : T × Bool :=
  match a.found, a.ctx with
  | some fa, c :: rest =>
    (plug (rest.map (fun f => if f.addr = fa then f.setContent c.d else f)) c.sib, true)
  | _, _ => (plug a.ctx a.focus, false)

/-- Source `delete` on trees: the tree and whether a node has been unlinked. -/
def deleteT (fuel : Nat) (t : T) (iv : Interval) : Option (T × Bool) :=
  match t with
  | T.leaf => some (T.leaf, false)
  | t =>
    match delLoopT iv fuel { ctx := [], focus := t, found := none } with
    | none => none
    | some a => some ((delUnlinkT a).1.blacken, (delUnlinkT a).2)

/-- The colour of the node at the address `a` set to `b`: the write `x.red = b`
through a pointer to that node. -/
def T.paint (a : Nat) (b : Bool) : T → T
  | T.leaf => T.leaf
  | T.nd l x d r =>
    T.nd (l.paint a b) x (if x = a then { d with red := b } else d) (r.paint a b)

/-- The directions `is` lead from the root of `t` through present nodes. -/
def T.HasPath : T → List Nat → Prop
  | _, [] => True
  | t, i :: is => t.ptr ≠ none ∧ i ≤ 1 ∧ T.HasPath (t.child i) is

/-- The direction taken at the innermost node of the path (`1` at the `dummy`). -/
def lastOf (ctx : List Frame) : Nat :=
  match ctx with
  | [] => 1
  | f :: _ => f.dir

/-- The rotation of `deleteFix` around `parent`, attached below `grandParent`. -/
def delRotH (h : Heap) (g p t last otherLast localDir : Nat) : Option Heap :=
  (if isRed h ((h.cell t).child last) then do
      let (h, r) ← doubleRotate h (some p) last
      pure (h.upd g (fun x => x.setChild localDir r))
    else if isRed h ((h.cell t).child otherLast) then do
      let (h, r) ← rotate h (some p) last
      pure (h.upd g (fun x => x.setChild localDir r))
    else pure h)

/-- The four colour writes of `deleteFix` after the rotation. -/
def delPaintH (h : Heap) (g n localDir : Nat) : Option Heap := do
  let h := h.upd n (fun x => { x with red := true })
  let r ← (h.cell g).child localDir
  let h := h.upd r (fun x => { x with red := true })
  let r ← (h.cell g).child localDir
  let r0 ← (h.cell r).c0
  let h := h.upd r0 (fun x => { x with red := false })
  let r ← (h.cell g).child localDir
  let r1 ← (h.cell r).c1
  let h := h.upd r1 (fun x => { x with red := false })
  pure h

/-- The local variables of the loop of `delete` and the memory hold the state `a` of the
descent on trees. -/
structure DelRel (s : DelState) (a : DelAbs) : Prop where
  node : s.node = some (helperOf a.ctx)
  dir : s.dir = lastOf a.ctx
  parent : ∀ f rest, a.ctx = f :: rest → s.parent = some (helperOf rest)
  found : s.found = a.found
  onpath : ∀ fa, a.found = some fa → fa ∈ a.ctx.map Frame.addr
  models : a.focus.Models s.heap
  ctx : CtxModels s.heap a.ctx a.focus.ptr
  dummy : (s.heap.cell dummyAddr).c0 = none
  nodup : (dummyAddr :: (a.focus.addrs ++ ctxAddrs a.ctx)).Nodup
  dirs : ∀ f ∈ a.ctx, f.dir ≤ 1

/-! ## Invariants of the descent of `delete` -/

/-- The colours around the current node of `delete`: the current node or the next node
is red, unless the current node is the root and its other child is not red. -/
def DelLocal : List Frame → T → Prop
  | [], _ => True
  | c :: rest, focus =>
    c.d.red = true ∨ focus.isRed = true ∨ (rest = [] ∧ c.sib.isRed = false)

/-- The red-black part of the invariant of the loop of `delete`: no red node of the
whole tree has a red child (the root may be red), the tree is balanced, and the colours
around the current node allow to unlink it. -/
def DelRB (a : DelAbs) : Prop :=
  (plug a.ctx a.focus).NoRR ∧ (plug a.ctx a.focus).Balanced ∧ DelLocal a.ctx a.focus ∧
    ∀ f ∈ a.ctx, f.dir ≤ 1

/-- The part of the invariant of the loop of `delete` on the stored intervals: the
intervals and ids in order are `K`; every node of the path records the direction taken
at it; the addresses are pairwise distinct; `found` is a node of the path with the id
of `iv`, if the path has one. -/
def DelCA (iv : Interval) (K : List (Interval × Nat)) (a : DelAbs) : Prop :=
  (plug a.ctx a.focus).cores = K ∧ CtxDirs iv a.ctx ∧
    (a.focus.addrs ++ ctxAddrs a.ctx).Nodup ∧
    (a.found = none → ∀ f ∈ a.ctx, f.d.id ≠ iv.ID) ∧
    (∀ fa, a.found = some fa → ∃ f ∈ a.ctx, f.addr = fa ∧ f.d.id = iv.ID)

/-! ## Sequences of calls on the stored intervals -/

/-- Deleting `iv` from the stored intervals `K` is within the contract of `Delete`:
the id of `iv` is not stored, or the stored interval with that id has the low bound
of `iv` (so the descent of `delete`, by low bound then id, reaches it). -/
def DelOk (K : List (Interval × Nat)) (iv : Interval) : Prop :=
  ∀ x ∈ K, x.2 = iv.ID → x.1.Low = iv.Low

instance (K : List (Interval × Nat)) (iv : Interval) : Decidable (DelOk K iv) := by
  unfold DelOk; infer_instance

/-- The stored intervals without the one with the id of `iv`. -/
def eraseId (K : List (Interval × Nat)) (iv : Interval) : List (Interval × Nat) :=
  K.filter (fun x => decide (x.2 ≠ iv.ID))

/-- The stored intervals after the deletions of `Delete`. -/
def delAll (K : List (Interval × Nat)) : List Interval → List (Interval × Nat)
  | [] => K
  | iv :: ivs => delAll (eraseId K iv) ivs

/-- Every deletion of the list is within the contract when its turn comes. -/
def DelsOk (K : List (Interval × Nat)) : List Interval → Prop
  | [] => True
  | iv :: ivs => DelOk K iv ∧ DelsOk (eraseId K iv) ivs

instance decDelsOk : (K : List (Interval × Nat)) → (ivs : List Interval) →
    Decidable (DelsOk K ivs)
  | _, [] => isTrue trivial
  | K, iv :: ivs =>
    have := decDelsOk (eraseId K iv) ivs
    inferInstanceAs (Decidable (_ ∧ _))

/-- Every addition of the list is within the contract when its turn comes: the id of
the interval is not stored. -/
def AddsOk (K : List (Interval × Nat)) : List Interval → Prop
  | [] => True
  | iv :: ivs => iv.ID ∉ K.map Prod.snd ∧ AddsOk (coreOf iv :: K) ivs

instance decAddsOk : (K : List (Interval × Nat)) → (ivs : List Interval) →
    Decidable (AddsOk K ivs)
  | _, [] => isTrue trivial
  | K, iv :: ivs =>
    have := decAddsOk (coreOf iv :: K) ivs
    inferInstanceAs (Decidable (_ ∧ _))

/-- The stored intervals after the additions of `Add` (as a multiset). -/
def addAll (K : List (Interval × Nat)) : List Interval → List (Interval × Nat)
  | [] => K
  | iv :: ivs => addAll (coreOf iv :: K) ivs

/-- The call is within the contract on the stored intervals `K`: an `Add` of ids that
are not stored, a `Delete` of intervals that are stored (same low bound and id) or
whose id is not stored. -/
def Call.Ok (K : List (Interval × Nat)) : Call → Prop
  | Call.Add ivs => AddsOk K ivs
  | Call.Delete ivs => DelsOk K ivs

instance (K : List (Interval × Nat)) (c : Call) : Decidable (c.Ok K) := by
  cases c <;> unfold Call.Ok <;> infer_instance

/-- The stored intervals after the call (as a multiset). -/
def Call.apply (K : List (Interval × Nat)) : Call → List (Interval × Nat)
  | Call.Add ivs => addAll K ivs
  | Call.Delete ivs => delAll K ivs

/-- Every call of the sequence is within the contract when its turn comes. -/
def Admissible (K : List (Interval × Nat)) : List Call → Prop
  | [] => True
  | c :: calls => c.Ok K ∧ Admissible (c.apply K) calls

instance decAdmissible : (K : List (Interval × Nat)) → (calls : List Call) →
    Decidable (Admissible K calls)
  | _, [] => isTrue trivial
  | K, c :: calls =>
    have := decAdmissible (c.apply K) calls
    inferInstanceAs (Decidable (_ ∧ _))

/-- The stored intervals after the sequence of calls (as a multiset). -/
def contents (K : List (Interval × Nat)) : List Call → List (Interval × Nat)
  | [] => K
  | c :: calls => contents (c.apply K) calls

/-- The intervals passed to the call. -/
def Call.intervals : Call → List Interval
  | Call.Add ivs => ivs
  | Call.Delete ivs => ivs

/-- Number of intervals passed to `Add` in the sequence of calls. -/
def addCount : List Call → Nat
  | [] => 0
  | Call.Add ivs :: calls => ivs.length + addCount calls
  | Call.Delete _ :: calls => addCount calls

/-- The ids passed to the calls fit a `uint32`. -/
def CallsWide (calls : List Call) : Prop :=
  ∀ c ∈ calls, ∀ iv ∈ c.intervals, iv.ID < 2 ^ 32

instance (calls : List Call) : Decidable (CallsWide calls) := by
  unfold CallsWide; infer_instance

/-- The order of the tree on intervals: by low bound, then by id. -/
def keyLt (a b : Interval) : Prop :=
  a.Low < b.Low ∨ (a.Low = b.Low ∧ a.ID < b.ID)

instance (a b : Interval) : Decidable (keyLt a b) := by
  unfold keyLt; infer_instance

/-- The search-tree order node by node: under `compare` the key of the node lies to
the right of every key of its left subtree, and every key of its right subtree lies
to the right of the key of the node. -/
def T.Ordered : T → Prop
  | T.leaf => True
  | T.nd l _ d r =>
    (∀ x ∈ l.cores, compare x.1.Low d.interval.Low x.2 d.id = 1) ∧
      (∀ x ∈ r.cores, compare d.interval.Low x.1.Low d.id x.2 = 1) ∧
      T.Ordered l ∧ T.Ordered r

/-! ## Decision procedures for the invariants -/

instance T.decNoRR : (t : T) → Decidable t.NoRR
  | .leaf => isTrue trivial
  | .nd l _ _ r =>
    have := T.decNoRR l
    have := T.decNoRR r
    inferInstanceAs (Decidable (_ ∧ _ ∧ _))

instance T.decBalanced : (t : T) → Decidable t.Balanced
  | .leaf => isTrue trivial
  | .nd l _ _ r =>
    have := T.decBalanced l
    have := T.decBalanced r
    inferInstanceAs (Decidable (_ ∧ _ ∧ _))

instance (t : T) : Decidable t.RedBlack := by
  unfold T.RedBlack; infer_instance

instance (tr : tree) (t : T) : Decidable (Rep tr t) := by
  unfold Rep; infer_instance

/-! ## Concrete call sequences and trees -/

/-- A sequence of calls within the contract: three additions, the deletion of a
stored interval, two more additions, the deletion of an id that is not stored. -/
def demoCalls : List Call :=
  [Call.Add [⟨10, 20, 1⟩, ⟨5, 15, 2⟩, ⟨30, 40, 3⟩], Call.Delete [⟨5, 15, 2⟩],
    Call.Add [⟨7, 8, 4⟩, ⟨1, 2, 5⟩], Call.Delete [⟨99, 100, 9⟩]]

/-- The tree after `Add` of `(10,20,1)` and `(5,15,2)` to `New()`: the black root
`(10,20,1)` with the red left child `(5,15,2)`. -/
def pairT : T :=
  T.nd (T.nd T.leaf 2 ⟨⟨5, 15, 2⟩, 15, 5, true, 2⟩ T.leaf) 1 ⟨⟨10, 20, 1⟩, 20, 5, false, 1⟩
    T.leaf

/-- The tree `pairT` after `Delete` of `(30,40,3)`, whose id is not stored: the black
root is now `(5,15,2)`, with the red right child `(10,20,1)`. -/
def pairRotatedT : T :=
  T.nd T.leaf 2 ⟨⟨5, 15, 2⟩, 20, 5, false, 2⟩
    (T.nd T.leaf 1 ⟨⟨10, 20, 1⟩, 20, 10, true, 1⟩ T.leaf)

/-- The tree after `Add` of `(10,20,1)`, `(5,15,2)` and `(30,40,2)` to `New()`: two
nodes have the id 2. -/
def dupT : T :=
  T.nd (T.nd T.leaf 2 ⟨⟨5, 15, 2⟩, 15, 5, true, 2⟩ T.leaf) 1 ⟨⟨10, 20, 1⟩, 40, 5, false, 1⟩
    (T.nd T.leaf 3 ⟨⟨30, 40, 2⟩, 40, 30, true, 2⟩ T.leaf)

/-- The bytes `WriteToFile` produces for the tree with the single interval
`(10,20,1)`: the count 1, then one node record. -/
def oneNodeBytes : List Nat :=
  [0, 0, 0, 0, 0, 0, 0, 1, 0, 0, 0, 10, 0, 0, 0, 20, 0, 0, 0, 1, 0, 0, 0, 20, 0, 0, 0, 10, 0, 0]

/-! ## Calls that carry the stored low bound -/

/-- The part of the invariant of the loop of `add` on the stored intervals alone: the
intervals and ids in order are `K`, every node of the path records the direction
taken at it and has another id than `iv`. -/
def AddC (iv : Interval) (K : List (Interval × Nat)) (a : AddAbs) : Prop :=
  (plug a.ctx a.focus).cores = K ∧ CtxDirs iv a.ctx ∧ (∀ f ∈ a.ctx, f.d.id ≠ iv.ID) ∧
    (a.focus.ptr = none → a.ctx ≠ [])

/-- Adding `iv` to the stored intervals `K` keeps the ids distinct: the id of `iv` is
not stored, or the stored interval with that id has the low bound of `iv` (so the
descent of `add`, by low bound then id, reaches it and stops). -/
def AddOk (K : List (Interval × Nat)) (iv : Interval) : Prop :=
  ∀ x ∈ K, x.2 = iv.ID → x.1.Low = iv.Low

instance (K : List (Interval × Nat)) (iv : Interval) : Decidable (AddOk K iv) := by
  unfold AddOk; infer_instance

/-- The stored intervals after `add` of `iv`: nothing changes when the id is stored
(the stored interval keeps its bounds), `iv` is stored otherwise. -/
def addOne (K : List (Interval × Nat)) (iv : Interval) : List (Interval × Nat) :=
  if iv.ID ∈ K.map Prod.snd then K else coreOf iv :: K

/-- The stored intervals after the additions of `Add`, ids already stored included. -/
def addAllK (K : List (Interval × Nat)) : List Interval → List (Interval × Nat)
  | [] => K
  | iv :: ivs => addAllK (addOne K iv) ivs

/-- Every interval of the list, when its turn comes, has an id that is not stored or
carries the low bound of the stored interval with its id. -/
def AddsKeyed (K : List (Interval × Nat)) : List Interval → Prop
  | [] => True
  | iv :: ivs => AddOk K iv ∧ AddsKeyed (addOne K iv) ivs

instance decAddsKeyed : (K : List (Interval × Nat)) → (ivs : List Interval) →
    Decidable (AddsKeyed K ivs)
  | _, [] => isTrue trivial
  | K, iv :: ivs =>
    have := decAddsKeyed (addOne K iv) ivs
    inferInstanceAs (Decidable (_ ∧ _))

/-- Every interval passed to the call whose id is stored carries the low bound of
the stored interval with that id (its high bound is arbitrary). -/
def Call.Keyed (K : List (Interval × Nat)) : Call → Prop
  | Call.Add ivs => AddsKeyed K ivs
  | Call.Delete ivs => DelsOk K ivs

instance (K : List (Interval × Nat)) (c : Call) : Decidable (c.Keyed K) := by
  cases c <;> unfold Call.Keyed <;> infer_instance

/-- The stored intervals after the call (as a multiset), ids already stored
included. -/
def Call.store (K : List (Interval × Nat)) : Call → List (Interval × Nat)
  | Call.Add ivs => addAllK K ivs
  | Call.Delete ivs => delAll K ivs

/-- Every interval passed to a call of the sequence whose id is stored when its turn
comes carries the low bound of the stored interval with that id. -/
def Keyed (K : List (Interval × Nat)) : List Call → Prop
  | [] => True
  | c :: calls => c.Keyed K ∧ Keyed (c.store K) calls

instance decKeyed : (K : List (Interval × Nat)) → (calls : List Call) →
    Decidable (Keyed K calls)
  | _, [] => isTrue trivial
  | K, c :: calls =>
    have := decKeyed (c.store K) calls
    inferInstanceAs (Decidable (_ ∧ _))

/-- The stored intervals after the sequence of calls (as a multiset), ids already
stored included. -/
def stored (K : List (Interval × Nat)) : List Call → List (Interval × Nat)
  | [] => K
  | c :: calls => stored (c.store K) calls

/-- A sequence of calls with ids that are stored: `(5,99,2)` is added when `(5,15,2)`
is stored, `(10,0,1)` is deleted when `(10,20,1)` is stored, `(30,40,3)` is added a
second time, and the id 9 of the last deletion is not stored. -/
def keyedCalls : List Call :=
  [Call.Add [⟨10, 20, 1⟩, ⟨5, 15, 2⟩, ⟨30, 40, 3⟩], Call.Add [⟨5, 99, 2⟩],
    Call.Delete [⟨10, 0, 1⟩], Call.Add [⟨7, 8, 4⟩, ⟨30, 40, 3⟩], Call.Delete [⟨99, 100, 9⟩]]

/-- The tree after `Add` of `(10,20,1)`, `(5,15,2)`, `(30,40,3)`, `(3,4,4)` to `New()`,
`Delete` of `(0,100,1)` and `Add` of `(5,15,2)`: the root holds `(3,4,4)` with
`(5,15,2)` on its left, and a second node `(5,15,2)` is on its right below
`(30,40,3)`. -/
def dupAfterDeleteT : T :=
  T.nd (T.nd T.leaf 2 ⟨⟨5, 15, 2⟩, 15, 5, false, 2⟩ T.leaf) 1 ⟨⟨3, 4, 4⟩, 40, 3, false, 4⟩
    (T.nd (T.nd T.leaf 5 ⟨⟨5, 15, 2⟩, 15, 5, true, 2⟩ T.leaf) 3 ⟨⟨30, 40, 3⟩, 40, 5, false, 3⟩
      T.leaf)

/-! # Theorems -/

/-! ## Query -/

theorem overlaps_eq_closedOverlap (q iv : Interval) :
    (overlaps iv.High q.High iv.Low q.Low && iv.Overlaps q) = closedOverlap q iv := by
  simp [overlaps, closedOverlap, Interval.Overlaps]

theorem T.filter_eq_nil_of_bounded {t : T} {d : Item} {l r : T} {a : Nat} (q : Interval)
    (ht : t = T.nd l a d r) (hb : t.Bounded)
    (hno : overlaps d.max q.High d.min q.Low = false) :
    t.intervals.filter (closedOverlap q) = [] := by
  subst ht
  rw [List.filter_eq_nil_iff]
  intro iv hiv
  have h1 := hb.1 iv hiv
  simp [overlaps] at hno
  simp [closedOverlap]
  omega

theorem intervalOverlaps_closed (h : Heap) (q : Interval) (a : Nat) (l r : T) (d : Item)
    (hc : h.cell a = T.cellOf l d r) :
    intervalOverlaps h a q.Low q.High (some q) = some (closedOverlap q d.interval) := by
  simp only [intervalOverlaps, hc, T.cellOf]
  rw [← overlaps_eq_closedOverlap]
  cases h1 : overlaps d.interval.High q.High d.interval.Low q.Low <;>
    cases h2 : d.interval.Overlaps q <;> simp [h1, h2]

theorem query_succ (h : Heap) (q : Interval) (fuel : Nat) (n : Nat)
    (acc : List (Option Interval)) :
    node.query (fun acc n => acc ++ [(h.cell n).interval]) q.Low q.High (some q) (fuel + 1) h n acc
      = (queryChild h q fuel (h.cell n).c0 acc).bind fun acc =>
          (intervalOverlaps h n q.Low q.High (some q)).bind fun b =>
            queryChild h q fuel (h.cell n).c1 (if b then acc ++ [(h.cell n).interval] else acc) := by
  rw [node.query]
  cases (h.cell n).c0 <;> cases (h.cell n).c1 <;> rfl

theorem queryChild_spec (h : Heap) (q : Interval) (t : T) :
    ∀ (fuel : Nat) (acc : List (Option Interval)), t.Models h → t.Bounded →
      t.height ≤ fuel →
      queryChild h q fuel t.ptr acc
        = some (acc ++ (t.intervals.filter (closedOverlap q)).map some) := by
  induction t with
  | leaf => intro fuel acc _ _ _; simp [T.ptr, queryChild, T.intervals, T.items]
  | nd l a d r ihl ihr =>
    intro fuel acc hm hb hf
    obtain ⟨hc, hml, hmr⟩ := hm
    simp only [queryChild, T.ptr]
    split
    · cases fuel with
      | zero => simp [T.height] at hf
      | succ fuel =>
        simp only [T.height, Nat.add_le_add_iff_right] at hf
        have hfl : l.height ≤ fuel := le_trans (Nat.le_max_left _ _) hf
        have hfr : r.height ≤ fuel := le_trans (Nat.le_max_right _ _) hf
        have hiv : (h.cell a).interval = some d.interval := by rw [hc]; rfl
        have h0 : (h.cell a).c0 = l.ptr := by rw [hc]; rfl
        have h1 : (h.cell a).c1 = r.ptr := by rw [hc]; rfl
        rw [query_succ, h0, h1, ihl fuel acc hml hb.2.1 hfl,
          intervalOverlaps_closed h q a l r d hc]
        simp only [Option.some_bind]
        rw [ihr fuel _ hmr hb.2.2 hfr, hiv]
        simp only [T.intervals, T.items, List.map_append, List.map_cons, List.filter_append,
          List.filter_cons]
        cases closedOverlap q d.interval <;> simp
    · rename_i hno
      rw [hc] at hno
      simp only [T.cellOf, Bool.not_eq_true] at hno
      rw [T.filter_eq_nil_of_bounded q rfl hb hno]
      simp


/-- C1: for every tree in memory whose aggregates bound the intervals of every
subtree, and for every probe `q`, `Query(q)` returns exactly the stored intervals
`iv` with `iv.high >= q.low && iv.low <= q.high`, each once (in order): nothing is
lost to pruning and nothing else is returned. -/
theorem c1_Query_returns_exactly_overlapping (h : Heap) (t : T) (number : Nat) (q : Interval)
    (fuel : Nat) (hm : t.Models h) (hb : t.Bounded) (hf : t.height ≤ fuel) :
    (treeOf h t number).Query fuel q =
      some ((t.intervals.filter (closedOverlap q)).map some) := by
  cases t with
  | leaf => simp [treeOf, tree.Query, T.ptr, T.intervals, T.items]
  | nd l a d r =>
    simp only [treeOf, tree.Query, T.ptr]
    cases fuel with
    | zero => simp [T.height] at hf
    | succ fuel =>
      have hiv : (h.cell a).interval = some d.interval := by rw [hm.1]; rfl
      have h0 : (h.cell a).c0 = l.ptr := by rw [hm.1]; rfl
      have h1 : (h.cell a).c1 = r.ptr := by rw [hm.1]; rfl
      simp only [T.height, Nat.add_le_add_iff_right] at hf
      rw [query_succ, h0, h1,
        queryChild_spec h q l fuel _ hm.2.1 hb.2.1 (le_trans (Nat.le_max_left _ _) hf),
        intervalOverlaps_closed h q a l r d hm.1]
      simp only [Option.some_bind]
      rw [queryChild_spec h q r fuel _ hm.2.2 hb.2.2 (le_trans (Nat.le_max_right _ _) hf), hiv]
      simp only [T.intervals, T.items, List.map_append, List.map_cons, List.filter_append,
        List.filter_cons, intervalsPoolGet]
      cases closedOverlap q d.interval <;> simp

/-- C1, the scenario of the specification: after `Add` of `(10,20,1)`, `(5,15,2)`,
`(30,40,3)` to `New()` the memory holds `scenarioT`, whose aggregates are bounds, and
`Query((12,12,0))` gives the intervals with ids 2 and 1, `Query((25,35,0))` the one
with id 3, `Query((0,4,0))` none. -/
theorem c1_scenario :
    (scenarioT.Models scenarioTree.heap ∧ scenarioT.Bounded ∧ scenarioT.height ≤ 2 ∧
      scenarioTree = treeOf scenarioTree.heap scenarioT 3) ∧
    scenarioTree.Query 2 ⟨12, 12, 0⟩ = some [some ⟨5, 15, 2⟩, some ⟨10, 20, 1⟩] ∧
    scenarioTree.Query 2 ⟨25, 35, 0⟩ = some [some ⟨30, 40, 3⟩] ∧
    scenarioTree.Query 2 ⟨0, 4, 0⟩ = some [] :=
  ⟨⟨by decide, by decide, by decide, rfl⟩,
    c1_Query_returns_exactly_overlapping scenarioTree.heap scenarioT 3 ⟨12, 12, 0⟩ 2
      (by decide) (by decide) (by decide),
    c1_Query_returns_exactly_overlapping scenarioTree.heap scenarioT 3 ⟨25, 35, 0⟩ 2
      (by decide) (by decide) (by decide),
    c1_Query_returns_exactly_overlapping scenarioTree.heap scenarioT 3 ⟨0, 4, 0⟩ 2
      (by decide) (by decide) (by decide)⟩

/-! ## Traverse -/

theorem T.ptr_leaf : T.leaf.ptr = none := rfl

theorem T.ptr_nd (l : T) (a : Nat) (d : Item) (r : T) : (T.nd l a d r).ptr = some a := rfl

theorem T.visitOrder_perm (t : T) : t.visitOrder.Perm t.nodes := by
  induction t with
  | leaf => exact List.Perm.refl _
  | nd l a d r ihl ihr =>
    simp only [T.visitOrder, T.nodes]
    refine List.Perm.trans ?_ List.perm_middle.symm
    exact List.Perm.cons _ (List.Perm.trans List.perm_append_comm (List.Perm.append ihl ihr))

theorem pushed_pops (t : T) : ((pushed t).map T.pops).sum = t.size := by
  cases t <;> simp [pushed, T.pops, T.size]

theorem pushed_visit (t : T) : (pushed t).flatMap T.visitOrder = t.visitOrder := by
  cases t <;> simp [pushed, T.visitOrder]

theorem pushed_ptr (t : T) (nodes : List Ptr) :
    (if t.ptr ≠ none then t.ptr :: nodes else nodes) = (pushed t).map T.ptr ++ nodes := by
  cases t <;> simp [pushed, T.ptr]

theorem pushed_models (h : Heap) (t : T) (hm : t.Models h) : ∀ x ∈ pushed t, x.Models h := by
  cases t with
  | leaf => simp [pushed]
  | nd l a d r => intro x hx; simp [pushed] at hx; subst hx; exact hm

theorem traverseLoop_spec {σ : Type} (fn : σ → Option Interval → σ) (h : Heap) :
    ∀ (fuel : Nat) (ts : List T) (acc : σ), (∀ t ∈ ts, t.Models h) →
      (ts.map T.pops).sum < fuel →
      traverseLoop fn h fuel (ts.map T.ptr) acc =
        some (((ts.flatMap T.visitOrder).map (fun x => some x.2.interval)).foldl fn acc) := by
  intro fuel
  induction fuel with
  | zero => intro ts acc _ hf; omega
  | succ fuel ih =>
    intro ts acc hm hf
    cases ts with
    | nil => simp [traverseLoop]
    | cons t ts =>
      have hts : ∀ t ∈ ts, t.Models h := fun x hx => hm x (List.mem_cons_of_mem _ hx)
      cases t with
      | leaf =>
        simp only [List.map_cons, T.ptr_leaf, traverseLoop, List.flatMap_cons, T.visitOrder,
          List.nil_append]
        apply ih ts acc hts
        simp only [List.map_cons, List.sum_cons, T.pops] at hf
        omega
      | nd l a d r =>
        have hc := (hm _ (List.mem_cons_self _ _)).1
        have hml := (hm _ (List.mem_cons_self _ _)).2.1
        have hmr := (hm _ (List.mem_cons_self _ _)).2.2
        have hiv : (h.cell a).interval = some d.interval := by rw [hc]; rfl
        have h0 : (h.cell a).c0 = l.ptr := by rw [hc]; rfl
        have h1 : (h.cell a).c1 = r.ptr := by rw [hc]; rfl
        simp only [List.map_cons, T.ptr_nd, traverseLoop, h0, h1, hiv]
        rw [pushed_ptr l, pushed_ptr r, ← List.append_assoc, ← List.map_append, ← List.map_append]
        rw [ih (pushed r ++ pushed l ++ ts)]
        · simp only [List.flatMap_append, pushed_visit, List.flatMap_cons, T.visitOrder,
            List.map_append, List.map_cons, List.foldl_cons, List.foldl_append, List.cons_append,
            List.append_assoc]
        · intro x hx
          simp only [List.mem_append] at hx
          rcases hx with (hx | hx) | hx
          · exact pushed_models h r hmr x hx
          · exact pushed_models h l hml x hx
          · exact hts x hx
        · simp only [List.map_cons, List.sum_cons, T.pops] at hf
          simp only [List.map_append, List.sum_append, pushed_pops]
          omega

/-- C9: for every tree in memory, `Traverse` terminates (any fuel of at least
`size + 2` iterations is enough) and has called the callback exactly once per node:
its result is the fold of the callback over the intervals of `visitOrder`, a
permutation of the nodes of the tree; on the empty tree the callback is not called. -/
theorem c9_Traverse_visits_each_node_once {σ : Type} (fn : σ → Option Interval → σ) (acc : σ)
    (h : Heap) (t : T) (number : Nat) (fuel : Nat) (hm : t.Models h)
    (hf : t.size + 2 ≤ fuel) :
    (treeOf h t number).Traverse fuel fn acc =
        some ((t.visitOrder.map (fun x => some x.2.interval)).foldl fn acc) ∧
      t.visitOrder.Perm t.nodes ∧
      (t = T.leaf → (treeOf h t number).Traverse fuel fn acc = some acc) := by
  have key := traverseLoop_spec fn h fuel [t] acc (by simpa using hm)
    (by cases t <;> simp [T.pops, T.size] at hf ⊢ <;> omega)
  simp only [List.map_cons, List.map_nil, List.flatMap_cons, List.flatMap_nil,
    List.append_nil] at key
  refine ⟨key, T.visitOrder_perm t, ?_⟩
  intro ht
  subst ht
  simpa [T.visitOrder] using key

/-- C9 on the tree of the scenario: the callback sees the three intervals once each. -/
theorem c9_scenario :
    (scenarioT.Models scenarioTree.heap ∧ scenarioT.size + 2 ≤ 5) ∧
    scenarioTree.Traverse 5 (fun acc iv => acc ++ [iv]) [] =
      some [some ⟨10, 20, 1⟩, some ⟨30, 40, 3⟩, some ⟨5, 15, 2⟩] :=
  ⟨⟨by decide, by decide⟩,
    (c9_Traverse_visits_each_node_once (fun acc iv => acc ++ [iv]) [] scenarioTree.heap
      scenarioT 3 5 (by decide) (by decide)).1⟩

/-! ## Encoding -/

theorem specRecords_length (t : T) : (specRecords t).length = 22 * t.size := by
  induction t with
  | leaf => rfl
  | nd l a d r ihl ihr =>
    simp only [specRecords, List.length_append, ihl, ihr, putUint32, List.length_cons,
      List.length_nil, T.size]
    omega

theorem writeNode_spec (h : Heap) (t : T) :
    ∀ (fuel : Nat) (w : List Nat), t.Models h → t.height ≤ fuel → t ≠ T.leaf →
      writeNode fuel h w t.ptr = some (w ++ specRecords t) := by
  induction t with
  | leaf => intro _ _ _ _ hne; exact absurd rfl hne
  | nd l a d r ihl ihr =>
    intro fuel w hm hf _
    cases fuel with
    | zero => simp [T.height] at hf
    | succ fuel =>
      simp only [T.height, Nat.add_le_add_iff_right] at hf
      have hfl : l.height ≤ fuel := le_trans (Nat.le_max_left _ _) hf
      have hfr : r.height ≤ fuel := le_trans (Nat.le_max_right _ _) hf
      obtain ⟨hc, hml, hmr⟩ := hm
      have e1 : (0 ||| 1 : Nat) = 1 := by decide
      have e2 : (0 ||| 2 : Nat) = 2 := by decide
      have e3 : (1 ||| 2 : Nat) = 3 := by decide
      have e4 : (3 &&& 1 : Nat) = 1 := by decide
      have e5 : (3 &&& 2 : Nat) = 2 := by decide
      have e6 : (2 &&& 1 : Nat) = 0 := by decide
      have e7 : (1 &&& 2 : Nat) = 0 := by decide
      rw [T.ptr_nd, writeNode]
      simp only [hc, T.cellOf, Option.bind_eq_bind, Option.some_bind, Option.pure_def]
      cases l with
      | leaf =>
        cases r with
        | leaf =>
          simp [T.ptr_leaf, specRecords, specFlags, Interval.Low, Interval.High, Interval.ID]
        | nd rl ra rd rr =>
          have := ihr fuel
          simp only [T.ptr_nd] at this
          simp [T.ptr_leaf, T.ptr_nd, specRecords, specFlags, Interval.Low, Interval.High,
            Interval.ID, e2, this _ hmr hfr]
      | nd ll la ld lr =>
        have hl := ihl fuel
        simp only [T.ptr_nd] at hl
        cases r with
        | leaf =>
          simp [T.ptr_leaf, T.ptr_nd, specRecords, specFlags, Interval.Low, Interval.High,
            Interval.ID, e1, e7, hl _ hml hfl]
        | nd rl ra rd rr =>
          have := ihr fuel
          simp only [T.ptr_nd] at this
          simp [T.ptr_leaf, T.ptr_nd, specRecords, specFlags, Interval.Low, Interval.High,
            Interval.ID, e1, e3, e4, e5, this _ hmr hfr, hl _ hml hfl]

/-- The layout of the encoding on every tree in memory with a present root: the
bytes of `WriteToFile` are the 8-byte big-endian count followed by the pre-order node
records of the specification (`low`, `high`, `id`, `max`, `min` as 4 bytes big-endian,
the colour byte, the child flags, the left then the right child), `8 + 22 * k` bytes
for `k` nodes. -/
theorem c8_encoding_layout (h : Heap) (t : T) (number : Nat) (fuel : Nat)
    (hm : t.Models h) (hne : t ≠ T.leaf) (hf : t.height ≤ fuel) :
    WriteToFile fuel (treeOf h t number) = some (specEncoding number t) ∧
      (specEncoding number t).length = 8 + 22 * t.size := by
  refine ⟨writeNode_spec h t fuel _ hm hf hne, ?_⟩
  simp only [specEncoding, specRecords_length, putUint64, List.length_append, List.length_cons,
    List.length_nil]

/-- The layout on the tree of the scenario: three nodes, `8 + 22 * 3` bytes. -/
theorem c8_scenario :
    (scenarioT.Models scenarioTree.heap ∧ scenarioT ≠ T.leaf ∧ scenarioT.height ≤ 2) ∧
    WriteToFile 2 (treeOf scenarioTree.heap scenarioT 3) = some (specEncoding 3 scenarioT) ∧
    (specEncoding 3 scenarioT).length = 8 + 22 * scenarioT.size :=
  ⟨⟨by decide, by decide, by decide⟩,
    c8_encoding_layout scenarioTree.heap scenarioT 3 2 (by decide) (by decide) (by decide)⟩

/-- C8: the encoding of a tree with `k = 0` nodes, 8 bytes by the claim, is not
produced: `WriteToFile` on `New()` (the empty tree, root `nil`) passes the `nil` root
to `writeNode` unguarded, which dereferences it (`n.interval`, a panic); no byte
sequence is produced, whatever the recursion bound.  On every tree with a root the
layout of the claim holds. -/
theorem c8_empty_tree_has_no_encoding :
    (New = treeOf New.heap T.leaf 0 ∧ T.leaf.Models New.heap) ∧
    ¬ ∃ (fuel : Nat) (bytes : List Nat), WriteToFile fuel New = some bytes := by
  refine ⟨⟨rfl, trivial⟩, ?_⟩
  rintro ⟨fuel, bytes, hb⟩
  cases fuel <;> simp [WriteToFile, writeNode, New] at hb

/-! ## Decoding and the round trip -/

theorem bigEndian_putUint32 (v : Nat) (hv : v < 2 ^ 32) : bigEndian (putUint32 v) = v := by
  simp only [bigEndian, putUint32, List.foldl_cons, List.foldl_nil]
  norm_num at hv ⊢
  omega

theorem bigEndian_putUint64 (v : Nat) (hv : v < 2 ^ 64) : bigEndian (putUint64 v) = v := by
  simp only [bigEndian, putUint64, List.foldl_cons, List.foldl_nil]
  norm_num at hv ⊢
  omega

theorem bigEndian_one (a : Nat) : bigEndian [a] = a := by
  simp [bigEndian]

theorem bufRead_one (a : Nat) (r : List Nat) :
    bufRead (a :: r) 1 = Except.ok ([a], r) := by
  simp [bufRead]

theorem bufRead_putUint32 (v : Nat) (r : List Nat) :
    bufRead (putUint32 v ++ r) 4 = Except.ok (putUint32 v, r) := by
  simp [bufRead, putUint32]

theorem bufRead_putUint64 (v : Nat) (r : List Nat) :
    bufRead (putUint64 v ++ r) 8 = Except.ok (putUint64 v, r) := by
  simp [bufRead, putUint64]

theorem T.size_relabel (t : T) : ∀ k, (t.relabel k).size = t.size := by
  induction t with
  | leaf => intro k; rfl
  | nd l a d r ihl ihr => intro k; simp [T.relabel, T.size, ihl, ihr]

theorem T.shape_relabel (t : T) : ∀ k, (t.relabel k).shape = t.shape := by
  induction t with
  | leaf => intro k; rfl
  | nd l a d r ihl ihr => intro k; simp [T.relabel, T.shape, ihl, ihr]

theorem T.addrs_relabel (t : T) : ∀ k, ∀ a ∈ (t.relabel k).addrs, k ≤ a ∧ a < k + t.size := by
  induction t with
  | leaf => intro k a ha; simp [T.relabel, T.addrs] at ha
  | nd l a' d r ihl ihr =>
    intro k a ha
    simp only [T.relabel, T.addrs, List.mem_append, List.mem_cons] at ha
    simp only [T.size]
    rcases ha with ha | ha | ha
    · have := ihl _ _ ha; omega
    · omega
    · have := ihr _ _ ha; omega

theorem T.ptr_relabel_nd (l : T) (a : Nat) (d : Item) (r : T) (k : Nat) :
    ((T.nd l a d r).relabel k).ptr = some k := rfl

theorem T.Models.congr {h h' : Heap} {t : T} (hm : t.Models h)
    (he : ∀ a ∈ t.addrs, h'.cell a = h.cell a) : t.Models h' := by
  induction t with
  | leaf => trivial
  | nd l a d r ihl ihr =>
    obtain ⟨hc, hml, hmr⟩ := hm
    refine ⟨?_, ihl hml ?_, ihr hmr ?_⟩
    · rw [he a (by simp [T.addrs])]; exact hc
    · intro x hx; exact he x (by simp [T.addrs, hx])
    · intro x hx; exact he x (by simp [T.addrs, hx])

theorem Heap.upd_cell_same (h : Heap) (a : Nat) (f : node → node) :
    (h.upd a f).cell a = f (h.cell a) := by
  simp [Heap.upd]

theorem Heap.upd_cell_ne (h : Heap) (a b : Nat) (f : node → node) (hne : b ≠ a) :
    (h.upd a f).cell b = h.cell b := by
  simp [Heap.upd, Function.update_noteq hne]

theorem Heap.upd_next (h : Heap) (a : Nat) (f : node → node) : (h.upd a f).next = h.next := rfl

theorem T.ptr_relabel (t : T) (k : Nat) (ht : t ≠ T.leaf) : (t.relabel k).ptr = some k := by
  cases t with
  | leaf => exact absurd rfl ht
  | nd l a d r => rfl

theorem specRecords_nd_append (l : T) (a : Nat) (d : Item) (r : T) (rest : List Nat) :
    specRecords (T.nd l a d r) ++ rest =
      putUint32 d.interval.From ++ (putUint32 d.interval.To ++ (putUint32 d.interval.Id ++
        (putUint32 d.max ++ (putUint32 d.min ++ ((if d.red then 1 else 0) :: specFlags l r ::
          (specRecords l ++ (specRecords r ++ rest))))))) := by
  simp [specRecords, Interval.Low, Interval.High, Interval.ID]

theorem readNode_spec (t : T) :
    ∀ (fuel : Nat) (h : Heap) (rest : List Nat), t ≠ T.leaf → t.height ≤ fuel → t.Wide →
      t.IdCached →
      ∃ h', readNode fuel h (specRecords t ++ rest) = Except.ok (h', h.next, rest) ∧
        (t.relabel h.next).Models h' ∧ h'.next = h.next + t.size ∧
        ∀ a < h.next, h'.cell a = h.cell a := by
  induction t with
  | leaf => intro _ _ _ hne; exact absurd rfl hne
  | nd l a d r ihl ihr =>
    intro fuel h rest _ hf hw hid
    cases fuel with
    | zero => simp [T.height] at hf
    | succ fuel =>
      simp only [T.height, Nat.add_le_add_iff_right] at hf
      have hfl : l.height ≤ fuel := le_trans (Nat.le_max_left _ _) hf
      have hfr : r.height ≤ fuel := le_trans (Nat.le_max_right _ _) hf
      obtain ⟨⟨w1, w2, w3, w4, w5⟩, hwl, hwr⟩ := hw
      obtain ⟨hid, hidl, hidr⟩ := hid
      have e1 : (1 &&& 1 : Nat) = 1 := by decide
      have e2 : (2 &&& 2 : Nat) = 2 := by decide
      have e4 : (3 &&& 1 : Nat) = 1 := by decide
      have e5 : (3 &&& 2 : Nat) = 2 := by decide
      have e6 : (2 &&& 1 : Nat) = 0 := by decide
      have e7 : (1 &&& 2 : Nat) = 0 := by decide
      rw [specRecords_nd_append, readNode]
      simp only [bufRead_putUint32, bufRead_one, bind, Except.bind, bigEndian_one,
        pure, Except.pure, Interval.Low, Interval.High, Interval.ID,
        bigEndian_putUint32 _ w1, bigEndian_putUint32 _ w2, bigEndian_putUint32 _ w3,
        bigEndian_putUint32 _ w4, bigEndian_putUint32 _ w5]
      have hne1 : ∀ x : Nat, x + 1 ≠ x := fun x => by omega
      by_cases hl : l = T.leaf
      · subst hl
        by_cases hr : r = T.leaf
        · subst hr
          simp only [specFlags, if_true, specRecords, List.nil_append]
          simp only [Nat.zero_add, Nat.zero_and, OfNat.zero_ne_ofNat, if_false]
          refine ⟨_, rfl, ?_, ?_, ?_⟩
          · simp only [T.relabel, T.Models, Heap.alloc, T.cellOf, T.ptr_leaf, and_true]
            simp [hid, Interval.ID]
          · simp [Heap.alloc, T.size]
          · intro x hx
            simp only [Heap.alloc]
            exact Function.update_noteq (by omega) _ _
        · obtain ⟨h2, hread2, hm2, hn2, hfr2⟩ := ihr fuel
            (h.alloc (node.mk (some ⟨d.interval.From, d.interval.To, d.interval.Id⟩)
              d.max d.min none none
              (decide ((if d.red = true then 1 else 0) = 1)) d.interval.Id)).1
            rest hr hfr hwr hidr
          simp only [specFlags, if_true, if_neg hr, specRecords, List.nil_append, Nat.zero_add,
            e2, e6, zero_ne_one, if_false]
          simp only [hread2]
          refine ⟨_, rfl, ?_, ?_, ?_⟩
          · simp only [Heap.alloc] at hm2 hn2 hfr2 ⊢
            simp only [T.relabel, T.Models, T.size, Nat.add_zero, T.ptr_relabel _ _ hr,
              Heap.upd_cell_same, hfr2 h.next (by omega), Function.update_same, T.cellOf,
              T.ptr_leaf, true_and]
            refine ⟨?_, ?_⟩
            · simp [hid, Interval.ID]
            · refine hm2.congr ?_
              intro x hx
              have := T.addrs_relabel r _ x hx
              exact Heap.upd_cell_ne _ _ _ _ (by omega)
          · simp only [Heap.alloc] at hn2
            simp only [Heap.upd_next, hn2, T.size, Heap.alloc]
            omega
          · intro x hx
            simp only [Heap.alloc] at hfr2 ⊢
            rw [Heap.upd_cell_ne _ _ _ _ (by omega), hfr2 x (by omega)]
            exact Function.update_noteq (by omega) _ _
      · obtain ⟨h1, hread1, hm1, hn1, hfr1⟩ := ihl fuel
          (h.alloc (node.mk (some ⟨d.interval.From, d.interval.To, d.interval.Id⟩)
            d.max d.min none none
            (decide ((if d.red = true then 1 else 0) = 1)) d.interval.Id)).1
          (specRecords r ++ rest) hl hfl hwl hidl
        by_cases hr : r = T.leaf
        · subst hr
          simp only [specFlags, if_true, if_neg hl, specRecords, List.nil_append, Nat.add_zero,
            e1, e7, zero_ne_one, if_false]
          simp only [specRecords, List.nil_append] at hread1
          simp only [hread1]
          refine ⟨_, rfl, ?_, ?_, ?_⟩
          · simp only [Heap.alloc] at hm1 hn1 hfr1 ⊢
            simp only [T.relabel, T.Models, T.size, T.ptr_relabel _ _ hl,
              Heap.upd_cell_same, hfr1 h.next (by omega), Function.update_same, T.cellOf,
              T.ptr_leaf, and_true]
            refine ⟨?_, ?_⟩
            · simp [hid, Interval.ID]
            · refine hm1.congr ?_
              intro x hx
              have := T.addrs_relabel l _ x hx
              exact Heap.upd_cell_ne _ _ _ _ (by omega)
          · simp only [Heap.alloc] at hn1
            simp only [Heap.upd_next, hn1, T.size, Heap.alloc]
            omega
          · intro x hx
            simp only [Heap.alloc] at hfr1 ⊢
            rw [Heap.upd_cell_ne _ _ _ _ (by omega), hfr1 x (by omega)]
            exact Function.update_noteq (by omega) _ _
        · obtain ⟨h2, hread2, hm2, hn2, hfr2⟩ := ihr fuel
            (h1.upd h.next (fun x => { x with c0 := some (h.next + 1) })) rest hr hfr hwr hidr
          simp only [specFlags, if_neg hr, if_neg hl, e4, e5, if_true,
            show (1 + 2 : Nat) = 3 from rfl]
          simp only [hread1]
          simp only [Heap.alloc] at hm1 hn1 hfr1 hread2 ⊢
          simp only [hread2]
          simp only [Heap.upd_next, hn1] at hm2 hn2 hfr2
          refine ⟨_, rfl, ?_, ?_, ?_⟩
          · simp only [T.relabel, T.Models, T.size, T.ptr_relabel _ _ hl, T.ptr_relabel _ _ hr,
              Heap.upd_cell_same, hfr2 h.next (by omega), hfr1 h.next (by omega),
              Function.update_same, T.cellOf]
            refine ⟨?_, ?_, ?_⟩
            · simp [hid, Interval.ID, hn1, Heap.upd_next]
            · refine hm1.congr ?_
              intro x hx
              have := T.addrs_relabel l _ x hx
              rw [Heap.upd_cell_ne _ _ _ _ (by omega), hfr2 x (by omega)]
              exact Heap.upd_cell_ne _ _ _ _ (by omega)
            · refine hm2.congr ?_
              intro x hx
              have := T.addrs_relabel r _ x hx
              exact Heap.upd_cell_ne _ _ _ _ (by omega)
          · simp only [Heap.upd_next, hn2, T.size]
            omega
          · intro x hx
            rw [Heap.upd_cell_ne _ _ _ _ (by omega), hfr2 x (by omega),
              Heap.upd_cell_ne _ _ _ _ (by omega), hfr1 x (by omega)]
            exact Function.update_noteq (by omega) _ _

theorem T.visitOrder_relabel (t : T) :
    ∀ k, (t.relabel k).visitOrder.map (fun x => x.2) = t.visitOrder.map (fun x => x.2) := by
  induction t with
  | leaf => intro k; rfl
  | nd l a d r ihl ihr =>
    intro k
    simp only [T.relabel, T.visitOrder, List.map_cons, List.map_append, ihl, ihr]

/-- C7: round trip of the codec.  For every tree in memory with a present root, a
nonzero count below `2^64`, fields that fit `uint32` and `id` the copy of the interval's
identifier, `NewFromFile` on the bytes of `WriteToFile` succeeds and returns a tree
with the same `Len()` whose nodes form a tree of the same shape, intervals, ids, `min`,
`max` and colours; hence `Traverse` on it calls the callback as on the original. -/
theorem c7_codec_round_trip (h : Heap) (t : T) (number : Nat) (fuel : Nat)
    (hm : t.Models h) (hne : t ≠ T.leaf) (hn0 : number ≠ 0) (hn : number < 2 ^ 64)
    (hw : t.Wide) (hid : t.IdCached) (hf : t.height ≤ fuel) :
    ∃ (bytes : List Nat) (tr : tree) (t' : T),
      WriteToFile fuel (treeOf h t number) = some bytes ∧
      NewFromFile fuel (some bytes) = Except.ok (some tr) ∧
      tr.Len = (treeOf h t number).Len ∧
      t'.Models tr.heap ∧ tr.root = t'.ptr ∧ t'.shape = t.shape ∧
      ∀ (σ : Type) (fn : σ → Option Interval → σ) (acc : σ) (fuel' : Nat),
        t.size + 2 ≤ fuel' →
        tr.Traverse fuel' fn acc = (treeOf h t number).Traverse fuel' fn acc := by
  obtain ⟨h', hread, hm', _, _⟩ := readNode_spec t fuel New.heap [] hne hf hw hid
  rw [List.append_nil] at hread
  refine ⟨specEncoding number t, ⟨h', some New.heap.next, number⟩, t.relabel New.heap.next,
    writeNode_spec h t fuel _ hm hf hne, ?_, rfl, hm', (T.ptr_relabel t _ hne).symm,
    T.shape_relabel t _, ?_⟩
  · simp only [NewFromFile, specEncoding, bufRead_putUint64, bind, Except.bind,
      bigEndian_putUint64 _ hn, if_neg hn0, hread, pure, Except.pure]
  · intro σ fn acc fuel' hf'
    have h1 := traverseLoop_spec fn h' fuel' [t.relabel New.heap.next] acc (by simpa using hm')
      (by cases t <;> simp [T.pops, T.size, T.relabel, T.size_relabel] at hf' ⊢ <;> omega)
    have h2 := traverseLoop_spec fn h fuel' [t] acc (by simpa using hm)
      (by cases t <;> simp [T.pops, T.size] at hf' ⊢ <;> omega)
    simp only [List.map_cons, List.map_nil, List.flatMap_cons, List.flatMap_nil,
      List.append_nil] at h1 h2
    simp only [tree.Traverse, treeOf]
    rw [h2, ← T.ptr_relabel t New.heap.next hne, h1]
    have e : ∀ (t : T), t.visitOrder.map (fun x => some x.2.interval) =
        (t.visitOrder.map (fun x => x.2)).map (fun d => some d.interval) := by
      intro t; simp
    rw [e, e, T.visitOrder_relabel]

/-- C7 on the tree of the scenario, whose three nodes satisfy the hypotheses. -/
theorem c7_scenario :
    (scenarioT.Models scenarioTree.heap ∧ scenarioT ≠ T.leaf ∧ scenarioT.Wide ∧
      scenarioT.IdCached ∧ scenarioT.height ≤ 2) ∧
    ∃ (bytes : List Nat) (tr : tree) (t' : T),
      WriteToFile 2 (treeOf scenarioTree.heap scenarioT 3) = some bytes ∧
      NewFromFile 2 (some bytes) = Except.ok (some tr) ∧
      tr.Len = (treeOf scenarioTree.heap scenarioT 3).Len ∧
      t'.Models tr.heap ∧ tr.root = t'.ptr ∧ t'.shape = scenarioT.shape ∧
      ∀ (σ : Type) (fn : σ → Option Interval → σ) (acc : σ) (fuel' : Nat),
        scenarioT.size + 2 ≤ fuel' →
        tr.Traverse fuel' fn acc =
          (treeOf scenarioTree.heap scenarioT 3).Traverse fuel' fn acc :=
  ⟨⟨by decide, by decide, by decide, by decide, by decide⟩,
    c7_codec_round_trip scenarioTree.heap scenarioT 3 2 (by decide) (by decide) (by decide)
      (by decide) (by decide) (by decide) (by decide)⟩

/-! ## Rotations in memory -/

/-! ## Memory updates -/

theorem Heap.upd_eq_set (h : Heap) (a : Nat) (f : node → node) :
    h.upd a f = h.set a (f (h.cell a)) := rfl

theorem Heap.cell_set (h : Heap) (a b : Nat) (n : node) :
    (h.set a n).cell b = if b = a then n else h.cell b := by
  by_cases hb : b = a
  · subst hb; simp [Heap.set]
  · simp [Heap.set, Function.update_noteq hb, hb]

theorem Heap.cell_set_same (h : Heap) (a : Nat) (n : node) : (h.set a n).cell a = n := by
  simp [Heap.cell_set]

theorem Heap.cell_set_ne (h : Heap) (a b : Nat) (n : node) (hb : b ≠ a) :
    (h.set a n).cell b = h.cell b := by
  simp [Heap.cell_set, hb]

theorem Heap.next_set (h : Heap) (a : Nat) (n : node) : (h.set a n).next = h.next := rfl

theorem Heap.ext' {h h' : Heap} (hc : ∀ a, h.cell a = h'.cell a) (hn : h.next = h'.next) :
    h = h' := by
  cases h; cases h'
  simp only [Heap.mk.injEq]
  exact ⟨funext hc, hn⟩

theorem Heap.set_set (h : Heap) (a : Nat) (n m : node) : (h.set a n).set a m = h.set a m := by
  refine Heap.ext' ?_ rfl
  intro b
  simp only [Heap.cell_set]
  split <;> rfl

theorem Heap.set_cell (h : Heap) (a : Nat) : h.set a (h.cell a) = h := by
  refine Heap.ext' ?_ rfl
  intro b
  simp only [Heap.cell_set]
  split
  · rename_i hb; rw [hb]
  · rfl

theorem setMax_eq (h : Heap) (p : Nat) (iv : Interval) (hiv : (h.cell p).interval = some iv)
    (h0 : (h.cell p).c0 ≠ some p) (h1 : (h.cell p).c1 ≠ some p) :
    setMax h (some p) = some (h.set p
      { h.cell p with
        max := Nat.max (Nat.max iv.High (hmax h (h.cell p).c0)) (hmax h (h.cell p).c1) }) := by
  simp only [setMax, Option.bind_eq_bind, Option.some_bind, hiv, Option.pure_def,
    Option.some.injEq, Heap.upd_eq_set]
  rcases hc0 : (h.cell p).c0 with _ | c0 <;> rcases hc1 : (h.cell p).c1 with _ | c1
  · simp [hmax, Heap.cell_set_same, hc0, hc1]
  · have e1 : c1 ≠ p := fun e => h1 (by rw [hc1, e])
    simp only [hmax, Heap.cell_set_same, Heap.cell_set_ne _ _ _ _ e1, Nat.max_def, hc0, hc1]
    split_ifs <;> (try simp only [Heap.cell_set_same, Heap.set_set]) <;>
      first | rfl | (exfalso; omega) | (congr 2; omega)
  · have e0 : c0 ≠ p := fun e => h0 (by rw [hc0, e])
    simp only [hmax, Heap.cell_set_same, Heap.cell_set_ne _ _ _ _ e0, Nat.max_def, hc0, hc1]
    split_ifs <;> (try simp only [Heap.cell_set_same, Heap.set_set]) <;>
      first | rfl | (exfalso; omega) | (congr 2; omega)
  · have e0 : c0 ≠ p := fun e => h0 (by rw [hc0, e])
    have e1 : c1 ≠ p := fun e => h1 (by rw [hc1, e])
    simp only [hmax, Heap.cell_set_same, Heap.cell_set_ne _ _ _ _ e0, Nat.max_def, hc0, hc1]
    split_ifs <;> (try simp only [Heap.cell_set_same, Heap.set_set, Heap.cell_set_ne _ _ _ _ e1]) <;>
      split_ifs <;> (try simp only [Heap.cell_set_same, Heap.set_set]) <;>
      first | rfl | (exfalso; omega) | (congr 2; omega)

theorem setMin_eq (h : Heap) (p : Nat) (iv : Interval) (hiv : (h.cell p).interval = some iv)
    (h0 : (h.cell p).c0 ≠ some p) (h1 : (h.cell p).c1 ≠ some p) :
    setMin h (some p) = some (h.set p
      { h.cell p with
        min := hminWith h (h.cell p).c1 (hminWith h (h.cell p).c0 iv.Low) }) := by
  simp only [setMin, Option.bind_eq_bind, Option.some_bind, hiv, Option.pure_def,
    Option.some.injEq, Heap.upd_eq_set]
  rcases hc0 : (h.cell p).c0 with _ | c0 <;> rcases hc1 : (h.cell p).c1 with _ | c1
  · simp [hminWith, Heap.cell_set_same, hc0, hc1]
  · have e1 : c1 ≠ p := fun e => h1 (by rw [hc1, e])
    simp only [hminWith, Heap.cell_set_same, Heap.cell_set_ne _ _ _ _ e1, hc0, hc1]
    split_ifs <;> (try simp only [Heap.cell_set_same, Heap.set_set, Option.some_bind]) <;>
      split_ifs <;> (try simp only [Heap.cell_set_same, Heap.set_set, Option.some_bind]) <;>
      first | rfl | (exfalso; omega) | (congr 2; omega)
  · have e0 : c0 ≠ p := fun e => h0 (by rw [hc0, e])
    simp only [hminWith, Heap.cell_set_same, Heap.cell_set_ne _ _ _ _ e0, hc0, hc1]
    split_ifs <;> (try simp only [Heap.cell_set_same, Heap.set_set, Option.some_bind]) <;>
      split_ifs <;> (try simp only [Heap.cell_set_same, Heap.set_set, Option.some_bind]) <;>
      first | rfl | (exfalso; omega) | (congr 2; omega)
  · have e0 : c0 ≠ p := fun e => h0 (by rw [hc0, e])
    have e1 : c1 ≠ p := fun e => h1 (by rw [hc1, e])
    simp only [hminWith, Heap.cell_set_same, Heap.cell_set_ne _ _ _ _ e0, hc0, hc1]
    split_ifs <;>
      (try simp only [Heap.cell_set_same, Heap.set_set, Heap.cell_set_ne _ _ _ _ e1,
        Option.some_bind]) <;>
      split_ifs <;> (try simp only [Heap.cell_set_same, Heap.set_set, Option.some_bind]) <;>
      split_ifs <;> (try simp only [Heap.cell_set_same, Heap.set_set, Option.some_bind]) <;>
      first | rfl | (exfalso; omega) | (congr 2; omega)

/-! ## Reading a tree in memory -/

theorem T.ptr_mem_addrs {t : T} {a : Nat} (h : t.ptr = some a) : a ∈ t.addrs := by
  cases t with
  | leaf => simp [T.ptr] at h
  | nd l b d r => simp only [T.ptr, Option.some.injEq] at h; simp [T.addrs, h]

theorem T.ptr_ne_of_not_mem {t : T} {a : Nat} (h : a ∉ t.addrs) : t.ptr ≠ some a :=
  fun e => h (T.ptr_mem_addrs e)

theorem hmax_ptr {h : Heap} {t : T} (hm : t.Models h) : hmax h t.ptr = t.rootMax := by
  cases t with
  | leaf => rfl
  | nd l a d r => simp [hmax, T.ptr, T.rootMax, hm.1, T.cellOf]

theorem hminWith_ptr {h : Heap} {t : T} (hm : t.Models h) (m : Nat) :
    hminWith h t.ptr m = t.minWith m := by
  cases t with
  | leaf => rfl
  | nd l a d r => simp [hminWith, T.ptr, T.minWith, hm.1, T.cellOf]

theorem hmax_set_ne (h : Heap) (a : Nat) (n : node) (c : Ptr) (hc : c ≠ some a) :
    hmax (h.set a n) c = hmax h c := by
  cases c with
  | none => rfl
  | some b =>
    have : b ≠ a := fun e => hc (by rw [e])
    simp [hmax, Heap.cell_set_ne _ _ _ _ this]

theorem hminWith_set_ne (h : Heap) (a : Nat) (n : node) (c : Ptr) (m : Nat) (hc : c ≠ some a) :
    hminWith (h.set a n) c m = hminWith h c m := by
  cases c with
  | none => rfl
  | some b =>
    have : b ≠ a := fun e => hc (by rw [e])
    simp [hminWith, Heap.cell_set_ne _ _ _ _ this]

theorem T.Models.set_not_mem {h : Heap} {t : T} (hm : t.Models h) (a : Nat) (n : node)
    (ha : a ∉ t.addrs) : t.Models (h.set a n) := by
  refine hm.congr ?_
  intro b hb
  exact Heap.cell_set_ne _ _ _ _ (fun e => ha (e ▸ hb))

theorem setMax_cell (h : Heap) (p : Nat) (hiv : (h.cell p).interval ≠ none)
    (h0 : (h.cell p).c0 ≠ some p) (h1 : (h.cell p).c1 ≠ some p) :
    setMax h (some p) = some (h.set p
      { h.cell p with
        max := Nat.max (Nat.max (h.cell p).high (hmax h (h.cell p).c0))
          (hmax h (h.cell p).c1) }) := by
  rcases hi : (h.cell p).interval with _ | iv
  · exact absurd hi hiv
  · rw [setMax_eq h p iv hi h0 h1]
    simp [node.high, hi]

theorem setMin_cell (h : Heap) (p : Nat) (hiv : (h.cell p).interval ≠ none)
    (h0 : (h.cell p).c0 ≠ some p) (h1 : (h.cell p).c1 ≠ some p) :
    setMin h (some p) = some (h.set p
      { h.cell p with
        min := hminWith h (h.cell p).c1 (hminWith h (h.cell p).c0 (h.cell p).low) }) := by
  rcases hi : (h.cell p).interval with _ | iv
  · exact absurd hi hiv
  · rw [setMin_eq h p iv hi h0 h1]
    simp [node.low, hi]

theorem hmax_set_same (h : Heap) (a : Nat) (n : node) : hmax (h.set a n) (some a) = n.max := by
  simp [hmax, Heap.cell_set_same]

theorem hminWith_set_same (h : Heap) (a : Nat) (n : node) (m : Nat) :
    hminWith (h.set a n) (some a) m = if n.min < m then n.min else m := by
  simp [hminWith, Heap.cell_set_same]

theorem Heap.set_set_set (h : Heap) (a b : Nat) (n m n' : node) (hab : a ≠ b) :
    ((h.set a n).set b m).set a n' = (h.set a n').set b m := by
  refine Heap.ext' ?_ rfl
  intro x
  simp only [Heap.cell_set]
  split_ifs <;> first | rfl | (exfalso; omega)

theorem rotate_models_zero (h : Heap) (A B C : T) (p c : Nat) (dp dc : Item)
    (hm : (T.nd A p dp (T.nd B c dc C)).Models h)
    (hnd : (T.nd A p dp (T.nd B c dc C)).addrs.Nodup) :
    rotate h (some p) 0 = some
      ((h.set p (T.cellOf A (Item.agg { dp with red := true } A B) B)).set c
        (T.cellOf (T.nd A p (Item.agg { dp with red := true } A B) B)
          (Item.agg { dc with red := false } (T.nd A p dp B) C) C), some c) := by
  obtain ⟨hp, hmA, hc, hmB, hmC⟩ := hm
  simp only [T.addrs, List.nodup_append, List.nodup_cons, List.mem_append, List.mem_cons,
    not_or, List.disjoint_cons_right, List.disjoint_append_right] at hnd
  obtain ⟨hnA, ⟨⟨hpB, hpc, hpC⟩, hnB, ⟨hcC, hnC⟩, hcB, hBC⟩, hpA, hAB, hcA, hAC⟩ := hnd
  have hcp : c ≠ p := fun e => hpc e.symm
  have hAp : A.ptr ≠ some p := T.ptr_ne_of_not_mem hpA
  have hAc : A.ptr ≠ some c := T.ptr_ne_of_not_mem hcA
  have hBp : B.ptr ≠ some p := T.ptr_ne_of_not_mem hpB
  have hBc : B.ptr ≠ some c := T.ptr_ne_of_not_mem hcB
  have hCp : C.ptr ≠ some p := T.ptr_ne_of_not_mem hpC
  have hCc : C.ptr ≠ some c := T.ptr_ne_of_not_mem hcC
  have hpc' : some p ≠ some c := fun e => hpc (Option.some.inj e)
  simp only [rotate, takeOpposite, Option.bind_eq_bind, Option.some_bind, hp, hc, T.cellOf,
    node.child, node.setChild, T.ptr_nd, Heap.upd_eq_set, Heap.cell_set_same,
    Heap.cell_set_ne _ _ _ _ hcp, Heap.cell_set_ne _ _ _ _ hpc, Heap.set_set, if_true,
    one_ne_zero, if_false, Nat.sub_zero, Heap.set_set_set _ _ _ _ _ _ hpc]
  rw [setMax_cell _ c (by simp [Heap.cell_set_same]) (by simpa [Heap.cell_set_same] using hpc')
    (by simpa [Heap.cell_set_same] using hCc)]
  simp only [Option.some_bind, Heap.cell_set_same, Heap.set_set, hmax_set_same,
    hmax_set_ne _ _ _ _ hCc, hmax_set_ne _ _ _ _ hCp, hmax_ptr hmC, hmax_set_ne _ _ _ _ hpc']
  rw [setMax_cell _ p (by simp [Heap.cell_set_same, Heap.cell_set_ne _ _ _ _ hpc])
    (by simpa [Heap.cell_set_same, Heap.cell_set_ne _ _ _ _ hpc] using hAp)
    (by simpa [Heap.cell_set_same, Heap.cell_set_ne _ _ _ _ hpc] using hBp)]
  simp only [Option.some_bind, Heap.cell_set_same, Heap.cell_set_ne _ _ _ _ hpc, Heap.set_set,
    hmax_set_same, Heap.set_set_set _ _ _ _ _ _ hpc,
    hmax_set_ne _ _ _ _ hAc, hmax_set_ne _ _ _ _ hAp, hmax_ptr hmA,
    hmax_set_ne _ _ _ _ hBc, hmax_set_ne _ _ _ _ hBp, hmax_ptr hmB]
  rw [setMin_cell _ c (by simp [Heap.cell_set_same]) (by simpa [Heap.cell_set_same] using hpc')
    (by simpa [Heap.cell_set_same] using hCc)]
  simp only [Option.some_bind, Heap.cell_set_same, Heap.set_set, hminWith_set_same,
    hminWith_set_ne _ _ _ _ _ hCc, hminWith_set_ne _ _ _ _ _ hCp, hminWith_ptr hmC,
    hminWith_set_ne _ _ _ _ _ hpc']
  rw [setMin_cell _ p (by simp [Heap.cell_set_same, Heap.cell_set_ne _ _ _ _ hpc])
    (by simpa [Heap.cell_set_same, Heap.cell_set_ne _ _ _ _ hpc] using hAp)
    (by simpa [Heap.cell_set_same, Heap.cell_set_ne _ _ _ _ hpc] using hBp)]
  simp only [Option.some_bind, Heap.cell_set_same, Heap.cell_set_ne _ _ _ _ hpc, Heap.set_set,
    hminWith_set_same, Heap.set_set_set _ _ _ _ _ _ hpc,
    hminWith_set_ne _ _ _ _ _ hAc, hminWith_set_ne _ _ _ _ _ hAp, hminWith_ptr hmA,
    hminWith_set_ne _ _ _ _ _ hBc, hminWith_set_ne _ _ _ _ _ hBp, hminWith_ptr hmB]
  simp [Item.agg, node.high, node.low, T.rootMax, T.minWith, Interval.High, Interval.Low]

theorem rotate_models_one (h : Heap) (A B C : T) (p c : Nat) (dp dc : Item)
    (hm : (T.nd (T.nd A c dc B) p dp C).Models h)
    (hnd : (T.nd (T.nd A c dc B) p dp C).addrs.Nodup) :
    rotate h (some p) 1 = some
      ((h.set p (T.cellOf B (Item.agg { dp with red := true } B C) C)).set c
        (T.cellOf A (Item.agg { dc with red := false } A (T.nd B p dp C))
          (T.nd B p (Item.agg { dp with red := true } B C) C)), some c) := by
  obtain ⟨hp, ⟨hc, hmA, hmB⟩, hmC⟩ := hm
  simp only [T.addrs, List.nodup_append, List.nodup_cons, List.mem_append, List.mem_cons,
    not_or, List.disjoint_cons_right, List.disjoint_append_right, List.disjoint_cons_left,
    List.disjoint_append_left] at hnd
  obtain ⟨⟨hnA, ⟨hcB, hnB⟩, hcA, hAB⟩, ⟨hpC, hnC⟩, ⟨hpA, hpc, hpB⟩, hAC, hcC, hBC⟩ := hnd
  have hcp : c ≠ p := fun e => hpc e.symm
  have hAp : A.ptr ≠ some p := T.ptr_ne_of_not_mem hpA
  have hAc : A.ptr ≠ some c := T.ptr_ne_of_not_mem hcA
  have hBp : B.ptr ≠ some p := T.ptr_ne_of_not_mem hpB
  have hBc : B.ptr ≠ some c := T.ptr_ne_of_not_mem hcB
  have hCp : C.ptr ≠ some p := T.ptr_ne_of_not_mem hpC
  have hCc : C.ptr ≠ some c := T.ptr_ne_of_not_mem hcC
  have hpc' : some p ≠ some c := fun e => hpc (Option.some.inj e)
  simp only [rotate, takeOpposite, Option.bind_eq_bind, Option.some_bind, hp, hc, T.cellOf,
    node.child, node.setChild, T.ptr_nd, Heap.upd_eq_set, Heap.cell_set_same,
    Heap.cell_set_ne _ _ _ _ hcp, Heap.cell_set_ne _ _ _ _ hpc, Heap.set_set, if_true,
    one_ne_zero, if_false, Nat.sub_self, Heap.set_set_set _ _ _ _ _ _ hpc]
  rw [setMax_cell _ c (by simp [Heap.cell_set_same]) (by simpa [Heap.cell_set_same] using hAc)
    (by simpa [Heap.cell_set_same] using hpc')]
  simp only [Option.some_bind, Heap.cell_set_same, Heap.set_set, hmax_set_same,
    hmax_set_ne _ _ _ _ hAc, hmax_set_ne _ _ _ _ hAp, hmax_ptr hmA, hmax_set_ne _ _ _ _ hpc']
  rw [setMax_cell _ p (by simp [Heap.cell_set_same, Heap.cell_set_ne _ _ _ _ hpc])
    (by simpa [Heap.cell_set_same, Heap.cell_set_ne _ _ _ _ hpc] using hBp)
    (by simpa [Heap.cell_set_same, Heap.cell_set_ne _ _ _ _ hpc] using hCp)]
  simp only [Option.some_bind, Heap.cell_set_same, Heap.cell_set_ne _ _ _ _ hpc, Heap.set_set,
    hmax_set_same, Heap.set_set_set _ _ _ _ _ _ hpc,
    hmax_set_ne _ _ _ _ hCc, hmax_set_ne _ _ _ _ hCp, hmax_ptr hmC,
    hmax_set_ne _ _ _ _ hBc, hmax_set_ne _ _ _ _ hBp, hmax_ptr hmB]
  rw [setMin_cell _ c (by simp [Heap.cell_set_same]) (by simpa [Heap.cell_set_same] using hAc)
    (by simpa [Heap.cell_set_same] using hpc')]
  simp only [Option.some_bind, Heap.cell_set_same, Heap.set_set, hminWith_set_same,
    hminWith_set_ne _ _ _ _ _ hAc, hminWith_set_ne _ _ _ _ _ hAp, hminWith_ptr hmA,
    hminWith_set_ne _ _ _ _ _ hpc']
  rw [setMin_cell _ p (by simp [Heap.cell_set_same, Heap.cell_set_ne _ _ _ _ hpc])
    (by simpa [Heap.cell_set_same, Heap.cell_set_ne _ _ _ _ hpc] using hBp)
    (by simpa [Heap.cell_set_same, Heap.cell_set_ne _ _ _ _ hpc] using hCp)]
  simp only [Option.some_bind, Heap.cell_set_same, Heap.cell_set_ne _ _ _ _ hpc, Heap.set_set,
    hminWith_set_same, Heap.set_set_set _ _ _ _ _ _ hpc,
    hminWith_set_ne _ _ _ _ _ hCc, hminWith_set_ne _ _ _ _ _ hCp, hminWith_ptr hmC,
    hminWith_set_ne _ _ _ _ _ hBc, hminWith_set_ne _ _ _ _ _ hBp, hminWith_ptr hmB]
  simp [Item.agg, node.high, node.low, T.rootMax, T.minWith, Interval.High, Interval.Low]

/-! ## Paths in memory -/

theorem Frame.ptr_plug (f : Frame) (t : T) : (f.plug t).ptr = some f.addr := by
  unfold Frame.plug; split <;> rfl

theorem Frame.models_plug (h : Heap) (f : Frame) (t : T) :
    (f.plug t).Models h ↔ h.cell f.addr = f.cellWith t.ptr ∧ f.sib.Models h ∧ t.Models h := by
  unfold Frame.plug Frame.cellWith
  split <;> simp only [T.Models, T.cellOf] <;> tauto

theorem plug_models (h : Heap) (ctx : List Frame) :
    ∀ t : T, ((plug ctx t).Models h ∧ (h.cell dummyAddr).c1 = (plug ctx t).ptr) ↔
      (t.Models h ∧ CtxModels h ctx t.ptr) := by
  induction ctx with
  | nil => intro t; simp [plug, CtxModels]
  | cons f fs ih =>
    intro t
    rw [plug, ih (f.plug t), Frame.models_plug, CtxModels, Frame.ptr_plug]
    tauto

theorem Frame.nodes_plug_one (f : Frame) (t : T) :
    (f.plug t).nodes =
      (if f.dir = 0 then [] else f.sib.nodes ++ [(f.addr, f.d)]) ++ t.nodes ++
        (if f.dir = 0 then (f.addr, f.d) :: f.sib.nodes else []) := by
  unfold Frame.plug; split <;> simp [T.nodes]

theorem nodes_plug (ctx : List Frame) :
    ∀ t : T, (plug ctx t).nodes = ctxL ctx ++ t.nodes ++ ctxR ctx := by
  induction ctx with
  | nil => intro t; simp [plug, ctxL, ctxR]
  | cons f fs ih =>
    intro t
    rw [plug, ih, Frame.nodes_plug_one]
    simp [ctxL, ctxR, List.append_assoc]

theorem T.addrs_eq_nodes (t : T) : t.addrs = t.nodes.map Prod.fst := by
  induction t with
  | leaf => rfl
  | nd l a d r ihl ihr => simp [T.addrs, T.nodes, ihl, ihr]

theorem T.items_eq_nodes (t : T) : t.items = t.nodes.map Prod.snd := by
  induction t with
  | leaf => rfl
  | nd l a d r ihl ihr => simp [T.items, T.nodes, ihl, ihr]

theorem Frame.bh_plug (f : Frame) (t : T) (hb : f.sib.bh = t.bh) :
    (f.plug t).bh = t.bh + (if f.d.red then 0 else 1) := by
  unfold Frame.plug; split <;> simp [T.bh, hb]

theorem plug_balanced (ctx : List Frame) :
    ∀ t : T, (plug ctx t).Balanced ↔ (t.Balanced ∧ CtxBal ctx t.bh) := by
  induction ctx with
  | nil => intro t; simp [plug, CtxBal]
  | cons f fs ih =>
    intro t
    rw [plug, ih, CtxBal]
    constructor
    · rintro ⟨hb, hc⟩
      have hb' : f.sib.bh = t.bh ∧ f.sib.Balanced ∧ t.Balanced := by
        unfold Frame.plug at hb
        split at hb
        · exact ⟨hb.1.symm, hb.2.2, hb.2.1⟩
        · exact ⟨hb.1, hb.2.1, hb.2.2⟩
      rw [Frame.bh_plug f t hb'.1] at hc
      exact ⟨hb'.2.2, hb'.1, hb'.2.1, hc⟩
    · rintro ⟨hb, h1, h2, h3⟩
      rw [Frame.bh_plug f t h1]
      refine ⟨?_, h3⟩
      unfold Frame.plug
      split
      · exact ⟨h1.symm, hb, h2⟩
      · exact ⟨h1, h2, hb⟩

theorem Frame.isRed_plug (f : Frame) (t : T) : (f.plug t).isRed = f.d.red := by
  unfold Frame.plug; split <;> rfl

theorem plug_noRR (ctx : List Frame) :
    ∀ t : T, (plug ctx t).NoRR ↔ (t.NoRR ∧ CtxNoRR ctx t.isRed) := by
  induction ctx with
  | nil => intro t; simp [plug, CtxNoRR]
  | cons f fs ih =>
    intro t
    rw [plug, ih, CtxNoRR, Frame.isRed_plug]
    unfold Frame.plug
    split <;> simp only [T.NoRR] <;> tauto

theorem Frame.rootMax_plug (f : Frame) (t : T) : (f.plug t).rootMax = f.d.max := by
  unfold Frame.plug; split <;> rfl

theorem Frame.rootMin_plug (f : Frame) (t : T) : (f.plug t).rootMin = some f.d.min := by
  unfold Frame.plug; split <;> rfl

theorem T.minWith_eq (t : T) (x : Nat) : t.minWith x = optMin t.rootMin x := by
  cases t <;> rfl

theorem optMin_comm (a b : Option Nat) (x : Nat) :
    optMin a (optMin b x) = optMin b (optMin a x) := by
  cases a <;> cases b <;> simp only [optMin] <;> split_ifs <;> omega

theorem plug_lexact (ctx : List Frame) :
    ∀ t : T, (plug ctx t).LExact ↔ (t.LExact ∧ CtxAgg ctx t.rootMax t.rootMin) := by
  induction ctx with
  | nil => intro t; simp [plug, CtxAgg]
  | cons f fs ih =>
    intro t
    rw [plug, ih, CtxAgg, Frame.rootMax_plug, Frame.rootMin_plug]
    unfold Frame.plug
    split
    · simp only [T.LExact, T.minWith_eq]
      constructor
      · rintro ⟨⟨h1, h2, h3, h4⟩, h5⟩
        exact ⟨h3, h1, h2, h4, h5⟩
      · rintro ⟨h3, h1, h2, h4, h5⟩
        exact ⟨⟨h1, h2, h3, h4⟩, h5⟩
    · simp only [T.LExact, T.minWith_eq]
      constructor
      · rintro ⟨⟨h1, h2, h3, h4⟩, h5⟩
        refine ⟨h4, ?_, ?_, h3, h5⟩
        · rw [h1]; simp only [Nat.max_def]; split_ifs <;> omega
        · rw [h2, optMin_comm]
      · rintro ⟨h3, h1, h2, h4, h5⟩
        refine ⟨⟨?_, ?_, h4, h3⟩, h5⟩
        · rw [h1]; simp only [Nat.max_def]; split_ifs <;> omega
        · rw [h2, optMin_comm]

theorem CtxModels.congr_ctx {h h' : Heap} {ctx : List Frame} {p : Ptr} (hm : CtxModels h ctx p)
    (he : ∀ a ∈ dummyAddr :: ctxAddrs ctx, h'.cell a = h.cell a) : CtxModels h' ctx p := by
  induction ctx generalizing p with
  | nil => simp only [CtxModels] at hm ⊢; rw [he _ (by simp)]; exact hm
  | cons f fs ih =>
    obtain ⟨h1, h2, h3⟩ := hm
    refine ⟨?_, ?_, ih h3 ?_⟩
    · rw [he _ (by simp [ctxAddrs])]; exact h1
    · exact h2.congr (fun a ha => he a (by simp [ctxAddrs, ha]))
    · intro a ha
      apply he
      simp only [List.mem_cons, ctxAddrs, List.mem_append] at ha ⊢
      tauto

/-! ## The statements of `add` in memory -/

theorem isRed_ptr {h : Heap} {t : T} (hm : t.Models h) : isRed h t.ptr = t.isRed := by
  cases t with
  | leaf => rfl
  | nd l a d r => simp [isRed, T.ptr, T.isRed, hm.1, T.cellOf]

theorem T.Models.set_root {h : Heap} {l r : T} {a : Nat} {d e : Item}
    (hm : (T.nd l a d r).Models h) (hl : a ∉ l.addrs) (hr : a ∉ r.addrs) :
    (T.nd l a e r).Models (h.set a (T.cellOf l e r)) :=
  ⟨Heap.cell_set_same _ _ _, hm.2.1.set_not_mem _ _ hl, hm.2.2.set_not_mem _ _ hr⟩

theorem bumpH_eq (iv : Interval) (h : Heap) (n : Nat) :
    bumpH iv h n = h.set n
      { h.cell n with
        max := if iv.High > (h.cell n).max then iv.High else (h.cell n).max
        min := if iv.Low < (h.cell n).min then iv.Low else (h.cell n).min } := by
  unfold bumpH
  simp only [Heap.upd_eq_set]
  split_ifs <;> simp_all [Heap.cell_set_same, Heap.set_set]
  exact (Heap.set_cell h n).symm

theorem bumpH_models (iv : Interval) (h : Heap) (t : T) (n : Nat) (hp : t.ptr = some n)
    (hm : t.Models h) (hnd : t.addrs.Nodup) :
    (bumpT iv t).Models (bumpH iv h n) := by
  cases t with
  | leaf => simp [T.ptr] at hp
  | nd l a d r =>
    simp only [T.ptr, Option.some.injEq] at hp
    subst hp
    simp only [T.addrs, List.nodup_append, List.nodup_cons, List.disjoint_cons_right] at hnd
    rw [bumpH_eq, bumpT]
    have := hm.set_root (e := d.bump iv) (fun e => hnd.2.2.1 e) hnd.2.1.1
    have hc := hm.1
    simp only [T.cellOf] at this hc ⊢
    simpa [hc, Item.bump] using this

theorem addVisit_nd (iv : Interval) (s : AddState) (l r : T) (n : Nat) (d : Item)
    (hs : s.node = some n) (hm : (T.nd l n d r).Models s.heap)
    (hnd : (T.nd l n d r).addrs.Nodup) :
    ∃ h', addVisit iv s = some (h', s.number, n) ∧ (flipT (T.nd l n d r)).Models h' ∧
      h'.next = s.heap.next ∧ ∀ a, a ∉ (T.nd l n d r).addrs → h'.cell a = s.heap.cell a := by
  have hc := hm.1
  have h0 : (s.heap.cell n).c0 = l.ptr := by rw [hc]; rfl
  have h1 : (s.heap.cell n).c1 = r.ptr := by rw [hc]; rfl
  have hnoflip : (l.isRed && r.isRed) = false →
      ∃ h', addVisit iv s = some (h', s.number, n) ∧ (T.nd l n d r).Models h' ∧
        h'.next = s.heap.next ∧ ∀ a, a ∉ (T.nd l n d r).addrs → h'.cell a = s.heap.cell a := by
    intro hf
    refine ⟨s.heap, ?_, hm, rfl, fun _ _ => rfl⟩
    simp [addVisit, hs, h0, h1, isRed_ptr hm.2.1, isRed_ptr hm.2.2, hf]
  cases l with
  | leaf => simpa [flipT] using hnoflip (by simp [T.isRed])
  | nd ll la dl lr =>
    cases r with
    | leaf => simpa [flipT] using hnoflip (by simp [T.isRed])
    | nd rl ra dr rr =>
      by_cases hf : (dl.red && dr.red) = true
      · simp only [flipT, hf, if_true]
        simp only [T.addrs, List.nodup_append, List.nodup_cons, List.mem_append, List.mem_cons,
          not_or, List.disjoint_cons_right, List.disjoint_append_right, List.disjoint_cons_left,
          List.disjoint_append_left] at hnd
        obtain ⟨hcl, hmll, hmlr⟩ := hm.2.1
        obtain ⟨hcr, hmrl, hmrr⟩ := hm.2.2
        obtain ⟨⟨hnll, ⟨hla_lr, hnlr⟩, hla_ll, hll_lr⟩, ⟨⟨hn_rl, hn_ra, hn_rr⟩, hnrl,
          ⟨hra_rr, hnrr⟩, hra_rl, hrl_rr⟩, ⟨hn_ll, hn_la, hn_lr⟩, ⟨hll_rl, hla_rl, hlr_rl⟩,
          ⟨hra_ll, hla_ra, hra_lr⟩, hll_rr, hla_rr, hlr_rr⟩ := hnd
        have hdl : dl.red = true := by simp only [Bool.and_eq_true] at hf; exact hf.1
        have hdr : dr.red = true := by simp only [Bool.and_eq_true] at hf; exact hf.2
        have e1 : la ≠ n := fun e => hn_la e.symm
        have e2 : ra ≠ n := fun e => hn_ra e.symm
        have e3 : la ≠ ra := fun e => hla_ra e.symm
        refine ⟨((s.heap.set n (T.cellOf (T.nd ll la dl lr) { d with red := true }
            (T.nd rl ra dr rr))).set la (T.cellOf ll { dl with red := false } lr)).set ra
            (T.cellOf rl { dr with red := false } rr), ?_, ⟨?_, ⟨?_, ?_, ?_⟩, ⟨?_, ?_, ?_⟩⟩,
            rfl, ?_⟩
        · simp [addVisit, hs, h0, h1, isRed, T.ptr_nd, hcl, hcr, hc, T.cellOf, hdl, hdr,
            Heap.upd_eq_set, Heap.cell_set, e1, e2, e3, hn_la, hn_ra, hla_ra]
        · simp [Heap.cell_set, e1, e2, e3, hn_la, hn_ra, hla_ra, T.cellOf, T.ptr_nd]
        · simp [Heap.cell_set, e1, e2, e3, hn_la, hn_ra, hla_ra]
        · exact ((hmll.set_not_mem _ _ hn_ll).set_not_mem _ _ hla_ll).set_not_mem _ _ hra_ll
        · exact ((hmlr.set_not_mem _ _ hn_lr).set_not_mem _ _ hla_lr).set_not_mem _ _ hra_lr
        · simp [Heap.cell_set, e1, e2, e3, hn_la, hn_ra, hla_ra]
        · exact ((hmrl.set_not_mem _ _ hn_rl).set_not_mem _ _ hla_rl).set_not_mem _ _ hra_rl
        · exact ((hmrr.set_not_mem _ _ hn_rr).set_not_mem _ _ hla_rr).set_not_mem _ _ hra_rr
        · intro a ha
          simp only [T.addrs, List.mem_append, List.mem_cons, not_or] at ha
          simp [Heap.cell_set, ha]
      · simpa [flipT, hf] using hnoflip (by simpa [T.isRed] using hf)

theorem Frame.setChild_cellWith (f : Frame) (p p' : Ptr) :
    (f.cellWith p).setChild f.dir p' = f.cellWith p' := by
  unfold Frame.cellWith node.setChild
  split <;> rfl

theorem Frame.child_cellWith (f : Frame) (p : Ptr) : (f.cellWith p).child f.dir = p := by
  unfold Frame.cellWith node.child
  split <;> rfl

theorem Frame.child_cellWith_other (f : Frame) (p : Ptr) (hd : f.dir ≤ 1) :
    (f.cellWith p).child (takeOpposite f.dir) = f.sib.ptr := by
  unfold Frame.cellWith node.child takeOpposite
  have : f.dir = 0 ∨ f.dir = 1 := by omega
  rcases this with h | h <;> simp [h]

theorem Heap.cell_alloc (h : Heap) (n : node) (b : Nat) :
    (h.alloc n).1.cell b = if b = h.next then n else h.cell b := by
  simp only [Heap.alloc]
  by_cases hb : b = h.next
  · subst hb; simp
  · simp [Function.update_noteq hb, hb]

theorem addVisit_leaf (iv : Interval) (s : AddState) (f : Frame) (fs : List Frame)
    (hs : s.node = none) (hp : s.parent = some f.addr) (hd : s.dir = f.dir)
    (hC : CtxModels s.heap (f :: fs) none)
    (hnd : (dummyAddr :: ctxAddrs (f :: fs)).Nodup)
    (hlt : ∀ a ∈ dummyAddr :: ctxAddrs (f :: fs), a < s.heap.next) :
    ∃ h', addVisit iv s = some (h', (s.number + 1) % 2 ^ 64, s.heap.next) ∧
      (T.nd T.leaf s.heap.next (newItem iv) T.leaf).Models h' ∧
      CtxModels h' (f :: fs) (some s.heap.next) ∧ h'.next = s.heap.next + 1 ∧
      ∀ a, a ≠ f.addr → a ≠ s.heap.next → h'.cell a = s.heap.cell a := by
  obtain ⟨hcf, hsib, hrest⟩ := hC
  have hfn : f.addr ≠ s.heap.next := by
    have := hlt f.addr (by simp [ctxAddrs]); omega
  simp only [ctxAddrs, List.nodup_cons, List.mem_cons, List.mem_append, not_or,
    List.nodup_append] at hnd
  refine ⟨((newNode s.heap iv iv.Low iv.High).1).set f.addr (f.cellWith (some s.heap.next)),
    ?_, ⟨?_, trivial, trivial⟩, ⟨?_, ?_, ?_⟩, rfl, ?_⟩
  · simp [addVisit, hs, hp, hd, newNode, Heap.upd_eq_set, Heap.cell_alloc, hfn, hcf,
      Frame.setChild_cellWith]
    exact ⟨rfl, rfl⟩
  · rw [Heap.cell_set_ne _ _ _ _ (Ne.symm hfn)]
    simp [newNode, Heap.cell_alloc, T.cellOf, newItem, T.ptr_leaf]
  · exact Heap.cell_set_same _ _ _
  · refine hsib.congr ?_
    intro a ha
    have h1 : a ≠ f.addr := fun e => hnd.2.1.1 (e ▸ ha)
    have h2 : a ≠ s.heap.next := by
      have := hlt a (by simp [ctxAddrs, ha]); omega
    rw [Heap.cell_set_ne _ _ _ _ h1]
    simp [newNode, Heap.cell_alloc, h2]
  · refine hrest.congr_ctx ?_
    intro a ha
    have h1 : a ≠ f.addr := by
      simp only [List.mem_cons] at ha
      rcases ha with ha | ha
      · intro e; exact hnd.1.1 (by rw [← e, ha])
      · intro e; exact hnd.2.1.2 (e ▸ ha)
    have h2 : a ≠ s.heap.next := by
      have := hlt a (by
        simp only [List.mem_cons, ctxAddrs, List.mem_append] at ha ⊢
        tauto)
      omega
    rw [Heap.cell_set_ne _ _ _ _ h1]
    simp [newNode, Heap.cell_alloc, h2]
  · intro a h1 h2
    rw [Heap.cell_set_ne _ _ _ _ h1]
    simp [newNode, Heap.cell_alloc, h2]

/-! ## The rotations of `add` on a path -/

theorem rotate_sgl (h : Heap) (fp fg : Frame) (q : T) (hdir : fp.dir = fg.dir)
    (hle : fg.dir ≤ 1) (hm : (fg.plug (fp.plug q)).Models h)
    (hnd : (fg.plug (fp.plug q)).addrs.Nodup) :
    rotate h (some fg.addr) (takeOpposite fg.dir) =
      some ((h.set fg.addr ((sglG fp fg).cellWith fp.sib.ptr)).set fp.addr
        ((sglP fp fg q).cellWith q.ptr), some fp.addr) := by
  have hd : fg.dir = 0 ∨ fg.dir = 1 := by omega
  rcases hd with hd | hd
  · simp only [Frame.plug, hdir, hd, if_true] at hm hnd
    rw [hd, show takeOpposite 0 = 1 from rfl, rotate_models_one h _ _ _ _ _ _ _ hm hnd]
    simp [sglG, sglP, Frame.cellWith, Frame.aggItem, Frame.plug, hd, T.cellOf, T.ptr_nd]
  · simp only [Frame.plug, hdir, hd, one_ne_zero, if_false] at hm hnd
    rw [hd, show takeOpposite 1 = 0 from rfl, rotate_models_zero h _ _ _ _ _ _ _ hm hnd]
    simp [sglG, sglP, Frame.cellWith, Frame.aggItem, Frame.plug, hd, T.cellOf, T.ptr_nd]

theorem rotate_result_zero (h : Heap) (A B C : T) (p c : Nat) (dp dc dp' dc' : Item)
    (hm : (T.nd A p dp (T.nd B c dc C)).Models h)
    (hnd : (T.nd A p dp (T.nd B c dc C)).addrs.Nodup) :
    (T.nd (T.nd A p dp' B) c dc' C).Models
      ((h.set p (T.cellOf A dp' B)).set c (T.cellOf (T.nd A p dp' B) dc' C)) := by
  obtain ⟨hp, hmA, hc, hmB, hmC⟩ := hm
  simp only [T.addrs, List.nodup_append, List.nodup_cons, List.mem_append, List.mem_cons,
    not_or, List.disjoint_cons_right, List.disjoint_append_right] at hnd
  obtain ⟨hnA, ⟨⟨hpB, hpc, hpC⟩, hnB, ⟨hcC, hnC⟩, hcB, hBC⟩, hpA, hAB, hcA, hAC⟩ := hnd
  refine ⟨Heap.cell_set_same _ _ _, ⟨?_, ?_, ?_⟩, ?_⟩
  · rw [Heap.cell_set_ne _ _ _ _ hpc, Heap.cell_set_same]
  · exact (hmA.set_not_mem _ _ hpA).set_not_mem _ _ hcA
  · exact (hmB.set_not_mem _ _ hpB).set_not_mem _ _ hcB
  · exact (hmC.set_not_mem _ _ hpC).set_not_mem _ _ hcC

theorem rotate_result_one (h : Heap) (A B C : T) (p c : Nat) (dp dc dp' dc' : Item)
    (hm : (T.nd (T.nd A c dc B) p dp C).Models h)
    (hnd : (T.nd (T.nd A c dc B) p dp C).addrs.Nodup) :
    (T.nd A c dc' (T.nd B p dp' C)).Models
      ((h.set p (T.cellOf B dp' C)).set c (T.cellOf A dc' (T.nd B p dp' C))) := by
  obtain ⟨hp, ⟨hc, hmA, hmB⟩, hmC⟩ := hm
  simp only [T.addrs, List.nodup_append, List.nodup_cons, List.mem_append, List.mem_cons,
    not_or, List.disjoint_cons_right, List.disjoint_append_right, List.disjoint_cons_left,
    List.disjoint_append_left] at hnd
  obtain ⟨⟨hnA, ⟨hcB, hnB⟩, hcA, hAB⟩, ⟨hpC, hnC⟩, ⟨hpA, hpc, hpB⟩, hAC, hcC, hBC⟩ := hnd
  refine ⟨Heap.cell_set_same _ _ _, ?_, ⟨?_, ?_, ?_⟩⟩
  · exact (hmA.set_not_mem _ _ hpA).set_not_mem _ _ hcA
  · rw [Heap.cell_set_ne _ _ _ _ hpc, Heap.cell_set_same]
  · exact (hmB.set_not_mem _ _ hpB).set_not_mem _ _ hcB
  · exact (hmC.set_not_mem _ _ hpC).set_not_mem _ _ hcC

theorem Heap.set_comm (h : Heap) (a b : Nat) (n m : node) (hab : a ≠ b) :
    (h.set a n).set b m = (h.set b m).set a n := by
  refine Heap.ext' ?_ rfl
  intro x
  simp only [Heap.cell_set]
  split_ifs <;> first | rfl | (exfalso; omega)

theorem Item.agg_agg (d : Item) (l r l' r' : T) (b : Bool) :
    Item.agg { Item.agg d l r with red := b } l' r' = Item.agg { d with red := b } l' r' := by
  rfl

theorem rotate_dbl (h : Heap) (fp fg : Frame) (ql qr : T) (n : Nat) (dq : Item)
    (hdir : fp.dir = takeOpposite fg.dir) (hle : fg.dir ≤ 1)
    (hm : (fg.plug (fp.plug (T.nd ql n dq qr))).Models h)
    (hnd : (fg.plug (fp.plug (T.nd ql n dq qr))).addrs.Nodup) :
    doubleRotate h (some fg.addr) (takeOpposite fg.dir) =
      some (((h.set fp.addr ((dblP fp fg (T.nd ql n dq qr)).cellWith
          ((T.nd ql n dq qr).child fg.dir).ptr)).set fg.addr
        ((dblG fp fg (T.nd ql n dq qr)).cellWith ((T.nd ql n dq qr).child fp.dir).ptr)).set n
        ((dblQ fp fg (T.nd ql n dq qr)).cellWith (some fp.addr)), some n) := by
  have hd : fg.dir = 0 ∨ fg.dir = 1 := by omega
  rcases hd with hd | hd
  · have hdp : fp.dir = 1 := by rw [hdir, hd]; rfl
    simp only [Frame.plug, hdp, hd, if_true, one_ne_zero, if_false] at hm hnd
    have hsub : (T.nd fp.sib fp.addr fp.d (T.nd ql n dq qr)).addrs.Nodup := by
      rw [T.addrs] at hnd; exact (List.nodup_append.1 hnd).1
    have hg : h.cell fg.addr = T.cellOf (T.nd fp.sib fp.addr fp.d (T.nd ql n dq qr)) fg.d
        fg.sib := hm.1
    have hnd1 := hnd
    simp only [T.addrs, List.nodup_append, List.nodup_cons, List.mem_append, List.mem_cons,
      not_or, List.disjoint_cons_right, List.disjoint_append_right, List.disjoint_cons_left,
      List.disjoint_append_left] at hnd1
    obtain ⟨-, ⟨hgs, -⟩, ⟨hgfs, hgp, hgql, hgn, hgqr⟩, -⟩ := hnd1
    have hpg : fp.addr ≠ fg.addr := fun e => hgp e.symm
    have hng : n ≠ fg.addr := fun e => hgn e.symm
    have hm2 : (T.nd (T.nd (T.nd fp.sib fp.addr
          (Item.agg { fp.d with red := true } fp.sib ql) ql) n
          (Item.agg { dq with red := false } (T.nd fp.sib fp.addr fp.d ql) qr) qr)
          fg.addr fg.d fg.sib).Models
        (((h.set fp.addr (T.cellOf fp.sib (Item.agg { fp.d with red := true } fp.sib ql) ql)).set
          n (T.cellOf (T.nd fp.sib fp.addr (Item.agg { fp.d with red := true } fp.sib ql) ql)
            (Item.agg { dq with red := false } (T.nd fp.sib fp.addr fp.d ql) qr) qr)).set
          fg.addr (T.cellOf (T.nd (T.nd fp.sib fp.addr
            (Item.agg { fp.d with red := true } fp.sib ql) ql) n
            (Item.agg { dq with red := false } (T.nd fp.sib fp.addr fp.d ql) qr) qr)
            fg.d fg.sib)) := by
      refine ⟨Heap.cell_set_same _ _ _, ?_, ?_⟩
      · refine (rotate_result_zero h _ _ _ _ _ _ _ _ _ hm.2.1 hsub).set_not_mem _ _ ?_
        simp only [T.addrs, List.mem_append, List.mem_cons, not_or]
        exact ⟨⟨hgfs, hgp, hgql⟩, hgn, hgqr⟩
      · exact ((hm.2.2.set_not_mem _ _ (fun e => by
          simp only [T.addrs, List.nodup_append, List.nodup_cons, List.mem_append,
            List.mem_cons, not_or, List.disjoint_cons_right, List.disjoint_append_right,
            List.disjoint_cons_left, List.disjoint_append_left] at hnd
          exact hnd.2.2.2.2.1 e)).set_not_mem _ _ (fun e => by
          simp only [T.addrs, List.nodup_append, List.nodup_cons, List.mem_append,
            List.mem_cons, not_or, List.disjoint_cons_right, List.disjoint_append_right,
            List.disjoint_cons_left, List.disjoint_append_left] at hnd
          exact hnd.2.2.2.2.2.2.1 e)).set_not_mem _ _ hgs
    have hnd2 : (T.nd (T.nd (T.nd fp.sib fp.addr
          (Item.agg { fp.d with red := true } fp.sib ql) ql) n
          (Item.agg { dq with red := false } (T.nd fp.sib fp.addr fp.d ql) qr) qr)
          fg.addr fg.d fg.sib).addrs.Nodup := by
      simpa [T.addrs, List.append_assoc] using hnd
    simp only [doubleRotate, hd, takeOpposite, Option.bind_eq_bind, Option.some_bind, hg,
      T.cellOf, node.child, Nat.sub_zero, Nat.sub_self, if_true, T.ptr_nd]
    rw [rotate_models_zero h _ _ _ _ _ _ _ hm.2.1 hsub]
    simp only [Option.some_bind, Heap.upd_eq_set, Heap.cell_set_ne _ _ _ _ hpg.symm,
      Heap.cell_set_ne _ _ _ _ hng.symm, hg, node.setChild, if_true, T.cellOf, T.ptr_nd]
    simp only [T.cellOf, T.ptr_nd] at hm2
    rw [rotate_models_one _ _ _ _ _ _ _ _ hm2 hnd2]
    rw [Heap.set_set, Heap.set_set_set _ _ _ _ _ _ hng, Heap.set_comm _ _ _ _ _ hng]
    simp [dblP, dblG, dblQ, Frame.cellWith, Frame.aggItem, hd, hdp,
      Frame.plug, T.child, T.addr, T.item, T.cellOf, T.ptr_nd, Item.agg, T.rootMax, T.minWith]
  · have hdp : fp.dir = 0 := by rw [hdir, hd]; rfl
    simp only [Frame.plug, hdp, hd, if_true, one_ne_zero, if_false] at hm hnd
    have hsub : (T.nd (T.nd ql n dq qr) fp.addr fp.d fp.sib).addrs.Nodup := by
      rw [T.addrs] at hnd
      exact (List.nodup_cons.1 (List.nodup_append.1 hnd).2.1).2
    have hg : h.cell fg.addr = T.cellOf fg.sib fg.d
        (T.nd (T.nd ql n dq qr) fp.addr fp.d fp.sib) := hm.1
    have hnd1 := hnd
    simp only [T.addrs, List.nodup_append, List.nodup_cons, List.mem_append, List.mem_cons,
      not_or, List.disjoint_cons_right, List.disjoint_append_right, List.disjoint_cons_left,
      List.disjoint_append_left] at hnd1
    obtain ⟨hns, ⟨⟨⟨hgql, hgn, hgqr⟩, hgp, hgfs⟩, -⟩, hgs, ⟨⟨-, hsn, -⟩, hsp, -⟩⟩ := hnd1
    have hpg : fp.addr ≠ fg.addr := fun e => hgp e.symm
    have hng : n ≠ fg.addr := fun e => hgn e.symm
    have hm2 : (T.nd fg.sib fg.addr fg.d (T.nd ql n
          (Item.agg { dq with red := false } ql (T.nd qr fp.addr fp.d fp.sib))
          (T.nd qr fp.addr (Item.agg { fp.d with red := true } qr fp.sib) fp.sib))).Models
        (((h.set fp.addr (T.cellOf qr (Item.agg { fp.d with red := true } qr fp.sib) fp.sib)).set
          n (T.cellOf ql (Item.agg { dq with red := false } ql (T.nd qr fp.addr fp.d fp.sib))
            (T.nd qr fp.addr (Item.agg { fp.d with red := true } qr fp.sib) fp.sib))).set
          fg.addr (T.cellOf fg.sib fg.d (T.nd ql n
            (Item.agg { dq with red := false } ql (T.nd qr fp.addr fp.d fp.sib))
            (T.nd qr fp.addr (Item.agg { fp.d with red := true } qr fp.sib) fp.sib)))) := by
      refine ⟨Heap.cell_set_same _ _ _, ?_, ?_⟩
      · exact ((hm.2.1.set_not_mem _ _ hsp).set_not_mem _ _ hsn).set_not_mem _ _ hgs
      · refine (rotate_result_one h _ _ _ _ _ _ _ _ _ hm.2.2 hsub).set_not_mem _ _ ?_
        simp only [T.addrs, List.mem_append, List.mem_cons, not_or]
        exact ⟨hgql, hgn, hgqr, hgp, hgfs⟩
    have hnd2 : (T.nd fg.sib fg.addr fg.d (T.nd ql n
          (Item.agg { dq with red := false } ql (T.nd qr fp.addr fp.d fp.sib))
          (T.nd qr fp.addr (Item.agg { fp.d with red := true } qr fp.sib) fp.sib))).addrs.Nodup := by
      simpa [T.addrs, List.append_assoc] using hnd
    simp only [doubleRotate, hd, takeOpposite, Option.bind_eq_bind, Option.some_bind, hg,
      T.cellOf, node.child, Nat.sub_zero, Nat.sub_self, if_true, one_ne_zero, if_false,
      T.ptr_nd]
    rw [rotate_models_one h _ _ _ _ _ _ _ hm.2.2 hsub]
    simp only [Option.some_bind, Heap.upd_eq_set, Heap.cell_set_ne _ _ _ _ hpg.symm,
      Heap.cell_set_ne _ _ _ _ hng.symm, hg, node.setChild, if_true, one_ne_zero, if_false,
      T.cellOf, T.ptr_nd]
    simp only [T.cellOf, T.ptr_nd] at hm2
    rw [rotate_models_zero _ _ _ _ _ _ _ _ hm2 hnd2]
    rw [Heap.set_set, Heap.set_set_set _ _ _ _ _ _ hng, Heap.set_comm _ _ _ _ _ hng]
    simp [dblP, dblG, dblQ, Frame.cellWith, Frame.aggItem, hd, hdp,
      Frame.plug, T.child, T.addr, T.item, T.cellOf, T.ptr_nd, Item.agg, T.rootMax, T.minWith]

/-! ## Attaching below the path -/

theorem Frame.mem_addrs_plug (f : Frame) (t : T) (a : Nat) :
    a ∈ (f.plug t).addrs ↔ a ∈ t.addrs ∨ a = f.addr ∨ a ∈ f.sib.addrs := by
  unfold Frame.plug
  split <;> simp only [T.addrs, List.mem_append, List.mem_cons] <;> tauto

theorem Frame.nodup_plug (f : Frame) (t : T) :
    (f.plug t).addrs.Nodup ↔ t.addrs.Nodup ∧ f.sib.addrs.Nodup ∧ f.addr ∉ t.addrs ∧
      f.addr ∉ f.sib.addrs ∧ t.addrs.Disjoint f.sib.addrs := by
  unfold Frame.plug
  split
  · simp only [T.addrs, List.nodup_append, List.nodup_cons, List.disjoint_cons_right]
    tauto
  · simp only [T.addrs, List.nodup_append, List.nodup_cons, List.disjoint_cons_right]
    constructor
    · rintro ⟨h1, ⟨h2, h3⟩, h4, h5⟩; exact ⟨h3, h1, h2, h4, h5.symm⟩
    · rintro ⟨h3, h1, h2, h4, h5⟩; exact ⟨h1, ⟨h2, h3⟩, h4, h5.symm⟩

theorem attach_models {h h1 : Heap} {rest : List Frame} {p0 : Ptr} (r : Ptr)
    (hC : CtxModels h rest p0)
    (he : ∀ a ∈ dummyAddr :: ctxAddrs rest, h1.cell a = h.cell a)
    (hnd : (dummyAddr :: ctxAddrs rest).Nodup) :
    CtxModels (attach h1 rest r) rest r := by
  cases rest with
  | nil => simp [attach, CtxModels, Heap.cell_set_same]
  | cons f fs =>
    obtain ⟨hc, hs, hr⟩ := hC
    simp only [ctxAddrs, List.nodup_cons, List.mem_cons, List.mem_append, not_or,
      List.nodup_append] at hnd
    refine ⟨Heap.cell_set_same _ _ _, ?_, ?_⟩
    · refine hs.congr ?_
      intro a ha
      rw [attach, Heap.cell_set_ne _ _ _ _ (fun e => hnd.2.1.1 (by rw [← e]; exact ha))]
      exact he a (by simp [ctxAddrs, ha])
    · refine hr.congr_ctx ?_
      intro a ha
      have h1 : a ≠ f.addr := by
        simp only [List.mem_cons] at ha
        rcases ha with ha | ha
        · intro e; exact hnd.1.1 (by rw [← e, ha])
        · intro e; exact hnd.2.1.2 (by rw [← e]; exact ha)
      rw [attach, Heap.cell_set_ne _ _ _ _ h1]
      apply he
      simp only [List.mem_cons, ctxAddrs, List.mem_append] at ha ⊢
      tauto

theorem attach_cell_ne (h : Heap) (rest : List Frame) (r : Ptr) (a : Nat)
    (ha : a ≠ helperOf rest) : (attach h rest r).cell a = h.cell a := by
  cases rest with
  | nil => exact Heap.cell_set_ne _ _ _ _ ha
  | cons f fs => exact Heap.cell_set_ne _ _ _ _ ha

theorem attach_next (h : Heap) (rest : List Frame) (r : Ptr) :
    (attach h rest r).next = h.next := by
  cases rest <;> rfl

theorem helper_write_eq {h h1 : Heap} {rest : List Frame} (g : Nat) (r : Ptr)
    (hC : CtxModels h rest (some g))
    (he : h1.cell (helperOf rest) = h.cell (helperOf rest))
    (hg : ∀ f ∈ rest.head?, g ∉ f.sib.addrs) :
    h1.upd (helperOf rest) (fun x => x.setChild
      (intFromBool (decide ((h1.cell (helperOf rest)).c1 = some g))) r) = attach h1 rest r := by
  cases rest with
  | nil =>
    simp only [CtxModels] at hC
    simp only [helperOf] at he ⊢
    simp [attach, Heap.upd_eq_set, he, hC, intFromBool, node.setChild]
  | cons f fs =>
    obtain ⟨hc, hs, hr⟩ := hC
    simp only [helperOf] at he ⊢
    have hg' := hg f (by simp)
    simp only [attach, Heap.upd_eq_set, he, hc]
    congr 1
    unfold Frame.cellWith
    split
    · have : f.sib.ptr ≠ some g := T.ptr_ne_of_not_mem hg'
      simp [intFromBool, node.setChild, this]
    · simp [intFromBool, node.setChild]

theorem helperOf_mem (rest : List Frame) : helperOf rest ∈ dummyAddr :: ctxAddrs rest := by
  cases rest <;> simp [helperOf, ctxAddrs]

theorem Frame.cellWith_red (f : Frame) (p : Ptr) : (f.cellWith p).red = f.d.red := by
  unfold Frame.cellWith; split <;> rfl

theorem Frame.cellWith_id (f : Frame) (p : Ptr) : (f.cellWith p).id = f.d.id := by
  unfold Frame.cellWith; split <;> rfl

theorem Frame.cellWith_interval (f : Frame) (p : Ptr) :
    (f.cellWith p).interval = some f.d.interval := by
  unfold Frame.cellWith; split <;> rfl

theorem head_sib_not_mem (rest : List Frame) (g : Nat)
    (hg : g ∉ ctxAddrs rest) : ∀ f ∈ rest.head?, g ∉ f.sib.addrs := by
  cases rest with
  | nil => simp
  | cons f fs =>
    intro f' hf'
    simp only [List.head?_cons, Option.mem_def, Option.some.injEq] at hf'
    subst hf'
    simp only [ctxAddrs, List.mem_cons, List.mem_append, not_or] at hg
    exact hg.2.1

theorem addFix_sgl (s : AddState) (h : Heap) (fp fg : Frame) (rest : List Frame) (q : T)
    (n : Nat) (hq : q.ptr = some n) (hqr : q.isRed = true) (hpr : fp.d.red = true)
    (hpar : s.parent = some fp.addr) (hgp : s.grandParent = some fg.addr)
    (hhelp : s.helper = some (helperOf rest)) (hlast : s.last = fg.dir)
    (hol : s.otherLast = takeOpposite s.last) (hle : fg.dir ≤ 1) (hdir : fp.dir = fg.dir)
    (hM : q.Models h) (hC : CtxModels h (fp :: fg :: rest) (some n))
    (hnd : (dummyAddr :: (q.addrs ++ ctxAddrs (fp :: fg :: rest))).Nodup) :
    ∃ h', addFix s h n = some h' ∧ q.Models h' ∧
      CtxModels h' (sglP fp fg q :: rest) (some n) ∧ h'.next = h.next ∧
      ∀ a, a ≠ fp.addr → a ≠ fg.addr → a ≠ helperOf rest → h'.cell a = h.cell a := by
  obtain ⟨hcp, hsp, hcg, hsg, hrest⟩ := hC
  simp only [ctxAddrs, List.nodup_cons, List.mem_cons, List.mem_append, not_or,
    List.nodup_append, List.disjoint_cons_right, List.disjoint_append_right,
    List.disjoint_cons_left, List.disjoint_append_left] at hnd
  obtain ⟨⟨h0q, h0p, h0ps, h0g, h0gs, h0r⟩, hnq, ⟨⟨hpps, hpg, hpgs, hpr'⟩, hnps,
    ⟨⟨hggs, hgr⟩, hngs, hnr, hgsr⟩, hgps, hpsgs, hpsr⟩, hpq, hqps, hgq, hqgs, hqr'⟩ := hnd
  have hgp' : fg.addr ≠ fp.addr := fun e => hpg e.symm
  have hnq' : n ∈ q.addrs := T.ptr_mem_addrs hq
  have hnp : n ≠ fp.addr := fun e => hpq (e ▸ hnq')
  have hng : n ≠ fg.addr := fun e => hgq (e ▸ hnq')
  have hhp : helperOf rest ≠ fp.addr := by
    have := helperOf_mem rest
    simp only [List.mem_cons] at this
    rcases this with e | e
    · rw [e]; exact h0p
    · intro e'; exact hpr' (e' ▸ e)
  have hhg : helperOf rest ≠ fg.addr := by
    have := helperOf_mem rest
    simp only [List.mem_cons] at this
    rcases this with e | e
    · rw [e]; exact h0g
    · intro e'; exact hgr (e' ▸ e)
  have hW : (fg.plug (fp.plug q)).Models h := by
    rw [Frame.models_plug, Frame.models_plug, Frame.ptr_plug, hq]
    exact ⟨hcg, hsg, hcp, hsp, hM⟩
  have hWn : (fg.plug (fp.plug q)).addrs.Nodup := by
    rw [Frame.nodup_plug, Frame.nodup_plug]
    refine ⟨⟨hnq, hnps, hpq, hpps, hqps⟩, hngs, ?_, hggs, ?_⟩
    · simp only [Frame.mem_addrs_plug, not_or]
      exact ⟨hgq, hgp', hgps⟩
    · intro a ha
      simp only [Frame.mem_addrs_plug] at ha
      rcases ha with ha | ha | ha
      · exact hqgs ha
      · rw [ha]; exact hpgs
      · exact hpsgs ha
  refine ⟨attach ((h.set fg.addr ((sglG fp fg).cellWith fp.sib.ptr)).set fp.addr
        ((sglP fp fg q).cellWith q.ptr)) rest (some fp.addr), ?_, ?_, ⟨?_, ?_, ?_⟩, ?_, ?_⟩
  · have e1 : isRed h s.parent = true := by
      rw [hpar]; simp [isRed, hcp, Frame.cellWith_red, hpr]
    have e2 : isRed h (some n) = true := by
      rw [← hq, isRed_ptr hM]; exact hqr
    have e3 : (h.cell fp.addr).child fg.dir = some n := by
      rw [hcp, ← hdir, Frame.child_cellWith]
    rw [hpar] at e1
    simp only [addFix, hhelp, hpar, hgp, hol, hlast, e1, e2, e3, Bool.and_self, if_true,
      Option.bind_eq_bind, Option.some_bind]
    rw [rotate_sgl h fp fg q hdir hle hW hWn]
    simp only [Option.some_bind, Option.pure_def, Option.some.injEq]
    have he : ((h.set fg.addr ((sglG fp fg).cellWith fp.sib.ptr)).set fp.addr
        ((sglP fp fg q).cellWith q.ptr)).cell (helperOf rest) = h.cell (helperOf rest) := by
      rw [Heap.cell_set_ne _ _ _ _ hhp, Heap.cell_set_ne _ _ _ _ hhg]
    have key := @helper_write_eq _ ((h.set fg.addr ((sglG fp fg).cellWith fp.sib.ptr)).set
      fp.addr ((sglP fp fg q).cellWith q.ptr)) _ fg.addr (some fp.addr) hrest he
      (head_sib_not_mem rest fg.addr hgr)
    rw [he] at key
    exact key
  · refine hM.congr ?_
    intro a ha
    have h1 : a ≠ helperOf rest := by
      have := helperOf_mem rest
      simp only [List.mem_cons] at this
      rcases this with e | e
      · rw [e]; intro e'; exact h0q (e' ▸ ha)
      · intro e'; exact hqr' ha (e' ▸ e)
    have h2 : a ≠ fp.addr := fun e => hpq (e ▸ ha)
    have h3 : a ≠ fg.addr := fun e => hgq (e ▸ ha)
    rw [attach_cell_ne _ _ _ _ h1, Heap.cell_set_ne _ _ _ _ h2, Heap.cell_set_ne _ _ _ _ h3]
  · show (attach _ rest _).cell fp.addr = _
    rw [attach_cell_ne _ _ _ _ hhp.symm, Heap.cell_set_same, hq]
  · show ((sglG fp fg).plug fp.sib).Models _
    rw [Frame.models_plug]
    refine ⟨?_, ?_, ?_⟩
    · show (attach _ rest _).cell fg.addr = _
      rw [attach_cell_ne _ _ _ _ hhg.symm, Heap.cell_set_ne _ _ _ _ hgp',
        Heap.cell_set_same]
    · refine hsg.congr ?_
      intro a ha
      have h1 : a ≠ helperOf rest := by
        have := helperOf_mem rest
        simp only [List.mem_cons] at this
        rcases this with e | e
        · rw [e]; intro e'; exact h0gs (e' ▸ ha)
        · intro e'; exact hgsr ha (e' ▸ e)
      have h2 : a ≠ fp.addr := fun e => hpgs (e ▸ ha)
      have h3 : a ≠ fg.addr := fun e => hggs (e ▸ ha)
      rw [attach_cell_ne _ _ _ _ h1, Heap.cell_set_ne _ _ _ _ h2, Heap.cell_set_ne _ _ _ _ h3]
    · refine hsp.congr ?_
      intro a ha
      have h1 : a ≠ helperOf rest := by
        have := helperOf_mem rest
        simp only [List.mem_cons] at this
        rcases this with e | e
        · rw [e]; intro e'; exact h0ps (e' ▸ ha)
        · intro e'; exact hpsr ha (e' ▸ e)
      have h2 : a ≠ fp.addr := fun e => hpps (e ▸ ha)
      have h3 : a ≠ fg.addr := fun e => hgps (e ▸ ha)
      rw [attach_cell_ne _ _ _ _ h1, Heap.cell_set_ne _ _ _ _ h2, Heap.cell_set_ne _ _ _ _ h3]
  · refine attach_models (some fp.addr) hrest ?_ ?_
    · intro a ha
      simp only [List.mem_cons] at ha
      rw [Heap.cell_set_ne, Heap.cell_set_ne]
      · rcases ha with e | e
        · rw [e]; exact h0g
        · intro e'; exact hgr (e' ▸ e)
      · rcases ha with e | e
        · rw [e]; exact h0p
        · intro e'; exact hpr' (e' ▸ e)
    · simp only [List.nodup_cons]
      exact ⟨h0r, hnr⟩
  · rw [attach_next]; rfl
  · intro a h1 h2 h3
    rw [attach_cell_ne _ _ _ _ h3, Heap.cell_set_ne _ _ _ _ h1, Heap.cell_set_ne _ _ _ _ h2]

theorem T.child_nd (l r : T) (a : Nat) (d : Item) (i : Nat) :
    (T.nd l a d r).child i = if i = 0 then l else r := rfl

theorem T.Models.child {h : Heap} {t : T} (hm : t.Models h) (i : Nat) : (t.child i).Models h := by
  cases t with
  | leaf => trivial
  | nd l a d r =>
    rw [T.child_nd]
    split
    · exact hm.2.1
    · exact hm.2.2

theorem T.mem_addrs_child {t : T} {i a : Nat} (ha : a ∈ (t.child i).addrs) : a ∈ t.addrs := by
  cases t with
  | leaf => simp [T.child, T.addrs] at ha
  | nd l b d r =>
    rw [T.child_nd] at ha
    simp only [T.addrs, List.mem_append, List.mem_cons]
    split at ha
    · exact Or.inl ha
    · exact Or.inr (Or.inr ha)

theorem T.root_not_mem_child {l r : T} {n i : Nat} {d : Item}
    (hnd : (T.nd l n d r).addrs.Nodup) : n ∉ ((T.nd l n d r).child i).addrs := by
  simp only [T.addrs, List.nodup_append, List.nodup_cons, List.disjoint_cons_right,
    List.mem_append, not_or] at hnd
  rw [T.child_nd]
  split
  · exact hnd.2.2.1
  · exact hnd.2.1.1

theorem Frame.child_cellWith_opp (f : Frame) (p : Ptr) (i : Nat) (hf : f.dir ≤ 1) (hi : i ≤ 1)
    (hne : i ≠ f.dir) : (f.cellWith p).child i = f.sib.ptr := by
  unfold Frame.cellWith node.child
  have h1 : f.dir = 0 ∨ f.dir = 1 := by omega
  have h2 : i = 0 ∨ i = 1 := by omega
  rcases h1 with h1 | h1 <;> rcases h2 with h2 | h2 <;> simp [h1, h2] <;> omega

theorem addFix_dbl (s : AddState) (h : Heap) (fp fg : Frame) (rest : List Frame) (ql qr : T)
    (n : Nat) (dq : Item) (hqr : dq.red = true) (hpr : fp.d.red = true)
    (hpar : s.parent = some fp.addr) (hgp : s.grandParent = some fg.addr)
    (hhelp : s.helper = some (helperOf rest)) (hlast : s.last = fg.dir)
    (hol : s.otherLast = takeOpposite s.last) (hle : fg.dir ≤ 1)
    (hdir : fp.dir = takeOpposite fg.dir)
    (hM : (T.nd ql n dq qr).Models h) (hC : CtxModels h (fp :: fg :: rest) (some n))
    (hnd : (dummyAddr :: ((T.nd ql n dq qr).addrs ++ ctxAddrs (fp :: fg :: rest))).Nodup) :
    ∃ h', addFix s h n = some h' ∧
      ((dblQ fp fg (T.nd ql n dq qr)).plug
        ((dblP fp fg (T.nd ql n dq qr)).plug ((T.nd ql n dq qr).child fg.dir))).Models h' ∧
      CtxModels h' rest (some n) ∧ h'.next = h.next ∧
      ∀ a, a ≠ fp.addr → a ≠ fg.addr → a ≠ n → a ≠ helperOf rest →
        h'.cell a = h.cell a := by
  obtain ⟨hcp, hsp, hcg, hsg, hrest⟩ := hC
  generalize hqdef : T.nd ql n dq qr = q at *
  have hq : q.ptr = some n := by rw [← hqdef]; rfl
  simp only [ctxAddrs, List.nodup_cons, List.mem_cons, List.mem_append, not_or,
    List.nodup_append, List.disjoint_cons_right, List.disjoint_append_right,
    List.disjoint_cons_left, List.disjoint_append_left] at hnd
  obtain ⟨⟨h0q, h0p, h0ps, h0g, h0gs, h0r⟩, hnq, ⟨⟨hpps, hpg, hpgs, hpr'⟩, hnps,
    ⟨⟨hggs, hgr⟩, hngs, hnr, hgsr⟩, hgps, hpsgs, hpsr⟩, hpq, hqps, hgq, hqgs, hqr'⟩ := hnd
  have hgp' : fg.addr ≠ fp.addr := fun e => hpg e.symm
  have hnq' : n ∈ q.addrs := T.ptr_mem_addrs hq
  have hnp : n ≠ fp.addr := fun e => hpq (e ▸ hnq')
  have hng : n ≠ fg.addr := fun e => hgq (e ▸ hnq')
  have hh : ∀ a, a ∈ q.addrs ∨ a = fp.addr ∨ a = fg.addr ∨ a ∈ fp.sib.addrs ∨
      a ∈ fg.sib.addrs → a ≠ helperOf rest := by
    intro a ha
    have := helperOf_mem rest
    simp only [List.mem_cons] at this
    rcases this with e | e
    · rw [e]
      rcases ha with ha | ha | ha | ha | ha
      · intro e'; exact h0q (e' ▸ ha)
      · rw [ha]; exact fun e' => h0p e'.symm
      · rw [ha]; exact fun e' => h0g e'.symm
      · intro e'; exact h0ps (e' ▸ ha)
      · intro e'; exact h0gs (e' ▸ ha)
    · rcases ha with ha | ha | ha | ha | ha
      · intro e'; exact hqr' ha (e' ▸ e)
      · rw [ha]; intro e'; exact hpr' (e' ▸ e)
      · rw [ha]; intro e'; exact hgr (e' ▸ e)
      · intro e'; exact hpsr ha (e' ▸ e)
      · intro e'; exact hgsr ha (e' ▸ e)
  have hW : (fg.plug (fp.plug q)).Models h := by
    rw [Frame.models_plug, Frame.models_plug, Frame.ptr_plug, hq]
    exact ⟨hcg, hsg, hcp, hsp, hM⟩
  have hWn : (fg.plug (fp.plug q)).addrs.Nodup := by
    rw [Frame.nodup_plug, Frame.nodup_plug]
    refine ⟨⟨hnq, hnps, hpq, hpps, hqps⟩, hngs, ?_, hggs, ?_⟩
    · simp only [Frame.mem_addrs_plug, not_or]
      exact ⟨hgq, hgp', hgps⟩
    · intro a ha
      simp only [Frame.mem_addrs_plug] at ha
      rcases ha with ha | ha | ha
      · exact hqgs ha
      · rw [ha]; exact hpgs
      · exact hpsgs ha
  have hpd : fp.dir ≤ 1 := by rw [hdir]; unfold takeOpposite; omega
  have hdne : fg.dir ≠ fp.dir := by rw [hdir]; unfold takeOpposite; omega
  refine ⟨attach (((h.set fp.addr ((dblP fp fg q).cellWith (q.child fg.dir).ptr)).set fg.addr
        ((dblG fp fg q).cellWith (q.child fp.dir).ptr)).set n
        ((dblQ fp fg q).cellWith (some fp.addr))) rest (some n), ?_, ?_, ?_, ?_, ?_⟩
  · have e1 : isRed h (some fp.addr) = true := by
      simp [isRed, hcp, Frame.cellWith_red, hpr]
    have e2 : isRed h (some n) = true := by
      rw [← hq, isRed_ptr hM, ← hqdef]; exact hqr
    have e3 : (h.cell fp.addr).child fg.dir = fp.sib.ptr := by
      rw [hcp, Frame.child_cellWith_opp _ _ _ hpd hle hdne]
    have e4 : ¬ (some n = fp.sib.ptr) := fun e =>
      hqps hnq' (T.ptr_mem_addrs e.symm)
    simp only [addFix, hhelp, hpar, hgp, hol, hlast, e1, e2, e3, e4, Bool.and_self, if_true,
      if_false, Option.bind_eq_bind, Option.some_bind]
    have hrd := rotate_dbl h fp fg ql qr n dq hdir hle (by rw [hqdef]; exact hW)
      (by rw [hqdef]; exact hWn)
    rw [hqdef] at hrd
    rw [hrd]
    simp only [Option.some_bind, Option.pure_def, Option.some.injEq]
    have he : (((h.set fp.addr ((dblP fp fg q).cellWith (q.child fg.dir).ptr)).set fg.addr
        ((dblG fp fg q).cellWith (q.child fp.dir).ptr)).set n
        ((dblQ fp fg q).cellWith (some fp.addr))).cell (helperOf rest) =
        h.cell (helperOf rest) := by
      rw [Heap.cell_set_ne _ _ _ _ (hh n (Or.inl hnq')).symm,
        Heap.cell_set_ne _ _ _ _ (hh _ (Or.inr (Or.inr (Or.inl rfl)))).symm,
        Heap.cell_set_ne _ _ _ _ (hh _ (Or.inr (Or.inl rfl))).symm]
    have key := @helper_write_eq _ (((h.set fp.addr ((dblP fp fg q).cellWith
      (q.child fg.dir).ptr)).set fg.addr ((dblG fp fg q).cellWith (q.child fp.dir).ptr)).set n
      ((dblQ fp fg q).cellWith (some fp.addr))) _ fg.addr (some n) hrest he
      (head_sib_not_mem rest fg.addr hgr)
    rw [he] at key
    exact key
  · have hqa : q.addr = n := by rw [← hqdef]; rfl
    have hqn : q.addrs.Nodup := hnq
    have hnc : ∀ i, n ∉ (q.child i).addrs := by
      intro i; rw [← hqdef]; rw [← hqdef] at hqn; exact T.root_not_mem_child hqn
    have hfar : ∀ a, a ≠ fp.addr → a ≠ fg.addr → a ≠ n → a ≠ helperOf rest →
        (attach (((h.set fp.addr ((dblP fp fg q).cellWith (q.child fg.dir).ptr)).set fg.addr
        ((dblG fp fg q).cellWith (q.child fp.dir).ptr)).set n
        ((dblQ fp fg q).cellWith (some fp.addr))) rest (some n)).cell a = h.cell a := by
      intro a h1 h2 h3 h4
      rw [attach_cell_ne _ _ _ _ h4, Heap.cell_set_ne _ _ _ _ h3, Heap.cell_set_ne _ _ _ _ h2,
        Heap.cell_set_ne _ _ _ _ h1]
    have hch : ∀ i, (q.child i).Models (attach (((h.set fp.addr ((dblP fp fg q).cellWith
        (q.child fg.dir).ptr)).set fg.addr
        ((dblG fp fg q).cellWith (q.child fp.dir).ptr)).set n
        ((dblQ fp fg q).cellWith (some fp.addr))) rest (some n)) := by
      intro i
      refine (hM.child i).congr ?_
      intro a ha
      have ha' := T.mem_addrs_child ha
      exact hfar a (fun e => hpq (e ▸ ha')) (fun e => hgq (e ▸ ha'))
        (fun e => hnc i (e ▸ ha)) (hh a (Or.inl ha'))
    rw [Frame.models_plug, Frame.models_plug, Frame.ptr_plug]
    refine ⟨?_, ?_, ?_, ?_, hch _⟩
    · show (attach _ rest _).cell q.addr = _
      rw [hqa, attach_cell_ne _ _ _ _ (hh n (Or.inl hnq')), Heap.cell_set_same]
      rfl
    · show ((dblG fp fg q).plug (q.child fp.dir)).Models _
      rw [Frame.models_plug]
      refine ⟨?_, ?_, hch _⟩
      · show (attach _ rest _).cell fg.addr = _
        rw [attach_cell_ne _ _ _ _ (hh _ (Or.inr (Or.inr (Or.inl rfl)))),
          Heap.cell_set_ne _ _ _ _ hng.symm, Heap.cell_set_same]
      · refine hsg.congr ?_
        intro a ha
        exact hfar a (fun e => hpgs (e ▸ ha)) (fun e => hggs (e ▸ ha))
          (fun e => hqgs hnq' (e ▸ ha)) (hh a (Or.inr (Or.inr (Or.inr (Or.inr ha)))))
    · show (attach _ rest _).cell fp.addr = _
      rw [attach_cell_ne _ _ _ _ (hh _ (Or.inr (Or.inl rfl))),
        Heap.cell_set_ne _ _ _ _ hnp.symm, Heap.cell_set_ne _ _ _ _ hgp'.symm,
        Heap.cell_set_same]
    · refine hsp.congr ?_
      intro a ha
      exact hfar a (fun e => hpps (e ▸ ha)) (fun e => hgps (e ▸ ha))
        (fun e => hqps hnq' (e ▸ ha)) (hh a (Or.inr (Or.inr (Or.inr (Or.inl ha)))))
  · refine attach_models (some n) hrest ?_ ?_
    · intro a ha
      simp only [List.mem_cons] at ha
      rw [Heap.cell_set_ne, Heap.cell_set_ne, Heap.cell_set_ne]
      · rcases ha with e | e
        · rw [e]; exact h0p
        · intro e'; exact hpr' (e' ▸ e)
      · rcases ha with e | e
        · rw [e]; exact h0g
        · intro e'; exact hgr (e' ▸ e)
      · rcases ha with e | e
        · rw [e]; intro e'; exact h0q (e' ▸ hnq')
        · intro e'; exact hqr' hnq' (e' ▸ e)
    · simp only [List.nodup_cons]
      exact ⟨h0r, hnr⟩
  · rw [attach_next]; rfl
  · intro a h1 h2 h3 h4
    rw [attach_cell_ne _ _ _ _ h4, Heap.cell_set_ne _ _ _ _ h3, Heap.cell_set_ne _ _ _ _ h2,
      Heap.cell_set_ne _ _ _ _ h1]

/-! ## The loop of `add` in memory follows the descent on trees -/

theorem T.ptr_flipT (t : T) : (flipT t).ptr = t.ptr := by
  unfold flipT
  split
  · split <;> rfl
  · rfl

theorem T.addrs_flipT (t : T) : (flipT t).addrs = t.addrs := by
  unfold flipT
  split
  · split <;> simp [T.addrs]
  · rfl

theorem T.ptr_bumpT (iv : Interval) (t : T) : (bumpT iv t).ptr = t.ptr := by
  cases t <;> rfl

theorem T.addrs_bumpT (iv : Interval) (t : T) : (bumpT iv t).addrs = t.addrs := by
  cases t <;> rfl

theorem bumpT_newItem (iv : Interval) (n : Nat) :
    bumpT iv (T.nd T.leaf n (newItem iv) T.leaf) = T.nd T.leaf n (newItem iv) T.leaf := by
  simp [bumpT, Item.bump, newItem]

theorem bumpH_cell_ne (iv : Interval) (h : Heap) (n a : Nat) (hne : a ≠ n) :
    (bumpH iv h n).cell a = h.cell a := by
  rw [bumpH_eq, Heap.cell_set_ne _ _ _ _ hne]

theorem bumpH_next (iv : Interval) (h : Heap) (n : Nat) : (bumpH iv h n).next = h.next := by
  rw [bumpH_eq]; rfl

theorem addStep_of (iv : Interval) (s : AddState) (h1 : Heap) (num n : Nat) (h' : Heap)
    (hv : addVisit iv s = some (h1, num, n)) (hf : addFix s (bumpH iv h1 n) n = some h') :
    addStep iv s =
      if (h'.cell n).id = iv.ID then some (Sum.inr (h', num))
      else (h'.cell n).interval.bind (fun nv => some (Sum.inl
        { heap := h', number := num,
          helper := if s.grandParent ≠ none then s.grandParent else s.helper,
          grandParent := s.parent, parent := some n,
          node := (h'.cell n).child (compare nv.Low iv.Low (h'.cell n).id iv.ID),
          dir := compare nv.Low iv.Low (h'.cell n).id iv.ID, last := s.dir,
          otherLast := takeOpposite s.dir })) := by
  unfold addStep
  simp only [hv, Option.bind_eq_bind, Option.some_bind]
  unfold bumpH at hf
  simp only [hf, Option.some_bind]
  rfl

theorem addVisit_sim (iv : Interval) (s : AddState) (a : AddAbs) (hR : AddRel s a)
    (hne : ¬ (a.focus.ptr = none ∧ a.ctx.length = 0)) :
    ∃ h1 n, addVisit iv s =
        some (h1, (if a.focus.ptr = none then (s.number + 1) % 2 ^ 64 else s.number), n) ∧
      (bumpT iv (visitT iv s.heap.next a.focus)).ptr = some n ∧
      (bumpT iv (visitT iv s.heap.next a.focus)).Models (bumpH iv h1 n) ∧
      CtxModels (bumpH iv h1 n) a.ctx (some n) ∧
      (dummyAddr :: ((bumpT iv (visitT iv s.heap.next a.focus)).addrs ++ ctxAddrs a.ctx)).Nodup ∧
      (∀ x ∈ dummyAddr :: ((bumpT iv (visitT iv s.heap.next a.focus)).addrs ++ ctxAddrs a.ctx),
        x < (bumpH iv h1 n).next) ∧
      s.heap.next ≤ (bumpH iv h1 n).next ∧
      (a.focus.ptr ≠ none → (bumpH iv h1 n).next = s.heap.next) := by
  obtain ⟨hnode, hM, hC, hnd, hlt, hpar, hdir, hdirs, hgp, hhelp, hol⟩ := hR
  cases hfoc : a.focus with
  | leaf =>
    rw [hfoc] at hnode hC hnd hlt
    simp only [T.ptr_leaf, true_and, hfoc] at hne
    cases hctx : a.ctx with
    | nil => simp [hctx] at hne
    | cons f fs =>
      rw [hctx] at hC hnd hlt hpar hdir
      simp only [T.addrs, List.nil_append] at hnd hlt
      obtain ⟨h', hv, hm', hC', hnext, hfar⟩ := addVisit_leaf iv s f fs hnode
        (by simpa using hpar) (hdir f (by simp)) hC hnd hlt
      have hfresh : ∀ x ∈ dummyAddr :: ctxAddrs (f :: fs), x ≠ s.heap.next := by
        intro x hx; have := hlt x hx; omega
      refine ⟨h', s.heap.next, ?_, ?_, ?_, ?_, ?_, ?_, ?_, fun hx => absurd rfl hx⟩
      · simpa [T.ptr_leaf] using hv
      · rfl
      · simp only [visitT]
        exact bumpH_models iv h' _ _ rfl hm' (by simp [T.addrs])
      · refine hC'.congr_ctx ?_
        intro x hx
        exact bumpH_cell_ne iv h' _ x (hfresh x hx)
      · simp only [visitT, bumpT_newItem, T.addrs, List.nil_append, List.singleton_append]
        rw [List.nodup_cons] at hnd ⊢
        refine ⟨?_, ?_⟩
        · simp only [List.mem_cons, not_or]
          exact ⟨hfresh _ (by simp), hnd.1⟩
        · rw [List.nodup_cons]
          exact ⟨fun hx => hfresh _ (List.mem_cons_of_mem _ hx) rfl, hnd.2⟩
      · intro x hx
        rw [bumpH_next, hnext]
        simp only [visitT, bumpT_newItem, T.addrs, List.nil_append, List.singleton_append,
          List.mem_cons] at hx
        rcases hx with e | e | e
        · have := hlt x (by simp [e]); omega
        · omega
        · have := hlt x (by simp [e]); omega
      · rw [bumpH_next, hnext]; omega
  | nd l n d r =>
    rw [hfoc] at hnode hM hC hnd hlt
    have hndf : (T.nd l n d r).addrs.Nodup := by
      rw [List.nodup_cons, List.nodup_append] at hnd
      exact hnd.2.1
    obtain ⟨h', hv, hm', hnext, hfar⟩ := addVisit_nd iv s l r n d hnode hM hndf
    have hvis : visitT iv s.heap.next (T.nd l n d r) = flipT (T.nd l n d r) := rfl
    rw [hvis]
    have hp : (flipT (T.nd l n d r)).ptr = some n := by rw [T.ptr_flipT]; rfl
    refine ⟨h', n, ?_, ?_, ?_, ?_, ?_, ?_, ?_, fun _ => by rw [bumpH_next, hnext]⟩
    · simpa [T.ptr_nd] using hv
    · rw [T.ptr_bumpT, hp]
    · exact bumpH_models iv h' _ n hp hm' (by rw [T.addrs_flipT]; exact hndf)
    · refine CtxModels.congr_ctx (h := s.heap) hC ?_
      intro x hx
      have hxn : x ∉ (T.nd l n d r).addrs := by
        intro hmem
        simp only [List.nodup_cons, List.mem_cons, List.mem_append, not_or,
          List.nodup_append] at hnd
        rcases List.mem_cons.1 hx with e | e
        · exact hnd.1.1 (e ▸ hmem)
        · exact hnd.2.2.2 hmem e
      have hxn' : x ≠ n := fun e => hxn (by simp [T.addrs, e])
      rw [bumpH_cell_ne iv h' n x hxn', hfar x hxn]
    · rw [T.addrs_bumpT, T.addrs_flipT]; exact hnd
    · rw [T.addrs_bumpT, T.addrs_flipT, bumpH_next, hnext]; exact hlt
    · rw [bumpH_next, hnext]

theorem Frame.count_plug (f : Frame) (t : T) (z : Nat) :
    (f.plug t).addrs.count z = t.addrs.count z + ([f.addr].count z + f.sib.addrs.count z) := by
  unfold Frame.plug
  split <;> simp only [T.addrs, List.count_append, List.count_cons, List.count_nil] <;> omega

theorem T.count_child (l r : T) (n : Nat) (d : Item) (i : Nat) (hi : i ≤ 1) (z : Nat) :
    (T.nd l n d r).addrs.count z =
      ((T.nd l n d r).child i).addrs.count z +
        ([n].count z + ((T.nd l n d r).child (takeOpposite i)).addrs.count z) := by
  have h : i = 0 ∨ i = 1 := by omega
  rcases h with h | h <;> subst h <;>
    simp only [T.child_nd, takeOpposite, T.addrs, List.count_append, List.count_cons,
      List.count_nil] <;> simp <;> omega

theorem takeOpposite_of_ne {i j : Nat} (hi : i ≤ 1) (hj : j ≤ 1) (hne : i ≠ j) :
    i = takeOpposite j := by
  unfold takeOpposite; omega

theorem addFix_sim (s : AddState) (h : Heap) (a : AddAbs) (q : T) (n : Nat)
    (hpar : s.parent = a.ctx.head?.map Frame.addr)
    (hdir : ∀ f ∈ a.ctx.head?, s.dir = f.dir)
    (hdirs : ∀ f ∈ a.ctx, f.dir ≤ 1)
    (hgp : a.gsync = true → s.grandParent = a.ctx.tail.head?.map Frame.addr ∧
      ∀ f ∈ a.ctx.tail.head?, s.last = f.dir)
    (hhelp : a.hsync = true → s.helper = some (helperOf (a.ctx.drop 2)))
    (hol : s.otherLast = takeOpposite s.last)
    (hq : q.ptr = some n) (hM : q.Models h) (hC : CtxModels h a.ctx (some n))
    (hnd : (dummyAddr :: (q.addrs ++ ctxAddrs a.ctx)).Nodup)
    {ctx : List Frame} {w : T} {ps gs hs : Bool}
    (hfix : fixT a q = some (ctx, w, ps, gs, hs)) :
    ∃ h', addFix s h n = some h' ∧ w.ptr = some n ∧ w.Models h' ∧
      CtxModels h' ctx (some n) ∧ h'.next = h.next ∧
      (w.addrs ++ ctxAddrs ctx).Perm (q.addrs ++ ctxAddrs a.ctx) ∧
      (∀ f ∈ ctx, f.dir ≤ 1) ∧
      (ps = true → s.parent = ctx.head?.map Frame.addr ∧ ∀ f ∈ ctx.head?, s.dir = f.dir) ∧
      (gs = true → a.gsync = true ∧ ctx = a.ctx) ∧
      (hs = true → a.hsync = true ∧ ctx = a.ctx) := by
  obtain ⟨actx, afoc, ag, ah⟩ := a
  dsimp only at hpar hdir hdirs hgp hhelp hC hnd ⊢
  have hnofix : (isRed h s.parent && isRed h (some n)) = false →
      fixT ⟨actx, afoc, ag, ah⟩ q = some (actx, q, true, ag, ah) →
      ∃ h', addFix s h n = some h' ∧ w.ptr = some n ∧ w.Models h' ∧
      CtxModels h' ctx (some n) ∧ h'.next = h.next ∧
      (w.addrs ++ ctxAddrs ctx).Perm (q.addrs ++ ctxAddrs actx) ∧
      (∀ f ∈ ctx, f.dir ≤ 1) ∧
      (ps = true → s.parent = ctx.head?.map Frame.addr ∧ ∀ f ∈ ctx.head?, s.dir = f.dir) ∧
      (gs = true → ag = true ∧ ctx = actx) ∧
      (hs = true → ah = true ∧ ctx = actx) := by
    intro hc hf
    rw [hf] at hfix
    simp only [Option.some.injEq, Prod.mk.injEq] at hfix
    obtain ⟨e1, e2, e3, e4, e5⟩ := hfix
    subst e1 e2 e3 e4 e5
    refine ⟨h, ?_, hq, hM, hC, rfl, List.Perm.refl _, hdirs, fun _ => ⟨hpar, hdir⟩,
      fun e => ⟨e, rfl⟩, fun e => ⟨e, rfl⟩⟩
    simp only [addFix, hc]
    rfl
  cases actx with
  | nil =>
    refine hnofix ?_ ?_
    · simp [hpar, isRed]
    · simp [fixT]
  | cons fp rest1 =>
    have hpar' : s.parent = some fp.addr := by simpa using hpar
    have e1 : isRed h (some fp.addr) = fp.d.red := by
      simp [isRed, hC.1, Frame.cellWith_red]
    have e2 : isRed h (some n) = q.isRed := by rw [← hq, isRed_ptr hM]
    by_cases hc : (fp.d.red && q.isRed) = true
    · cases rest1 with
      | nil => simp [fixT, hc] at hfix
      | cons fg rest =>
        by_cases hsy : (ag && ah) = true
        · simp only [Bool.and_eq_true] at hsy hc
          obtain ⟨hg1, hg2⟩ := hgp hsy.1
          have hhelp' := hhelp hsy.2
          simp only [List.tail_cons, List.head?_cons, Option.map_some', Option.mem_def,
            Option.some.injEq, forall_eq', List.drop_succ_cons, List.drop_zero] at hg1 hg2 hhelp'
          have hfg : fg.dir ≤ 1 := hdirs fg (by simp)
          have hfp : fp.dir ≤ 1 := hdirs fp (by simp)
          by_cases hd : fp.dir = fg.dir
          · simp only [fixT, hc.1, hc.2, hsy.1, hsy.2, Bool.and_self, if_true, hd,
              Option.some.injEq, Prod.mk.injEq] at hfix
            obtain ⟨e1', e2', e3', e4', e5'⟩ := hfix
            subst e1' e2' e3' e4' e5'
            obtain ⟨h', hf, hm', hC', hn', -⟩ := addFix_sgl s h fp fg rest q n hq hc.2 hc.1
              hpar' hg1 hhelp' hg2 hol hfg hd hM hC hnd
            refine ⟨h', hf, hq, hm', hC', hn', ?_, ?_, ?_, ?_, ?_⟩
            · rw [List.perm_iff_count]
              intro z
              simp only [List.count_append, ctxAddrs, List.count_cons, Frame.count_plug, sglP,
                sglG, List.count_nil]
              omega
            · intro f hf
              simp only [List.mem_cons] at hf
              rcases hf with e | e
              · rw [e]; exact hfg
              · exact hdirs f (by simp [e])
            · intro _
              refine ⟨by simpa [sglP] using hpar', ?_⟩
              intro f hf
              simp only [List.head?_cons, Option.mem_def, Option.some.injEq] at hf
              subst hf
              rw [hdir fp (by simp)]
              exact hd
            · intro e; exact absurd e (by simp)
            · intro e; exact absurd e (by simp)
          · simp only [fixT, hc.1, hc.2, hsy.1, hsy.2, Bool.and_self, if_true, hd,
              if_false, Option.some.injEq, Prod.mk.injEq] at hfix
            obtain ⟨e1', e2', e3', e4', e5'⟩ := hfix
            subst e1' e2' e3' e4' e5'
            have hd' : fp.dir = takeOpposite fg.dir := takeOpposite_of_ne hfp hfg hd
            cases q with
            | leaf => simp [T.ptr] at hq
            | nd ql m dq qr =>
              simp only [T.ptr, Option.some.injEq] at hq
              subst hq
              obtain ⟨h', hf, hm', hC', hn', -⟩ := addFix_dbl s h fp fg rest ql qr m dq hc.2 hc.1
                hpar' hg1 hhelp' hg2 hol hfg hd' hM hC hnd
              refine ⟨h', hf, ?_, hm', hC', hn', ?_, ?_, ?_, ?_, ?_⟩
              · rw [Frame.ptr_plug]; rfl
              · rw [List.perm_iff_count]
                intro z
                have hcnt := T.count_child ql qr m dq fg.dir hfg z
                rw [← hd'] at hcnt
                simp only [List.count_append, ctxAddrs, List.count_cons, Frame.count_plug, dblP,
                  dblG, dblQ, List.count_nil, T.addr] at hcnt ⊢
                omega
              · intro f hf
                exact hdirs f (by simp [hf])
              · intro e; exact absurd e (by simp)
              · intro e; exact absurd e (by simp)
              · intro e; exact absurd e (by simp)
        · simp [fixT, hc, hsy] at hfix
    · have hc' : (fp.d.red && q.isRed) = false := by simpa using hc
      exact hnofix (by rw [hpar', e1, e2]; exact hc') (by simp [fixT, hc'])

theorem compare_le_one (a b c d : Nat) : compare a b c d ≤ 1 := by
  unfold compare intFromBool
  split_ifs <;> omega

theorem descend_models (h : Heap) (l r : T) (n : Nat) (d : Item) (ctx : List Frame) (i : Nat)
    (hi : i ≤ 1) (hm : (T.nd l n d r).Models h) (hC : CtxModels h ctx (some n)) :
    ((T.nd l n d r).child i).Models h ∧
      CtxModels h ((T.nd l n d r).frame i :: ctx) ((T.nd l n d r).child i).ptr ∧
      (h.cell n).child i = ((T.nd l n d r).child i).ptr := by
  have hc := hm.1
  have h01 : i = 0 ∨ i = 1 := by omega
  rcases h01 with e | e <;> subst e
  · refine ⟨hm.2.1, ⟨?_, hm.2.2, hC⟩, ?_⟩
    · simp only [T.frame, T.addr, hc, Frame.cellWith, T.cellOf, T.child_nd, takeOpposite, T.item]
      simp
    · rw [hc]; rfl
  · refine ⟨hm.2.2, ⟨?_, hm.2.1, hC⟩, ?_⟩
    · simp only [T.frame, T.addr, hc, Frame.cellWith, T.cellOf, T.child_nd, takeOpposite, T.item]
      simp
    · rw [hc]; rfl

theorem descend_perm (l r : T) (n : Nat) (d : Item) (ctx : List Frame) (i : Nat)
    (hi : i ≤ 1) :
    (((T.nd l n d r).child i).addrs ++ ctxAddrs ((T.nd l n d r).frame i :: ctx)).Perm
      ((T.nd l n d r).addrs ++ ctxAddrs ctx) := by
  rw [List.perm_iff_count]
  intro z
  have hcnt := T.count_child l r n d i hi z
  simp only [List.count_append, ctxAddrs, List.count_cons, T.frame, T.addr, List.count_nil]
    at hcnt ⊢
  omega

theorem Frame.item_plug (f : Frame) (t : T) : (f.plug t).item = f.d := by
  unfold Frame.plug; split <;> rfl

theorem Frame.addr_plug (f : Frame) (t : T) : (f.plug t).addr = f.addr := by
  unfold Frame.plug; split <;> rfl

theorem Frame.aggItem_id (f : Frame) (t : T) : (f.aggItem t).id = f.d.id := by
  unfold Frame.aggItem Item.agg; split <;> rfl

theorem Frame.aggItem_interval (f : Frame) (t : T) : (f.aggItem t).interval = f.d.interval := by
  unfold Frame.aggItem Item.agg; split <;> rfl

theorem Frame.aggItem_red (f : Frame) (t : T) : (f.aggItem t).red = f.d.red := by
  unfold Frame.aggItem Item.agg; split <;> rfl

theorem fixT_item (a : AddAbs) (q : T) {ctx : List Frame} {w : T} {ps gs hs : Bool}
    (hfix : fixT a q = some (ctx, w, ps, gs, hs)) :
    w.item.id = q.item.id ∧ w.item.interval = q.item.interval := by
  unfold fixT at hfix
  split at hfix
  · simp only [Option.some.injEq, Prod.mk.injEq] at hfix
    rw [← hfix.2.1]; exact ⟨rfl, rfl⟩
  · split at hfix
    · split at hfix
      · exact absurd hfix (by simp)
      · split at hfix
        · split at hfix
          · simp only [Option.some.injEq, Prod.mk.injEq] at hfix
            rw [← hfix.2.1]; exact ⟨rfl, rfl⟩
          · simp only [Option.some.injEq, Prod.mk.injEq] at hfix
            rw [← hfix.2.1, Frame.item_plug]
            simp only [dblQ, Frame.aggItem_id, Frame.aggItem_interval]
            cases q <;> simp [T.item]
        · exact absurd hfix (by simp)
    · simp only [Option.some.injEq, Prod.mk.injEq] at hfix
      rw [← hfix.2.1]; exact ⟨rfl, rfl⟩

theorem addStep_sim_inl (iv : Interval) (s : AddState) (a a' : AddAbs) (hR : AddRel s a)
    (hstep : addStepT iv s.heap.next a = some (Sum.inl a')) :
    ∃ s', addStep iv s = some (Sum.inl s') ∧ AddRel s' a' ∧ s'.heap.next = s.heap.next ∧
      s'.number = s.number := by
  unfold addStepT at hstep
  split at hstep
  · exact absurd hstep (by simp)
  rename_i hne
  split at hstep
  · exact absurd hstep (by simp)
  rename_i ctx w ps gs hs hfix
  split at hstep
  · exact absurd hstep (by simp)
  rename_i hid
  simp only [Option.some.injEq, Sum.inl.injEq] at hstep
  obtain ⟨h1, n, hv, hqp, hqm, hqc, hqnd, hqlt, hqn, hqn'⟩ := addVisit_sim iv s a hR hne
  obtain ⟨h', hf, hwp, hwm, hwc, hwn, hperm, hwdirs, hps, hgs, hhs⟩ :=
    addFix_sim s (bumpH iv h1 n) a _ n hR.parent hR.dir hR.dirs hR.gp hR.helper hR.ol hqp hqm hqc
      hqnd hfix
  have hleaf : a.focus.ptr ≠ none := by
    intro hl
    apply hid
    cases hfoc : a.focus with
    | nd l m d r => rw [hfoc] at hl; simp [T.ptr] at hl
    | leaf =>
      rw [hfoc] at hfix
      simp only [visitT, bumpT_newItem] at hfix
      rw [(fixT_item a _ hfix).1]
      rfl
  rw [if_neg hleaf] at hv
  cases w with
  | leaf => simp [T.ptr] at hwp
  | nd wl m wd wr =>
    simp only [T.ptr, Option.some.injEq] at hwp
    subst hwp
    have hc := hwm.1
    have hcid : (h'.cell m).id = wd.id := by rw [hc]; rfl
    have hciv : (h'.cell m).interval = some wd.interval := by rw [hc]; rfl
    have hst := addStep_of iv s h1 s.number m h' hv hf
    simp only [T.item] at hid
    rw [hcid, if_neg hid, hciv, Option.some_bind] at hst
    obtain ⟨hdm, hdc, hdn⟩ := descend_models h' wl wr m wd ctx
      (compare wd.interval.Low iv.Low wd.id iv.ID) (compare_le_one _ _ _ _) hwm hwc
    have hperm2 := (descend_perm wl wr m wd ctx
      (compare wd.interval.Low iv.Low wd.id iv.ID) (compare_le_one _ _ _ _)).trans hperm
    refine ⟨_, hst, ?_, ?_, rfl⟩
    subst hstep
    simp only [T.item]
    refine ⟨hdn, hdm, hdc, ?_, ?_, rfl, ?_, ?_, ?_, ?_, rfl⟩
    · rw [List.nodup_cons] at hqnd ⊢
      exact ⟨fun hx => hqnd.1 (hperm2.subset hx), hperm2.nodup_iff.2 hqnd.2⟩
    · intro x hx
      rw [hwn]
      apply hqlt
      rcases List.mem_cons.1 hx with e | e
      · simp [e]
      · exact List.mem_cons_of_mem _ (hperm2.subset e)
    · intro f hf
      simp only [List.head?_cons, Option.mem_def, Option.some.injEq] at hf
      subst hf; rfl
    · intro f hf
      rcases List.mem_cons.1 hf with e | e
      · rw [e]; exact compare_le_one _ _ _ _
      · exact hwdirs f e
    · intro hp
      exact hps hp
    · intro hh
      simp only [Bool.and_eq_true, Bool.or_eq_true, decide_eq_true_eq] at hh
      obtain ⟨hg, hh2⟩ := hh
      obtain ⟨hag, hctx⟩ := hgs hg
      subst hctx
      obtain ⟨hg1, -⟩ := hR.gp hag
      simp only [List.drop_succ_cons]
      rcases hh2 with hl | hl
      · match hctx : a.ctx, hl with
        | f :: g :: rest, _ =>
          rw [hctx] at hg1
          simp [hg1, helperOf]
      · have hah := (hhs hl).1
        have hhp := hR.helper hah
        match hctx : a.ctx with
        | [] => rw [hctx] at hg1 hhp; simp [hg1, hhp, helperOf]
        | [f] => rw [hctx] at hg1 hhp; simp [hg1, hhp, helperOf]
        | f :: g :: rest => rw [hctx] at hg1; simp [hg1, helperOf]
    · show h'.next = s.heap.next
      rw [hwn]
      exact hqn' hleaf

theorem plug_addrs_perm (ctx : List Frame) :
    ∀ t : T, (plug ctx t).addrs.Perm (t.addrs ++ ctxAddrs ctx) := by
  induction ctx with
  | nil => intro t; simp [plug, ctxAddrs]
  | cons f fs ih =>
    intro t
    refine (ih (f.plug t)).trans ?_
    rw [List.perm_iff_count]
    intro z
    simp only [List.count_append, ctxAddrs, List.count_cons, Frame.count_plug, List.count_nil]
    omega

theorem addStep_sim_inr (iv : Interval) (s : AddState) (a : AddAbs) (t' : T) (c : Bool)
    (hR : AddRel s a) (hstep : addStepT iv s.heap.next a = some (Sum.inr (t', c))) :
    ∃ h', addStep iv s =
        some (Sum.inr (h', if c = true then (s.number + 1) % 2 ^ 64 else s.number)) ∧
      t'.Models h' ∧ (h'.cell dummyAddr).c1 = t'.ptr ∧ (dummyAddr :: t'.addrs).Nodup ∧
      (∀ x ∈ t'.addrs, x < h'.next) ∧ s.heap.next ≤ h'.next ∧ t'.ptr ≠ none ∧
      (c = false → h'.next = s.heap.next) := by
  unfold addStepT at hstep
  split at hstep
  · exact absurd hstep (by simp)
  rename_i hne
  split at hstep
  · exact absurd hstep (by simp)
  rename_i ctx w ps gs hs hfix
  split at hstep
  swap
  · exact absurd hstep (by simp)
  rename_i hid
  simp only [Option.some.injEq, Sum.inr.injEq, Prod.mk.injEq] at hstep
  obtain ⟨ht, hcd⟩ := hstep
  obtain ⟨h1, n, hv, hqp, hqm, hqc, hqnd, hqlt, hqn, hqn'⟩ := addVisit_sim iv s a hR hne
  obtain ⟨h', hf, hwp, hwm, hwc, hwn, hperm, hwdirs, hps, hgs, hhs⟩ :=
    addFix_sim s (bumpH iv h1 n) a _ n hR.parent hR.dir hR.dirs hR.gp hR.helper hR.ol hqp hqm hqc
      hqnd hfix
  have hcid : (h'.cell n).id = w.item.id := by
    cases w with
    | leaf => simp [T.ptr] at hwp
    | nd wl m wd wr =>
      simp only [T.ptr, Option.some.injEq] at hwp
      subst hwp
      rw [hwm.1]; rfl
  have hst := addStep_of iv s h1 _ n h' hv hf
  rw [hcid, if_pos hid] at hst
  have hpm := (plug_models h' ctx w).2 ⟨hwm, by rw [hwp]; exact hwc⟩
  have hperm2 := (plug_addrs_perm ctx w).trans hperm
  subst ht
  refine ⟨h', ?_, hpm.1, hpm.2, ?_, ?_, ?_, ?_, ?_⟩
  rotate_left
  · rw [List.nodup_cons] at hqnd ⊢
    exact ⟨fun hx => hqnd.1 (hperm2.subset hx), hperm2.nodup_iff.2 hqnd.2⟩
  · intro x hx
    rw [hwn]
    exact hqlt x (List.mem_cons_of_mem _ (hperm2.subset hx))
  · rw [hwn]; exact hqn
  · intro hnone
    have : (plug ctx w).addrs = [] := by
      cases hp : plug ctx w with
      | leaf => rfl
      | nd _ _ _ _ => rw [hp] at hnone; simp [T.ptr] at hnone
    have hmem : n ∈ (plug ctx w).addrs :=
      (plug_addrs_perm ctx w).symm.subset (List.mem_append_left _ (T.ptr_mem_addrs hwp))
    rw [this] at hmem
    simp at hmem
  · intro hc
    rw [hwn]
    apply hqn'
    intro hnone
    rw [← hcd] at hc
    simp [hnone] at hc
  · rw [hst, ← hcd]
    simp

theorem addLoop_sim (iv : Interval) : ∀ (fuel : Nat) (s : AddState) (a : AddAbs) (t' : T)
    (c : Bool), AddRel s a → addLoopT iv s.heap.next fuel a = some (t', c) →
    ∃ h', addLoop iv fuel s =
        some (h', if c = true then (s.number + 1) % 2 ^ 64 else s.number) ∧
      t'.Models h' ∧ (h'.cell dummyAddr).c1 = t'.ptr ∧ (dummyAddr :: t'.addrs).Nodup ∧
      (∀ x ∈ t'.addrs, x < h'.next) ∧ s.heap.next ≤ h'.next ∧ t'.ptr ≠ none ∧
      (c = false → h'.next = s.heap.next) := by
  intro fuel
  induction fuel with
  | zero => intro s a t' c _ h; simp [addLoopT] at h
  | succ fuel ih =>
    intro s a t' c hR hl
    unfold addLoopT at hl
    split at hl
    · exact absurd hl (by simp)
    · rename_i t1 hstep
      simp only [Option.some.injEq] at hl
      subst hl
      obtain ⟨h', hst, rest⟩ := addStep_sim_inr iv s a _ _ hR hstep
      refine ⟨h', ?_, rest⟩
      simp [addLoop, hst]
    · rename_i a1 hstep
      obtain ⟨s1, hst, hR1, hn1, hnum1⟩ := addStep_sim_inl iv s a a1 hR hstep
      rw [← hn1] at hl
      obtain ⟨h', hlp, r1, r2, r3, r4, r5, r6, r7⟩ := ih s1 a1 t' c hR1 hl
      refine ⟨h', ?_, r1, r2, r3, r4, by rw [← hn1]; exact r5, r6,
        fun hc => by rw [← hn1]; exact r7 hc⟩
      simp only [addLoop, hst, Option.bind_eq_bind, Option.some_bind]
      rw [hlp, hnum1]

theorem T.blacken_models {h : Heap} {t : T} {n : Nat} (hp : t.ptr = some n) (hm : t.Models h)
    (hnd : t.addrs.Nodup) :
    t.blacken.Models (h.upd n (fun x => { x with red := false })) := by
  cases t with
  | leaf => simp [T.ptr] at hp
  | nd l a d r =>
    simp only [T.ptr, Option.some.injEq] at hp
    subst hp
    simp only [T.addrs, List.nodup_append, List.nodup_cons, List.disjoint_cons_right] at hnd
    rw [Heap.upd_eq_set, T.blacken]
    have := hm.set_root (e := { d with red := false }) (fun e => hnd.2.2.1 e) hnd.2.1.1
    have hc := hm.1
    simp only [T.cellOf] at this hc ⊢
    rw [hc]
    exact this

theorem T.ptr_blacken (t : T) : t.blacken.ptr = t.ptr := by cases t <;> rfl

theorem T.addrs_blacken (t : T) : t.blacken.addrs = t.addrs := by cases t <;> rfl

theorem add_sim (fuel : Nat) (tr : tree) (iv : Interval) (t t' : T) (c : Bool)
    (hR : Rep tr t) (hadd : addT fuel tr.heap.next t iv = some (t', c)) :
    ∃ tr', tr.add fuel iv = some tr' ∧ Rep tr' t' ∧
      tr'.number = (if c = true then (tr.number + 1) % 2 ^ 64 else tr.number) ∧
      tr.heap.next ≤ tr'.heap.next ∧ (c = false → tr'.heap.next = tr.heap.next) := by
  obtain ⟨hM, hroot, hnd, hlt⟩ := hR
  cases t with
  | leaf =>
    simp only [addT, Option.some.injEq, Prod.mk.injEq] at hadd
    obtain ⟨ht, hc⟩ := hadd
    subst ht hc
    refine ⟨{ heap := (newNode tr.heap iv iv.Low iv.High).1.upd tr.heap.next
                (fun x => { x with red := false }),
              root := some tr.heap.next, number := (tr.number + 1) % 2 ^ 64 },
      ?_, ⟨?_, rfl, ?_, ?_⟩, ?_, ?_, fun hc => absurd hc (by simp)⟩
    · simp only [tree.add, hroot, T.ptr_leaf]
      rfl
    · simp only [newNode, Heap.alloc, Heap.upd_eq_set]
      refine ⟨?_, trivial, trivial⟩
      rw [Heap.cell_set_same]
      simp [T.cellOf, newItem, T.ptr]
    · have := hlt dummyAddr (by simp)
      simp only [T.addrs, List.nil_append, List.nodup_cons, List.mem_singleton,
        List.not_mem_nil, not_false_eq_true, List.nodup_nil, and_true]
      omega
    · intro x hx
      simp only [T.addrs, List.nil_append, List.mem_cons, List.not_mem_nil, or_false] at hx
      have := hlt dummyAddr (by simp)
      simp only [newNode, Heap.alloc, Heap.upd_eq_set, Heap.next_set]
      rcases hx with e | e <;> omega
    · rfl
    · simp only [newNode, Heap.alloc, Heap.upd_eq_set, Heap.next_set]; omega
  | nd l n d r =>
    simp only [addT] at hadd
    split at hadd
    · exact absurd hadd (by simp)
    rename_i t1 c1 hloop
    simp only [Option.some.injEq, Prod.mk.injEq] at hadd
    obtain ⟨ht, hc⟩ := hadd
    subst ht hc
    have h0n : dummyAddr ∉ (T.nd l n d r).addrs := (List.nodup_cons.1 hnd).1
    have hR0 : AddRel
        { heap := tr.heap.upd dummyAddr (fun _ => { newDummy with c1 := tr.root }),
          number := tr.number, helper := some dummyAddr, grandParent := none,
          parent := none, node := tr.root, dir := 0, last := 0, otherLast := 1 }
        { ctx := [], focus := T.nd l n d r, gsync := true, hsync := true } := by
      refine ⟨hroot, ?_, ?_, ?_, ?_, rfl, ?_, ?_, ?_, ?_, rfl⟩
      · exact hM.set_not_mem _ _ h0n
      · simp only [CtxModels, Heap.upd_eq_set, Heap.cell_set_same]
        exact hroot
      · simpa [ctxAddrs] using hnd
      · simpa [ctxAddrs] using hlt
      · intro f hf; simp at hf
      · intro f hf; simp at hf
      · intro _; simp
      · intro _; rfl
    obtain ⟨h', hlp, r1, r2, r3, r4, r5, r6, r7⟩ := addLoop_sim iv fuel _ _ t1 c1 hR0 hloop
    obtain ⟨m, hm⟩ := Option.ne_none_iff_exists'.1 r6
    have hndt : t1.addrs.Nodup := (List.nodup_cons.1 r3).2
    refine ⟨{ heap := h'.upd m (fun x => { x with red := false }), root := some m,
              number := if c1 = true then (tr.number + 1) % 2 ^ 64 else tr.number },
      ?_, ⟨?_, ?_, ?_, ?_⟩, rfl, ?_, r7⟩
    · simp only [tree.add, hroot, T.ptr_nd]
      simp only [hroot, T.ptr_nd] at hlp
      simp only [hlp, Option.bind_eq_bind, Option.some_bind, r2, hm]
      rfl
    · exact T.blacken_models hm r1 hndt
    · rw [T.ptr_blacken, hm]
    · rw [T.addrs_blacken]; exact r3
    · intro x hx
      rw [T.addrs_blacken] at hx
      show x < h'.next
      rcases List.mem_cons.1 hx with e | e
      · have := hlt dummyAddr (by simp)
        have h5 : tr.heap.next ≤ h'.next := r5
        omega
      · exact r4 x e
    · exact r5

/-! ## The descent of `add` keeps the red-black invariants -/

theorem T.isRed_bumpT (iv : Interval) (t : T) : (bumpT iv t).isRed = t.isRed := by
  cases t <;> rfl

theorem T.bh_bumpT (iv : Interval) (t : T) : (bumpT iv t).bh = t.bh := by
  cases t <;> rfl

theorem T.noRR_bumpT (iv : Interval) (t : T) : (bumpT iv t).NoRR ↔ t.NoRR := by
  cases t <;> rfl

theorem T.balanced_bumpT (iv : Interval) (t : T) : (bumpT iv t).Balanced ↔ t.Balanced := by
  cases t <;> rfl

theorem T.child_bumpT (iv : Interval) (t : T) (i : Nat) : (bumpT iv t).child i = t.child i := by
  cases t <;> rfl

theorem T.stepDir_bumpT (iv jv : Interval) (t : T) :
    (bumpT jv t).stepDir iv = t.stepDir iv := by
  cases t <;> rfl

theorem flipT_of_not_flip (t : T) (h : t.Flip = false) : flipT t = t := by
  unfold flipT
  split
  · rename_i ll la dl lr n d rl ra dr rr
    have : (dl.red && dr.red) = false := h
    simp [this]
  · rfl

theorem flipT_of_flip (l r : T) (n : Nat) (d : Item) (h : (T.nd l n d r).Flip = true) :
    ∃ ll la dl lr rl ra dr rr, l = T.nd ll la dl lr ∧ r = T.nd rl ra dr rr ∧
      dl.red = true ∧ dr.red = true ∧
      flipT (T.nd l n d r) = T.nd (T.nd ll la { dl with red := false } lr) n
        { d with red := true } (T.nd rl ra { dr with red := false } rr) := by
  cases l with
  | leaf => simp [T.Flip, T.isRed] at h
  | nd ll la dl lr =>
    cases r with
    | leaf => simp [T.Flip, T.isRed] at h
    | nd rl ra dr rr =>
      simp only [T.Flip, T.isRed, Bool.and_eq_true] at h
      refine ⟨ll, la, dl, lr, rl, ra, dr, rr, rfl, rfl, h.1, h.2, ?_⟩
      simp [flipT, h.1, h.2]

theorem flipT_rb (t : T) (hn : t.NoRR) (hb : t.Balanced) (hr : t.Flip = true → t.isRed = false) :
    (flipT t).NoRR ∧ (flipT t).Balanced ∧ (flipT t).bh = t.bh := by
  cases hf : t.Flip with
  | false => rw [flipT_of_not_flip t hf]; exact ⟨hn, hb, rfl⟩
  | true =>
    cases t with
    | leaf => simp [T.Flip] at hf
    | nd l n d r =>
      obtain ⟨ll, la, dl, lr, rl, ra, dr, rr, e1, e2, h1, h2, he⟩ := flipT_of_flip l r n d hf
      subst e1 e2
      have hd : d.red = false := hr hf
      rw [he]
      simp only [T.NoRR, T.Balanced, T.bh, T.isRed, h1, h2, hd] at hn hb ⊢
      simp only [true_implies] at hn
      refine ⟨⟨?_, ⟨?_, hn.2.1.2⟩, ⟨?_, hn.2.2.2⟩⟩, ?_, ?_⟩
      · simp
      · simp
      · simp
      · simpa using hb
      · simp

theorem Frame.noRR_plug (f : Frame) (t : T) :
    (f.plug t).NoRR ↔
      (f.d.red = true → t.isRed = false ∧ f.sib.isRed = false) ∧ t.NoRR ∧ f.sib.NoRR := by
  unfold Frame.plug
  split <;> simp only [T.NoRR] <;> tauto

theorem Frame.balanced_plug (f : Frame) (t : T) :
    (f.plug t).Balanced ↔ f.sib.bh = t.bh ∧ t.Balanced ∧ f.sib.Balanced := by
  unfold Frame.plug
  split <;> simp only [T.Balanced] <;> constructor <;> rintro ⟨h1, h2, h3⟩ <;>
    first
      | exact ⟨h1, h2, h3⟩
      | exact ⟨h1.symm, h2, h3⟩
      | exact ⟨h1, h3, h2⟩
      | exact ⟨h1.symm, h3, h2⟩

theorem sgl_rb (fp fg : Frame) (rest : List Frame) (q : T) (c : Bool)
    (hpr : fp.d.red = true) (hcn : CtxNoRR (fp :: fg :: rest) c)
    (hcb : CtxBal (fp :: fg :: rest) q.bh) (hu : fg.sib.isRed = false) :
    CtxNoRR (sglP fp fg q :: rest) q.isRed ∧ CtxBal (sglP fp fg q :: rest) q.bh := by
  obtain ⟨hn1, hn2, hn3, hn4, hn5⟩ := hcn
  obtain ⟨hb1, hb2, hb3, hb4, hb5⟩ := hcb
  have hgb : fg.d.red = false := by
    cases hg : fg.d.red with
    | false => rfl
    | true => have := (hn3 hg).1; rw [hpr] at this; exact absurd this (by simp)
  simp only [hpr, hgb, if_true, if_false, Bool.false_eq_true, add_zero] at hb3 hb5
  have hsr : (sglP fp fg q).d.red = false := by simp [sglP, Frame.aggItem_red]
  have hgr : (sglG fp fg).d.red = true := by simp [sglG, Frame.aggItem_red]
  refine ⟨⟨?_, ?_, ?_⟩, ⟨?_, ?_, ?_⟩⟩
  · intro h; rw [hsr] at h; exact absurd h (by simp)
  · show ((sglG fp fg).plug fp.sib).NoRR
    rw [Frame.noRR_plug]
    exact ⟨fun _ => ⟨(hn1 hpr).2, hu⟩, hn2, hn4⟩
  · rw [hsr, ← hgb]; exact hn5
  · show ((sglG fp fg).plug fp.sib).bh = q.bh
    rw [Frame.bh_plug _ _ (by show fg.sib.bh = fp.sib.bh; rw [hb1, hb3]), hgr, hb1]
    simp
  · show ((sglG fp fg).plug fp.sib).Balanced
    rw [Frame.balanced_plug]
    exact ⟨by show fg.sib.bh = fp.sib.bh; rw [hb1, hb3], hb2, hb4⟩
  · rw [hsr]; simpa using hb5

theorem dbl_rb (fp fg : Frame) (rest : List Frame) (q : T) (c : Bool)
    (hpr : fp.d.red = true) (hqr : q.isRed = true) (hqn : q.NoRR) (hqb : q.Balanced)
    (hcn : CtxNoRR (fp :: fg :: rest) c)
    (hcb : CtxBal (fp :: fg :: rest) q.bh) (hu : fg.sib.isRed = false)
    (hfp : fp.dir ≤ 1) (hfg : fg.dir ≤ 1) (hd : fp.dir = takeOpposite fg.dir) :
    ((dblQ fp fg q).plug ((dblP fp fg q).plug (q.child fg.dir))).NoRR ∧
    ((dblQ fp fg q).plug ((dblP fp fg q).plug (q.child fg.dir))).Balanced ∧
    ((dblQ fp fg q).plug ((dblP fp fg q).plug (q.child fg.dir))).isRed = false ∧
    CtxNoRR rest false ∧
    CtxBal rest ((dblQ fp fg q).plug ((dblP fp fg q).plug (q.child fg.dir))).bh := by
  obtain ⟨hn1, hn2, hn3, hn4, hn5⟩ := hcn
  obtain ⟨hb1, hb2, hb3, hb4, hb5⟩ := hcb
  have hgb : fg.d.red = false := by
    cases hg : fg.d.red with
    | false => rfl
    | true => have := (hn3 hg).1; rw [hpr] at this; exact absurd this (by simp)
  simp only [hpr, hgb, if_true, if_false, Bool.false_eq_true, add_zero] at hb3 hb5
  have hQr : (dblQ fp fg q).d.red = false := by simp [dblQ, Frame.aggItem_red]
  have hGr : (dblG fp fg q).d.red = true := by simp [dblG, Frame.aggItem_red]
  have hPr : (dblP fp fg q).d.red = true := by simp [dblP, Frame.aggItem_red]
  have hch : ∀ i, (q.child i).isRed = false ∧ (q.child i).NoRR ∧ (q.child i).Balanced ∧
      (q.child i).bh = q.bh := by
    intro i
    cases q with
    | leaf => simp [T.isRed] at hqr
    | nd l n d r =>
      simp only [T.isRed] at hqr
      simp only [T.NoRR, hqr, true_implies] at hqn
      simp only [T.Balanced] at hqb
      rw [T.child_nd]
      split
      · exact ⟨hqn.1.1, hqn.2.1, hqb.2.1, by simp [T.bh, hqr]⟩
      · exact ⟨hqn.1.2, hqn.2.2, hqb.2.2, by simp [T.bh, hqr, hqb.1]⟩
  have hPb : ((dblP fp fg q).plug (q.child fg.dir)).bh = q.bh := by
    rw [Frame.bh_plug _ _ (by show fp.sib.bh = _; rw [hb1, (hch _).2.2.2]), hPr, (hch _).2.2.2]
    simp
  have hGb : ((dblG fp fg q).plug (q.child fp.dir)).bh = q.bh := by
    rw [Frame.bh_plug _ _ (by show fg.sib.bh = _; rw [hb3, (hch _).2.2.2]), hGr, (hch _).2.2.2]
    simp
  have hbh : ((dblQ fp fg q).plug ((dblP fp fg q).plug (q.child fg.dir))).bh = q.bh + 1 := by
    rw [Frame.bh_plug _ _ (by show ((dblG fp fg q).plug (q.child fp.dir)).bh = _; rw [hGb, hPb]),
      hQr, hPb]
    simp
  refine ⟨?_, ?_, ?_, ?_, ?_⟩
  · rw [Frame.noRR_plug, Frame.noRR_plug]
    refine ⟨fun h => absurd h (by rw [hQr]; simp), ⟨fun _ => ⟨(hch _).1, (hn1 hpr).2⟩,
      (hch _).2.1, hn2⟩, ?_⟩
    show ((dblG fp fg q).plug (q.child fp.dir)).NoRR
    rw [Frame.noRR_plug]
    exact ⟨fun _ => ⟨(hch _).1, hu⟩, (hch _).2.1, hn4⟩
  · rw [Frame.balanced_plug, Frame.balanced_plug]
    refine ⟨by show ((dblG fp fg q).plug (q.child fp.dir)).bh = _; rw [hGb, hPb],
      ⟨by show fp.sib.bh = _; rw [hb1, (hch _).2.2.2], (hch _).2.2.1, hb2⟩, ?_⟩
    show ((dblG fp fg q).plug (q.child fp.dir)).Balanced
    rw [Frame.balanced_plug]
    exact ⟨by show fg.sib.bh = _; rw [hb3, (hch _).2.2.2], (hch _).2.2.1, hb4⟩
  · rw [Frame.isRed_plug, hQr]
  · rw [← hgb]; exact hn5
  · rw [hbh]; exact hb5

theorem T.stepDir_le_one (iv : Interval) (t : T) : t.stepDir iv ≤ 1 := compare_le_one _ _ _ _

theorem descend_rb (iv : Interval) (ctx : List Frame) (l r : T) (n : Nat) (d : Item)
    (hn : (T.nd l n d r).NoRR) (hb : (T.nd l n d r).Balanced) (hcn : CtxNoRR ctx d.red)
    (hcb : CtxBal ctx (T.nd l n d r).bh) (hD : CtxDirs iv ctx) :
    ((T.nd l n d r).child ((T.nd l n d r).stepDir iv)).NoRR ∧
    ((T.nd l n d r).child ((T.nd l n d r).stepDir iv)).Balanced ∧
    CtxNoRR ((T.nd l n d r).frame ((T.nd l n d r).stepDir iv) :: ctx)
      ((T.nd l n d r).child ((T.nd l n d r).stepDir iv)).isRed ∧
    CtxBal ((T.nd l n d r).frame ((T.nd l n d r).stepDir iv) :: ctx)
      ((T.nd l n d r).child ((T.nd l n d r).stepDir iv)).bh ∧
    CtxDirs iv ((T.nd l n d r).frame ((T.nd l n d r).stepDir iv) :: ctx) := by
  have hD' : CtxDirs iv ((T.nd l n d r).frame ((T.nd l n d r).stepDir iv) :: ctx) := by
    intro f hf
    rcases List.mem_cons.1 hf with e | e
    · rw [e]; rfl
    · exact hD f e
  refine ⟨?_, ?_, ?_, ?_, hD'⟩ <;> clear hD'
  all_goals
    have hi := T.stepDir_le_one iv (T.nd l n d r)
    generalize (T.nd l n d r).stepDir iv = i at hi ⊢
    have h01 : i = 0 ∨ i = 1 := by omega
    obtain ⟨hn1, hn2, hn3⟩ := hn
    obtain ⟨hb1, hb2, hb3⟩ := hb
    simp only [T.bh] at hcb
    rcases h01 with e | e <;> subst e <;>
      simp only [T.child_nd, T.frame, takeOpposite, CtxNoRR, CtxBal, T.item, if_true,
        one_ne_zero, if_false, Nat.sub_zero, Nat.sub_self]
  · exact hn2
  · exact hn3
  · exact hb2
  · exact hb3
  · exact ⟨fun h => hn1 h, hn3, hcn⟩
  · exact ⟨fun h => (hn1 h).symm, hn2, hcn⟩
  · exact ⟨hb1.symm, hb3, hcb⟩
  · exact ⟨hb1, hb2, by rw [← hb1]; exact hcb⟩

theorem pathLen_nd (iv : Interval) (l r : T) (n : Nat) (d : Item) :
    pathLen iv (T.nd l n d r) =
      1 + pathLen iv ((T.nd l n d r).child ((T.nd l n d r).stepDir iv)) := by
  simp only [pathLen, T.stepDir, T.item, T.child_nd]
  split <;> rfl

theorem pathLen_bumpT (iv jv : Interval) (t : T) : pathLen iv (bumpT jv t) = pathLen iv t := by
  cases t <;> rfl

theorem pathLen_flipT (iv : Interval) (t : T) : pathLen iv (flipT t) = pathLen iv t := by
  unfold flipT
  split
  · split
    · simp only [pathLen]
    · rfl
  · rfl

theorem Frame.child_plug_same (f : Frame) (t : T) (hf : f.dir ≤ 1) :
    (f.plug t).child f.dir = t := by
  unfold Frame.plug
  split
  · rename_i h; rw [T.child_nd, if_pos h]
  · rename_i h; rw [T.child_nd, if_neg h]

theorem Frame.child_plug_opp (f : Frame) (t : T) (hf : f.dir ≤ 1) :
    (f.plug t).child (takeOpposite f.dir) = f.sib := by
  unfold Frame.plug takeOpposite
  split
  · rename_i h; rw [T.child_nd, if_neg (by omega)]
  · rename_i h; rw [T.child_nd, if_pos (by omega)]

theorem Frame.children_plug_black (f : Frame) (t : T) (hf : f.dir ≤ 1)
    (ht : t.isRed = false) (hs : f.sib.isRed = false) :
    ((f.plug t).child 0).isRed = false ∧ ((f.plug t).child 1).isRed = false := by
  have h1 := Frame.child_plug_same f t hf
  have h2 := Frame.child_plug_opp f t hf
  have h01 : f.dir = 0 ∨ f.dir = 1 := by omega
  rcases h01 with e | e <;> rw [e] at h1 h2 <;> simp only [takeOpposite] at h2 <;>
    simp [h1, h2, ht, hs]

theorem Frame.stepDir_plug (iv : Interval) (f : Frame) (t : T) :
    (f.plug t).stepDir iv = compare f.d.interval.Low iv.Low f.d.id iv.ID := by
  unfold T.stepDir; rw [Frame.item_plug]

theorem fixT_rot (iv : Interval) (a : AddAbs) (q : T) (fp fg : Frame) (rest : List Frame)
    (c : Bool) (hctx : a.ctx = fp :: fg :: rest) (hg : a.gsync = true) (hh : a.hsync = true)
    (hu : fg.sib.isRed = false) (hpr : fp.d.red = true) (hqr : q.isRed = true)
    (hqn : q.NoRR) (hqb : q.Balanced)
    (hcn : CtxNoRR (fp :: fg :: rest) c) (hcb : CtxBal (fp :: fg :: rest) q.bh)
    (hD : CtxDirs iv (fp :: fg :: rest)) :
    ∃ ctx w ps gs hs, fixT a q = some (ctx, w, ps, gs, hs) ∧
      w.NoRR ∧ w.Balanced ∧ CtxNoRR ctx w.isRed ∧ CtxBal ctx w.bh ∧ CtxDirs iv ctx ∧
      w.ptr ≠ none ∧
      ((∀ i, (q.child i).Quiet) →
        AddPhase iv ⟨w.frame (w.stepDir iv) :: ctx, w.child (w.stepDir iv), ps,
          gs && (decide (2 ≤ ctx.length) || hs)⟩ ∧
        2 * pathLen iv (w.child (w.stepDir iv)) + (if ps = true then 1 else 0) <
          2 * pathLen iv q + 1) := by
  have hfp : fp.dir ≤ 1 := by rw [hD fp (by simp)]; exact compare_le_one _ _ _ _
  have hfg : fg.dir ≤ 1 := by rw [hD fg (by simp)]; exact compare_le_one _ _ _ _
  obtain ⟨ql, n, dq, qr, hqe⟩ : ∃ ql n dq qr, q = T.nd ql n dq qr := by
    cases q with
    | leaf => simp [T.isRed] at hqr
    | nd ql n dq qr => exact ⟨ql, n, dq, qr, rfl⟩
  have hpl := pathLen_nd iv ql qr n dq
  rw [← hqe] at hpl
  by_cases hd : fp.dir = fg.dir
  · refine ⟨sglP fp fg q :: rest, q, true, false, false, ?_, hqn, hqb, ?_, ?_, ?_, ?_, ?_⟩
    · simp [fixT, hctx, hpr, hqr, hg, hh, hd]
    · exact (sgl_rb fp fg rest q c hpr hcn hcb hu).1
    · exact (sgl_rb fp fg rest q c hpr hcn hcb hu).2
    · intro f hf
      rcases List.mem_cons.1 hf with e | e
      · rw [e]
        show fg.dir = _
        simp only [sglP, Frame.aggItem_interval, Frame.aggItem_id]
        rw [← hd]; exact hD fp (by simp)
      · exact hD f (by simp [e])
    · rw [hqe]; simp [T.ptr]
    · intro hQ
      refine ⟨Or.inr (Or.inl ⟨rfl, ?_, hQ _⟩), ?_⟩
      · intro hl; simp at hl
      · simp only [if_true]; omega
  · have hd' : fp.dir = takeOpposite fg.dir := takeOpposite_of_ne hfp hfg hd
    have hfgd : fg.dir = takeOpposite fp.dir := by
      rw [hd']; unfold takeOpposite; omega
    obtain ⟨r1, r2, r3, r4, r5⟩ := dbl_rb fp fg rest q c hpr hqr hqn hqb hcn hcb hu hfp hfg hd'
    refine ⟨rest, (dblQ fp fg q).plug ((dblP fp fg q).plug (q.child fg.dir)), false, false,
      false, ?_, r1, r2, ?_, r5, ?_, ?_, ?_⟩
    · simp [fixT, hctx, hpr, hqr, hg, hh, hd]
    · rw [r3]; exact r4
    · intro f hf; exact hD f (by simp [hf])
    · rw [Frame.ptr_plug]; simp
    · intro hQ
      have hsd : ((dblQ fp fg q).plug ((dblP fp fg q).plug (q.child fg.dir))).stepDir iv =
          q.stepDir iv := by
        rw [Frame.stepDir_plug]
        simp only [dblQ, Frame.aggItem_interval, Frame.aggItem_id]
        rfl
      have hqch : ∀ i, (q.child i).isRed = false := by
        intro i
        have := hQ i
        cases hc : q.child i with
        | leaf => rfl
        | nd _ _ _ _ => rw [hc] at this; exact this.1
      have hsib : fp.sib.isRed = false := (hcn.1 hpr).2
      have hPd : ((dblP fp fg q).plug (q.child fg.dir)).stepDir iv = fp.dir := by
        rw [Frame.stepDir_plug]
        simp only [dblP, Frame.aggItem_interval, Frame.aggItem_id]
        exact (hD fp (by simp)).symm
      have hGd : ((dblG fp fg q).plug (q.child fp.dir)).stepDir iv = fg.dir := by
        rw [Frame.stepDir_plug]
        simp only [dblG, Frame.aggItem_interval, Frame.aggItem_id]
        exact (hD fg (by simp)).symm
      have hkid : ∀ i, i ≤ 1 →
          (((dblQ fp fg q).plug ((dblP fp fg q).plug (q.child fg.dir))).child i).isRed = true ∧
          ((((dblQ fp fg q).plug ((dblP fp fg q).plug (q.child fg.dir))).child i).child 0).isRed
            = false ∧
          ((((dblQ fp fg q).plug ((dblP fp fg q).plug (q.child fg.dir))).child i).child 1).isRed
            = false ∧
          (((dblQ fp fg q).plug ((dblP fp fg q).plug (q.child fg.dir))).child i).child
            ((((dblQ fp fg q).plug ((dblP fp fg q).plug (q.child fg.dir))).child i).stepDir iv)
            = q.child i := by
        intro i hi
        by_cases hif : i = fg.dir
        · have e1 := Frame.child_plug_same (dblQ fp fg q)
            ((dblP fp fg q).plug (q.child fg.dir)) hfg
          rw [hif]
          have e1' : ((dblQ fp fg q).plug ((dblP fp fg q).plug (q.child fg.dir))).child fg.dir =
              (dblP fp fg q).plug (q.child fg.dir) := e1
          rw [e1', hPd]
          have hc2 := Frame.children_plug_black (dblP fp fg q) (q.child fg.dir) hfp (hqch _) hsib
          refine ⟨?_, hc2.1, hc2.2, ?_⟩
          · rw [Frame.isRed_plug]; simp [dblP, Frame.aggItem_red]
          · exact Frame.child_plug_same (dblP fp fg q) _ hfp
        · have hif' : i = fp.dir := by rw [hd']; exact takeOpposite_of_ne hi hfg hif
          have e1 := Frame.child_plug_opp (dblQ fp fg q)
            ((dblP fp fg q).plug (q.child fg.dir)) hfg
          have e1' : ((dblQ fp fg q).plug ((dblP fp fg q).plug (q.child fg.dir))).child fp.dir =
              (dblG fp fg q).plug (q.child fp.dir) :=
            (congrArg (fun i => ((dblQ fp fg q).plug
              ((dblP fp fg q).plug (q.child fg.dir))).child i) hd').trans e1
          rw [hif', e1', hGd]
          have hc2 := Frame.children_plug_black (dblG fp fg q) (q.child fp.dir) hfg (hqch _) hu
          refine ⟨?_, hc2.1, hc2.2, ?_⟩
          · rw [Frame.isRed_plug]; simp [dblG, Frame.aggItem_red]
          · exact Frame.child_plug_same (dblG fp fg q) _ hfg
      rw [hsd]
      obtain ⟨k1, k2, k3, k4⟩ := hkid (q.stepDir iv) (T.stepDir_le_one iv q)
      refine ⟨Or.inr (Or.inr ⟨rfl, ⟨⟨_, _, rfl, ?_⟩, k1, k2, k3, ?_⟩⟩), ?_⟩
      · show ((dblQ fp fg q).plug ((dblP fp fg q).plug (q.child fg.dir))).item.red = false
        rw [Frame.item_plug]; simp [dblQ, Frame.aggItem_red]
      · show (T.child _ _).Quiet
        rw [k4]; exact hQ _
      · have hne : ((dblQ fp fg q).plug ((dblP fp fg q).plug (q.child fg.dir))).child
            (q.stepDir iv) ≠ T.leaf := by
          intro e; rw [e] at k1; simp [T.isRed] at k1
        cases hx : ((dblQ fp fg q).plug ((dblP fp fg q).plug (q.child fg.dir))).child
            (q.stepDir iv) with
        | leaf => exact absurd hx hne
        | nd xl xn xd xr =>
          rw [hx] at k4
          rw [pathLen_nd, k4]
          simp only [Bool.false_eq_true, if_false]
          omega

theorem fixT_none (a : AddAbs) (q : T)
    (hc : ∀ fp rest, a.ctx = fp :: rest → (fp.d.red && q.isRed) = false) :
    fixT a q = some (a.ctx, q, true, a.gsync, a.hsync) := by
  unfold fixT
  split
  · rename_i h; rw [h]
  · rename_i fp rest h
    rw [if_neg (by rw [hc fp rest h]; simp), h]

theorem CtxNoRR.recolor {ctx : List Frame} {c : Bool} (c' : Bool) (h : CtxNoRR ctx c)
    (hc : ∀ fp rest, ctx = fp :: rest → fp.d.red = true → c' = false) : CtxNoRR ctx c' := by
  cases ctx with
  | nil => trivial
  | cons f fs => exact ⟨fun hr => ⟨hc f fs rfl hr, (h.1 hr).2⟩, h.2.1, h.2.2⟩

theorem T.not_flip_child (l r : T) (n : Nat) (d : Item) (i : Nat) (hi : i ≤ 1)
    (hf : (l.isRed && r.isRed) = false) (hr : ((T.nd l n d r).child i).isRed = true) :
    ((T.nd l n d r).child (takeOpposite i)).isRed = false := by
  have h01 : i = 0 ∨ i = 1 := by omega
  rcases h01 with e | e <;> subst e <;> simp only [T.child_nd, takeOpposite] at hr ⊢ <;>
    simp_all

theorem addHead_rb (iv : Interval) (fresh : Nat) (a : AddAbs) (h : AddRB iv a) :
    ∃ ctx w ps gs hs,
      fixT a (bumpT iv (visitT iv fresh a.focus)) = some (ctx, w, ps, gs, hs) ∧
      w.NoRR ∧ w.Balanced ∧ CtxNoRR ctx w.isRed ∧ CtxBal ctx w.bh ∧ CtxDirs iv ctx ∧
      w.ptr ≠ none ∧
      (a.focus.ptr ≠ none →
        AddPhase iv ⟨w.frame (w.stepDir iv) :: ctx, w.child (w.stepDir iv), ps,
          gs && (decide (2 ≤ ctx.length) || hs)⟩ ∧
        2 * pathLen iv (w.child (w.stepDir iv)) + (if ps = true then 1 else 0) <
          addMeasure iv a) := by
  obtain ⟨actx, afoc, ag, ah⟩ := a
  obtain ⟨hn, hb, hcn, hcb, hD, hph, hne⟩ := h
  dsimp only at hn hb hcn hcb hD hph hne ⊢
  cases afoc with
  | leaf =>
    simp only [visitT, bumpT_newItem]
    have hqn : (T.nd T.leaf fresh (newItem iv) T.leaf).NoRR := by simp [T.NoRR, T.isRed]
    have hqb : (T.nd T.leaf fresh (newItem iv) T.leaf).Balanced := by simp [T.Balanced]
    have hqh : (T.nd T.leaf fresh (newItem iv) T.leaf).bh = T.leaf.bh := by
      simp [T.bh, newItem]
    cases actx with
    | nil => exact absurd rfl (hne rfl)
    | cons fp rest1 =>
      cases hpr : fp.d.red with
      | true =>
        rcases hph with ⟨hg, hh, -, hI2⟩ | ⟨-, -, hQ⟩ | ⟨-, -, hr, -⟩
        · obtain ⟨fg, rest, e, hu⟩ := hI2 fp rest1 rfl hpr
          subst e
          obtain ⟨ctx, w, ps, gs, hs, r1, r2, r3, r4, r5, r6, r7, -⟩ :=
            fixT_rot iv ⟨fp :: fg :: rest, T.leaf, ag, ah⟩ _ fp fg rest _ rfl hg hh hu hpr
              (by simp [T.isRed, newItem]) hqn hqb hcn (by rw [hqh]; exact hcb) hD
          exact ⟨ctx, w, ps, gs, hs, r1, r2, r3, r4, r5, r6, r7, fun hx => absurd rfl hx⟩
        · exact absurd hQ (by simp [T.Quiet])
        · simp [T.isRed] at hr
      | false =>
        refine ⟨fp :: rest1, _, true, ag, ah, fixT_none _ _ ?_, hqn, hqb, ?_, ?_, hD, by simp [T.ptr],
          fun hx => absurd rfl hx⟩
        · intro fp' rest' e
          simp only [List.cons.injEq] at e
          rw [← e.1, hpr]; rfl
        · refine hcn.recolor _ ?_
          intro fp' rest' e hr
          simp only [List.cons.injEq] at e
          rw [← e.1, hpr] at hr
          exact absurd hr (by simp)
        · rw [hqh]; exact hcb
  | nd l n d r =>
    have hvis : visitT iv fresh (T.nd l n d r) = flipT (T.nd l n d r) := rfl
    rw [hvis]
    cases hfl : (T.nd l n d r).Flip with
    | true =>
      obtain ⟨ll, la, dl, lr, rl, ra, dr, rr, e1, e2, h1, h2, he⟩ := flipT_of_flip l r n d hfl
      have hdb : d.red = false := by
        cases hd : d.red with
        | false => rfl
        | true =>
          have := (hn.1 hd).1
          rw [e1] at this
          simp [T.isRed, h1] at this
      obtain ⟨f1, f2, f3⟩ := flipT_rb (T.nd l n d r) hn hb (fun _ => hdb)
      have hqn := (T.noRR_bumpT iv _).2 f1
      have hqb := (T.balanced_bumpT iv _).2 f2
      have hqh : (bumpT iv (flipT (T.nd l n d r))).bh = (T.nd l n d r).bh := by
        rw [T.bh_bumpT, f3]
      have hqr : (bumpT iv (flipT (T.nd l n d r))).isRed = true := by
        rw [T.isRed_bumpT, he]; rfl
      have hpl : pathLen iv (bumpT iv (flipT (T.nd l n d r))) = pathLen iv (T.nd l n d r) := by
        rw [pathLen_bumpT, pathLen_flipT]
      have hQ : ∀ i, ((bumpT iv (flipT (T.nd l n d r))).child i).Quiet := by
        intro i
        rw [T.child_bumpT, he, T.child_nd]
        subst e1 e2
        obtain ⟨-, hnl, hnr⟩ := hn
        have hl := hnl.1 h1
        have hr := hnr.1 h2
        split
        · exact ⟨rfl, by simp [hl.1]⟩
        · exact ⟨rfl, by simp [hr.1]⟩
      have hN : ag = true ∧ ah = true ∧ AddI2 actx := by
        rcases hph with ⟨hg, hh, -, hI2⟩ | ⟨-, -, hQ'⟩ | ⟨-, -, hr, -⟩
        · exact ⟨hg, hh, hI2⟩
        · have : (l.isRed && r.isRed) = false := hQ'.2
          have hfl' : (l.isRed && r.isRed) = true := hfl
          rw [this] at hfl'; exact absurd hfl' (by simp)
        · simp only [T.isRed] at hr
          rw [hdb] at hr; exact absurd hr (by simp)
      obtain ⟨hg, hh, hI2⟩ := hN
      have hnofix : (∀ fp rest, actx = fp :: rest → fp.d.red = false) →
          ∃ ctx w ps gs hs,
            fixT ⟨actx, T.nd l n d r, ag, ah⟩ (bumpT iv (flipT (T.nd l n d r))) =
              some (ctx, w, ps, gs, hs) ∧
            w.NoRR ∧ w.Balanced ∧ CtxNoRR ctx w.isRed ∧ CtxBal ctx w.bh ∧ CtxDirs iv ctx ∧
            w.ptr ≠ none ∧
            ((T.nd l n d r).ptr ≠ none →
              AddPhase iv ⟨w.frame (w.stepDir iv) :: ctx, w.child (w.stepDir iv), ps,
                gs && (decide (2 ≤ ctx.length) || hs)⟩ ∧
              2 * pathLen iv (w.child (w.stepDir iv)) + (if ps = true then 1 else 0) <
                addMeasure iv ⟨actx, T.nd l n d r, ag, ah⟩) := by
        intro hblack
        refine ⟨actx, _, true, ag, ah, fixT_none _ _ ?_, hqn, hqb, ?_, ?_, hD, ?_, ?_⟩
        · intro fp rest e
          rw [hblack fp rest e]; rfl
        · refine hcn.recolor _ ?_
          intro fp rest e hr
          rw [hblack fp rest e] at hr
          exact absurd hr (by simp)
        · rw [hqh]; exact hcb
        · rw [T.ptr_bumpT, T.ptr_flipT]; simp [T.ptr]
        · intro _
          refine ⟨Or.inr (Or.inl ⟨rfl, ?_, hQ _⟩), ?_⟩
          · intro hl
            have hnil : actx = [] := by
              cases actx with
              | nil => rfl
              | cons _ _ => simp at hl
            simp [hnil, hg, hh]
          · have : bumpT iv (flipT (T.nd l n d r)) ≠ T.leaf := by
              intro e; rw [e] at hqr; simp [T.isRed] at hqr
            cases hq : bumpT iv (flipT (T.nd l n d r)) with
            | leaf => exact absurd hq this
            | nd _ _ _ _ =>
              rw [hq] at hpl
              rw [pathLen_nd] at hpl
              simp only [addMeasure, hg, if_true]
              omega
      cases actx with
      | nil => exact hnofix (fun fp rest e => by simp at e)
      | cons fp rest1 =>
        cases hpr : fp.d.red with
        | false =>
          refine hnofix ?_
          intro fp' rest' e
          simp only [List.cons.injEq] at e
          rw [← e.1]; exact hpr
        | true =>
          obtain ⟨fg, rest, e, hu⟩ := hI2 fp rest1 rfl hpr
          subst e
          obtain ⟨ctx, w, ps, gs, hs, r1, r2, r3, r4, r5, r6, r7, r8⟩ :=
            fixT_rot iv ⟨fp :: fg :: rest, T.nd l n d r, ag, ah⟩ _ fp fg rest _ rfl hg hh hu hpr
              hqr hqn hqb hcn (by rw [hqh]; exact hcb) hD
          refine ⟨ctx, w, ps, gs, hs, r1, r2, r3, r4, r5, r6, r7, fun _ => ?_⟩
          obtain ⟨p1, p2⟩ := r8 hQ
          refine ⟨p1, ?_⟩
          simp only [addMeasure, hg, if_true]
          omega
    | false =>
      rw [flipT_of_not_flip _ hfl]
      have hfl' : (l.isRed && r.isRed) = false := hfl
      have hpl := pathLen_nd iv l r n d
      refine ⟨actx, _, true, ag, ah, fixT_none _ _ ?_, (T.noRR_bumpT iv _).2 hn,
        (T.balanced_bumpT iv _).2 hb, ?_, ?_, hD, by rw [T.ptr_bumpT]; simp [T.ptr], fun _ => ?_⟩
      · intro fp rest e
        rw [T.isRed_bumpT]
        cases hpr : fp.d.red with
        | false => rfl
        | true =>
          subst e
          rw [(hcn.1 hpr).1]; rfl
      · rw [T.isRed_bumpT]; exact hcn
      · rw [T.bh_bumpT]; exact hcb
      · rw [T.stepDir_bumpT, T.child_bumpT]
        have hI1' : AddI1 ((bumpT iv (T.nd l n d r)).frame ((T.nd l n d r).stepDir iv) :: actx)
            ((T.nd l n d r).child ((T.nd l n d r).stepDir iv)) := by
          intro hr
          exact ⟨_, _, rfl, T.not_flip_child l r n d _ (T.stepDir_le_one _ _) hfl' hr⟩
        rcases hph with ⟨hg, hh, hI1, hI2⟩ | ⟨hg, hh, hQ⟩ | ⟨hg, hB⟩ <;>
          dsimp only at hg
        · dsimp only at hh hI1 hI2
          refine ⟨Or.inl ⟨rfl, by simp [hg, hh], hI1', ?_⟩, ?_⟩
          · intro f rest e hr
            simp only [List.cons.injEq] at e
            obtain ⟨e1, e2⟩ := e
            subst e1 e2
            exact hI1 hr
          · simp only [addMeasure, hg, if_true]; omega
        · dsimp only at hh hQ
          refine ⟨Or.inl ⟨rfl, ?_, hI1', ?_⟩, ?_⟩
          · rw [hg]
            simp only [Bool.true_and, Bool.or_eq_true, decide_eq_true_eq]
            by_cases hl : 2 ≤ actx.length
            · exact Or.inl hl
            · exact Or.inr (hh (by omega))
          · intro f rest e hr
            simp only [List.cons.injEq] at e
            obtain ⟨e1, e2⟩ := e
            subst e1
            have : d.red = true := hr
            rw [hQ.1] at this; exact absurd this (by simp)
          · simp only [addMeasure, hg, if_true]; omega
        · obtain ⟨⟨f, rest, e, hfb⟩, hr, hc0, hc1, hq⟩ := hB
          dsimp only at e hq
          subst e
          refine ⟨Or.inr (Or.inl ⟨rfl, ?_, hq⟩), ?_⟩
          · intro hl; simp at hl
          · simp only [addMeasure, hg, if_true, Bool.false_eq_true, if_false]; omega

theorem addStepT_eq (iv : Interval) (fresh : Nat) (a : AddAbs) {ctx : List Frame} {w : T}
    {ps gs hs : Bool} (hne : a.focus.ptr = none → a.ctx ≠ [])
    (hfix : fixT a (bumpT iv (visitT iv fresh a.focus)) = some (ctx, w, ps, gs, hs)) :
    addStepT iv fresh a =
      if w.item.id = iv.ID then some (Sum.inr (plug ctx w, decide (a.focus.ptr = none)))
      else some (Sum.inl { ctx := w.frame (w.stepDir iv) :: ctx, focus := w.child (w.stepDir iv),
                           gsync := ps, hsync := gs && (decide (2 ≤ ctx.length) || hs) }) := by
  unfold addStepT
  rw [if_neg (by
    rintro ⟨h1, h2⟩
    exact hne h1 (List.length_eq_zero.1 h2))]
  rw [hfix]
  rfl

theorem fixT_leaf_id (iv : Interval) (fresh : Nat) (a : AddAbs) {ctx : List Frame} {w : T}
    {ps gs hs : Bool} (hl : a.focus.ptr = none)
    (hfix : fixT a (bumpT iv (visitT iv fresh a.focus)) = some (ctx, w, ps, gs, hs)) :
    w.item.id = iv.ID := by
  cases hf : a.focus with
  | nd l n d r => rw [hf] at hl; simp [T.ptr] at hl
  | leaf =>
    rw [hf] at hfix
    simp only [visitT, bumpT_newItem] at hfix
    rw [(fixT_item a _ hfix).1]
    rfl

theorem addStepT_rb (iv : Interval) (fresh : Nat) (a : AddAbs) (h : AddRB iv a) :
    ∃ r, addStepT iv fresh a = some r ∧
      (∀ a', r = Sum.inl a' → AddRB iv a' ∧ addMeasure iv a' < addMeasure iv a) ∧
      (∀ t' c, r = Sum.inr (t', c) → t'.NoRR ∧ t'.Balanced) := by
  obtain ⟨ctx, w, ps, gs, hs, hfix, r1, r2, r3, r4, r5, r6, r7⟩ := addHead_rb iv fresh a h
  have hst := addStepT_eq iv fresh a h.2.2.2.2.2.2 hfix
  by_cases hid : w.item.id = iv.ID
  · rw [if_pos hid] at hst
    refine ⟨_, hst, fun a' e => by simp at e, ?_⟩
    intro t' c e
    simp only [Sum.inr.injEq, Prod.mk.injEq] at e
    rw [← e.1]
    exact ⟨(plug_noRR ctx w).2 ⟨r1, r3⟩, (plug_balanced ctx w).2 ⟨r2, r4⟩⟩
  · rw [if_neg hid] at hst
    refine ⟨_, hst, ?_, fun t' c e => by simp at e⟩
    intro a' e
    simp only [Sum.inl.injEq] at e
    subst e
    have hnl : a.focus.ptr ≠ none := fun hl => hid (fixT_leaf_id iv fresh a hl hfix)
    obtain ⟨p1, p2⟩ := r7 hnl
    cases w with
    | leaf => exact absurd rfl r6
    | nd l n d r =>
      obtain ⟨d1, d2, d3, d4, d5⟩ := descend_rb iv ctx l r n d r1 r2 r3 r4 r5
      refine ⟨⟨d1, d2, d3, d4, d5, p1, ?_⟩, ?_⟩
      · intro _; simp
      · simp only [addMeasure] at p2 ⊢
        exact p2

theorem addLoopT_rb (iv : Interval) (fresh : Nat) : ∀ (fuel : Nat) (a : AddAbs),
    AddRB iv a → addMeasure iv a < fuel →
    ∃ t' c, addLoopT iv fresh fuel a = some (t', c) ∧ t'.NoRR ∧ t'.Balanced := by
  intro fuel
  induction fuel with
  | zero => intro a _ h; omega
  | succ fuel ih =>
    intro a hR hm
    obtain ⟨r, hst, hl, hr⟩ := addStepT_rb iv fresh a hR
    cases r with
    | inr tc =>
      obtain ⟨t', c⟩ := tc
      exact ⟨t', c, by simp [addLoopT, hst], hr t' c rfl⟩
    | inl a' =>
      obtain ⟨hR', hm'⟩ := hl a' rfl
      obtain ⟨t', c, hlp, hp⟩ := ih a' hR' (by omega)
      exact ⟨t', c, by simp [addLoopT, hst, hlp], hp⟩

/-! ## The descent of `add` keeps the aggregates -/

theorem natMax_eq (a b : Nat) : Nat.max a b = max a b := rfl

theorem natMin_eq (a b : Nat) : Nat.min a b = min a b := rfl

theorem ite_lt_eq_min (a b : Nat) : (if a < b then a else b) = min a b := by
  simp only [Nat.min_def]; split_ifs <;> omega

theorem ite_gt_eq_max (a b : Nat) : (if a > b then a else b) = max b a := by
  simp only [Nat.max_def]; split_ifs <;> omega

theorem T.minWith_leaf (x : Nat) : T.leaf.minWith x = x := rfl

theorem T.minWith_nd (l r : T) (n : Nat) (d : Item) (x : Nat) :
    (T.nd l n d r).minWith x = min d.min x := ite_lt_eq_min _ _

theorem optMin_none (x : Nat) : optMin none x = x := rfl

theorem optMin_some (v x : Nat) : optMin (some v) x = min v x := ite_lt_eq_min _ _

theorem Frame.minWith_plug (f : Frame) (t : T) (x : Nat) :
    (f.plug t).minWith x = min f.d.min x := by
  unfold Frame.plug; split <;> exact T.minWith_nd _ _ _ _ _

theorem T.rootMax_nd (l r : T) (n : Nat) (d : Item) : (T.nd l n d r).rootMax = d.max := rfl

theorem T.rootMin_nd (l r : T) (n : Nat) (d : Item) : (T.nd l n d r).rootMin = some d.min := rfl

theorem flipT_lexact (t : T) (h : t.LExact) :
    (flipT t).LExact ∧ (flipT t).rootMax = t.rootMax ∧ (flipT t).rootMin = t.rootMin := by
  unfold flipT
  split
  · split
    · simp only [T.LExact, T.rootMax, T.minWith, T.rootMin] at h ⊢
      exact ⟨h, trivial, trivial⟩
    · exact ⟨h, rfl, rfl⟩
  · exact ⟨h, rfl, rfl⟩

theorem bumpT_agg (iv : Interval) (t : T) (hne : t.ptr ≠ none) (h : t.LExact) :
    BAgg iv (bumpT iv t) ∧ (bumpT iv t).rootMax = Nat.max t.rootMax iv.High ∧
      (bumpT iv t).rootMin = some (t.minWith iv.Low) := by
  cases t with
  | leaf => exact absurd rfl hne
  | nd l n d r =>
    obtain ⟨h1, h2, h3, h4⟩ := h
    simp only [bumpT, BAgg, Item.bump, T.rootMax, T.rootMin, T.minWith_nd, ite_lt_eq_min,
      ite_gt_eq_max, natMax_eq, natMin_eq] at h1 h2 ⊢
    refine ⟨⟨?_, ?_, h3, h4⟩, ?_⟩
    · rw [h1]
    · rw [h2, Nat.min_comm]
    · simp [Nat.min_comm]

theorem visit_agg (iv : Interval) (fresh : Nat) (t : T) (h : t.LExact) :
    BAgg iv (bumpT iv (visitT iv fresh t)) ∧
      (bumpT iv (visitT iv fresh t)).rootMax = Nat.max t.rootMax iv.High ∧
      (bumpT iv (visitT iv fresh t)).rootMin = some (t.minWith iv.Low) := by
  cases t with
  | leaf =>
    have hv : bumpT iv (visitT iv fresh T.leaf) = T.nd T.leaf fresh (newItem iv) T.leaf :=
      bumpT_newItem iv fresh
    rw [hv]
    refine ⟨⟨?_, ?_, trivial, trivial⟩, ?_, ?_⟩
    · simp [newItem, natMax_eq, T.rootMax]
    · simp [newItem, natMin_eq, T.minWith_leaf]
    · simp [newItem, natMax_eq, T.rootMax]
    · simp [newItem, T.rootMin, T.minWith_leaf]
  | nd l n d r =>
    have hvis : visitT iv fresh (T.nd l n d r) = flipT (T.nd l n d r) := rfl
    rw [hvis]
    obtain ⟨f1, f2, f3⟩ := flipT_lexact _ h
    have := bumpT_agg iv (flipT (T.nd l n d r)) (by rw [T.ptr_flipT]; simp [T.ptr]) f1
    rw [f2, T.minWith_eq, f3, ← T.minWith_eq] at this
    exact this

theorem le_optMin (k : Nat) (o : Option Nat) (x : Nat) :
    k ≤ optMin o x ↔ (∀ v, o = some v → k ≤ v) ∧ k ≤ x := by
  cases o with
  | none => simp [optMin]
  | some v =>
    simp only [optMin, Option.some.injEq, forall_eq']
    split_ifs <;> constructor <;> intro h <;> first | omega | exact ⟨by omega, by omega⟩

theorem aggItem_mk_max (a : Nat) (d : Item) (dir : Nat) (sib t : T) :
    (Frame.aggItem ⟨a, d, dir, sib⟩ t).max = max (max d.interval.High t.rootMax) sib.rootMax := by
  unfold Frame.aggItem Item.agg
  split <;> simp only [natMax_eq] <;> omega

theorem aggItem_mk_min (a : Nat) (d : Item) (dir : Nat) (sib t : T) :
    (Frame.aggItem ⟨a, d, dir, sib⟩ t).min =
      optMin sib.rootMin (optMin t.rootMin d.interval.Low) := by
  unfold Frame.aggItem Item.agg
  split <;> simp only [T.minWith_eq]
  rw [optMin_comm]

theorem aggItem_mk_interval (a : Nat) (d : Item) (dir : Nat) (sib t : T) :
    (Frame.aggItem ⟨a, d, dir, sib⟩ t).interval = d.interval := by
  unfold Frame.aggItem Item.agg; split <;> rfl

theorem Frame.lexact_plug (f : Frame) (t : T) :
    (f.plug t).LExact ↔
      f.d.max = max (max f.d.interval.High t.rootMax) f.sib.rootMax ∧
      f.d.min = optMin f.sib.rootMin (optMin t.rootMin f.d.interval.Low) ∧
      t.LExact ∧ f.sib.LExact := by
  have := plug_lexact [f] t
  have e : rbtree.plug [f] t = f.plug t := rfl
  rw [e] at this
  rw [this]
  simp only [CtxAgg, and_true, natMax_eq, T.minWith_eq]
  tauto

theorem Frame.bagg_plug (iv : Interval) (f : Frame) (t : T) :
    BAgg iv (f.plug t) ↔
      f.d.max = max (max (max f.d.interval.High t.rootMax) f.sib.rootMax) iv.High ∧
      f.d.min = min (optMin f.sib.rootMin (optMin t.rootMin f.d.interval.Low)) iv.Low ∧
      t.LExact ∧ f.sib.LExact := by
  unfold Frame.plug
  split
  · simp only [BAgg, natMax_eq, natMin_eq, T.minWith_eq]
  · simp only [BAgg, natMax_eq, natMin_eq, T.minWith_eq]
    rw [optMin_comm]
    constructor
    · rintro ⟨h1, h2, h3, h4⟩
      exact ⟨by omega, h2, h4, h3⟩
    · rintro ⟨h1, h2, h3, h4⟩
      exact ⟨by omega, h2, h4, h3⟩

theorem sgl_agg (fp fg : Frame) (rest : List Frame) (q : T)
    (h : CtxAgg (fp :: fg :: rest) q.rootMax q.rootMin) :
    CtxAgg (sglP fp fg q :: rest) q.rootMax q.rootMin := by
  obtain ⟨h1, h2, h3, h4, h5, h6, h7⟩ := h
  simp only [natMax_eq, T.minWith_eq] at h1 h2 h4 h5
  have hsgmax : (sglG fp fg).d.max =
      max (max fg.d.interval.High fp.sib.rootMax) fg.sib.rootMax := by
    simp only [sglG, aggItem_mk_max]
  have hsgmin : (sglG fp fg).d.min =
      optMin fg.sib.rootMin (optMin fp.sib.rootMin fg.d.interval.Low) := by
    simp only [sglG, aggItem_mk_min]
  have hsgi : (sglG fp fg).d.interval = fg.d.interval := by
    simp only [sglG, aggItem_mk_interval]
  have hspmax : (sglP fp fg q).d.max = max (max fp.d.interval.High q.rootMax) fg.d.max := by
    simp only [sglP, aggItem_mk_max, Frame.rootMax_plug]
  have hspmin : (sglP fp fg q).d.min =
      optMin (some fg.d.min) (optMin q.rootMin fp.d.interval.Low) := by
    simp only [sglP, aggItem_mk_min, Frame.rootMin_plug]
  have hspi : (sglP fp fg q).d.interval = fp.d.interval := by
    simp only [sglP, aggItem_mk_interval]
  have hsps : (sglP fp fg q).sib = (sglG fp fg).plug fp.sib := rfl
  have hmax : (sglP fp fg q).d.max = fg.d.max := by
    rw [hspmax]
    apply eq_of_forall_ge_iff
    intro k
    rw [h4, h1]
    simp only [max_le_iff]
    tauto
  have hmin : (sglP fp fg q).d.min = fg.d.min := by
    rw [hspmin]
    apply eq_of_forall_le_iff
    intro k
    rw [h5, h2]
    simp only [le_optMin, Option.some.injEq, forall_eq']
    tauto
  refine ⟨?_, ?_, ?_, ?_⟩
  · rw [hmax, hspi, hsps, Frame.rootMax_plug, hsgmax]
    simp only [natMax_eq]
    apply eq_of_forall_ge_iff
    intro k
    rw [h4, h1]
    simp only [max_le_iff]
    tauto
  · rw [hmin, hspi, hsps, T.minWith_eq, Frame.rootMin_plug, hsgmin]
    apply eq_of_forall_le_iff
    intro k
    rw [h5, h2]
    simp only [le_optMin, Option.some.injEq, forall_eq']
    tauto
  · rw [hsps]
    refine (Frame.lexact_plug _ _).2 ⟨?_, ?_, h3, h6⟩
    · rw [hsgmax, hsgi]; rfl
    · rw [hsgmin, hsgi]; rfl
  · rw [hmax, hmin]; exact h7

theorem dbl_agg (iv : Interval) (fp fg : Frame) (rest : List Frame) (q : T)
    (hq : BAgg iv q) (h : CtxAgg (fp :: fg :: rest) q.rootMax q.rootMin)
    (hd : fp.dir = takeOpposite fg.dir) (hfg : fg.dir ≤ 1) :
    BAgg iv ((dblQ fp fg q).plug ((dblP fp fg q).plug (q.child fg.dir))) ∧
    CtxAgg rest ((dblQ fp fg q).plug ((dblP fp fg q).plug (q.child fg.dir))).rootMax
      ((dblQ fp fg q).plug ((dblP fp fg q).plug (q.child fg.dir))).rootMin := by
  obtain ⟨h1, h2, h3, h4, h5, h6, h7⟩ := h
  simp only [natMax_eq, T.minWith_eq] at h1 h2 h4 h5
  cases q with
  | leaf => exact absurd hq (by simp [BAgg])
  | nd ql n dq qr =>
    obtain ⟨q1, q2, q3, q4⟩ := hq
    simp only [natMax_eq, natMin_eq, T.minWith_eq, T.rootMax_nd, T.rootMin_nd] at q1 q2 h1 h2
    have hch : ((T.nd ql n dq qr).child fg.dir = ql ∧ (T.nd ql n dq qr).child fp.dir = qr) ∨
        ((T.nd ql n dq qr).child fg.dir = qr ∧ (T.nd ql n dq qr).child fp.dir = ql) := by
      have h01 : fg.dir = 0 ∨ fg.dir = 1 := by omega
      rcases h01 with e | e
      · left; rw [hd, e]; simp [T.child_nd, takeOpposite]
      · right; rw [hd, e]; simp [T.child_nd, takeOpposite]
    have hPmax : (dblP fp fg (T.nd ql n dq qr)).d.max =
        max (max fp.d.interval.High ((T.nd ql n dq qr).child fg.dir).rootMax)
          fp.sib.rootMax := by
      simp only [dblP, aggItem_mk_max]
    have hPmin : (dblP fp fg (T.nd ql n dq qr)).d.min =
        optMin fp.sib.rootMin
          (optMin ((T.nd ql n dq qr).child fg.dir).rootMin fp.d.interval.Low) := by
      simp only [dblP, aggItem_mk_min]
    have hPi : (dblP fp fg (T.nd ql n dq qr)).d.interval = fp.d.interval := by
      simp only [dblP, aggItem_mk_interval]
    have hGmax : (dblG fp fg (T.nd ql n dq qr)).d.max =
        max (max fg.d.interval.High ((T.nd ql n dq qr).child fp.dir).rootMax)
          fg.sib.rootMax := by
      simp only [dblG, aggItem_mk_max]
    have hGmin : (dblG fp fg (T.nd ql n dq qr)).d.min =
        optMin fg.sib.rootMin
          (optMin ((T.nd ql n dq qr).child fp.dir).rootMin fg.d.interval.Low) := by
      simp only [dblG, aggItem_mk_min]
    have hGi : (dblG fp fg (T.nd ql n dq qr)).d.interval = fg.d.interval := by
      simp only [dblG, aggItem_mk_interval]
    have hQmax : (dblQ fp fg (T.nd ql n dq qr)).d.max =
        max (max dq.interval.High (dblP fp fg (T.nd ql n dq qr)).d.max) fg.d.max := by
      simp only [dblQ, aggItem_mk_max, Frame.rootMax_plug, T.item]
    have hQmin : (dblQ fp fg (T.nd ql n dq qr)).d.min =
        optMin (some fg.d.min) (optMin (some (dblP fp fg (T.nd ql n dq qr)).d.min)
          dq.interval.Low) := by
      simp only [dblQ, aggItem_mk_min, Frame.rootMin_plug, T.item]
    have hQi : (dblQ fp fg (T.nd ql n dq qr)).d.interval = dq.interval := by
      simp only [dblQ, aggItem_mk_interval, T.item]
    have hQs : (dblQ fp fg (T.nd ql n dq qr)).sib =
        (dblG fp fg (T.nd ql n dq qr)).plug ((T.nd ql n dq qr).child fp.dir) := rfl
    have hcl : ∀ i, ((T.nd ql n dq qr).child i).LExact := by
      intro i; rw [T.child_nd]; split
      · exact q3
      · exact q4
    have hPL : ((dblP fp fg (T.nd ql n dq qr)).plug
        ((T.nd ql n dq qr).child fg.dir)).LExact := by
      refine (Frame.lexact_plug _ _).2 ⟨?_, ?_, hcl _, h3⟩
      · rw [hPmax, hPi]; rfl
      · rw [hPmin, hPi]; rfl
    have hGL : ((dblG fp fg (T.nd ql n dq qr)).plug
        ((T.nd ql n dq qr).child fp.dir)).LExact := by
      refine (Frame.lexact_plug _ _).2 ⟨?_, ?_, hcl _, h6⟩
      · rw [hGmax, hGi]; rfl
      · rw [hGmin, hGi]; rfl
    have hmax : (dblQ fp fg (T.nd ql n dq qr)).d.max = fg.d.max := by
      rw [hQmax, hPmax]
      apply eq_of_forall_ge_iff
      intro k
      rw [h4, h1, q1]
      rcases hch with ⟨c1, c2⟩ | ⟨c1, c2⟩ <;> rw [c1] <;>
        simp only [max_le_iff] <;> tauto
    have hmin : (dblQ fp fg (T.nd ql n dq qr)).d.min = fg.d.min := by
      rw [hQmin, hPmin]
      apply eq_of_forall_le_iff
      intro k
      rw [h5, h2, q2]
      rcases hch with ⟨c1, c2⟩ | ⟨c1, c2⟩ <;> rw [c1] <;>
        simp only [le_optMin, le_min_iff, Option.some.injEq, forall_eq'] <;> tauto
    refine ⟨?_, ?_⟩
    · rw [Frame.bagg_plug, hQs]
      refine ⟨?_, ?_, hPL, hGL⟩
      · rw [hmax, hQi, Frame.rootMax_plug, Frame.rootMax_plug, hPmax, hGmax]
        apply eq_of_forall_ge_iff
        intro k
        rw [h4, h1, q1]
        rcases hch with ⟨c1, c2⟩ | ⟨c1, c2⟩ <;> rw [c1, c2] <;>
          simp only [max_le_iff] <;> tauto
      · rw [hmin, hQi, Frame.rootMin_plug, Frame.rootMin_plug, hPmin, hGmin]
        apply eq_of_forall_le_iff
        intro k
        rw [h5, h2, q2]
        rcases hch with ⟨c1, c2⟩ | ⟨c1, c2⟩ <;> rw [c1, c2] <;>
          simp only [le_optMin, le_min_iff, Option.some.injEq, forall_eq'] <;> tauto
    · rw [Frame.rootMax_plug, Frame.rootMin_plug, hmax, hmin]
      exact h7

/-! ## Recomputation of the aggregates -/

theorem adjustRanges_succ (fuel : Nat) (h : Heap) (a : Nat) :
    adjustRanges (fuel + 1) h (some a) =
      (adjustChild fuel h (h.cell a).c0).bind fun h1 =>
        (adjustChild fuel h1 (h1.cell a).c1).bind fun h2 => adjustRange h2 (some a) := by
  rw [adjustRanges]
  simp only [Option.bind_eq_bind, Option.some_bind]
  cases (h.cell a).c0 <;> simp only [adjustChild, Option.pure_def, Option.some_bind] <;>
    congr 1 <;> funext h1 <;> cases (h1.cell a).c1 <;> rfl

theorem T.ptr_fixAgg (t : T) : t.fixAgg.ptr = t.ptr := by cases t <;> rfl

theorem T.addrs_fixAgg (t : T) : t.fixAgg.addrs = t.addrs := by
  induction t with
  | leaf => rfl
  | nd l a d r ihl ihr => simp [T.fixAgg, T.addrs, ihl, ihr]

theorem T.skel_fixAgg (t : T) : t.fixAgg.skel = t.skel := by
  induction t with
  | leaf => rfl
  | nd l a d r ihl ihr => simp [T.fixAgg, T.skel, ihl, ihr, Item.agg]

theorem T.lexact_fixAgg (t : T) : t.fixAgg.LExact := by
  induction t with
  | leaf => trivial
  | nd l a d r ihl ihr => exact ⟨rfl, rfl, ihl, ihr⟩

theorem adjustRange_models (h : Heap) (l r : T) (a : Nat) (d : Item)
    (hm : (T.nd l a d r).Models h) (hnd : (T.nd l a d r).addrs.Nodup) :
    ∃ h', adjustRange h (some a) = some h' ∧ (T.nd l a (d.agg l r) r).Models h' ∧
      h'.next = h.next ∧ ∀ x, x ≠ a → h'.cell x = h.cell x := by
  have hc := hm.1
  simp only [T.addrs, List.nodup_append, List.nodup_cons, List.disjoint_cons_right] at hnd
  obtain ⟨hln, ⟨har, hrn⟩, hal, hlr⟩ := hnd
  have h0 : (h.cell a).c0 ≠ some a := by rw [hc]; exact T.ptr_ne_of_not_mem hal
  have h1 : (h.cell a).c1 ≠ some a := by rw [hc]; exact T.ptr_ne_of_not_mem har
  have hiv : (h.cell a).interval ≠ none := by rw [hc]; simp [T.cellOf]
  have e1 := setMin_cell h a hiv h0 h1
  have hc' : (h.set a { h.cell a with
      min := hminWith h (h.cell a).c1 (hminWith h (h.cell a).c0 (h.cell a).low) }).cell a =
      { h.cell a with
        min := hminWith h (h.cell a).c1 (hminWith h (h.cell a).c0 (h.cell a).low) } :=
    Heap.cell_set_same _ _ _
  have e2 := setMax_cell _ a (by rw [hc']; exact hiv) (by rw [hc']; exact h0)
    (by rw [hc']; exact h1)
  refine ⟨h.set a (T.cellOf l (d.agg l r) r), ?_, hm.set_root hal har, rfl,
    fun x hx => Heap.cell_set_ne _ _ _ _ hx⟩
  simp only [adjustRange, e1, Option.bind_eq_bind, Option.some_bind]
  rw [e2, hc', Heap.set_set]
  have hl0 : (h.cell a).c0 = l.ptr := by rw [hc]; rfl
  have hr1 : (h.cell a).c1 = r.ptr := by rw [hc]; rfl
  simp only [hl0, hr1, hmax_set_ne _ _ _ _ (T.ptr_ne_of_not_mem hal),
    hmax_set_ne _ _ _ _ (T.ptr_ne_of_not_mem har), hmax_ptr hm.2.1, hmax_ptr hm.2.2,
    hminWith_ptr hm.2.1, hminWith_ptr hm.2.2]
  rw [hc]
  simp [T.cellOf, Item.agg, node.high, node.low]

theorem adjustChild_spec (t : T) :
    ∀ (fuel : Nat) (h : Heap), t.Models h → t.addrs.Nodup → t.height ≤ fuel →
      ∃ h', adjustChild fuel h t.ptr = some h' ∧ t.fixAgg.Models h' ∧ h'.next = h.next ∧
        ∀ x, x ∉ t.addrs → h'.cell x = h.cell x := by
  induction t with
  | leaf => intro fuel h _ _ _; exact ⟨h, rfl, trivial, rfl, fun _ _ => rfl⟩
  | nd l a d r ihl ihr =>
    intro fuel h hm hnd hf
    cases fuel with
    | zero => simp [T.height] at hf
    | succ fuel =>
      simp only [T.height, Nat.add_le_add_iff_right] at hf
      have hnd' := hnd
      simp only [T.addrs, List.nodup_append, List.nodup_cons, List.disjoint_cons_right] at hnd'
      obtain ⟨hln, ⟨har, hrn⟩, hal, hlr⟩ := hnd'
      have hc := hm.1
      obtain ⟨h1, e1, m1, n1, f1⟩ := ihl fuel h hm.2.1 hln (le_trans (Nat.le_max_left _ _) hf)
      have hr1 : r.Models h1 := hm.2.2.congr (fun x hx => f1 x (fun hxl => hlr hxl hx))
      obtain ⟨h2, e2, m2, n2, f2⟩ := ihr fuel h1 hr1 hrn (le_trans (Nat.le_max_right _ _) hf)
      have hca1 : h1.cell a = T.cellOf l d r := by rw [f1 a hal]; exact hc
      have hca2 : h2.cell a = T.cellOf l d r := by rw [f2 a har]; exact hca1
      have hm2 : (T.nd l.fixAgg a d r.fixAgg).Models h2 := by
        refine ⟨?_, ?_, m2⟩
        · rw [hca2]; simp [T.cellOf, T.ptr_fixAgg]
        · refine m1.congr ?_
          intro x hx
          rw [T.addrs_fixAgg] at hx
          exact f2 x (fun hxr => hlr hx hxr)
      have hnd2 : (T.nd l.fixAgg a d r.fixAgg).addrs.Nodup := by
        simp only [T.addrs, T.addrs_fixAgg]; exact hnd
      obtain ⟨h3, e3, m3, n3, f3⟩ := adjustRange_models h2 _ _ a d hm2 hnd2
      refine ⟨h3, ?_, m3, by rw [n3, n2, n1], ?_⟩
      · show adjustRanges (fuel + 1) h (some a) = some h3
        rw [adjustRanges_succ]
        have : (h.cell a).c0 = l.ptr := by rw [hc]; rfl
        rw [this, e1, Option.some_bind]
        have : (h1.cell a).c1 = r.ptr := by rw [hca1]; rfl
        rw [this, e2, Option.some_bind]
        exact e3
      · intro x hx
        simp only [T.addrs, List.mem_append, List.mem_cons, not_or] at hx
        rw [f3 x hx.2.1, f2 x hx.2.2, f1 x hx.1]

theorem T.intervals_nd (l r : T) (a : Nat) (d : Item) :
    (T.nd l a d r).intervals = l.intervals ++ d.interval :: r.intervals := by
  simp [T.intervals, T.items]

theorem T.Exact.bound_max {t : T} (h : t.Exact) : ∀ iv ∈ t.intervals, iv.High ≤ t.rootMax := by
  cases t with
  | leaf => intro iv hiv; simp [T.intervals, T.items] at hiv
  | nd l a d r => intro iv hiv; exact (h.1.1 iv hiv).1

theorem T.Exact.attain_max {t : T} (h : t.Exact) :
    t.rootMax = 0 ∨ ∃ iv ∈ t.intervals, iv.High = t.rootMax := by
  cases t with
  | leaf => exact Or.inl rfl
  | nd l a d r => exact Or.inr h.1.2.1

theorem T.minWith_le (t : T) (x : Nat) : t.minWith x ≤ x := by
  cases t with
  | leaf => exact Nat.le_refl _
  | nd l a d r => rw [T.minWith_nd]; exact Nat.min_le_right _ _

theorem T.Exact.bound_min {t : T} (h : t.Exact) (x : Nat) :
    ∀ iv ∈ t.intervals, t.minWith x ≤ iv.Low := by
  cases t with
  | leaf => intro iv hiv; simp [T.intervals, T.items] at hiv
  | nd l a d r =>
    intro iv hiv
    rw [T.minWith_nd]
    exact le_trans (Nat.min_le_left _ _) (h.1.1 iv hiv).2

theorem T.Exact.attain_min {t : T} (h : t.Exact) (x : Nat) :
    t.minWith x = x ∨ ∃ iv ∈ t.intervals, iv.Low = t.minWith x := by
  cases t with
  | leaf => exact Or.inl rfl
  | nd l a d r =>
    rw [T.minWith_nd]
    by_cases hx : d.min ≤ x
    · right
      obtain ⟨iv, hiv, e⟩ := h.1.2.2
      exact ⟨iv, hiv, by rw [e, Nat.min_eq_left hx]⟩
    · left; exact Nat.min_eq_right (by omega)

theorem T.LExact.exact {t : T} (h : t.LExact) : t.Exact := by
  induction t with
  | leaf => trivial
  | nd l a d r ihl ihr =>
    obtain ⟨h1, h2, h3, h4⟩ := h
    have el := ihl h3
    have er := ihr h4
    simp only [natMax_eq] at h1
    refine ⟨⟨?_, ?_, ?_⟩, el, er⟩
    · intro iv hiv
      rw [T.intervals_nd] at hiv
      simp only [List.mem_append, List.mem_cons] at hiv
      rcases hiv with hiv | hiv | hiv
      · have b1 := el.bound_max iv hiv
        have b2 := el.bound_min d.interval.Low iv hiv
        have b3 := T.minWith_le r (l.minWith d.interval.Low)
        constructor <;> omega
      · rw [hiv]
        have b2 := T.minWith_le l d.interval.Low
        have b3 := T.minWith_le r (l.minWith d.interval.Low)
        constructor <;> omega
      · have b1 := er.bound_max iv hiv
        have b2 := er.bound_min (l.minWith d.interval.Low) iv hiv
        constructor <;> omega
    · rw [T.intervals_nd]
      rcases el.attain_max with e1 | ⟨iv1, m1, e1⟩ <;>
        rcases er.attain_max with e2 | ⟨iv2, m2, e2⟩
      · exact ⟨d.interval, by simp, by omega⟩
      · by_cases hc : d.interval.High ≤ r.rootMax
        · exact ⟨iv2, by simp [m2], by omega⟩
        · exact ⟨d.interval, by simp, by omega⟩
      · by_cases hc : d.interval.High ≤ l.rootMax
        · exact ⟨iv1, by simp [m1], by omega⟩
        · exact ⟨d.interval, by simp, by omega⟩
      · by_cases hc : d.interval.High ≤ l.rootMax ∨ d.interval.High ≤ r.rootMax
        · by_cases hc2 : l.rootMax ≤ r.rootMax
          · exact ⟨iv2, by simp [m2], by omega⟩
          · exact ⟨iv1, by simp [m1], by omega⟩
        · exact ⟨d.interval, by simp, by omega⟩
    · rw [T.intervals_nd, h2]
      rcases er.attain_min (l.minWith d.interval.Low) with e2 | ⟨iv2, m2, e2⟩
      · rw [e2]
        rcases el.attain_min d.interval.Low with e1 | ⟨iv1, m1, e1⟩
        · exact ⟨d.interval, by simp, by rw [e1]⟩
        · exact ⟨iv1, by simp [m1], e1⟩
      · exact ⟨iv2, by simp [m2], e2⟩

/-! ## The probe of `Query` -/

theorem Interval.Overlaps_congr (nv q1 q2 : Interval) (hl : q1.Low = q2.Low)
    (hh : q1.High = q2.High) : nv.Overlaps q1 = nv.Overlaps q2 := by
  simp only [Interval.Overlaps, Interval.Low, Interval.High] at *
  rw [hl, hh]

theorem intervalOverlaps_congr (h : Heap) (n low high : Nat) (q1 q2 : Interval)
    (hl : q1.Low = q2.Low) (hh : q1.High = q2.High) :
    intervalOverlaps h n low high (some q1) = intervalOverlaps h n low high (some q2) := by
  unfold intervalOverlaps
  cases (h.cell n).interval with
  | none => rfl
  | some nv =>
    simp only [Option.bind_eq_bind, Option.some_bind, Interval.Overlaps_congr nv q1 q2 hl hh]

theorem node.query_congr {σ : Type} (fn : σ → Nat → σ) (low high : Nat) (q1 q2 : Interval)
    (hl : q1.Low = q2.Low) (hh : q1.High = q2.High) (h : Heap) :
    ∀ (fuel n : Nat) (acc : σ),
      node.query fn low high (some q1) fuel h n acc =
        node.query fn low high (some q2) fuel h n acc := by
  intro fuel
  induction fuel with
  | zero => intro n acc; rfl
  | succ fuel ih =>
    intro n acc
    rw [node.query, node.query]
    simp only [intervalOverlaps_congr h n low high q1 q2 hl hh, ih]

/-! ## Claims on `WriteToFile` of the empty tree, the probe of `Query` and `adjustRanges` -/

/-- C15: encoding the empty tree does not succeed.  `New()` has an absent root and
count `0`, and `WriteToFile` hands the `nil` root to `writeNode`, which dereferences
it: no bytes are produced, whatever the recursion bound, instead of the 8-byte
count `0`. -/
theorem c15_WriteToFile_empty_tree_panics :
    (New.root = none ∧ New.Len = 0) ∧ ∀ fuel : Nat, WriteToFile fuel New = none := by
  refine ⟨⟨rfl, rfl⟩, ?_⟩
  intro fuel
  cases fuel <;> rfl

/-- C16: the id of the probe does not influence `Query`: for every tree and any two
probes with the same low and the same high bound, `Query` returns the same sequence
(and fails to return for the same recursion bounds). -/
theorem c16_Query_ignores_probe_id (t : tree) (fuel : Nat) (q1 q2 : Interval)
    (hl : q1.Low = q2.Low) (hh : q1.High = q2.High) :
    t.Query fuel q1 = t.Query fuel q2 := by
  unfold tree.Query
  cases t.root with
  | none => rfl
  | some r =>
    simp only [hl, hh]
    exact node.query_congr _ _ _ q1 q2 hl hh _ _ _ _

/-- C16 on the tree of the scenario: the probes `(12,12,0)` and `(12,12,7)` get the
same two intervals. -/
theorem c16_scenario :
    ((⟨12, 12, 0⟩ : Interval).Low = (⟨12, 12, 7⟩ : Interval).Low ∧
      (⟨12, 12, 0⟩ : Interval).High = (⟨12, 12, 7⟩ : Interval).High) ∧
    scenarioTree.Query 2 ⟨12, 12, 0⟩ = scenarioTree.Query 2 ⟨12, 12, 7⟩ ∧
    scenarioTree.Query 2 ⟨12, 12, 7⟩ = some [some ⟨5, 15, 2⟩, some ⟨10, 20, 1⟩] :=
  ⟨⟨rfl, rfl⟩, c16_Query_ignores_probe_id scenarioTree 2 ⟨12, 12, 0⟩ ⟨12, 12, 7⟩ rfl rfl,
    by decide⟩

/-- C18: `adjustRanges` establishes the aggregate invariant from any starting state.
For every finite tree in memory (nodes at pairwise distinct addresses), whatever its
`min`/`max` fields hold, `n.adjustRanges()` returns (any recursion bound of at least
the height is enough) and the memory then holds the tree `fixAgg t`: in it every
node has `max` equal to the largest high bound and `min` equal to the smallest low
bound among its own interval and the intervals below it, its links, addresses,
colours, intervals and ids are those of `t`, and no other memory cell is changed. -/
theorem c18_adjustRanges_establishes_aggregates (h : Heap) (t : T) (a : Nat) (fuel : Nat)
    (hp : t.ptr = some a) (hm : t.Models h) (hnd : t.addrs.Nodup) (hf : t.height ≤ fuel) :
    ∃ h', adjustRanges fuel h (some a) = some h' ∧ t.fixAgg.Models h' ∧ t.fixAgg.Exact ∧
      t.fixAgg.skel = t.skel ∧ ∀ x, x ∉ t.addrs → h'.cell x = h.cell x := by
  obtain ⟨h', e, m, -, f⟩ := adjustChild_spec t fuel h hm hnd hf
  rw [hp] at e
  exact ⟨h', e, m, (T.lexact_fixAgg t).exact, T.skel_fixAgg t, f⟩

/-- C18 on the tree of the scenario with wrong aggregates in all three nodes:
`adjustRanges` brings back the aggregates of `scenarioT`. -/
theorem c18_scenario :
    (staleT.ptr = some 1 ∧ staleT.Models staleHeap ∧ staleT.addrs.Nodup ∧
      staleT.height ≤ 2 ∧ staleT.fixAgg = scenarioT) ∧
    ∃ h', adjustRanges 2 staleHeap (some 1) = some h' ∧ staleT.fixAgg.Models h' ∧
      staleT.fixAgg.Exact ∧ staleT.fixAgg.skel = staleT.skel ∧
      ∀ x, x ∉ staleT.addrs → h'.cell x = staleHeap.cell x :=
  ⟨⟨rfl, by decide, by decide, by decide, by decide⟩,
    c18_adjustRanges_establishes_aggregates staleHeap staleT 1 2 rfl (by decide) (by decide)
      (by decide)⟩

/-! ## The descent of `add` keeps the stored intervals in order -/

theorem T.cores_leaf : T.leaf.cores = [] := rfl

theorem T.cores_nd (l r : T) (a : Nat) (d : Item) :
    (T.nd l a d r).cores = l.cores ++ d.core :: r.cores := by
  simp [T.cores, T.items]

theorem Frame.cores_plug (f : Frame) (t : T) :
    (f.plug t).cores =
      if f.dir = 0 then t.cores ++ f.d.core :: f.sib.cores
      else f.sib.cores ++ f.d.core :: t.cores := by
  unfold Frame.plug
  split <;> rw [T.cores_nd]

theorem plug_cores (ctx : List Frame) (t : T) :
    (plug ctx t).cores = ctxCL ctx ++ t.cores ++ ctxCR ctx := by
  simp only [T.cores, T.items_eq_nodes, nodes_plug, ctxCL, ctxCR, List.map_append, List.map_map]
  rfl

theorem plug_cores_congr (ctx : List Frame) {t t' : T} (h : t.cores = t'.cores) :
    (plug ctx t).cores = (plug ctx t').cores := by
  rw [plug_cores, plug_cores, h]

theorem T.cores_flipT (t : T) : (flipT t).cores = t.cores := by
  unfold flipT
  split
  · split
    · simp only [T.cores_nd]; rfl
    · rfl
  · rfl

theorem T.cores_bumpT (iv : Interval) (t : T) : (bumpT iv t).cores = t.cores := by
  cases t with
  | leaf => rfl
  | nd l a d r => simp only [bumpT, T.cores_nd]; rfl

theorem aggItem_mk_core (a : Nat) (d : Item) (dir : Nat) (sib t : T) :
    (Frame.aggItem ⟨a, d, dir, sib⟩ t).core = d.core := by
  unfold Frame.aggItem Item.agg; split <;> rfl

theorem T.frame_plug_child (l r : T) (n : Nat) (d : Item) (i : Nat) (hi : i ≤ 1) :
    ((T.nd l n d r).frame i).plug ((T.nd l n d r).child i) = T.nd l n d r := by
  have h01 : i = 0 ∨ i = 1 := by omega
  rcases h01 with e | e <;> subst e <;>
    simp [T.frame, Frame.plug, T.child_nd, takeOpposite, T.addr, T.item]

theorem sgl_cores (fp fg : Frame) (q : T) (hd : fp.dir = fg.dir) :
    ((sglP fp fg q).plug q).cores = (fg.plug (fp.plug q)).cores := by
  simp only [Frame.cores_plug, sglP, sglG, aggItem_mk_core, hd]
  split <;> simp [Item.core]

theorem dbl_cores (fp fg : Frame) (ql qr : T) (n : Nat) (dq : Item)
    (hd : fp.dir = takeOpposite fg.dir) (hfg : fg.dir ≤ 1) :
    ((dblQ fp fg (T.nd ql n dq qr)).plug
        ((dblP fp fg (T.nd ql n dq qr)).plug ((T.nd ql n dq qr).child fg.dir))).cores =
      (fg.plug (fp.plug (T.nd ql n dq qr))).cores := by
  have h01 : fg.dir = 0 ∨ fg.dir = 1 := by omega
  rcases h01 with e | e
  · have e' : fp.dir = 1 := by rw [hd, e]; rfl
    simp only [Frame.cores_plug, dblQ, dblP, dblG, aggItem_mk_core, e, e', T.child_nd,
      T.cores_nd, T.item]
    simp [Item.core]
  · have e' : fp.dir = 0 := by rw [hd, e]; rfl
    simp only [Frame.cores_plug, dblQ, dblP, dblG, aggItem_mk_core, e, e', T.child_nd,
      T.cores_nd, T.item]
    simp [Item.core]

theorem fixT_cases (a : AddAbs) (q : T) {ctx : List Frame} {w : T} {ps gs hs : Bool}
    (hfix : fixT a q = some (ctx, w, ps, gs, hs)) :
    (ctx = a.ctx ∧ w = q) ∨
    (∃ fp fg rest, a.ctx = fp :: fg :: rest ∧ fp.dir = fg.dir ∧
      ctx = sglP fp fg q :: rest ∧ w = q) ∨
    (∃ fp fg rest, a.ctx = fp :: fg :: rest ∧ fp.dir ≠ fg.dir ∧ ctx = rest ∧
      w = (dblQ fp fg q).plug ((dblP fp fg q).plug (q.child fg.dir)) ∧ q.isRed = true) := by
  unfold fixT at hfix
  split at hfix
  · rename_i h
    simp only [Option.some.injEq, Prod.mk.injEq] at hfix
    left; rw [h]; exact ⟨hfix.1.symm, hfix.2.1.symm⟩
  · rename_i fp rest1 h
    split at hfix
    · rename_i hc
      split at hfix
      · exact absurd hfix (by simp)
      · rename_i fg rest
        split at hfix
        · split at hfix
          · rename_i hd
            simp only [Option.some.injEq, Prod.mk.injEq] at hfix
            right; left
            exact ⟨fp, fg, rest, h, hd, hfix.1.symm, hfix.2.1.symm⟩
          · rename_i hd
            simp only [Option.some.injEq, Prod.mk.injEq] at hfix
            right; right
            simp only [Bool.and_eq_true] at hc
            exact ⟨fp, fg, rest, h, hd, hfix.1.symm, hfix.2.1.symm, hc.2⟩
        · exact absurd hfix (by simp)
    · simp only [Option.some.injEq, Prod.mk.injEq] at hfix
      left; exact ⟨hfix.1.symm, hfix.2.1.symm⟩

theorem fixT_cores (a : AddAbs) (q : T) {ctx : List Frame} {w : T} {ps gs hs : Bool}
    (hd : ∀ f ∈ a.ctx, f.dir ≤ 1)
    (hfix : fixT a q = some (ctx, w, ps, gs, hs)) :
    (plug ctx w).cores = (plug a.ctx q).cores ∧ ∀ f ∈ ctx, f.dir ≤ 1 := by
  rcases fixT_cases a q hfix with ⟨e1, e2⟩ | ⟨fp, fg, rest, e0, hdir, e1, e2⟩ |
    ⟨fp, fg, rest, e0, hdir, e1, e2, hr⟩
  · rw [e1, e2]; exact ⟨rfl, hd⟩
  · rw [e1, e2, e0]
    rw [e0] at hd
    refine ⟨?_, ?_⟩
    · show (plug rest ((sglP fp fg q).plug q)).cores = (plug rest (fg.plug (fp.plug q))).cores
      exact plug_cores_congr rest (sgl_cores fp fg q hdir)
    · intro f hf
      rcases List.mem_cons.1 hf with e | e
      · rw [e]; exact hd fg (by simp)
      · exact hd f (by simp [e])
  · rw [e1, e2, e0]
    rw [e0] at hd
    have hfp := hd fp (by simp)
    have hfg := hd fg (by simp)
    refine ⟨?_, fun f hf => hd f (by simp [hf])⟩
    cases q with
    | leaf => simp [T.isRed] at hr
    | nd ql n dq qr =>
      show _ = (plug rest (fg.plug (fp.plug (T.nd ql n dq qr)))).cores
      exact plug_cores_congr rest
        (dbl_cores fp fg ql qr n dq (takeOpposite_of_ne hfp hfg hdir) hfg)

theorem fixT_agg (iv : Interval) (a : AddAbs) (q : T) {ctx : List Frame} {w : T}
    {ps gs hs : Bool} (hd : ∀ f ∈ a.ctx, f.dir ≤ 1) (hq : BAgg iv q)
    (hc : CtxAgg a.ctx q.rootMax q.rootMin)
    (hfix : fixT a q = some (ctx, w, ps, gs, hs)) :
    BAgg iv w ∧ CtxAgg ctx w.rootMax w.rootMin := by
  rcases fixT_cases a q hfix with ⟨e1, e2⟩ | ⟨fp, fg, rest, e0, hdir, e1, e2⟩ |
    ⟨fp, fg, rest, e0, hdir, e1, e2, hr⟩
  · rw [e1, e2]; exact ⟨hq, hc⟩
  · rw [e1, e2]
    rw [e0] at hc
    exact ⟨hq, sgl_agg fp fg rest q hc⟩
  · rw [e1, e2]
    rw [e0] at hc hd
    exact dbl_agg iv fp fg rest q hq hc
      (takeOpposite_of_ne (hd fp (by simp)) (hd fg (by simp)) hdir) (hd fg (by simp))

theorem descend_agg (iv : Interval) (ctx : List Frame) (l r : T) (n : Nat) (d : Item) (i : Nat)
    (hi : i ≤ 1) (hq : BAgg iv (T.nd l n d r)) (hc : CtxAgg ctx d.max (some d.min)) :
    ((T.nd l n d r).child i).LExact ∧
      CtxAgg ((T.nd l n d r).frame i :: ctx)
        (Nat.max ((T.nd l n d r).child i).rootMax iv.High)
        (some (((T.nd l n d r).child i).minWith iv.Low)) := by
  obtain ⟨q1, q2, q3, q4⟩ := hq
  simp only [natMax_eq, natMin_eq, T.minWith_eq] at q1 q2
  have h01 : i = 0 ∨ i = 1 := by omega
  rcases h01 with e | e <;> subst e <;>
    simp only [T.child_nd, T.frame, takeOpposite, CtxAgg, T.item, if_true, one_ne_zero,
      if_false, Nat.sub_zero, Nat.sub_self, natMax_eq, T.minWith_eq]
  · refine ⟨q3, ?_, ?_, q4, hc⟩
    · rw [q1]
      apply eq_of_forall_ge_iff; intro k
      simp only [max_le_iff]; tauto
    · rw [q2]
      apply eq_of_forall_le_iff; intro k
      simp only [le_optMin, le_min_iff, Option.some.injEq, forall_eq']; tauto
  · refine ⟨q4, ?_, ?_, q3, hc⟩
    · rw [q1]
      apply eq_of_forall_ge_iff; intro k
      simp only [max_le_iff]; tauto
    · rw [q2]
      apply eq_of_forall_le_iff; intro k
      simp only [le_optMin, le_min_iff, Option.some.injEq, forall_eq']; tauto

theorem CtxDirs.le_one {iv : Interval} {ctx : List Frame} (h : CtxDirs iv ctx) :
    ∀ f ∈ ctx, f.dir ≤ 1 := by
  intro f hf; rw [h f hf]; exact compare_le_one _ _ _ _

theorem fixT_dirs (iv : Interval) (a : AddAbs) (q : T) {ctx : List Frame} {w : T}
    {ps gs hs : Bool} (hd : CtxDirs iv a.ctx) (hi : ∀ f ∈ a.ctx, f.d.id ≠ iv.ID)
    (hfix : fixT a q = some (ctx, w, ps, gs, hs)) :
    CtxDirs iv ctx ∧ ∀ f ∈ ctx, f.d.id ≠ iv.ID := by
  rcases fixT_cases a q hfix with ⟨e1, e2⟩ | ⟨fp, fg, rest, e0, hdir, e1, e2⟩ |
    ⟨fp, fg, rest, e0, hdir, e1, e2, hr⟩
  · rw [e1]; exact ⟨hd, hi⟩
  · rw [e1]
    rw [e0] at hd hi
    have hpc : (sglP fp fg q).d.core = fp.d.core := by simp only [sglP, aggItem_mk_core]; rfl
    have hpi : (sglP fp fg q).d.interval = fp.d.interval := congrArg Prod.fst hpc
    have hpid : (sglP fp fg q).d.id = fp.d.id := congrArg Prod.snd hpc
    refine ⟨?_, ?_⟩
    · intro f hf
      rcases List.mem_cons.1 hf with e | e
      · rw [e, hpi, hpid]
        show fg.dir = _
        rw [← hdir]; exact hd fp (by simp)
      · exact hd f (by simp [e])
    · intro f hf
      rcases List.mem_cons.1 hf with e | e
      · rw [e, hpid]; exact hi fp (by simp)
      · exact hi f (by simp [e])
  · rw [e1]
    rw [e0] at hd hi
    exact ⟨fun f hf => hd f (by simp [hf]), fun f hf => hi f (by simp [hf])⟩

theorem BAgg.lexact {iv : Interval} {w : T} (h : BAgg iv w) (hiv : w.item.interval = iv) :
    w.LExact := by
  cases w with
  | leaf => exact absurd h (by simp [BAgg])
  | nd l n d r =>
    obtain ⟨h1, h2, h3, h4⟩ := h
    simp only [T.item] at hiv
    simp only [natMax_eq, natMin_eq, T.minWith_eq] at h1 h2
    refine ⟨?_, ?_, h3, h4⟩
    · rw [h1, natMax_eq, natMax_eq, ← hiv]
      apply eq_of_forall_ge_iff; intro k
      simp only [max_le_iff]; tauto
    · rw [h2, T.minWith_eq, T.minWith_eq, ← hiv]
      apply eq_of_forall_le_iff; intro k
      simp only [le_optMin, le_min_iff, Option.some.injEq, forall_eq']; tauto

theorem T.item_core_mem (t : T) (h : t.ptr ≠ none) : t.item.core ∈ t.cores := by
  cases t with
  | leaf => exact absurd rfl h
  | nd l a d r => rw [T.cores_nd]; simp [T.item]

theorem T.item_flipT_core (t : T) : (flipT t).item.core = t.item.core := by
  unfold flipT
  split
  · split <;> rfl
  · rfl

theorem T.item_bumpT_core (iv : Interval) (t : T) : (bumpT iv t).item.core = t.item.core := by
  cases t <;> rfl

theorem addStepT_ca (iv : Interval) (fresh : Nat) (a : AddAbs) (K : List (Interval × Nat))
    (h : AddCA iv K a) :
    (∀ a', addStepT iv fresh a = some (Sum.inl a') → AddCA iv K a') ∧
    (∀ t' c, addStepT iv fresh a = some (Sum.inr (t', c)) →
      c = decide (a.focus.ptr = none) ∧
      t'.cores = (plug a.ctx (visitT iv fresh a.focus)).cores ∧
      ((∀ x ∈ K, x.2 = iv.ID → x.1 = iv) → t'.LExact) ∧
      (a.focus.ptr ≠ none → ∃ x ∈ K, x.2 = iv.ID)) := by
  obtain ⟨hK, hD, hI, hL, hA, hne⟩ := h
  obtain ⟨v1, v2, v3⟩ := visit_agg iv fresh a.focus hL
  rw [← v2, ← v3] at hA
  refine ⟨?_, ?_⟩
  · intro a' hstep
    unfold addStepT at hstep
    split at hstep
    · exact absurd hstep (by simp)
    split at hstep
    · exact absurd hstep (by simp)
    rename_i ctx w ps gs hs hfix
    split at hstep
    · exact absurd hstep (by simp)
    rename_i hid
    simp only [Option.some.injEq, Sum.inl.injEq] at hstep
    subst hstep
    obtain ⟨c1, c2⟩ := fixT_cores a _ hD.le_one hfix
    obtain ⟨d1, d2⟩ := fixT_dirs iv a _ hD hI hfix
    obtain ⟨g1, g2⟩ := fixT_agg iv a _ hD.le_one v1 hA hfix
    have hnl : a.focus.ptr ≠ none := fun hl => hid (fixT_leaf_id iv fresh a hl hfix)
    cases w with
    | leaf => exact absurd g1 (by simp [BAgg])
    | nd l n d r =>
      have hi := compare_le_one (T.nd l n d r).item.interval.Low iv.Low (T.nd l n d r).item.id
        iv.ID
      obtain ⟨x1, x2⟩ := descend_agg iv ctx l r n d _ hi g1 g2
      refine ⟨?_, ?_, ?_, x1, x2, fun _ => by simp⟩
      · show (plug ctx (((T.nd l n d r).frame _).plug ((T.nd l n d r).child _))).cores = K
        rw [T.frame_plug_child l r n d _ hi, c1, ← hK]
        refine plug_cores_congr _ ?_
        rw [T.cores_bumpT]
        cases hf : a.focus with
        | leaf => rw [hf] at hnl; exact absurd rfl hnl
        | nd _ _ _ _ => exact T.cores_flipT _
      · intro f hf
        rcases List.mem_cons.1 hf with e | e
        · rw [e]; rfl
        · exact d1 f e
      · intro f hf
        rcases List.mem_cons.1 hf with e | e
        · rw [e]; exact hid
        · exact d2 f e
  · intro t' c hstep
    unfold addStepT at hstep
    split at hstep
    · exact absurd hstep (by simp)
    split at hstep
    · exact absurd hstep (by simp)
    rename_i ctx w ps gs hs hfix
    split at hstep
    swap
    · exact absurd hstep (by simp)
    rename_i hid
    simp only [Option.some.injEq, Sum.inr.injEq, Prod.mk.injEq] at hstep
    obtain ⟨e1, e2⟩ := hstep
    subst e1
    obtain ⟨c1, c2⟩ := fixT_cores a _ hD.le_one hfix
    obtain ⟨g1, g2⟩ := fixT_agg iv a _ hD.le_one v1 hA hfix
    obtain ⟨i1, i2⟩ := fixT_item a _ hfix
    have hnd : ∀ l n d r, a.focus = T.nd l n d r →
        (bumpT iv (visitT iv fresh a.focus)).item.core = (T.nd l n d r).item.core ∧
        (T.nd l n d r).item.core ∈ K ∧ (T.nd l n d r).item.core.2 = iv.ID := by
      intro l n d r hf
      have hc : (bumpT iv (visitT iv fresh a.focus)).item.core = (T.nd l n d r).item.core := by
        rw [hf, T.item_bumpT_core]; exact T.item_flipT_core _
      refine ⟨hc, ?_, ?_⟩
      · rw [← hK, plug_cores, hf]
        simp only [List.mem_append]
        exact Or.inl (Or.inr (T.item_core_mem _ (by simp [T.ptr])))
      · rw [← hc]
        show (bumpT iv (visitT iv fresh a.focus)).item.id = iv.ID
        rw [← i1]; exact hid
    refine ⟨e2.symm, ?_, ?_, ?_⟩
    · rw [c1]
      exact plug_cores_congr _ (T.cores_bumpT _ _)
    · intro hKiv
      have hwi : w.item.interval = iv := by
        rw [i2]
        cases hf : a.focus with
        | leaf => rfl
        | nd l n d r =>
          obtain ⟨hc, hmem, hid'⟩ := hnd l n d r hf
          have := hKiv _ hmem hid'
          rw [← hc, hf] at this
          exact this
      exact (plug_lexact ctx w).2 ⟨g1.lexact hwi, g2⟩
    · intro hnl
      cases hf : a.focus with
      | leaf => rw [hf] at hnl; exact absurd rfl hnl
      | nd l n d r =>
        obtain ⟨-, hmem, hid'⟩ := hnd l n d r hf
        exact ⟨_, hmem, hid'⟩

theorem coreLt_trans {a b c : Interval × Nat} (h1 : coreLt a b) (h2 : coreLt b c) :
    coreLt a c := by
  unfold coreLt at *
  omega

theorem coreLt_of_compare_zero (iv : Interval) (d : Item)
    (h : compare d.interval.Low iv.Low d.id iv.ID = 0) (hid : d.id ≠ iv.ID) :
    coreLt (iv, iv.ID) d.core := by
  unfold coreLt Item.core
  dsimp only
  by_cases h1 : iv.Low > d.interval.Low
  · simp [compare, h1] at h
  · by_cases h2 : iv.Low < d.interval.Low
    · exact Or.inl h2
    · by_cases h3 : iv.ID > d.id
      · simp [compare, h1, h2, h3, intFromBool] at h
      · right; omega

theorem coreLt_of_compare_ne_zero (iv : Interval) (d : Item)
    (h : compare d.interval.Low iv.Low d.id iv.ID ≠ 0) :
    coreLt d.core (iv, iv.ID) := by
  unfold coreLt Item.core
  dsimp only
  by_cases h1 : iv.Low > d.interval.Low
  · exact Or.inl h1
  · by_cases h2 : iv.Low < d.interval.Low
    · simp [compare, h1, h2] at h
    · by_cases h3 : iv.ID > d.id
      · right; omega
      · simp [compare, h1, h2, h3, intFromBool] at h

theorem ctxCL_cons (f : Frame) (fs : List Frame) :
    ctxCL (f :: fs) = ctxCL fs ++ (if f.dir = 0 then [] else f.sib.cores ++ [f.d.core]) := by
  simp only [ctxCL, ctxL, List.map_append]
  split
  · rfl
  · simp [T.cores, T.items_eq_nodes]

theorem ctxCR_cons (f : Frame) (fs : List Frame) :
    ctxCR (f :: fs) = (if f.dir = 0 then f.d.core :: f.sib.cores else []) ++ ctxCR fs := by
  simp only [ctxCR, ctxR, List.map_append]
  split
  · simp [T.cores, T.items_eq_nodes]
  · rfl

theorem ctx_bounds (iv : Interval) (ctx : List Frame) :
    CtxDirs iv ctx → (∀ f ∈ ctx, f.d.id ≠ iv.ID) →
    (ctxCL ctx ++ ctxCR ctx).Pairwise coreLt →
    (∀ x ∈ ctxCL ctx, coreLt x (iv, iv.ID)) ∧ (∀ x ∈ ctxCR ctx, coreLt (iv, iv.ID) x) := by
  induction ctx with
  | nil => intro _ _ _; simp [ctxCL, ctxCR, ctxL, ctxR]
  | cons f fs ih =>
    intro hD hI hS
    have hDf := hD f (by simp)
    have hIf := hI f (by simp)
    rw [ctxCL_cons, ctxCR_cons] at hS ⊢
    by_cases h0 : f.dir = 0
    · simp only [h0, if_true, List.append_nil] at hS ⊢
      have hS' : (ctxCL fs ++ ctxCR fs).Pairwise coreLt := by
        refine hS.sublist ?_
        exact List.Sublist.append (List.Sublist.refl _)
          (List.sublist_append_of_sublist_right (List.Sublist.refl _))
      obtain ⟨b1, b2⟩ := ih (fun g hg => hD g (by simp [hg])) (fun g hg => hI g (by simp [hg])) hS'
      have hf : coreLt (iv, iv.ID) f.d.core :=
        coreLt_of_compare_zero iv f.d (by rw [← hDf]; exact h0) hIf
      refine ⟨b1, ?_⟩
      intro x hx
      simp only [List.mem_append, List.mem_cons] at hx
      rcases hx with (hx | hx) | hx
      · rw [hx]; exact hf
      · have hp := (List.pairwise_append.1 hS).2.1
        simp only [List.cons_append, List.pairwise_cons, List.mem_append] at hp
        exact coreLt_trans hf (hp.1 x (Or.inl hx))
      · exact b2 x hx
    · simp only [h0, if_false, List.nil_append] at hS ⊢
      have hS' : (ctxCL fs ++ ctxCR fs).Pairwise coreLt := by
        refine hS.sublist ?_
        exact List.Sublist.append (List.sublist_append_left _ _) (List.Sublist.refl _)
      obtain ⟨b1, b2⟩ := ih (fun g hg => hD g (by simp [hg])) (fun g hg => hI g (by simp [hg])) hS'
      have hf : coreLt f.d.core (iv, iv.ID) :=
        coreLt_of_compare_ne_zero iv f.d (by rw [← hDf]; exact h0)
      refine ⟨?_, b2⟩
      intro x hx
      simp only [List.mem_append, List.mem_singleton] at hx
      rcases hx with hx | hx | hx
      · exact b1 x hx
      · have hp := (List.pairwise_append.1 hS).1
        have hp2 := (List.pairwise_append.1 hp).2.1
        have hp3 := (List.pairwise_append.1 hp2).2.2
        exact coreLt_trans (hp3 x hx f.d.core (by simp)) hf
      · rw [hx]; exact hf

theorem addLoopT_ca (iv : Interval) (fresh : Nat) (K : List (Interval × Nat))
    (hS : K.Pairwise coreLt) :
    ∀ (fuel : Nat) (a : AddAbs) (t' : T) (c : Bool), AddCA iv K a →
      addLoopT iv fresh fuel a = some (t', c) →
      ((∀ x ∈ K, x.2 = iv.ID → x.1 = iv) → t'.LExact) ∧
      (c = true → ∃ L R, K = L ++ R ∧ t'.cores = L ++ (iv, iv.ID) :: R ∧
        (∀ x ∈ L, coreLt x (iv, iv.ID)) ∧ (∀ x ∈ R, coreLt (iv, iv.ID) x)) ∧
      (c = false → t'.cores = K ∧ ∃ x ∈ K, x.2 = iv.ID) := by
  intro fuel
  induction fuel with
  | zero => intro a t' c _ h; simp [addLoopT] at h
  | succ fuel ih =>
    intro a t' c hI hl
    obtain ⟨s1, s2⟩ := addStepT_ca iv fresh a K hI
    unfold addLoopT at hl
    split at hl
    · exact absurd hl (by simp)
    · rename_i tc hstep
      simp only [Option.some.injEq] at hl
      subst hl
      obtain ⟨r1, r2, r3, r4⟩ := s2 _ _ hstep
      obtain ⟨hK, hD, hId, hL, hA, hne⟩ := hI
      refine ⟨r3, ?_, ?_⟩
      · intro hc
        rw [r1] at hc
        simp only [decide_eq_true_eq] at hc
        cases hf : a.focus with
        | nd l n d r => rw [hf] at hc; simp [T.ptr] at hc
        | leaf =>
          rw [hf] at r2 hK
          rw [plug_cores] at r2 hK
          simp only [visitT, T.cores_nd, T.cores_leaf, List.nil_append, List.append_nil] at r2 hK
          rw [← hK] at hS
          obtain ⟨b1, b2⟩ := ctx_bounds iv a.ctx hD hId hS
          refine ⟨ctxCL a.ctx, ctxCR a.ctx, hK.symm, ?_, b1, b2⟩
          rw [r2]
          simp [newItem, Item.core]
      · intro hc
        rw [r1] at hc
        simp only [decide_eq_false_iff_not] at hc
        refine ⟨?_, r4 hc⟩
        rw [r2, ← hK]
        refine plug_cores_congr _ ?_
        cases hf : a.focus with
        | leaf => rw [hf] at hc; exact absurd rfl hc
        | nd l n d r => exact T.cores_flipT _
    · rename_i a1 hstep
      exact ih a1 t' c (s1 a1 hstep) hl

theorem pathLen_le_height (iv : Interval) (t : T) : pathLen iv t ≤ t.height := by
  induction t with
  | leaf => exact Nat.le_refl _
  | nd l n d r ihl ihr =>
    simp only [pathLen, T.height, natMax_eq]
    split <;> omega

theorem T.cores_blacken (t : T) : t.blacken.cores = t.cores := by
  cases t with
  | leaf => rfl
  | nd l a d r => simp only [T.blacken, T.cores_nd]; rfl

theorem T.lexact_blacken (t : T) (h : t.LExact) : t.blacken.LExact := by
  cases t with
  | leaf => trivial
  | nd l a d r => exact h

theorem T.redBlack_blacken (t : T) (hn : t.NoRR) (hb : t.Balanced) : t.blacken.RedBlack := by
  cases t with
  | leaf => exact ⟨rfl, trivial, trivial⟩
  | nd l a d r =>
    refine ⟨rfl, ⟨?_, hn.2.1, hn.2.2⟩, hb⟩
    intro h; exact absurd h (by simp)

theorem addT_spec (iv : Interval) (fresh : Nat) (t : T) (fuel : Nat) (hrb : t.RedBlack)
    (hle : t.LExact) (hs : t.cores.Pairwise coreLt) (hf : 2 * t.height + 2 ≤ fuel) :
    ∃ t' c, addT fuel fresh t iv = some (t', c) ∧ t'.RedBlack ∧
      ((∀ x ∈ t.cores, x.2 = iv.ID → x.1 = iv) → t'.LExact) ∧
      (c = true → ∃ L R, t.cores = L ++ R ∧ t'.cores = L ++ (iv, iv.ID) :: R ∧
        (∀ x ∈ L, coreLt x (iv, iv.ID)) ∧ (∀ x ∈ R, coreLt (iv, iv.ID) x)) ∧
      (c = false → t'.cores = t.cores ∧ ∃ x ∈ t.cores, x.2 = iv.ID) := by
  cases t with
  | leaf =>
    refine ⟨_, true, rfl, ⟨rfl, ?_, ?_⟩, ?_, ?_, ?_⟩
    · simp [T.NoRR]
    · simp [T.Balanced]
    · intro _
      refine ⟨?_, ?_, trivial, trivial⟩
      · simp [newItem, T.rootMax, natMax_eq]
      · simp [newItem, T.minWith_leaf]
    · intro _
      exact ⟨[], [], rfl, by simp [T.cores_nd, T.cores_leaf, newItem, Item.core], by simp, by simp⟩
    · intro h; exact absurd h (by simp)
  | nd l n d r =>
    obtain ⟨hr, hn, hb⟩ := hrb
    have hRB : AddRB iv ⟨[], T.nd l n d r, true, true⟩ := by
      refine ⟨hn, hb, trivial, trivial, fun f hf => by simp at hf, Or.inl ⟨rfl, rfl, ?_, ?_⟩,
        fun h => by simp [T.ptr] at h⟩
      · intro h; rw [hr] at h; exact absurd h (by simp)
      · intro f rest e; simp at e
    have hCA : AddCA iv (T.nd l n d r).cores ⟨[], T.nd l n d r, true, true⟩ :=
      ⟨rfl, fun f hf => by simp at hf, fun f hf => by simp at hf, hle, trivial,
        fun h => by simp [T.ptr] at h⟩
    have hm : addMeasure iv ⟨[], T.nd l n d r, true, true⟩ < fuel := by
      have := pathLen_le_height iv (T.nd l n d r)
      simp only [addMeasure, if_true]
      omega
    obtain ⟨t1, c, hl, hn1, hb1⟩ := addLoopT_rb iv fresh fuel _ hRB hm
    obtain ⟨a1, a2, a3⟩ := addLoopT_ca iv fresh _ hs fuel _ t1 c hCA hl
    refine ⟨t1.blacken, c, ?_, T.redBlack_blacken t1 hn1 hb1, ?_, ?_, ?_⟩
    · simp only [addT, hl]
    · intro h; exact T.lexact_blacken _ (a1 h)
    · rw [T.cores_blacken]; exact a2
    · rw [T.cores_blacken]; exact a3

/-! ## `add` on valid trees -/

theorem T.idCached_iff (t : T) : t.IdCached ↔ ∀ x ∈ t.cores, x.2 = x.1.ID := by
  induction t with
  | leaf => simp [T.IdCached, T.cores_leaf]
  | nd l a d r ihl ihr =>
    simp only [T.IdCached, ihl, ihr, T.cores_nd, List.mem_append, List.mem_cons]
    constructor
    · rintro ⟨h1, h2, h3⟩ x (hx | hx | hx)
      · exact h2 x hx
      · rw [hx]; exact h1
      · exact h3 x hx
    · intro h
      exact ⟨h d.core (Or.inr (Or.inl rfl)), fun x hx => h x (Or.inl hx),
        fun x hx => h x (Or.inr (Or.inr hx))⟩

theorem T.size_eq_cores (t : T) : t.size = t.cores.length := by
  induction t with
  | leaf => rfl
  | nd l a d r ihl ihr => simp [T.size, T.cores_nd, ihl, ihr]; omega

theorem T.height_le_size (t : T) : t.height ≤ t.size := by
  induction t with
  | leaf => exact Nat.le_refl _
  | nd l a d r ihl ihr => simp only [T.height, T.size, natMax_eq]; omega

theorem pairwise_insert {α : Type} {R : α → α → Prop} {L M : List α} {x : α}
    (h : (L ++ M).Pairwise R) (hl : ∀ y ∈ L, R y x) (hr : ∀ y ∈ M, R x y) :
    (L ++ x :: M).Pairwise R := by
  rw [List.pairwise_append] at h ⊢
  refine ⟨h.1, List.pairwise_cons.2 ⟨hr, h.2.1⟩, ?_⟩
  intro a ha b hb
  rcases List.mem_cons.1 hb with e | e
  · rw [e]; exact hl a ha
  · exact h.2.2 a ha b e

theorem add_spec (tr : tree) (t : T) (iv : Interval) (fuel : Nat) (hV : Valid tr t)
    (hle : t.LExact) (hid : ∀ x ∈ t.cores, x.2 ≠ iv.ID) (hf : 2 * t.height + 2 ≤ fuel) :
    ∃ tr' t', tr.add fuel iv = some tr' ∧ Valid tr' t' ∧ t'.LExact ∧
      tr.heap.next ≤ tr'.heap.next ∧
      ∃ L R, t.cores = L ++ R ∧ t'.cores = L ++ (iv, iv.ID) :: R := by
  obtain ⟨hR, ⟨hrb, hs, hic⟩, hnum⟩ := hV
  obtain ⟨t', c, hadd, hrb', hle', hct, hcf⟩ :=
    addT_spec iv tr.heap.next t fuel hrb hle hs hf
  have hc : c = true := by
    cases c with
    | true => rfl
    | false =>
      obtain ⟨-, x, hx, hxi⟩ := hcf rfl
      exact absurd hxi (hid x hx)
  subst hc
  obtain ⟨L, R, hK, hK', b1, b2⟩ := hct rfl
  obtain ⟨tr', hadd', hR', hnum', hnext, -⟩ := add_sim fuel tr iv t t' true hR hadd
  refine ⟨tr', t', hadd', ⟨hR', ⟨hrb', ?_, ?_⟩, ?_⟩,
    hle' (fun x hx hxi => absurd hxi (hid x hx)), hnext, L, R, hK, hK'⟩
  · unfold T.Sorted
    rw [hK']
    unfold T.Sorted at hs
    rw [hK] at hs
    exact pairwise_insert hs b1 b2
  · rw [T.idCached_iff] at hic ⊢
    intro x hx
    rw [hK'] at hx
    simp only [List.mem_append, List.mem_cons] at hx
    rcases hx with hx | hx | hx
    · exact hic x (by rw [hK]; simp [hx])
    · rw [hx]
    · exact hic x (by rw [hK]; simp [hx])
  · rw [hnum', hnum]
    simp only [if_true]
    rw [T.size_eq_cores, T.size_eq_cores, hK', hK]
    simp only [List.length_append, List.length_cons]
    omega

/-! ## Sequences of `add` -/

theorem T.mem_ids (t : T) (i : Nat) : i ∈ t.ids ↔ ∃ x ∈ t.cores, x.2 = i := by
  simp [T.ids]

theorem add_good (tr : tree) (t : T) (iv : Interval) (fuel : Nat) (hG : Good tr t)
    (hid : iv.ID ∉ t.ids) (hf : 2 * t.height + 2 ≤ fuel) :
    ∃ tr' t', tr.add fuel iv = some tr' ∧ Good tr' t' ∧
      tr.heap.next ≤ tr'.heap.next ∧ t'.cores.Perm (coreOf iv :: t.cores) := by
  obtain ⟨hV, hle, hnd⟩ := hG
  have hid' : ∀ x ∈ t.cores, x.2 ≠ iv.ID := by
    intro x hx e
    exact hid ((T.mem_ids t _).2 ⟨x, hx, e⟩)
  obtain ⟨tr', t', hadd, hV', hle', hnext, L, R, hK, hK'⟩ :=
    add_spec tr t iv fuel hV hle hid' hf
  have hp : t'.cores.Perm (coreOf iv :: t.cores) := by
    rw [hK', hK]
    exact List.perm_middle
  refine ⟨tr', t', hadd, ⟨hV', hle', ?_⟩, hnext, hp⟩
  unfold T.ids
  refine (List.Perm.nodup_iff (List.Perm.map Prod.snd hp)).2 ?_
  simp only [List.map_cons, List.nodup_cons]
  exact ⟨hid, hnd⟩

theorem T.size_of_perm {t' : T} {K : List (Interval × Nat)} (h : t'.cores.Perm K) :
    t'.size = K.length := by
  rw [T.size_eq_cores]; exact h.length_eq

theorem Add_good (fuel : Nat) : ∀ (ivs : List Interval) (tr : tree) (t : T), Good tr t →
    (ivs.map Interval.ID).Nodup → (∀ iv ∈ ivs, iv.ID ∉ t.ids) →
    2 * (t.size + ivs.length) + 2 ≤ fuel →
    ∃ tr' t', tr.Add fuel ivs = some tr' ∧ Good tr' t' ∧
      tr.heap.next ≤ tr'.heap.next ∧ t'.cores.Perm (ivs.map coreOf ++ t.cores) := by
  intro ivs
  induction ivs with
  | nil =>
    intro tr t hG _ _ _
    exact ⟨tr, t, rfl, hG, Nat.le_refl _, List.Perm.refl _⟩
  | cons iv ivs ih =>
    intro tr t hG hnd hid hf
    simp only [List.map_cons, List.nodup_cons, List.length_cons] at hnd hf
    have hh := T.height_le_size t
    obtain ⟨tr1, t1, hadd, hG1, hn1, hp1⟩ :=
      add_good tr t iv fuel hG (hid iv (List.mem_cons_self _ _)) (by omega)
    have hs1 : t1.size = t.size + 1 := by
      rw [T.size_of_perm hp1, T.size_eq_cores]; rfl
    have hid1 : ∀ x ∈ ivs, x.ID ∉ t1.ids := by
      intro x hx hmem
      have : x.ID ∈ (coreOf iv :: t.cores).map Prod.snd :=
        (List.Perm.map Prod.snd hp1).subset hmem
      simp only [List.map_cons, List.mem_cons] at this
      rcases this with e | e
      · exact hnd.1 (by rw [← show x.ID = iv.ID from e]; exact List.mem_map_of_mem _ hx)
      · exact hid x (List.mem_cons_of_mem _ hx) e
    obtain ⟨tr2, t2, hAdd, hG2, hn2, hp2⟩ := ih tr1 t1 hG1 hnd.2 hid1 (by omega)
    refine ⟨tr2, t2, ?_, hG2, Nat.le_trans hn1 hn2, ?_⟩
    · simp only [tree.Add, hadd, Option.bind_eq_bind, Option.some_bind]
      exact hAdd
    · refine hp2.trans ?_
      refine (List.Perm.append_left _ hp1).trans ?_
      simp only [List.map_cons, List.cons_append]
      exact List.perm_middle

theorem New_good : Good New T.leaf := by
  refine ⟨⟨⟨trivial, rfl, ?_, ?_⟩, ⟨⟨rfl, trivial, trivial⟩, ?_, trivial⟩, rfl⟩, trivial, ?_⟩
  · simp [T.addrs]
  · intro x hx
    simp [T.addrs, dummyAddr] at hx
    subst hx
    decide
  · exact List.Pairwise.nil
  · exact List.nodup_nil

theorem run_adds (fuel : Nat) : ∀ (calls : List (List Interval)) (tr : tree) (t : T),
    Good tr t → (calls.flatten.map Interval.ID).Nodup →
    (∀ iv ∈ calls.flatten, iv.ID ∉ t.ids) →
    2 * (t.size + calls.flatten.length) + 2 ≤ fuel →
    ∃ tr' t', tr.run fuel (calls.map Call.Add) = some tr' ∧ Good tr' t' ∧
      t'.cores.Perm (calls.flatten.map coreOf ++ t.cores) := by
  intro calls
  induction calls with
  | nil =>
    intro tr t hG _ _ _
    exact ⟨tr, t, rfl, hG, List.Perm.refl _⟩
  | cons ivs calls ih =>
    intro tr t hG hnd hid hf
    simp only [List.flatten_cons, List.map_append, List.length_append] at hnd hf hid
    rw [List.nodup_append] at hnd
    obtain ⟨tr1, t1, hAdd, hG1, -, hp1⟩ := Add_good fuel ivs tr t hG hnd.1
      (fun iv hiv => hid iv (List.mem_append_left _ hiv)) (by omega)
    have hs1 : t1.size = t.size + ivs.length := by
      rw [T.size_of_perm hp1, T.size_eq_cores]; simp; omega
    have hid1 : ∀ x ∈ calls.flatten, x.ID ∉ t1.ids := by
      intro x hx hmem
      have : x.ID ∈ (ivs.map coreOf ++ t.cores).map Prod.snd :=
        (List.Perm.map Prod.snd hp1).subset hmem
      simp only [List.map_append, List.map_map, List.mem_append, List.mem_map,
        Function.comp_apply] at this
      rcases this with ⟨y, hy, e⟩ | e
      · exact hnd.2.2 (List.mem_map_of_mem _ hy) (by
          have e' : y.ID = x.ID := e
          rw [e']; exact List.mem_map_of_mem _ hx)
      · exact hid x (List.mem_append_right _ hx) ((T.mem_ids t _).2 (by
          obtain ⟨y, hy, e⟩ := e; exact ⟨y, hy, e⟩))
    obtain ⟨tr2, t2, hrun, hG2, hp2⟩ := ih tr1 t1 hG1 hnd.2.1 hid1 (by omega)
    refine ⟨tr2, t2, ?_, hG2, ?_⟩
    · simp only [List.map_cons, tree.run, hAdd, Option.bind_eq_bind, Option.some_bind]
      exact hrun
    · refine hp2.trans ?_
      refine (List.Perm.append_left _ hp1).trans ?_
      simp only [List.flatten_cons, List.map_append, List.append_assoc]
      exact List.perm_append_comm_assoc _ _ _

theorem length_le_of_nodup_lt (l : List Nat) (N : Nat) (hnd : l.Nodup) (hlt : ∀ x ∈ l, x < N) :
    l.length ≤ N := by
  have h1 : l.toFinset ⊆ Finset.range N := by
    intro x hx
    exact Finset.mem_range.2 (hlt x (List.mem_toFinset.1 hx))
  have h2 := Finset.card_le_card h1
  rw [List.toFinset_card_of_nodup hnd, Finset.card_range] at h2
  exact h2

theorem New_run_adds (fuel : Nat) (calls : List (List Interval))
    (hnd : (calls.flatten.map Interval.ID).Nodup)
    (hf : 2 * calls.flatten.length + 2 ≤ fuel) :
    ∃ tr t, New.run fuel (calls.map Call.Add) = some tr ∧ Good tr t ∧
      t.cores.Perm (calls.flatten.map coreOf) := by
  obtain ⟨tr, t, hrun, hG, hp⟩ := run_adds fuel calls New T.leaf New_good hnd
    (fun iv _ h => by simp [T.ids, T.cores_leaf] at h) (by simp only [T.size]; omega)
  refine ⟨tr, t, hrun, hG, ?_⟩
  simpa [T.cores_leaf] using hp

theorem T.intervals_eq_cores (t : T) : t.intervals = t.cores.map Prod.fst := by
  simp [T.intervals, T.cores, Item.core]

theorem foldl_snoc {α : Type} (l acc : List α) :
    l.foldl (fun acc x => acc ++ [x]) acc = acc ++ l := by
  induction l generalizing acc with
  | nil => simp
  | cons x l ih => simp [ih]

theorem T.intervals_eq_nodes (t : T) : t.intervals = t.nodes.map (fun x => x.2.interval) := by
  induction t with
  | leaf => rfl
  | nd l a d r ihl ihr =>
    simp only [T.intervals, T.items, T.nodes, List.map_append, List.map_cons] at ihl ihr ⊢
    rw [ihl, ihr]

theorem coreLt_irrefl (x : Interval × Nat) : ¬ coreLt x x := by
  unfold coreLt; omega

theorem core_eq_of_ids_nodup {K : List (Interval × Nat)} (hnd : (K.map Prod.snd).Nodup)
    {x y : Interval × Nat} (hx : x ∈ K) (hy : y ∈ K) (e : x.2 = y.2) : x = y :=
  List.inj_on_of_nodup_map hnd hx hy e

theorem readd_good (tr : tree) (t : T) (iv : Interval) (fuel : Nat) (hG : Good tr t)
    (hst : coreOf iv ∈ t.cores) (hf : 2 * t.height + 2 ≤ fuel) :
    ∃ tr' t', tr.add fuel iv = some tr' ∧ Good tr' t' ∧
      addT fuel tr.heap.next t iv = some (t', false) ∧ t'.cores = t.cores ∧
      tr'.number = tr.number ∧ tr'.heap.next = tr.heap.next := by
  obtain ⟨⟨hR, ⟨hrb, hs, hic⟩, hnum⟩, hle, hnd⟩ := hG
  obtain ⟨t', c, hadd, hrb', hle', hct, hcf⟩ :=
    addT_spec iv tr.heap.next t fuel hrb hle hs hf
  have hc : c = false := by
    cases c with
    | false => rfl
    | true =>
      obtain ⟨L, R, hK, -, b1, b2⟩ := hct rfl
      rw [hK] at hst
      rcases List.mem_append.1 hst with h | h
      · exact absurd (b1 _ h) (coreLt_irrefl _)
      · exact absurd (b2 _ h) (coreLt_irrefl _)
  subst hc
  obtain ⟨hK, -⟩ := hcf rfl
  obtain ⟨tr', hadd', hR', hnum', -, hnext⟩ := add_sim fuel tr iv t t' false hR hadd
  have hnum2 : tr'.number = tr.number := by simpa using hnum'
  refine ⟨tr', t', hadd', ⟨⟨hR', ⟨hrb', ?_, ?_⟩, ?_⟩, ?_, ?_⟩, hadd, hK, hnum2, hnext rfl⟩
  · unfold T.Sorted; rw [hK]; exact hs
  · rw [T.idCached_iff] at hic ⊢; rw [hK]; exact hic
  · rw [hnum2, hnum, T.size_eq_cores, T.size_eq_cores, hK]
  · apply hle'
    intro x hx e
    have := core_eq_of_ids_nodup hnd hx hst e
    rw [this]; rfl
  · unfold T.ids; rw [hK]; exact hnd

/-! ## Claims on sequences of `Add` -/

/-- C4: for every list of calls of `Add` on a tree created by `New()`, the ids of all
added intervals being pairwise distinct (and `uint32` values), the calls return (with
fuel for `2 * n + 2` iterations of the loop of `add`) and `Len()` is the number `n`
of added intervals. -/
theorem c4_Len_counts_distinct_adds (fuel : Nat) (calls : List (List Interval))
    (hnd : (calls.flatten.map Interval.ID).Nodup)
    (hw : ∀ iv ∈ calls.flatten, iv.ID < 2 ^ 32)
    (hf : 2 * calls.flatten.length + 2 ≤ fuel) :
    ∃ tr, New.run fuel (calls.map Call.Add) = some tr ∧ tr.Len = calls.flatten.length := by
  obtain ⟨tr, t, hrun, ⟨⟨-, -, hnum⟩, -, -⟩, hp⟩ := New_run_adds fuel calls hnd hf
  refine ⟨tr, hrun, ?_⟩
  have hlen : (calls.flatten.map Interval.ID).length ≤ 2 ^ 32 :=
    length_le_of_nodup_lt _ _ hnd (by
      intro x hx
      obtain ⟨iv, hiv, e⟩ := List.mem_map.1 hx
      rw [← e]; exact hw iv hiv)
  rw [List.length_map] at hlen
  have hs : t.size = calls.flatten.length := by
    rw [T.size_of_perm hp, List.length_map]
  unfold tree.Len
  rw [hnum, hs]
  exact Nat.mod_eq_of_lt (by
    have : (2 : Nat) ^ 32 < 2 ^ 64 := by norm_num
    omega)

/-- C4 on the scenario: three intervals, added in two calls, give `Len() = 3`. -/
theorem c4_scenario :
    ∃ tr, New.run 8 ([[⟨10, 20, 1⟩, ⟨5, 15, 2⟩], [⟨30, 40, 3⟩]].map Call.Add) = some tr ∧
      tr.Len = 3 :=
  c4_Len_counts_distinct_adds 8 [[⟨10, 20, 1⟩, ⟨5, 15, 2⟩], [⟨30, 40, 3⟩]]
    (by decide) (by decide) (by decide)

/-- C5: for every list of calls of `Add` on a tree created by `New()`, the ids of all
added intervals being pairwise distinct, the calls return a tree in memory whose
stored intervals are, as a multiset, the added intervals; `Traverse` on it returns
and has reported a permutation of the added intervals. -/
theorem c5_adds_keep_every_interval (fuel : Nat) (calls : List (List Interval))
    (hnd : (calls.flatten.map Interval.ID).Nodup)
    (hf : 2 * calls.flatten.length + 2 ≤ fuel) :
    ∃ tr t out, New.run fuel (calls.map Call.Add) = some tr ∧ Rep tr t ∧
      t.intervals.Perm calls.flatten ∧
      tr.Traverse fuel (fun acc iv => acc ++ [iv]) [] = some out ∧
      out.Perm (calls.flatten.map some) := by
  obtain ⟨tr, t, hrun, ⟨⟨hR, -, -⟩, -, -⟩, hp⟩ := New_run_adds fuel calls hnd hf
  have hpi : t.intervals.Perm calls.flatten := by
    rw [T.intervals_eq_cores]
    have := List.Perm.map Prod.fst hp
    simpa [coreOf, Function.comp_def] using this
  have hs : t.size = calls.flatten.length := by
    rw [T.size_of_perm hp, List.length_map]
  have hpops : t.pops ≤ t.size + 1 := by cases t <;> simp [T.pops, T.size]
  have key := traverseLoop_spec (fun (acc : List (Option Interval)) iv => acc ++ [iv])
    tr.heap fuel [t] [] (by simpa using hR.1)
    (by simp only [List.map_cons, List.map_nil, List.sum_cons, List.sum_nil]; omega)
  simp only [List.map_cons, List.map_nil, List.flatMap_cons, List.flatMap_nil,
    List.append_nil, foldl_snoc, List.nil_append] at key
  refine ⟨tr, t, t.visitOrder.map (fun x => some x.2.interval), hrun, hR, hpi, ?_, ?_⟩
  · unfold tree.Traverse
    rw [hR.2.1]
    exact key
  · have h1 : (t.visitOrder.map (fun x => some x.2.interval)).Perm
        (t.nodes.map (fun x => some x.2.interval)) := List.Perm.map _ (T.visitOrder_perm t)
    refine h1.trans ?_
    have h2 : t.nodes.map (fun x => some x.2.interval) = t.intervals.map some := by
      rw [T.intervals_eq_nodes, List.map_map]; rfl
    rw [h2]
    exact List.Perm.map _ hpi

/-- C5 on the scenario: the three added intervals are the stored ones. -/
theorem c5_scenario :
    ∃ tr t out, New.run 8 ([[⟨10, 20, 1⟩, ⟨5, 15, 2⟩], [⟨30, 40, 3⟩]].map Call.Add) = some tr ∧
      Rep tr t ∧
      t.intervals.Perm [⟨10, 20, 1⟩, ⟨5, 15, 2⟩, ⟨30, 40, 3⟩] ∧
      tr.Traverse 8 (fun acc iv => acc ++ [iv]) [] = some out ∧
      out.Perm [some ⟨10, 20, 1⟩, some ⟨5, 15, 2⟩, some ⟨30, 40, 3⟩] :=
  c5_adds_keep_every_interval 8 [[⟨10, 20, 1⟩, ⟨5, 15, 2⟩], [⟨30, 40, 3⟩]]
    (by decide) (by decide)

/-- C19: on a tree built from `New()` by calls of `Add` with pairwise distinct ids,
`Add` of an interval `iv` that is one of the added ones returns; its descent ends at
an existing node (the flag of `addT` is `false`: the `break` on `node.id == id` is
taken at a node that was not made by this call), no node is allocated, and `Len()`,
the stored intervals with their ids in order, and the exactness of the aggregates of
every node are as before. -/
theorem c19_readding_stored_interval (fuel : Nat) (calls : List (List Interval))
    (iv : Interval) (hnd : (calls.flatten.map Interval.ID).Nodup)
    (hst : iv ∈ calls.flatten) (hf : 2 * calls.flatten.length + 2 ≤ fuel) :
    ∃ tr t tr' t', New.run fuel (calls.map Call.Add) = some tr ∧ Rep tr t ∧ t.LExact ∧
      tr.Add fuel [iv] = some tr' ∧ Rep tr' t' ∧
      addT fuel tr.heap.next t iv = some (t', false) ∧
      tr'.heap.next = tr.heap.next ∧ tr'.Len = tr.Len ∧ t'.cores = t.cores ∧
      t'.intervals = t.intervals ∧ t'.LExact ∧ t'.Exact := by
  obtain ⟨tr, t, hrun, hG, hp⟩ := New_run_adds fuel calls hnd hf
  have hmem : coreOf iv ∈ t.cores := hp.symm.subset (List.mem_map_of_mem _ hst)
  have hs : t.size = calls.flatten.length := by
    rw [T.size_of_perm hp, List.length_map]
  have hh := T.height_le_size t
  obtain ⟨tr', t', hadd, hG', haddT, hK, hnum, hnext⟩ :=
    readd_good tr t iv fuel hG hmem (by omega)
  refine ⟨tr, t, tr', t', hrun, hG.1.1, hG.2.1, ?_, hG'.1.1, haddT, hnext, hnum, hK, ?_,
    hG'.2.1, T.LExact.exact hG'.2.1⟩
  · simp only [tree.Add, hadd, Option.bind_eq_bind, Option.some_bind]
  · rw [T.intervals_eq_cores, T.intervals_eq_cores, hK]

/-- C19 on the scenario: `(5,15,2)` added a second time. -/
theorem c19_scenario :
    ∃ tr t tr' t', New.run 8 ([[⟨10, 20, 1⟩, ⟨5, 15, 2⟩], [⟨30, 40, 3⟩]].map Call.Add) = some tr ∧
      Rep tr t ∧ t.LExact ∧
      tr.Add 8 [⟨5, 15, 2⟩] = some tr' ∧ Rep tr' t' ∧
      addT 8 tr.heap.next t ⟨5, 15, 2⟩ = some (t', false) ∧
      tr'.heap.next = tr.heap.next ∧ tr'.Len = tr.Len ∧ t'.cores = t.cores ∧
      t'.intervals = t.intervals ∧ t'.LExact ∧ t'.Exact :=
  c19_readding_stored_interval 8 [[⟨10, 20, 1⟩, ⟨5, 15, 2⟩], [⟨30, 40, 3⟩]] ⟨5, 15, 2⟩
    (by decide) (by decide) (by decide)

/-! ## Rotations and colour writes on trees in memory -/

theorem T.ptr_paint (a : Nat) (b : Bool) (t : T) : (t.paint a b).ptr = t.ptr := by
  cases t <;> rfl

theorem T.addrs_paint (a : Nat) (b : Bool) (t : T) : (t.paint a b).addrs = t.addrs := by
  induction t with
  | leaf => rfl
  | nd l x d r ihl ihr => simp only [T.paint, T.addrs, ihl, ihr]

theorem T.paint_models {h : Heap} {t : T} (a : Nat) (b : Bool) (hm : t.Models h) :
    (t.paint a b).Models (h.upd a (fun x => { x with red := b })) := by
  induction t with
  | leaf => trivial
  | nd l x d r ihl ihr =>
    obtain ⟨hc, hl, hr⟩ := hm
    refine ⟨?_, ihl hl, ihr hr⟩
    rw [Heap.upd_eq_set, Heap.cell_set]
    split_ifs with e
    · subst e
      rw [hc]
      simp [T.cellOf, T.ptr_paint]
    · rw [hc]
      simp [T.cellOf, T.ptr_paint]

theorem T.paint_not_mem {t : T} {a : Nat} (b : Bool) (ha : a ∉ t.addrs) : t.paint a b = t := by
  induction t with
  | leaf => rfl
  | nd l x d r ihl ihr =>
    simp only [T.addrs, List.mem_append, List.mem_cons, not_or] at ha
    simp only [T.paint, ihl ha.1, ihr ha.2.2]
    rw [if_neg (fun e => ha.2.1 e.symm)]

theorem T.paint_root {t : T} {a : Nat} (b : Bool) (hp : t.ptr = some a) (hnd : t.addrs.Nodup) :
    t.paint a b = t.setRed b := by
  cases t with
  | leaf => rfl
  | nd l x d r =>
    simp only [T.ptr, Option.some.injEq] at hp
    subst hp
    simp only [T.addrs, List.nodup_append, List.nodup_cons, List.disjoint_cons_right] at hnd
    simp only [T.paint, T.setRed, if_true, T.paint_not_mem b hnd.2.2.1,
      T.paint_not_mem b hnd.2.1.1]

theorem T.paint_child {t : T} {a : Nat} (b : Bool) (i : Nat) (hi : i ≤ 1)
    (ha : a ∈ (t.child i).addrs) (hnd : t.addrs.Nodup) :
    t.paint a b = t.setChild i ((t.child i).paint a b) := by
  cases t with
  | leaf => rfl
  | nd l x d r =>
    simp only [T.addrs, List.nodup_append, List.nodup_cons, List.disjoint_cons_right] at hnd
    have h01 : i = 0 ∨ i = 1 := by omega
    rcases h01 with e | e <;> subst e <;> simp only [T.child_nd, if_true, one_ne_zero,
      if_false] at ha
    · have hx : x ≠ a := fun e => hnd.2.2.1 (e ▸ ha)
      have hr : a ∉ r.addrs := fun hr => hnd.2.2.2 ha hr
      simp [T.paint, T.setChild, T.child_nd, hx, T.paint_not_mem b hr]
    · have hx : x ≠ a := fun e => hnd.2.1.1 (e ▸ ha)
      have hl : a ∉ l.addrs := fun hl => hnd.2.2.2 hl ha
      simp [T.paint, T.setChild, T.child_nd, hx, T.paint_not_mem b hl]

theorem T.frame_models {h : Heap} {t : T} {ctx : List Frame} (i : Nat) (hi : i ≤ 1)
    (hp : t.ptr ≠ none) (hm : t.Models h) (hC : CtxModels h ctx t.ptr) :
    (t.child i).Models h ∧ CtxModels h (t.frame i :: ctx) (t.child i).ptr := by
  cases t with
  | leaf => exact absurd rfl hp
  | nd l x d r =>
    have h01 : i = 0 ∨ i = 1 := by omega
    obtain ⟨hc, hl, hr⟩ := hm
    rcases h01 with e | e <;> subst e
    · refine ⟨hl, ?_, hr, hC⟩
      exact hc.trans rfl
    · refine ⟨hr, ?_, hl, hC⟩
      exact hc.trans rfl

theorem T.frame_plug (t : T) (i : Nat) (hi : i ≤ 1) (hp : t.ptr ≠ none) :
    (t.frame i).plug (t.child i) = t := by
  cases t with
  | leaf => exact absurd rfl hp
  | nd l x d r => exact T.frame_plug_child l r x d i hi

theorem zipDown_plug : ∀ (is : List Nat) (ctx : List Frame) (t : T), t.HasPath is →
    plug (zipDown ctx t is).1 (zipDown ctx t is).2 = plug ctx t := by
  intro is
  induction is with
  | nil => intro ctx t _; rfl
  | cons i is ih =>
    intro ctx t hp
    obtain ⟨h1, h2, h3⟩ := hp
    rw [zipDown, ih _ _ h3, plug, T.frame_plug t i h2 h1]

theorem zipDown_models {h : Heap} : ∀ (is : List Nat) (ctx : List Frame) (t : T),
    t.HasPath is → t.Models h → CtxModels h ctx t.ptr →
    (zipDown ctx t is).2.Models h ∧ CtxModels h (zipDown ctx t is).1 (zipDown ctx t is).2.ptr := by
  intro is
  induction is with
  | nil => intro ctx t _ hm hC; exact ⟨hm, hC⟩
  | cons i is ih =>
    intro ctx t hp hm hC
    obtain ⟨h1, h2, h3⟩ := hp
    obtain ⟨hm', hC'⟩ := T.frame_models i h2 h1 hm hC
    rw [zipDown]
    exact ih _ _ h3 hm' hC'

theorem T.frame_addrs_perm (t : T) (i : Nat) (hi : i ≤ 1) (hp : t.ptr ≠ none)
    (ctx : List Frame) :
    ((t.child i).addrs ++ ctxAddrs (t.frame i :: ctx)).Perm (t.addrs ++ ctxAddrs ctx) := by
  cases t with
  | leaf => exact absurd rfl hp
  | nd l x d r =>
    have h01 : i = 0 ∨ i = 1 := by omega
    rcases h01 with e | e <;> subst e <;>
      simp only [T.child_nd, T.frame, ctxAddrs, T.addrs, T.addr, takeOpposite, if_true,
        one_ne_zero, if_false] <;>
      rw [List.perm_iff_count] <;> intro z <;>
      simp only [List.count_append, List.count_cons, T.child_nd] <;>
      simp <;> omega

theorem zipDown_addrs_perm : ∀ (is : List Nat) (ctx : List Frame) (t : T), t.HasPath is →
    ((zipDown ctx t is).2.addrs ++ ctxAddrs (zipDown ctx t is).1).Perm
      (t.addrs ++ ctxAddrs ctx) := by
  intro is
  induction is with
  | nil => intro ctx t _; exact List.Perm.refl _
  | cons i is ih =>
    intro ctx t hp
    obtain ⟨h1, h2, h3⟩ := hp
    rw [zipDown]
    exact (ih _ _ h3).trans (T.frame_addrs_perm t i h2 h1 ctx)

theorem zipDown_dirs : ∀ (is : List Nat) (ctx : List Frame) (t : T), t.HasPath is →
    (∀ f ∈ ctx, f.dir ≤ 1) → ∀ f ∈ (zipDown ctx t is).1, f.dir ≤ 1 := by
  intro is
  induction is with
  | nil => intro ctx t _ h; exact h
  | cons i is ih =>
    intro ctx t hp h
    obtain ⟨h1, h2, h3⟩ := hp
    rw [zipDown]
    apply ih _ _ h3
    intro f hf
    rcases List.mem_cons.1 hf with e | e
    · rw [e]; exact h2
    · exact h f e

theorem rotT_ptr (dir : Nat) (t : T) (hc : (t.child (takeOpposite dir)).ptr ≠ none) :
    (rotT dir t).ptr = (t.child (takeOpposite dir)).ptr := by
  cases t with
  | leaf => exact absurd rfl hc
  | nd l p dp r =>
    cases dir with
    | zero =>
      cases r with
      | leaf => exact absurd rfl hc
      | nd B c dc C => rfl
    | succ k =>
      cases l with
      | leaf => exact absurd (by simp [takeOpposite, T.child_nd, T.ptr]) hc
      | nd A c dc B => simp [rotT, takeOpposite, T.child_nd, T.ptr]

theorem rotT_addrs_perm (dir : Nat) (t : T) : (rotT dir t).addrs.Perm t.addrs := by
  cases t with
  | leaf => cases dir <;> exact List.Perm.refl _
  | nd l p dp r =>
    cases dir with
    | zero =>
      cases r with
      | leaf => exact List.Perm.refl _
      | nd B c dc C =>
        simp only [rotT, T.addrs]
        rw [List.perm_iff_count]; intro z
        simp only [List.count_append, List.count_cons]; omega
    | succ k =>
      cases l with
      | leaf => exact List.Perm.refl _
      | nd A c dc B =>
        simp only [rotT, T.addrs]
        rw [List.perm_iff_count]; intro z
        simp only [List.count_append, List.count_cons]; omega

theorem rotate_rotT (h : Heap) (t : T) (dir p : Nat) (hd : dir ≤ 1) (hp : t.ptr = some p)
    (hc : (t.child (takeOpposite dir)).ptr ≠ none) (hm : t.Models h) (hnd : t.addrs.Nodup) :
    ∃ h', rotate h (some p) dir = some (h', (rotT dir t).ptr) ∧ (rotT dir t).Models h' ∧
      (∀ x, x ∉ t.addrs → h'.cell x = h.cell x) ∧ h'.next = h.next := by
  cases t with
  | leaf => exact absurd rfl hc
  | nd l p' dp r =>
    simp only [T.ptr, Option.some.injEq] at hp
    subst hp
    have h01 : dir = 0 ∨ dir = 1 := by omega
    rcases h01 with e | e <;> subst e
    · cases r with
      | leaf => exact absurd rfl hc
      | nd B c dc C =>
        have key := rotate_models_zero h l B C p' c dp dc hm hnd
        obtain ⟨hpc, hmA, hcc, hmB, hmC⟩ := hm
        simp only [T.addrs, List.nodup_append, List.nodup_cons, List.mem_append, List.mem_cons,
          not_or, List.disjoint_cons_right, List.disjoint_append_right] at hnd
        obtain ⟨hnA, ⟨⟨hpB, hpc', hpC⟩, hnB, ⟨hcC, hnC⟩, hcB, hBC⟩, hpA, hAB, hcA, hAC⟩ := hnd
        refine ⟨_, key, ⟨Heap.cell_set_same _ _ _, ⟨?_, ?_, ?_⟩, ?_⟩, ?_, rfl⟩
        · rw [Heap.cell_set_ne _ _ _ _ hpc', Heap.cell_set_same]
        · exact (hmA.set_not_mem _ _ hpA).set_not_mem _ _ hcA
        · exact (hmB.set_not_mem _ _ hpB).set_not_mem _ _ hcB
        · exact (hmC.set_not_mem _ _ hpC).set_not_mem _ _ hcC
        · intro x hx
          simp only [T.addrs, List.mem_append, List.mem_cons, not_or] at hx
          rw [Heap.cell_set_ne _ _ _ _ hx.2.2.2.1, Heap.cell_set_ne _ _ _ _ hx.2.1]
    · cases l with
      | leaf => exact absurd (by simp [takeOpposite, T.child_nd, T.ptr]) hc
      | nd A c dc B =>
        have key := rotate_models_one h A B r p' c dp dc hm hnd
        obtain ⟨hpc, ⟨hcc, hmA, hmB⟩, hmC⟩ := hm
        simp only [T.addrs, List.nodup_append, List.nodup_cons, List.mem_append, List.mem_cons,
          not_or, List.disjoint_cons_right, List.disjoint_append_right, List.disjoint_cons_left,
          List.disjoint_append_left] at hnd
        obtain ⟨⟨hnA, ⟨hcB, hnB⟩, hcA, hAB⟩, ⟨hpC, hnC⟩, ⟨hpA, hpc', hpB⟩, hAC, hcC, hBC⟩ := hnd
        refine ⟨_, key, ⟨Heap.cell_set_same _ _ _, ?_, ⟨?_, ?_, ?_⟩⟩, ?_, rfl⟩
        · exact (hmA.set_not_mem _ _ hpA).set_not_mem _ _ hcA
        · rw [Heap.cell_set_ne _ _ _ _ hpc', Heap.cell_set_same]
        · exact (hmB.set_not_mem _ _ hpB).set_not_mem _ _ hcB
        · exact (hmC.set_not_mem _ _ hpC).set_not_mem _ _ hcC
        · intro x hx
          simp only [T.addrs, List.mem_append, List.mem_cons, not_or] at hx
          rw [Heap.cell_set_ne _ _ _ _ hx.1.2.1, Heap.cell_set_ne _ _ _ _ hx.2.1]

theorem T.child_paint (a : Nat) (b : Bool) (t : T) (i : Nat) :
    (t.paint a b).child i = (t.child i).paint a b := by
  cases t with
  | leaf => rfl
  | nd l x d r => simp only [T.paint, T.child_nd]; split <;> rfl

theorem T.ptr_setRed (b : Bool) (t : T) : (t.setRed b).ptr = t.ptr := by cases t <;> rfl

theorem T.child_setRed (b : Bool) (t : T) (i : Nat) : (t.setRed b).child i = t.child i := by
  cases t <;> rfl

theorem T.ptr_setChild (t : T) (i : Nat) (c : T) : (t.setChild i c).ptr = t.ptr := by
  cases t with
  | leaf => rfl
  | nd l x d r => simp only [T.setChild]; split <;> rfl

theorem T.child_setChild_same (t : T) (i : Nat) (c : T) (hp : t.ptr ≠ none) :
    (t.setChild i c).child i = c := by
  cases t with
  | leaf => exact absurd rfl hp
  | nd l x d r =>
    simp only [T.setChild]
    split <;> rename_i e <;> simp [T.child_nd, e]

theorem T.child_setChild_ne (t : T) (i j : Nat) (c : T) (hi : i ≤ 1) (hj : j ≤ 1) (hne : i ≠ j) :
    (t.setChild i c).child j = t.child j := by
  cases t with
  | leaf => rfl
  | nd l x d r =>
    have h1 : i = 0 ∨ i = 1 := by omega
    have h2 : j = 0 ∨ j = 1 := by omega
    rcases h1 with h1 | h1 <;> rcases h2 with h2 | h2 <;> subst h1 <;> subst h2 <;>
      first
        | exact absurd rfl hne
        | simp [T.setChild, T.child_nd]

theorem T.setChild_child (t : T) (i : Nat) (hi : i ≤ 1) : t.setChild i (t.child i) = t := by
  cases t with
  | leaf => rfl
  | nd l x d r =>
    have h1 : i = 0 ∨ i = 1 := by omega
    rcases h1 with h1 | h1 <;> subst h1 <;> simp [T.setChild, T.child_nd]

theorem T.paint_child_root {t : T} {a : Nat} (b : Bool) (i : Nat) (hi : i ≤ 1)
    (hp : (t.child i).ptr = some a) (hnd : t.addrs.Nodup) :
    t.paint a b = t.setChild i ((t.child i).setRed b) := by
  have hmem : a ∈ (t.child i).addrs := T.ptr_mem_addrs hp
  rw [T.paint_child b i hi hmem hnd]
  congr 1
  refine T.paint_root b hp ?_
  cases t with
  | leaf => exact List.nodup_nil
  | nd l x d r =>
    simp only [T.addrs, List.nodup_append, List.nodup_cons] at hnd
    rw [T.child_nd]; split
    · exact hnd.1
    · exact hnd.2.1.2

theorem T.nodup_child {t : T} (i : Nat) (hnd : t.addrs.Nodup) : (t.child i).addrs.Nodup := by
  cases t with
  | leaf => exact List.nodup_nil
  | nd l x d r =>
    simp only [T.addrs, List.nodup_append, List.nodup_cons] at hnd
    rw [T.child_nd]; split
    · exact hnd.1
    · exact hnd.2.1.2

theorem T.cell_child {h : Heap} {t : T} {a : Nat} (hm : t.Models h) (hp : t.ptr = some a)
    (i : Nat) : (h.cell a).child i = (t.child i).ptr := by
  cases t with
  | leaf => simp [T.ptr] at hp
  | nd l x d r =>
    simp only [T.ptr, Option.some.injEq] at hp
    subst hp
    rw [hm.1, T.child_nd]
    unfold node.child T.cellOf
    split <;> rfl

theorem T.cell_c0 {h : Heap} {t : T} {a : Nat} (hm : t.Models h) (hp : t.ptr = some a) :
    (h.cell a).c0 = (t.child 0).ptr := T.cell_child hm hp 0

theorem T.cell_c1 {h : Heap} {t : T} {a : Nat} (hm : t.Models h) (hp : t.ptr = some a) :
    (h.cell a).c1 = (t.child 1).ptr := T.cell_child hm hp 1

theorem T.cell_red {h : Heap} {t : T} {a : Nat} (hm : t.Models h) (hp : t.ptr = some a) :
    (h.cell a).red = t.isRed := by
  have := isRed_ptr hm
  rw [hp] at this
  exact this

theorem T.cell_id {h : Heap} {t : T} {a : Nat} (hm : t.Models h) (hp : t.ptr = some a) :
    (h.cell a).id = t.item.id ∧ (h.cell a).interval = some t.item.interval := by
  cases t with
  | leaf => simp [T.ptr] at hp
  | nd l x d r =>
    simp only [T.ptr, Option.some.injEq] at hp
    subst hp
    rw [hm.1]
    exact ⟨rfl, rfl⟩

theorem T.addr_of_ptr {t : T} {a : Nat} (hp : t.ptr = some a) : t.addr = a := by
  cases t with
  | leaf => simp [T.ptr] at hp
  | nd l x d r => simpa [T.ptr] using hp

theorem attach_last {h h1 : Heap} {ctx : List Frame} (g : Ptr) (r : Ptr)
    (hC : CtxModels h ctx g) (he : h1.cell (helperOf ctx) = h.cell (helperOf ctx)) :
    h1.upd (helperOf ctx) (fun x => x.setChild (lastOf ctx) r) = attach h1 ctx r := by
  cases ctx with
  | nil =>
    simp only [helperOf, lastOf, attach, Heap.upd_eq_set]
    rfl
  | cons f fs =>
    obtain ⟨hc, -, -⟩ := hC
    simp only [helperOf] at he
    simp only [helperOf, lastOf, attach, Heap.upd_eq_set, he, hc, Frame.setChild_cellWith]

theorem ctx_child {h : Heap} {ctx : List Frame} {g : Ptr} (hC : CtxModels h ctx g) :
    (h.cell (helperOf ctx)).child (lastOf ctx) = g := by
  cases ctx with
  | nil => exact hC
  | cons f fs =>
    simp only [helperOf, lastOf]
    rw [hC.1, Frame.child_cellWith]

theorem ctx_localDir {h : Heap} {ctx : List Frame} {p : Nat} (hC : CtxModels h ctx (some p))
    (hd : ∀ f ∈ ctx, f.dir ≤ 1) (hp : p ∉ ctxAddrs ctx) :
    intFromBool (decide ((h.cell (helperOf ctx)).c1 = some p)) = lastOf ctx := by
  cases ctx with
  | nil =>
    simp only [CtxModels] at hC
    simp [helperOf, lastOf, hC, intFromBool]
  | cons f fs =>
    simp only [helperOf, lastOf]
    have hf := hd f (List.mem_cons_self _ _)
    simp only [ctxAddrs, List.mem_cons, List.mem_append, not_or] at hp
    have hs : f.sib.ptr ≠ some p := T.ptr_ne_of_not_mem hp.2.1
    have h01 : f.dir = 0 ∨ f.dir = 1 := by omega
    have hc1 : (h.cell f.addr).c1 = (f.cellWith (some p)).c1 := by rw [hC.1]
    unfold Frame.cellWith at hc1
    rcases h01 with e | e <;> simp [e, intFromBool, hs, hc1]

theorem T.setChild_addrs_perm (t : T) (i : Nat) (hi : i ≤ 1) (c : T)
    (hc : c.addrs.Perm (t.child i).addrs) : (t.setChild i c).addrs.Perm t.addrs := by
  cases t with
  | leaf => exact List.Perm.refl _
  | nd l x d r =>
    have h1 : i = 0 ∨ i = 1 := by omega
    rcases h1 with h1 | h1 <;> subst h1 <;>
      simp only [T.child_nd, if_true, one_ne_zero, if_false] at hc <;>
      simp only [T.setChild, if_true, one_ne_zero, if_false, T.addrs]
    · exact List.Perm.append_right _ hc
    · exact List.Perm.append_left _ (List.Perm.cons _ hc)

theorem T.Models.setChild {h h1 : Heap} {t c : T} {p : Nat} (i : Nat) (hi : i ≤ 1)
    (hm : t.Models h) (hnd : t.addrs.Nodup) (hp : t.ptr = some p) (hc : c.Models h1)
    (hsub : ∀ x ∈ c.addrs, x ∈ (t.child i).addrs)
    (hfr : ∀ x, x ∉ (t.child i).addrs → h1.cell x = h.cell x) :
    (t.setChild i c).Models (h1.upd p (fun x => x.setChild i c.ptr)) := by
  cases t with
  | leaf => simp [T.ptr] at hp
  | nd l x d r =>
    simp only [T.ptr, Option.some.injEq] at hp
    subst hp
    obtain ⟨hcell, hl, hr⟩ := hm
    simp only [T.addrs, List.nodup_append, List.nodup_cons, List.disjoint_cons_right] at hnd
    obtain ⟨hnl, ⟨hxr, hnr⟩, hxl, hlr⟩ := hnd
    have h1' : i = 0 ∨ i = 1 := by omega
    rw [Heap.upd_eq_set]
    rcases h1' with e | e <;> subst e <;>
      simp only [T.child_nd, if_true, one_ne_zero, if_false] at hfr hsub <;>
      simp only [T.setChild, if_true, one_ne_zero, if_false]
    · refine ⟨?_, ?_, ?_⟩
      · rw [Heap.cell_set_same, hfr x hxl, hcell]
        simp [T.cellOf, node.setChild]
      · exact hc.set_not_mem _ _ (fun hx => hxl (hsub x hx))
      · refine (hr.congr ?_).set_not_mem _ _ hxr
        intro a ha
        exact hfr a (fun hl' => hlr hl' ha)
    · refine ⟨?_, ?_, ?_⟩
      · rw [Heap.cell_set_same, hfr x hxr, hcell]
        simp [T.cellOf, node.setChild]
      · refine (hl.congr ?_).set_not_mem _ _ hxl
        intro a ha
        exact hfr a (fun hr' => hlr ha hr')
      · exact hc.set_not_mem _ _ (fun hx => hxr (hsub x hx))

/-! ## The shape of a rotated subtree -/

theorem takeOpposite_le_one (i : Nat) : takeOpposite i ≤ 1 := by unfold takeOpposite; omega

theorem takeOpposite_twice (i : Nat) (hi : i ≤ 1) : takeOpposite (takeOpposite i) = i := by
  unfold takeOpposite; omega

theorem takeOpposite_ne (i : Nat) (hi : i ≤ 1) : i ≠ takeOpposite i := by
  unfold takeOpposite; omega

theorem rotT_child_child (dir : Nat) (hd : dir ≤ 1) (t : T)
    (hc : (t.child (takeOpposite dir)).ptr ≠ none) :
    ((rotT dir t).child dir).child dir = t.child dir ∧
      ((rotT dir t).child dir).ptr = t.ptr ∧
      (rotT dir t).child (takeOpposite dir) = (t.child (takeOpposite dir)).child (takeOpposite dir) ∧
      ((rotT dir t).child dir).child (takeOpposite dir) = (t.child (takeOpposite dir)).child dir := by
  have h01 : dir = 0 ∨ dir = 1 := by omega
  cases t with
  | leaf => exact absurd rfl hc
  | nd l p dp r =>
    rcases h01 with e | e <;> subst e
    · cases r with
      | leaf => exact absurd rfl hc
      | nd B c dc C => simp [rotT, T.child_nd, takeOpposite, T.ptr]
    · cases l with
      | leaf => exact absurd (by simp [takeOpposite, T.child_nd, T.ptr]) hc
      | nd A c dc B => simp [rotT, T.child_nd, takeOpposite, T.ptr]

theorem T.ptr_ne_none_of_isRed {t : T} (h : t.isRed = true) : t.ptr ≠ none := by
  cases t with
  | leaf => simp [T.isRed] at h
  | nd l x d r => simp [T.ptr]

/-- The shape of the subtree after the rotation of `delete`. -/
theorem delRotT_shape (last : Nat) (hl : last ≤ 1) (P : T) (hP : P.ptr ≠ none)
    (ht : (P.child (takeOpposite last)).ptr ≠ none)
    (hred : (!((P.child (takeOpposite last)).child (takeOpposite last)).isRed &&
      !((P.child (takeOpposite last)).child last).isRed) = false) :
    (delRotT last P).ptr ≠ none ∧ ((delRotT last P).child last).ptr = P.ptr ∧
      ((delRotT last P).child last).child last = P.child last ∧
      ((delRotT last P).child (takeOpposite last)).ptr ≠ none ∧
      (delRotT last P).addrs.Perm P.addrs := by
  have hol := takeOpposite_le_one last
  have hne := takeOpposite_ne last hl
  unfold delRotT
  split
  · rename_i hs
    have hsp := T.ptr_ne_none_of_isRed hs
    have hsp' : ((P.child (takeOpposite last)).child (takeOpposite (takeOpposite last))).ptr ≠
        none := by rw [takeOpposite_twice last hl]; exact hsp
    have hP2 : ((P.setChild (takeOpposite last)
        (rotT (takeOpposite last) (P.child (takeOpposite last)))).child (takeOpposite last)) =
        rotT (takeOpposite last) (P.child (takeOpposite last)) :=
      T.child_setChild_same _ _ _ hP
    have hS : (rotT (takeOpposite last) (P.child (takeOpposite last))).ptr ≠ none := by
      rw [rotT_ptr _ _ hsp']; exact hsp'
    have hc2 : ((P.setChild (takeOpposite last)
        (rotT (takeOpposite last) (P.child (takeOpposite last)))).child
          (takeOpposite last)).ptr ≠ none := by rw [hP2]; exact hS
    obtain ⟨r1, r2, r3, -⟩ := rotT_child_child last hl _ hc2
    obtain ⟨-, s2, -, -⟩ := rotT_child_child (takeOpposite last) hol _ hsp'
    refine ⟨?_, ?_, ?_, ?_, ?_⟩
    · rw [rotT_ptr _ _ hc2]; exact hc2
    · rw [r2, T.ptr_setChild]
    · rw [r1, T.child_setChild_ne _ _ _ _ hol hl (fun e => hne e.symm)]
    · rw [r3, hP2, s2]; exact ht
    · refine (rotT_addrs_perm _ _).trans ?_
      exact T.setChild_addrs_perm _ _ hol _ (rotT_addrs_perm _ _)
  · rename_i hs
    have hs' : ((P.child (takeOpposite last)).child (takeOpposite last)).isRed = true := by
      cases h1 : ((P.child (takeOpposite last)).child (takeOpposite last)).isRed
      · simp [h1, hs] at hred
      · rfl
    rw [if_pos hs']
    obtain ⟨r1, r2, r3, -⟩ := rotT_child_child last hl _ ht
    refine ⟨?_, r2, r1, ?_, rotT_addrs_perm _ _⟩
    · rw [rotT_ptr _ _ ht]; exact ht
    · rw [r3]; exact T.ptr_ne_none_of_isRed hs'

theorem delPaintT_eq_paint (last : Nat) (hl : last ≤ 1) (X : T) (xa n r0 r1 : Nat)
    (hnd : X.addrs.Nodup) (hX : X.ptr = some xa) (hn : ((X.child last).child last).ptr = some n)
    (h0 : (X.child 0).ptr = some r0) (h1 : (X.child 1).ptr = some r1) :
    delPaintT last X = (((X.paint n true).paint xa true).paint r0 false).paint r1 false := by
  have e1 : X.paint n true =
      X.setChild last ((X.child last).setChild last (((X.child last).child last).setRed true)) := by
    have hmem : n ∈ (X.child last).addrs := T.mem_addrs_child (T.ptr_mem_addrs hn)
    rw [T.paint_child true last hl hmem hnd,
      T.paint_child_root true last hl hn (T.nodup_child last hnd)]
  have e2 : (X.paint n true).paint xa true = (X.paint n true).setRed true :=
    T.paint_root true (by rw [T.ptr_paint]; exact hX) (by rw [T.addrs_paint]; exact hnd)
  have e3 : ((X.paint n true).paint xa true).paint r0 false =
      ((X.paint n true).paint xa true).setChild 0
        ((((X.paint n true).paint xa true).child 0).setRed false) :=
    T.paint_child_root false 0 (by omega)
      (by rw [T.child_paint, T.child_paint, T.ptr_paint, T.ptr_paint]; exact h0)
      (by rw [T.addrs_paint, T.addrs_paint]; exact hnd)
  have e4 : (((X.paint n true).paint xa true).paint r0 false).paint r1 false =
      (((X.paint n true).paint xa true).paint r0 false).setChild 1
        (((((X.paint n true).paint xa true).paint r0 false).child 1).setRed false) :=
    T.paint_child_root false 1 (by omega)
      (by rw [T.child_paint, T.child_paint, T.child_paint, T.ptr_paint, T.ptr_paint,
        T.ptr_paint]; exact h1)
      (by rw [T.addrs_paint, T.addrs_paint, T.addrs_paint]; exact hnd)
  rw [e4, e3, e2, e1]
  rfl

theorem delRecolT_eq_paint (last : Nat) (hl : last ≤ 1) (P : T) (p n ta : Nat)
    (hnd : P.addrs.Nodup) (hP : P.ptr = some p) (hn : (P.child last).ptr = some n)
    (ht : (P.child (takeOpposite last)).ptr = some ta) :
    delRecolT last P = ((P.paint p false).paint n true).paint ta true := by
  have hol := takeOpposite_le_one last
  have hne := takeOpposite_ne last hl
  have e1 : P.paint p false = P.setRed false := T.paint_root false hP hnd
  have e2 : (P.paint p false).paint n true =
      (P.paint p false).setChild last (((P.paint p false).child last).setRed true) :=
    T.paint_child_root true last hl (by rw [T.child_paint, T.ptr_paint]; exact hn)
      (by rw [T.addrs_paint]; exact hnd)
  have e3 : ((P.paint p false).paint n true).paint ta true =
      ((P.paint p false).paint n true).setChild (takeOpposite last)
        ((((P.paint p false).paint n true).child (takeOpposite last)).setRed true) :=
    T.paint_child_root true _ hol
      (by rw [T.child_paint, T.child_paint, T.ptr_paint, T.ptr_paint]; exact ht)
      (by rw [T.addrs_paint, T.addrs_paint]; exact hnd)
  rw [e3, e2, T.child_setChild_ne _ _ _ _ hl hol hne, e1, T.child_setRed, T.child_setRed]
  rfl

/-! ## The statements of `delete` in memory -/

theorem deleteFix_eq (h : Heap) (grandParent : Ptr) (p n t last otherLast : Nat) :
    deleteFix h grandParent p n t last otherLast =
      if !isRed h ((h.cell t).child otherLast) && !isRed h ((h.cell t).child last) then
        some (((h.upd p (fun x => { x with red := false })).upd n
          (fun x => { x with red := true })).upd t (fun x => { x with red := true }))
      else
        grandParent.bind fun g =>
          (delRotH h g p t last otherLast (intFromBool (decide ((h.cell g).c1 = some p)))).bind
            fun h1 => delPaintH h1 g n (intFromBool (decide ((h.cell g).c1 = some p))) := by
  unfold deleteFix delRotH delPaintH
  split
  · rfl
  · cases grandParent <;> rfl

theorem doubleRotate_rotT (h : Heap) (P : T) (last p : Nat) (hl : last ≤ 1)
    (hP : P.ptr = some p) (ht : (P.child (takeOpposite last)).ptr ≠ none)
    (hs : ((P.child (takeOpposite last)).child last).ptr ≠ none)
    (hm : P.Models h) (hnd : P.addrs.Nodup) :
    ∃ h', doubleRotate h (some p) last = some (h',
        (rotT last (P.setChild (takeOpposite last)
          (rotT (takeOpposite last) (P.child (takeOpposite last))))).ptr) ∧
      (rotT last (P.setChild (takeOpposite last)
          (rotT (takeOpposite last) (P.child (takeOpposite last))))).Models h' ∧
      (∀ x, x ∉ P.addrs → h'.cell x = h.cell x) ∧ h'.next = h.next := by
  have hol := takeOpposite_le_one last
  have hne := takeOpposite_ne last hl
  obtain ⟨ta, hta⟩ := Option.ne_none_iff_exists'.1 ht
  have hs' : ((P.child (takeOpposite last)).child (takeOpposite (takeOpposite last))).ptr ≠
      none := by rw [takeOpposite_twice last hl]; exact hs
  obtain ⟨h1, hr1, hm1, hfr1, hn1⟩ := rotate_rotT h (P.child (takeOpposite last))
    (takeOpposite last) ta hol hta hs' (hm.child _) (T.nodup_child _ hnd)
  have hPne : P.ptr ≠ none := by rw [hP]; simp
  have hm2 := T.Models.setChild (takeOpposite last) hol hm hnd hP hm1
    (fun x hx => (rotT_addrs_perm _ _).subset hx) hfr1
  have hperm2 : (P.setChild (takeOpposite last)
      (rotT (takeOpposite last) (P.child (takeOpposite last)))).addrs.Perm P.addrs :=
    T.setChild_addrs_perm _ _ hol _ (rotT_addrs_perm _ _)
  have hc2 : ((P.setChild (takeOpposite last)
      (rotT (takeOpposite last) (P.child (takeOpposite last)))).child
        (takeOpposite last)).ptr ≠ none := by
    rw [T.child_setChild_same _ _ _ hPne, rotT_ptr _ _ hs']; exact hs'
  obtain ⟨h3, hr3, hm3, hfr3, hn3⟩ := rotate_rotT _ _ last p hl
    (by rw [T.ptr_setChild]; exact hP) hc2 hm2 (hperm2.nodup_iff.2 hnd)
  refine ⟨h3, ?_, hm3, ?_, ?_⟩
  · unfold doubleRotate
    simp only [Option.bind_eq_bind, Option.some_bind, T.cell_child hm hP, hta, hr1]
    exact hr3
  · intro x hx
    rw [hfr3 x (fun hx' => hx (hperm2.subset hx')), Heap.upd_eq_set,
      Heap.cell_set_ne _ _ _ _ (fun e => hx (by rw [e]; exact T.ptr_mem_addrs hP))]
    exact hfr1 x (fun hx' => hx (T.mem_addrs_child hx'))
  · rw [hn3, Heap.upd_next, hn1]

theorem delRot_sim (h : Heap) (P : T) (rest : List Frame) (last p ta : Nat) (hl : last ≤ 1)
    (hP : P.ptr = some p) (ht : (P.child (takeOpposite last)).ptr = some ta)
    (hred : (!((P.child (takeOpposite last)).child (takeOpposite last)).isRed &&
      !((P.child (takeOpposite last)).child last).isRed) = false)
    (hm : P.Models h) (hC : CtxModels h rest (some p))
    (hnd : (dummyAddr :: (P.addrs ++ ctxAddrs rest)).Nodup) :
    ∃ h', delRotH h (helperOf rest) p ta last (takeOpposite last) (lastOf rest) = some h' ∧
      (delRotT last P).Models h' ∧ CtxModels h' rest (delRotT last P).ptr ∧
      h'.next = h.next ∧ (h'.cell dummyAddr).c0 = (h.cell dummyAddr).c0 := by
  have hol := takeOpposite_le_one last
  have htne : (P.child (takeOpposite last)).ptr ≠ none := by rw [ht]; simp
  have hmt : (P.child (takeOpposite last)).Models h := hm.child _
  have hndP : P.addrs.Nodup := ((List.nodup_cons.1 hnd).2).of_append_left
  have hndC : (dummyAddr :: ctxAddrs rest).Nodup := by
    rw [List.nodup_cons] at hnd ⊢
    exact ⟨fun hx => hnd.1 (List.mem_append_right _ hx), hnd.2.of_append_right⟩
  have hdisj : ∀ x ∈ dummyAddr :: ctxAddrs rest, x ∉ P.addrs := by
    intro x hx hxP
    rw [List.nodup_cons, List.nodup_append] at hnd
    rcases List.mem_cons.1 hx with e | e
    · exact hnd.1 (e ▸ List.mem_append_left _ hxP)
    · exact hnd.2.2.2 hxP e
  have hg : helperOf rest ∉ P.addrs := hdisj _ (helperOf_mem rest)
  have r1 : isRed h ((h.cell ta).child last) = ((P.child (takeOpposite last)).child last).isRed := by
    rw [T.cell_child hmt ht]; exact isRed_ptr (hmt.child _)
  have r2 : isRed h ((h.cell ta).child (takeOpposite last)) =
      ((P.child (takeOpposite last)).child (takeOpposite last)).isRed := by
    rw [T.cell_child hmt ht]; exact isRed_ptr (hmt.child _)
  have fin : ∀ (X : T) (h1 : Heap), X.Models h1 → (∀ x, x ∉ P.addrs → h1.cell x = h.cell x) →
      h1.next = h.next → X.addrs.Perm P.addrs →
      X.Models (h1.upd (helperOf rest) (fun x => x.setChild (lastOf rest) X.ptr)) ∧
      CtxModels (h1.upd (helperOf rest) (fun x => x.setChild (lastOf rest) X.ptr)) rest X.ptr ∧
      (h1.upd (helperOf rest) (fun x => x.setChild (lastOf rest) X.ptr)).next = h.next ∧
      ((h1.upd (helperOf rest) (fun x => x.setChild (lastOf rest) X.ptr)).cell dummyAddr).c0 =
        (h.cell dummyAddr).c0 := by
    intro X h1 hX hfr hn hperm
    rw [attach_last (some p) X.ptr hC (hfr _ hg)]
    refine ⟨?_, ?_, ?_, ?_⟩
    · refine hX.congr ?_
      intro a ha
      exact attach_cell_ne _ _ _ _ (fun e => hg (e ▸ hperm.subset ha))
    · exact attach_models X.ptr hC (fun a ha => hfr a (hdisj a ha)) hndC
    · rw [attach_next, hn]
    · cases rest with
      | nil =>
        simp only [attach, Heap.cell_set_same]
        exact congrArg node.c0 (hfr dummyAddr (hdisj _ (by simp)))
      | cons f fs =>
        have hfd : dummyAddr ≠ f.addr := by
          intro e
          simp only [ctxAddrs, List.nodup_cons, List.mem_cons, not_or] at hndC
          exact hndC.1.1 e
        simp only [attach]
        rw [Heap.cell_set_ne _ _ _ _ hfd]
        exact congrArg node.c0 (hfr dummyAddr (hdisj _ (by simp)))
  unfold delRotH delRotT
  rw [r1, r2]
  split
  · rename_i hs
    obtain ⟨h1, hr, hX, hfr, hn⟩ := doubleRotate_rotT h P last p hl hP htne
      (T.ptr_ne_none_of_isRed hs) hm hndP
    refine ⟨_, ?_, fin _ h1 hX hfr hn ?_⟩
    · simp only [hr, Option.bind_eq_bind, Option.some_bind, Option.pure_def]
    · exact (rotT_addrs_perm _ _).trans
        (T.setChild_addrs_perm _ _ hol _ (rotT_addrs_perm _ _))
  · rename_i hs
    have hs' : ((P.child (takeOpposite last)).child (takeOpposite last)).isRed = true := by
      cases h1 : ((P.child (takeOpposite last)).child (takeOpposite last)).isRed
      · simp [h1, hs] at hred
      · rfl
    rw [if_pos hs', if_pos hs']
    obtain ⟨h1, hr, hX, hfr, hn⟩ := rotate_rotT h P last p hl hP htne hm hndP
    refine ⟨_, ?_, fin _ h1 hX hfr hn (rotT_addrs_perm _ _)⟩
    simp only [hr, Option.bind_eq_bind, Option.some_bind, Option.pure_def]

theorem paint_step {h : Heap} {Z : T} {rest : List Frame} (a : Nat) (b : Bool)
    (hZ : Z.Models h) (hC : CtxModels h rest Z.ptr) (ha : a ∈ Z.addrs)
    (hnd : (dummyAddr :: (Z.addrs ++ ctxAddrs rest)).Nodup) :
    (Z.paint a b).Models (h.upd a (fun x => { x with red := b })) ∧
      CtxModels (h.upd a (fun x => { x with red := b })) rest (Z.paint a b).ptr ∧
      (dummyAddr :: ((Z.paint a b).addrs ++ ctxAddrs rest)).Nodup ∧
      ((h.upd a (fun x => { x with red := b })).cell dummyAddr) = h.cell dummyAddr := by
  have hne : ∀ x ∈ dummyAddr :: ctxAddrs rest, x ≠ a := by
    intro x hx e
    subst e
    rw [List.nodup_cons, List.nodup_append] at hnd
    rcases List.mem_cons.1 hx with e | e
    · exact hnd.1 (e ▸ List.mem_append_left _ ha)
    · exact hnd.2.2.2 ha e
  refine ⟨T.paint_models a b hZ, ?_, ?_, ?_⟩
  · rw [T.ptr_paint]
    refine hC.congr_ctx ?_
    intro x hx
    exact Heap.upd_cell_ne _ _ _ _ (hne x hx)
  · rw [T.addrs_paint]; exact hnd
  · exact Heap.upd_cell_ne _ _ _ _ (hne _ (by simp))

theorem delPaint_sim (h1 : Heap) (X : T) (rest : List Frame) (last n : Nat) (hl : last ≤ 1)
    (hX : X.Models h1) (hC : CtxModels h1 rest X.ptr)
    (hnd : (dummyAddr :: (X.addrs ++ ctxAddrs rest)).Nodup)
    (hXp : X.ptr ≠ none) (hn : ((X.child last).child last).ptr = some n)
    (hc0 : (X.child last).ptr ≠ none) (hc1 : (X.child (takeOpposite last)).ptr ≠ none) :
    ∃ h', delPaintH h1 (helperOf rest) n (lastOf rest) = some h' ∧
      (delPaintT last X).Models h' ∧ CtxModels h' rest (delPaintT last X).ptr ∧
      h'.next = h1.next ∧ (h'.cell dummyAddr).c0 = (h1.cell dummyAddr).c0 ∧
      delPaintT last X = (((X.paint n true).paint X.addr true).paint (X.child 0).addr
        false).paint (X.child 1).addr false := by
  obtain ⟨xa, hxa⟩ := Option.ne_none_iff_exists'.1 hXp
  have h0' : (X.child 0).ptr ≠ none ∧ (X.child 1).ptr ≠ none := by
    have h01 : last = 0 ∨ last = 1 := by omega
    rcases h01 with e | e <;> subst e <;> simp only [takeOpposite] at hc1
    · exact ⟨hc0, hc1⟩
    · exact ⟨hc1, hc0⟩
  obtain ⟨r0, hr0⟩ := Option.ne_none_iff_exists'.1 h0'.1
  obtain ⟨r1, hr1⟩ := Option.ne_none_iff_exists'.1 h0'.2
  have hndX : X.addrs.Nodup := ((List.nodup_cons.1 hnd).2).of_append_left
  have hnX : n ∈ X.addrs := T.mem_addrs_child (T.mem_addrs_child (T.ptr_mem_addrs hn))
  obtain ⟨ma, ca, na, da⟩ := paint_step n true hX hC hnX hnd
  have hxaZ : xa ∈ (X.paint n true).addrs := by
    rw [T.addrs_paint]; exact T.ptr_mem_addrs hxa
  obtain ⟨mb, cb, nb, db⟩ := paint_step xa true ma ca hxaZ na
  have hr0Z : r0 ∈ ((X.paint n true).paint xa true).addrs := by
    rw [T.addrs_paint, T.addrs_paint]; exact T.mem_addrs_child (T.ptr_mem_addrs hr0)
  obtain ⟨mc, cc, nc, dc⟩ := paint_step r0 false mb cb hr0Z nb
  have hr1Z : r1 ∈ (((X.paint n true).paint xa true).paint r0 false).addrs := by
    rw [T.addrs_paint, T.addrs_paint, T.addrs_paint]
    exact T.mem_addrs_child (T.ptr_mem_addrs hr1)
  obtain ⟨md, cd, nd, dd⟩ := paint_step r1 false mc cc hr1Z nc
  have e1 := ctx_child ca
  have e2 := ctx_child cb
  have e3 := ctx_child cc
  simp only [T.ptr_paint, hxa] at e1 e2 e3
  have f0 := T.cell_c0 mb (by simp only [T.ptr_paint]; exact hxa)
  have f1 := T.cell_c1 mc (by simp only [T.ptr_paint]; exact hxa)
  simp only [T.child_paint, T.ptr_paint, hr0] at f0
  simp only [T.child_paint, T.ptr_paint, hr1] at f1
  have heq := delPaintT_eq_paint last hl X xa n r0 r1 hndX hxa hn hr0 hr1
  refine ⟨(((h1.upd n (fun x => { x with red := true })).upd xa
    (fun x => { x with red := true })).upd r0 (fun x => { x with red := false })).upd r1
      (fun x => { x with red := false }), ?_, ?_, ?_, ?_, ?_, ?_⟩
  · unfold delPaintH
    simp only [Option.bind_eq_bind, Option.some_bind, Option.pure_def, e1, e2, e3, f0, f1]
  · rw [heq]; exact md
  · rw [heq]; exact cd
  · rfl
  · rw [dd, dc, db, da]
  · rw [heq, T.addr_of_ptr hxa, T.addr_of_ptr hr0, T.addr_of_ptr hr1]

theorem T.HasPath.append {t : T} {is js : List Nat} {ctx : List Frame} (h1 : t.HasPath is)
    (h2 : (zipDown ctx t is).2.HasPath js) : t.HasPath (is ++ js) := by
  induction is generalizing t ctx with
  | nil => exact h2
  | cons i is ih =>
    obtain ⟨a, b, c⟩ := h1
    exact ⟨a, b, ih c h2⟩

theorem zipDown_append (is js : List Nat) (ctx : List Frame) (t : T) :
    zipDown ctx t (is ++ js) = zipDown (zipDown ctx t is).1 (zipDown ctx t is).2 js := by
  induction is generalizing t ctx with
  | nil => rfl
  | cons i is ih => exact ih _ _

theorem deleteFix_sim (h : Heap) (P : T) (rest : List Frame) (last p n ta : Nat)
    (hl : last ≤ 1) (hP : P.ptr = some p) (hq : (P.child last).ptr = some n)
    (ht : (P.child (takeOpposite last)).ptr = some ta)
    (hm : P.Models h) (hC : CtxModels h rest (some p))
    (hnd : (dummyAddr :: (P.addrs ++ ctxAddrs rest)).Nodup) (hd : ∀ f ∈ rest, f.dir ≤ 1) :
    ∃ h', deleteFix h (some (helperOf rest)) p n ta last (takeOpposite last) = some h' ∧
      (delFixT last P).1.Models h' ∧ CtxModels h' rest (delFixT last P).1.ptr ∧
      h'.next = h.next ∧ (h'.cell dummyAddr).c0 = (h.cell dummyAddr).c0 ∧
      (delFixT last P).1.addrs.Perm P.addrs ∧ (delFixT last P).1.HasPath (delFixT last P).2 ∧
      (zipDown rest (delFixT last P).1 (delFixT last P).2).2.ptr = some n := by
  have hol := takeOpposite_le_one last
  have hmt : (P.child (takeOpposite last)).Models h := hm.child _
  have hndP : P.addrs.Nodup := ((List.nodup_cons.1 hnd).2).of_append_left
  have hpP : p ∈ P.addrs := T.ptr_mem_addrs hP
  have hpc : p ∉ ctxAddrs rest := by
    rw [List.nodup_cons, List.nodup_append] at hnd
    exact fun hx => hnd.2.2.2 hpP hx
  have r1 : isRed h ((h.cell ta).child last) = ((P.child (takeOpposite last)).child last).isRed := by
    rw [T.cell_child hmt ht]; exact isRed_ptr (hmt.child _)
  have r2 : isRed h ((h.cell ta).child (takeOpposite last)) =
      ((P.child (takeOpposite last)).child (takeOpposite last)).isRed := by
    rw [T.cell_child hmt ht]; exact isRed_ptr (hmt.child _)
  have hPne : P.ptr ≠ none := by rw [hP]; simp
  have htne : (P.child (takeOpposite last)).ptr ≠ none := by rw [ht]; simp
  rw [deleteFix_eq, r1, r2]
  unfold delFixT
  split
  · -- recolouring
    have hC' : CtxModels h rest P.ptr := by rw [hP]; exact hC
    obtain ⟨ma, ca, na, da⟩ := paint_step p false hm hC' hpP hnd
    have hnZ : n ∈ (P.paint p false).addrs := by
      rw [T.addrs_paint]; exact T.mem_addrs_child (T.ptr_mem_addrs hq)
    obtain ⟨mb, cb, nb, db⟩ := paint_step n true ma ca hnZ na
    have htZ : ta ∈ ((P.paint p false).paint n true).addrs := by
      rw [T.addrs_paint, T.addrs_paint]; exact T.mem_addrs_child (T.ptr_mem_addrs ht)
    obtain ⟨mc, cc, nc, dc⟩ := paint_step ta true mb cb htZ nb
    have heq := delRecolT_eq_paint last hl P p n ta hndP hP hq ht
    refine ⟨_, rfl, ?_, ?_, rfl, ?_, ?_, ?_, ?_⟩
    · simp only [heq]; exact mc
    · simp only [heq]; exact cc
    · rw [dc, db, da]
    · simp only [heq, T.addrs_paint]; exact List.Perm.refl _
    · simp only [heq]
      refine ⟨by simp only [T.ptr_paint]; exact hPne, hl, trivial⟩
    · simp only [heq, zipDown, T.child_paint, T.ptr_paint]; exact hq
  · rename_i hred
    have hred' : (!((P.child (takeOpposite last)).child (takeOpposite last)).isRed &&
        !((P.child (takeOpposite last)).child last).isRed) = false := by
      simpa using hred
    simp only [Option.some_bind, ctx_localDir hC hd hpc]
    obtain ⟨h1, hrot, hX, hCX, hn1, hd1⟩ := delRot_sim h P rest last p ta hl hP ht hred' hm hC hnd
    obtain ⟨s1, s2, s3, s4, s5⟩ := delRotT_shape last hl P hPne htne hred'
    have hndX : (dummyAddr :: ((delRotT last P).addrs ++ ctxAddrs rest)).Nodup := by
      refine (List.Perm.nodup_iff ?_).2 hnd
      exact List.Perm.cons _ (List.Perm.append_right _ s5)
    have hc0 : ((delRotT last P).child last).ptr ≠ none := by rw [s2]; exact hPne
    obtain ⟨h2, hpaint, hY, hCY, hn2, hd2, heq⟩ := delPaint_sim h1 (delRotT last P) rest last n hl
      hX hCX hndX s1 (by rw [s3]; exact hq) hc0 s4
    refine ⟨h2, ?_, hY, hCY, by rw [hn2, hn1], by rw [hd2, hd1], ?_, ?_, ?_⟩
    · simp only [hrot, Option.some_bind, hpaint]
    · simp only [heq, T.addrs_paint]; exact s5
    · simp only [heq]
      refine ⟨by simp only [T.ptr_paint]; exact s1, hl, ?_, hl, trivial⟩
      simp only [T.child_paint, T.ptr_paint]; exact hc0
    · simp only [heq, zipDown, T.child_paint, T.ptr_paint, s3]; exact hq

theorem zipDown_suffix : ∀ (is : List Nat) (ctx : List Frame) (t : T),
    ∃ fs, (zipDown ctx t is).1 = fs ++ ctx := by
  intro is
  induction is with
  | nil => intro ctx t; exact ⟨[], rfl⟩
  | cons i is ih =>
    intro ctx t
    obtain ⟨fs, hfs⟩ := ih (t.frame i :: ctx) (t.child i)
    exact ⟨fs ++ [t.frame i], by rw [zipDown, hfs]; simp⟩

theorem T.addr_paint (a : Nat) (b : Bool) (t : T) : (t.paint a b).addr = t.addr := by
  cases t <;> rfl

theorem zip_finish {h : Heap} {c0 : List Frame} {Y : T} {path : List Nat} {n dir : Nat}
    (hdir : dir ≤ 1) (hY : Y.Models h) (hC : CtxModels h c0 Y.ptr)
    (hnd : (dummyAddr :: (Y.addrs ++ ctxAddrs c0)).Nodup) (hd : ∀ f ∈ c0, f.dir ≤ 1)
    (hp : Y.HasPath path) (hn : (zipDown c0 Y path).2.ptr = some n) :
    (zipDown c0 Y (path ++ [dir])).2.Models h ∧
      CtxModels h (zipDown c0 Y (path ++ [dir])).1 (zipDown c0 Y (path ++ [dir])).2.ptr ∧
      (dummyAddr :: ((zipDown c0 Y (path ++ [dir])).2.addrs ++
        ctxAddrs (zipDown c0 Y (path ++ [dir])).1)).Nodup ∧
      (∀ f ∈ (zipDown c0 Y (path ++ [dir])).1, f.dir ≤ 1) ∧
      ((zipDown c0 Y (path ++ [dir])).2.addrs ++
        ctxAddrs (zipDown c0 Y (path ++ [dir])).1).Perm (Y.addrs ++ ctxAddrs c0) ∧
      ∃ f, (zipDown c0 Y (path ++ [dir])).1 = f :: (zipDown c0 Y path).1 ∧ f.addr = n ∧
        f.dir = dir := by
  have hp2 : Y.HasPath (path ++ [dir]) :=
    @T.HasPath.append _ _ _ c0 hp ⟨by rw [hn]; simp, hdir, trivial⟩
  obtain ⟨m1, m2⟩ := zipDown_models (path ++ [dir]) c0 Y hp2 hY hC
  have hperm := zipDown_addrs_perm (path ++ [dir]) c0 Y hp2
  refine ⟨m1, m2, ?_, zipDown_dirs _ _ _ hp2 hd, hperm, ?_⟩
  · rw [List.nodup_cons] at hnd ⊢
    exact ⟨fun hx => hnd.1 (hperm.subset hx), hperm.nodup_iff.2 hnd.2⟩
  · rw [zipDown_append]
    exact ⟨_, rfl, T.addr_of_ptr hn, rfl⟩

theorem deleteFix_head (last : Nat) (hl : last ≤ 1) (P : T) (rest : List Frame) (p n ta : Nat)
    (hP : P.ptr = some p) (hq : (P.child last).ptr = some n)
    (ht : (P.child (takeOpposite last)).ptr = some ta) (hnd : P.addrs.Nodup) :
    helperOf (zipDown rest (delFixT last P).1 (delFixT last P).2).1 = p := by
  have hPne : P.ptr ≠ none := by rw [hP]; simp
  have htne : (P.child (takeOpposite last)).ptr ≠ none := by rw [ht]; simp
  unfold delFixT
  split
  · simp only [zipDown, helperOf, T.frame]
    rw [delRecolT_eq_paint last hl P p n ta hnd hP hq ht]
    simp only [T.addr_paint]
    exact T.addr_of_ptr hP
  · rename_i hred
    have hred' : (!((P.child (takeOpposite last)).child (takeOpposite last)).isRed &&
        !((P.child (takeOpposite last)).child last).isRed) = false := by
      simpa using hred
    obtain ⟨s1, s2, s3, s4, s5⟩ := delRotT_shape last hl P hPne htne hred'
    obtain ⟨xa, hxa⟩ := Option.ne_none_iff_exists'.1 s1
    have h0' : ((delRotT last P).child 0).ptr ≠ none ∧ ((delRotT last P).child 1).ptr ≠ none := by
      have hc0 : ((delRotT last P).child last).ptr ≠ none := by rw [s2]; exact hPne
      have h01 : last = 0 ∨ last = 1 := by omega
      rcases h01 with e | e <;> subst e <;> simp only [takeOpposite] at s4
      · exact ⟨hc0, s4⟩
      · exact ⟨s4, hc0⟩
    obtain ⟨r0, hr0⟩ := Option.ne_none_iff_exists'.1 h0'.1
    obtain ⟨r1, hr1⟩ := Option.ne_none_iff_exists'.1 h0'.2
    simp only [zipDown, helperOf, T.frame]
    rw [delPaintT_eq_paint last hl _ xa n r0 r1 (s5.nodup_iff.2 hnd) hxa (by rw [s3]; exact hq)
      hr0 hr1]
    simp only [T.child_paint, T.addr_paint]
    exact T.addr_of_ptr (by rw [s2]; exact hP)

theorem deletePush_sim (h : Heap) (ctx : List Frame) (q : T) (n dir : Nat) (gp : Ptr)
    (hdir : dir ≤ 1) (hq : q.ptr = some n) (hm : q.Models h) (hC : CtxModels h ctx (some n))
    (hnd : (dummyAddr :: (q.addrs ++ ctxAddrs ctx)).Nodup) (hd : ∀ f ∈ ctx, f.dir ≤ 1)
    (hdum : (h.cell dummyAddr).c0 = none)
    (hgp : ∀ f rest, ctx = f :: rest → gp = some (helperOf rest)) :
    ∃ h' par, deletePush h gp (helperOf ctx) n dir (takeOpposite dir) (lastOf ctx)
        (takeOpposite (lastOf ctx)) = some (h', par) ∧
      (delPushT ctx q dir).2.Models h' ∧
      CtxModels h' (delPushT ctx q dir).1 (delPushT ctx q dir).2.ptr ∧
      (dummyAddr :: ((delPushT ctx q dir).2.addrs ++ ctxAddrs (delPushT ctx q dir).1)).Nodup ∧
      (∀ f ∈ (delPushT ctx q dir).1, f.dir ≤ 1) ∧ (h'.cell dummyAddr).c0 = none ∧
      h'.next = h.next ∧
      ((delPushT ctx q dir).2.addrs ++ ctxAddrs (delPushT ctx q dir).1).Perm
        (q.addrs ++ ctxAddrs ctx) ∧
      ∃ f rest', (delPushT ctx q dir).1 = f :: rest' ∧ f.addr = n ∧ f.dir = dir ∧
        par = some (helperOf rest') ∧ ∀ a ∈ ctx.map Frame.addr, a ∈ rest'.map Frame.addr := by
  have hqne : q.ptr ≠ none := by rw [hq]; simp
  have hC' : CtxModels h ctx q.ptr := by rw [hq]; exact hC
  have r0 : isRed h (some n) = q.isRed := by rw [← hq]; exact isRed_ptr hm
  have r1 : ∀ i, isRed h ((h.cell n).child i) = (q.child i).isRed := by
    intro i; rw [T.cell_child hm hq]; exact isRed_ptr (hm.child _)
  have hndq : q.addrs.Nodup := ((List.nodup_cons.1 hnd).2).of_append_left
  -- the case without a change
  have same : ∃ h' par, (some (h, some (helperOf ctx)) : Option (Heap × Ptr)) = some (h', par) ∧
      (zipDown ctx q [dir]).2.Models h' ∧
      CtxModels h' (zipDown ctx q [dir]).1 (zipDown ctx q [dir]).2.ptr ∧
      (dummyAddr :: ((zipDown ctx q [dir]).2.addrs ++ ctxAddrs (zipDown ctx q [dir]).1)).Nodup ∧
      (∀ f ∈ (zipDown ctx q [dir]).1, f.dir ≤ 1) ∧ (h'.cell dummyAddr).c0 = none ∧
      h'.next = h.next ∧
      ((zipDown ctx q [dir]).2.addrs ++ ctxAddrs (zipDown ctx q [dir]).1).Perm
        (q.addrs ++ ctxAddrs ctx) ∧
      ∃ f rest', (zipDown ctx q [dir]).1 = f :: rest' ∧ f.addr = n ∧ f.dir = dir ∧
        par = some (helperOf rest') ∧ ∀ a ∈ ctx.map Frame.addr, a ∈ rest'.map Frame.addr := by
    obtain ⟨z1, z2, z3, z4, zp, f, z5, z6, z7⟩ :=
      @zip_finish _ _ _ [] _ _ hdir hm hC' hnd hd trivial hq
    exact ⟨h, _, rfl, z1, z2, z3, z4, hdum, rfl, zp, f, _, z5, z6, z7, rfl, fun a ha => ha⟩
  unfold deletePush delPushT
  rw [r0, r1, r1]
  split
  swap
  · exact same
  split
  · -- rotation around `node`
    rename_i hb hr
    have hc : (q.child (takeOpposite dir)).ptr ≠ none := T.ptr_ne_none_of_isRed hr
    obtain ⟨h1, hrot, hX, hfr, hn1⟩ := rotate_rotT h q dir n hdir hq hc hm hndq
    have hdisj : ∀ x ∈ dummyAddr :: ctxAddrs ctx, x ∉ q.addrs := by
      intro x hx hxq
      rw [List.nodup_cons, List.nodup_append] at hnd
      rcases List.mem_cons.1 hx with e | e
      · exact hnd.1 (e ▸ List.mem_append_left _ hxq)
      · exact hnd.2.2.2 hxq e
    have hndC : (dummyAddr :: ctxAddrs ctx).Nodup := by
      rw [List.nodup_cons] at hnd ⊢
      exact ⟨fun hx => hnd.1 (List.mem_append_right _ hx), hnd.2.of_append_right⟩
    have hg : helperOf ctx ∉ q.addrs := hdisj _ (helperOf_mem ctx)
    have hatt := attach_last (some n) (rotT dir q).ptr hC (hfr _ hg)
    have hperm := rotT_addrs_perm dir q
    have hX2 : (rotT dir q).Models (attach h1 ctx (rotT dir q).ptr) := by
      refine hX.congr ?_
      intro a ha
      exact attach_cell_ne _ _ _ _ (fun e => hg (e ▸ hperm.subset ha))
    have hC2 : CtxModels (attach h1 ctx (rotT dir q).ptr) ctx (rotT dir q).ptr :=
      attach_models _ hC (fun a ha => hfr a (hdisj a ha)) hndC
    have hnd2 : (dummyAddr :: ((rotT dir q).addrs ++ ctxAddrs ctx)).Nodup := by
      refine (List.Perm.nodup_iff ?_).2 hnd
      exact List.Perm.cons _ (List.Perm.append_right _ hperm)
    obtain ⟨s1, s2, -, -⟩ := rotT_child_child dir hdir q hc
    have hXne : (rotT dir q).ptr ≠ none := by rw [rotT_ptr _ _ hc]; exact hc
    have hpath : (rotT dir q).HasPath [dir] := ⟨hXne, hdir, trivial⟩
    obtain ⟨z1, z2, z3, z4, zp, f, z5, z6, z7⟩ :=
      @zip_finish _ _ _ [dir] _ _ hdir hX2 hC2 hnd2 hd hpath
        (by simp only [zipDown]; rw [s2]; exact hq)
    have hdum2 : ((attach h1 ctx (rotT dir q).ptr).cell dummyAddr).c0 = none := by
      cases ctx with
      | nil =>
        simp only [attach, Heap.cell_set_same]
        rw [hfr dummyAddr (hdisj _ (by simp))]; exact hdum
      | cons f0 fs =>
        have hfd : dummyAddr ≠ f0.addr := by
          intro e
          simp only [ctxAddrs, List.nodup_cons, List.mem_cons, not_or] at hndC
          exact hndC.1.1 e
        simp only [attach]
        rw [Heap.cell_set_ne _ _ _ _ hfd, hfr dummyAddr (hdisj _ (by simp))]; exact hdum
    refine ⟨attach h1 ctx (rotT dir q).ptr, (rotT dir q).ptr, ?_, z1, z2, z3, z4, hdum2, ?_,
      zp.trans (List.Perm.append_right _ hperm), f, _, z5, z6, z7, ?_, ?_⟩
    · simp only [hrot, Option.bind_eq_bind, Option.some_bind, Option.pure_def, hatt,
        ctx_child hC2]
    · rw [attach_next, hn1]
    · simp only [zipDown, helperOf, T.frame]
      obtain ⟨xa, hxa⟩ := Option.ne_none_iff_exists'.1 hXne
      rw [hxa, T.addr_of_ptr hxa]
    · intro a ha
      simp only [zipDown, List.map_cons, List.mem_cons]
      exact Or.inr ha
  · rename_i hb hr
    have hr' : (!(q.child (takeOpposite dir)).isRed) = true := by simpa using hr
    rw [if_pos hr']
    cases ctx with
    | nil =>
      have : (h.cell (helperOf [])).child (takeOpposite (lastOf [])) = none := by
        simp only [helperOf, lastOf, takeOpposite, node.child]
        exact hdum
      simp only [this]
      exact same
    | cons fp rest =>
      have hfp := hd fp (List.mem_cons_self _ _)
      have hsib : (h.cell (helperOf (fp :: rest))).child (takeOpposite (lastOf (fp :: rest))) =
          fp.sib.ptr := by
        simp only [helperOf, lastOf]
        rw [hC.1, Frame.child_cellWith_other _ _ hfp]
      simp only [hsib]
      cases hsp : fp.sib.ptr with
      | none =>
        simp only [if_true]
        exact same
      | some ta =>
        simp only [if_false, reduceCtorEq]
        have hP : (fp.plug q).ptr = some fp.addr := Frame.ptr_plug fp q
        have hcl : (fp.plug q).child fp.dir = q := Frame.child_plug_same fp q hfp
        have hco : (fp.plug q).child (takeOpposite fp.dir) = fp.sib := Frame.child_plug_opp fp q hfp
        have hmP : (fp.plug q).Models h := (Frame.models_plug h fp q).2 ⟨by rw [hq]; exact hC.1, hC.2.1, hm⟩
        have hndP : (dummyAddr :: ((fp.plug q).addrs ++ ctxAddrs rest)).Nodup := by
          refine (List.Perm.nodup_iff ?_).2 hnd
          refine List.Perm.cons _ ?_
          rw [List.perm_iff_count]; intro z
          simp only [List.count_append, ctxAddrs, List.count_cons, Frame.count_plug,
            List.count_nil]
          omega
        obtain ⟨h', hfix, y1, y2, y3, y4, y5, y6, y7⟩ := deleteFix_sim h (fp.plug q) rest fp.dir
          fp.addr n ta hfp hP (by rw [hcl]; exact hq) (by rw [hco]; exact hsp) hmP hC.2.2 hndP
          (fun f hf => hd f (List.mem_cons_of_mem _ hf))
        have hndY : (dummyAddr :: ((delFixT fp.dir (fp.plug q)).1.addrs ++ ctxAddrs rest)).Nodup := by
          refine (List.Perm.nodup_iff ?_).2 hndP
          exact List.Perm.cons _ (List.Perm.append_right _ y5)
        obtain ⟨z1, z2, z3, z4, zp, f, z5, z6, z7⟩ :=
          zip_finish hdir y1 y2 hndY (fun f hf => hd f (List.mem_cons_of_mem _ hf)) y6 y7
        have hpP : ((fp.plug q).addrs ++ ctxAddrs rest).Perm (q.addrs ++ ctxAddrs (fp :: rest)) := by
          rw [List.perm_iff_count]; intro z
          simp only [List.count_append, ctxAddrs, List.count_cons, Frame.count_plug,
            List.count_nil]
          omega
        have hhead := deleteFix_head fp.dir hfp (fp.plug q) rest fp.addr n ta hP
          (by rw [hcl]; exact hq) (by rw [hco]; exact hsp)
          (((List.nodup_cons.1 hndP).2).of_append_left)
        refine ⟨h', some fp.addr, ?_, z1, z2, z3, z4, by rw [y4]; exact hdum, y3,
          (zp.trans (List.Perm.append_right _ y5)).trans hpP,
          f, _, z5, z6, z7, by rw [hhead], ?_⟩
        · have e1 : helperOf (fp :: rest) = fp.addr := rfl
          have e2 : lastOf (fp :: rest) = fp.dir := rfl
          rw [e1, e2, hgp fp rest rfl, hfix]
          rfl
        · intro a ha
          simp only [List.map_cons, List.mem_cons] at ha
          obtain ⟨fs, hfs⟩ := zipDown_suffix (delFixT fp.dir (fp.plug q)).2 rest
            (delFixT fp.dir (fp.plug q)).1
          rcases ha with e | e
          · subst e
            cases hz : (zipDown rest (delFixT fp.dir (fp.plug q)).1
                (delFixT fp.dir (fp.plug q)).2).1 with
            | nil =>
              rw [hz] at hfs
              have : rest = [] := by
                cases fs <;> simp at hfs
                exact hfs.symm ▸ rfl
              rw [hz] at hhead
              simp only [helperOf] at hhead
              rw [List.nodup_cons] at hndP
              exact absurd (List.mem_append_left _ (T.ptr_mem_addrs hP)) (hhead ▸ hndP.1)
            | cons f1 fs1 =>
              rw [hz] at hhead
              simp only [helperOf] at hhead
              simp [hhead]
          · rw [hfs]
            simp only [List.map_append, List.mem_append]
            exact Or.inr e

theorem deleteStep_sim (iv : Interval) (s : DelState) (a : DelAbs) (n : Nat) (hR : DelRel s a)
    (hn : a.focus.ptr = some n) :
    ∃ s', deleteStep iv s n = some s' ∧ DelRel s' (delStepT iv a) ∧
      s'.heap.next = s.heap.next ∧
      ((delStepT iv a).focus.addrs ++ ctxAddrs (delStepT iv a).ctx).Perm
        (a.focus.addrs ++ ctxAddrs a.ctx) := by
  obtain ⟨hnode, hdir, hpar, hfound, honp, hm, hC, hdum, hnd, hd⟩ := hR
  have hid := T.cell_id hm hn
  have hC' : CtxModels s.heap a.ctx (some n) := by rw [← hn]; exact hC
  obtain ⟨h', par, hpush, p1, p2, p3, p4, p5, p6, pp, f, rest', p7, p8, p9, p10, p11⟩ :=
    deletePush_sim s.heap a.ctx a.focus n (a.focus.stepDir iv) s.parent
      (T.stepDir_le_one iv _) hn hm hC' hnd hd hdum hpar
  refine ⟨{ heap := h', found := if a.focus.item.id = iv.ID then some n else s.found,
            parent := par, grandParent := s.parent, node := some n, last := s.dir,
            otherDir := takeOpposite (a.focus.stepDir iv), otherLast := takeOpposite s.dir,
            dir := a.focus.stepDir iv }, ?_, ?_, p6, pp⟩
  · unfold deleteStep
    simp only [hnode, hid.1, hid.2, Option.bind_eq_bind, Option.some_bind, hdir]
    have e : compare a.focus.item.interval.Low iv.Low a.focus.item.id iv.ID =
        a.focus.stepDir iv := rfl
    rw [e, hpush]
    rfl
  · refine ⟨?_, ?_, ?_, ?_, ?_, p1, p2, p5, p3, p4⟩
    · show some n = some (helperOf (delPushT a.ctx a.focus (a.focus.stepDir iv)).1)
      rw [p7]; simp only [helperOf, p8]
    · show a.focus.stepDir iv = lastOf (delPushT a.ctx a.focus (a.focus.stepDir iv)).1
      rw [p7]; simp only [lastOf, p9]
    · intro f' r' hfr
      show par = some (helperOf r')
      have : (delPushT a.ctx a.focus (a.focus.stepDir iv)).1 = f' :: r' := hfr
      rw [p7] at this
      simp only [List.cons.injEq] at this
      rw [← this.2]; exact p10
    · show (if a.focus.item.id = iv.ID then some n else s.found) =
        (if a.focus.item.id = iv.ID then some a.focus.addr else a.found)
      rw [T.addr_of_ptr hn, hfound]
    · intro fa hfa
      show fa ∈ (delPushT a.ctx a.focus (a.focus.stepDir iv)).1.map Frame.addr
      have hfa' : (if a.focus.item.id = iv.ID then some a.focus.addr else a.found) = some fa :=
        hfa
      rw [p7]
      simp only [List.map_cons, List.mem_cons]
      split_ifs at hfa' with hc
      · left
        rw [T.addr_of_ptr hn] at hfa'
        simp only [Option.some.injEq] at hfa'
        rw [p8, hfa']
      · right
        exact p11 fa (honp fa hfa')

theorem deleteLoop_sim (iv : Interval) : ∀ (fuel : Nat) (s : DelState) (a a' : DelAbs),
    DelRel s a → delLoopT iv fuel a = some a' →
    ∃ s', deleteLoop iv fuel s = some s' ∧ DelRel s' a' ∧ a'.focus.ptr = none ∧
      s'.heap.next = s.heap.next ∧
      (a'.focus.addrs ++ ctxAddrs a'.ctx).Perm (a.focus.addrs ++ ctxAddrs a.ctx) := by
  intro fuel
  induction fuel with
  | zero => intro s a a' _ h; simp [delLoopT] at h
  | succ fuel ih =>
    intro s a a' hR hl
    unfold delLoopT at hl
    have hch := ctx_child hR.ctx
    split at hl
    · rename_i hnone
      simp only [Option.some.injEq] at hl
      subst hl
      refine ⟨s, ?_, hR, hnone, rfl, List.Perm.refl _⟩
      unfold deleteLoop
      simp only [hR.node, Option.bind_eq_bind, Option.some_bind, hR.dir, hch, hnone]
      rfl
    · rename_i hsome
      obtain ⟨n, hn⟩ := Option.ne_none_iff_exists'.1 hsome
      obtain ⟨s1, hst, hR1, hn1, hp1⟩ := deleteStep_sim iv s a n hR hn
      obtain ⟨s2, hlp, hR2, hnone, hn2, hp2⟩ := ih s1 _ a' hR1 hl
      refine ⟨s2, ?_, hR2, hnone, by rw [hn2, hn1], hp2.trans hp1⟩
      unfold deleteLoop
      simp only [hR.node, Option.bind_eq_bind, Option.some_bind, hR.dir, hch, hn, hst]
      exact hlp

theorem Frame.cellWith_setContent (f : Frame) (c : Item) (g : Ptr) :
    (f.setContent c).cellWith g =
      { f.cellWith g with interval := some c.interval, max := c.max, min := c.min, id := c.id } := by
  unfold Frame.cellWith Frame.setContent
  split <;> rfl

theorem ctxAddrs_setContent (fa : Nat) (c : Item) (rest : List Frame) :
    ctxAddrs (rest.map (fun f => if f.addr = fa then f.setContent c else f)) = ctxAddrs rest := by
  induction rest with
  | nil => rfl
  | cons f fs ih =>
    simp only [List.map_cons, ctxAddrs, ih]
    split <;> rfl

theorem helperOf_setContent (fa : Nat) (c : Item) (rest : List Frame) :
    helperOf (rest.map (fun f => if f.addr = fa then f.setContent c else f)) = helperOf rest := by
  cases rest with
  | nil => rfl
  | cons f fs => simp only [List.map_cons, helperOf]; split <;> rfl

theorem dirs_setContent (fa : Nat) (c : Item) (rest : List Frame) (hd : ∀ f ∈ rest, f.dir ≤ 1) :
    ∀ f ∈ rest.map (fun f => if f.addr = fa then f.setContent c else f), f.dir ≤ 1 := by
  intro f hf
  obtain ⟨f0, hf0, e⟩ := List.mem_map.1 hf
  rw [← e]
  split
  · exact hd f0 hf0
  · exact hd f0 hf0

theorem ctx_setContent {h : Heap} {rest : List Frame} {g : Ptr} (fa : Nat) (c : Item)
    (hC : CtxModels h rest g) (hs : ∀ f ∈ rest, fa ∉ f.sib.addrs) (hfa : fa ≠ dummyAddr) :
    CtxModels (h.upd fa (fun x =>
        { x with interval := some c.interval, max := c.max, min := c.min, id := c.id }))
      (rest.map (fun f => if f.addr = fa then f.setContent c else f)) g := by
  induction rest generalizing g with
  | nil =>
    simp only [List.map_nil, CtxModels] at hC ⊢
    rw [Heap.upd_cell_ne _ _ _ _ (fun e => hfa e.symm)]
    exact hC
  | cons f fs ih =>
    obtain ⟨h1, h2, h3⟩ := hC
    have hsf := hs f (List.mem_cons_self _ _)
    have ih' := ih (g := some f.addr) h3 (fun f' hf' => hs f' (List.mem_cons_of_mem _ hf'))
    simp only [List.map_cons]
    by_cases e : f.addr = fa
    · rw [if_pos e]
      refine ⟨?_, ?_, ih'⟩
      · show (h.upd fa _).cell f.addr = _
        rw [e, Heap.upd_cell_same, Frame.cellWith_setContent, ← e, h1]
      · refine h2.congr ?_
        intro x hx
        exact Heap.upd_cell_ne _ _ _ _ (fun e' => hsf (e' ▸ hx))
    · rw [if_neg e]
      refine ⟨?_, ?_, ih'⟩
      · rw [Heap.upd_cell_ne _ _ _ _ e]; exact h1
      · refine h2.congr ?_
        intro x hx
        exact Heap.upd_cell_ne _ _ _ _ (fun e' => hsf (e' ▸ hx))

theorem path_mem_ctxAddrs {ctx : List Frame} {x : Nat} (hx : x ∈ ctx.map Frame.addr) :
    x ∈ ctxAddrs ctx := by
  induction ctx with
  | nil => simp at hx
  | cons g gs ihg =>
    simp only [ctxAddrs, List.mem_cons, List.mem_append, List.map_cons] at hx ⊢
    rcases hx with e | e
    · exact Or.inl e
    · exact Or.inr (Or.inr (ihg e))

theorem path_not_mem_sib {ctx : List Frame} (hnd : (ctxAddrs ctx).Nodup) {fa : Nat}
    (hfa : fa ∈ ctx.map Frame.addr) : ∀ f ∈ ctx, fa ∉ f.sib.addrs := by
  induction ctx with
  | nil => simp at hfa
  | cons c rest ih =>
    simp only [ctxAddrs, List.nodup_cons, List.mem_append, not_or, List.nodup_append] at hnd
    obtain ⟨⟨hc1, hc2⟩, hn1, hn2, hdisj⟩ := hnd
    have sub : ∀ f ∈ rest, ∀ x ∈ f.sib.addrs, x ∈ ctxAddrs rest := by
      intro f hf x hx
      clear ih hc2 hn2 hdisj hfa
      induction rest with
      | nil => simp at hf
      | cons g gs ihg =>
        simp only [ctxAddrs, List.mem_cons, List.mem_append]
        rcases List.mem_cons.1 hf with e | e
        · subst e; exact Or.inr (Or.inl hx)
        · exact Or.inr (Or.inr (ihg e))
    have sub2 : ∀ x ∈ rest.map Frame.addr, x ∈ ctxAddrs rest := by
      intro x hx
      clear ih hc2 hn2 hdisj hfa sub
      induction rest with
      | nil => simp at hx
      | cons g gs ihg =>
        simp only [ctxAddrs, List.mem_cons, List.mem_append, List.map_cons] at hx ⊢
        rcases hx with e | e
        · exact Or.inl e
        · exact Or.inr (Or.inr (ihg e))
    intro f hf
    simp only [List.map_cons, List.mem_cons] at hfa
    rcases List.mem_cons.1 hf with e | e
    · subst e
      rcases hfa with e' | e'
      · rw [e']; exact hc1
      · exact fun hx => hdisj hx (sub2 _ e')
    · rcases hfa with e' | e'
      · rw [e']; exact fun hx => hc2 (sub f e _ hx)
      · exact ih hn2 e' f e

theorem deleteUnlink_sim (s : DelState) (a : DelAbs) (number : Nat) (hR : DelRel s a)
    (hnone : a.focus.ptr = none) :
    ∃ h', deleteUnlink s number =
        some (h', if (delUnlinkT a).2 = true then (number + 2 ^ 64 - 1) % 2 ^ 64 else number) ∧
      (delUnlinkT a).1.Models h' ∧ (h'.cell dummyAddr).c1 = (delUnlinkT a).1.ptr ∧
      h'.next = s.heap.next ∧
      (∀ x ∈ (delUnlinkT a).1.addrs, x ∈ a.focus.addrs ++ ctxAddrs a.ctx) ∧
      (delUnlinkT a).1.addrs.Nodup := by
  obtain ⟨hnode, hdir, hpar, hfound, honp, hm, hC, hdum, hnd, hd⟩ := hR
  have hnd' := (List.nodup_cons.1 hnd).2
  cases hf : a.found with
  | none =>
    have e : delUnlinkT a = (plug a.ctx a.focus, false) := by
      unfold delUnlinkT; rw [hf]
    rw [e]
    have hpm := (plug_models s.heap a.ctx a.focus).2 ⟨hm, hC⟩
    have hperm := plug_addrs_perm a.ctx a.focus
    refine ⟨s.heap, ?_, hpm.1, hpm.2, rfl, fun x hx => hperm.subset hx, hperm.nodup_iff.2 hnd'⟩
    unfold deleteUnlink
    rw [hfound, hf]
    rfl
  | some fa =>
    have hmem := honp fa hf
    cases hctx : a.ctx with
    | nil => rw [hctx] at hmem; simp at hmem
    | cons c rest =>
      rw [hctx] at hnode hdir hC hnd hd hmem hnd'
      have hpar' := hpar c rest hctx
      have e : delUnlinkT a =
          (plug (rest.map (fun f => if f.addr = fa then f.setContent c.d else f)) c.sib, true) := by
        unfold delUnlinkT; rw [hf, hctx]
      rw [e]
      simp only [if_true]
      obtain ⟨hcell, hsibm, hrest⟩ := hC
      rw [hnone] at hcell
      have hcd := hd c (List.mem_cons_self _ _)
      have hndc : (ctxAddrs (c :: rest)).Nodup := hnd'.of_append_right
      have hns := path_not_mem_sib hndc hmem
      have hfad : fa ≠ dummyAddr := by
        intro e'
        have : fa ∈ ctxAddrs (c :: rest) := path_mem_ctxAddrs hmem
        rw [List.nodup_cons] at hnd
        exact hnd.1 (e' ▸ List.mem_append_right _ this)
      simp only [ctxAddrs, List.nodup_cons, List.mem_append, not_or, List.nodup_append] at hndc
      obtain ⟨⟨hc1, hc2⟩, hn1, hn2, hdisj⟩ := hndc
      -- the memory after the copy into `found`
      have hC1 := ctx_setContent fa c.d hrest
        (fun f hf' => hns f (List.mem_cons_of_mem _ hf')) hfad
      have hsib1 : c.sib.Models (s.heap.upd fa (fun x =>
          { x with interval := some c.d.interval, max := c.d.max, min := c.d.min,
                   id := c.d.id })) := by
        refine hsibm.congr ?_
        intro x hx
        exact Heap.upd_cell_ne _ _ _ _ (fun e' => hns c (List.mem_cons_self _ _) (e' ▸ hx))
      have hcell1 : (s.heap.upd fa (fun x =>
          { x with interval := some c.d.interval, max := c.d.max, min := c.d.min,
                   id := c.d.id })).cell c.addr = c.cellWith none := by
        by_cases e' : c.addr = fa
        · rw [← e', Heap.upd_cell_same, hcell]
          unfold Frame.cellWith
          split <;> rfl
        · rw [Heap.upd_cell_ne _ _ _ _ e']; exact hcell
      have hchild : (c.cellWith none).child (intFromBool (decide ((c.cellWith none).c0 = none))) =
          c.sib.ptr := by
        have h01 : c.dir = 0 ∨ c.dir = 1 := by omega
        unfold Frame.cellWith
        rcases h01 with e' | e' <;> simp only [e', if_true, one_ne_zero, if_false]
        · simp [intFromBool, node.child]
        · cases hsp : c.sib.ptr <;> simp [intFromBool, node.child, hsp]
      have hcn : c.addr ∉ ctxAddrs (rest.map (fun f => if f.addr = fa then f.setContent c.d else f)) := by
        rw [ctxAddrs_setContent]; exact hc2
      have hld := ctx_localDir hC1 (dirs_setContent fa c.d rest
        (fun f hf' => hd f (List.mem_cons_of_mem _ hf'))) hcn
      have hndC : (dummyAddr :: ctxAddrs (rest.map
          (fun f => if f.addr = fa then f.setContent c.d else f))).Nodup := by
        rw [ctxAddrs_setContent]
        rw [List.nodup_cons] at hnd ⊢
        refine ⟨fun hx => hnd.1 (List.mem_append_right _ ?_), hn2⟩
        simp only [ctxAddrs, List.mem_cons, List.mem_append]
        exact Or.inr (Or.inr hx)
      have hatt := @attach_last _ (s.heap.upd fa (fun x =>
          { x with interval := some c.d.interval, max := c.d.max, min := c.d.min,
                   id := c.d.id })) _ (some c.addr) c.sib.ptr hC1 rfl
      have hC2 := attach_models c.sib.ptr hC1 (fun _ _ => rfl) hndC
      have hg : helperOf rest ∉ c.sib.addrs := by
        have := helperOf_mem rest
        rcases List.mem_cons.1 this with e' | e'
        · rw [e']
          rw [List.nodup_cons] at hnd
          intro hx
          apply hnd.1
          simp only [ctxAddrs, List.mem_cons, List.mem_append]
          exact Or.inr (Or.inr (Or.inl hx))
        · exact fun hx => hdisj hx e'
      have hsib2 : c.sib.Models (attach (s.heap.upd fa (fun x =>
          { x with interval := some c.d.interval, max := c.d.max, min := c.d.min,
                   id := c.d.id }))
          (rest.map (fun f => if f.addr = fa then f.setContent c.d else f)) c.sib.ptr) := by
        refine hsib1.congr ?_
        intro x hx
        refine attach_cell_ne _ _ _ _ ?_
        rw [helperOf_setContent]
        exact fun e' => hg (e' ▸ hx)
      have hpm := (plug_models _ _ c.sib).2 ⟨hsib2, hC2⟩
      have hperm := plug_addrs_perm (rest.map (fun f => if f.addr = fa then f.setContent c.d else f))
        c.sib
      rw [ctxAddrs_setContent] at hperm
      refine ⟨_, ?_, hpm.1, hpm.2, ?_, ?_, ?_⟩
      · unfold deleteUnlink
        rw [hfound, hf]
        have hnode' : s.node = some c.addr := hnode
        simp only [hnode', Option.bind_eq_bind, Option.some_bind, hpar', hcell,
          Option.pure_def]
        have hiv : (c.cellWith none).interval = some c.d.interval := Frame.cellWith_interval _ _
        have hmx : (c.cellWith none).max = c.d.max := by unfold Frame.cellWith; split <;> rfl
        have hmn : (c.cellWith none).min = c.d.min := by unfold Frame.cellWith; split <;> rfl
        have hid : (c.cellWith none).id = c.d.id := Frame.cellWith_id _ _
        rw [hiv, hmx, hmn, hid, hcell1, hchild]
        rw [helperOf_setContent] at hld hatt
        rw [hld, hatt]
      · rw [attach_next]; rfl
      · intro x hx
        have := hperm.subset hx
        simp only [ctxAddrs, List.mem_append, List.mem_cons] at this ⊢
        tauto
      · refine hperm.nodup_iff.2 ?_
        rw [List.nodup_append]
        exact ⟨hn1, hn2, fun x hx hx' => hdisj hx hx'⟩

theorem delete_sim (fuel : Nat) (tr : tree) (iv : Interval) (t t' : T) (b : Bool)
    (hR : Rep tr t) (hdel : deleteT fuel t iv = some (t', b)) :
    ∃ tr', tr.delete fuel iv = some tr' ∧ Rep tr' t' ∧
      tr'.number = (if b = true then (tr.number + 2 ^ 64 - 1) % 2 ^ 64 else tr.number) ∧
      tr'.heap.next = tr.heap.next ∧ ∀ x ∈ t'.addrs, x ∈ t.addrs := by
  obtain ⟨hM, hroot, hnd, hlt⟩ := hR
  cases t with
  | leaf =>
    simp only [deleteT, Option.some.injEq, Prod.mk.injEq] at hdel
    obtain ⟨ht, hb⟩ := hdel
    subst ht hb
    refine ⟨tr, ?_, ⟨hM, hroot, hnd, hlt⟩, by simp, rfl, fun x hx => hx⟩
    simp only [tree.delete, hroot, T.ptr_leaf]
  | nd l n d r =>
    simp only [deleteT] at hdel
    split at hdel
    · exact absurd hdel (by simp)
    rename_i a' hloop
    simp only [Option.some.injEq, Prod.mk.injEq] at hdel
    obtain ⟨ht, hb⟩ := hdel
    have h0n : dummyAddr ∉ (T.nd l n d r).addrs := (List.nodup_cons.1 hnd).1
    have hR0 : DelRel
        { heap := tr.heap.upd dummyAddr (fun _ => { newDummy with c1 := tr.root }),
          found := none, parent := none, grandParent := none, node := some dummyAddr,
          last := 0, otherDir := 0, otherLast := 0, dir := 1 }
        { ctx := [], focus := T.nd l n d r, found := none } := by
      refine ⟨rfl, rfl, ?_, rfl, ?_, ?_, ?_, ?_, ?_, ?_⟩
      · intro f rest h; exact absurd h (by simp)
      · intro fa h; exact absurd h (by simp)
      · rw [Heap.upd_eq_set]; exact hM.set_not_mem _ _ h0n
      · simp only [CtxModels, Heap.upd_eq_set, Heap.cell_set_same]
        exact hroot
      · simp only [Heap.upd_eq_set, Heap.cell_set_same]; rfl
      · simpa [ctxAddrs] using hnd
      · intro f hf; simp at hf
    obtain ⟨s', hlp, hR', hnone, hn', hperm⟩ := deleteLoop_sim iv fuel _ _ a' hR0 hloop
    obtain ⟨h', hun, u1, u2, u3, u4, u5⟩ := deleteUnlink_sim s' a' tr.number hR' hnone
    have hsub : ∀ x ∈ (delUnlinkT a').1.addrs, x ∈ (T.nd l n d r).addrs := by
      intro x hx
      have := hperm.subset (u4 x hx)
      simpa [ctxAddrs] using this
    have hnd' : (dummyAddr :: (delUnlinkT a').1.addrs).Nodup :=
      List.nodup_cons.2 ⟨fun hx => h0n (hsub _ hx), u5⟩
    have hnext : h'.next = tr.heap.next := by rw [u3, hn']; rfl
    cases hp : (delUnlinkT a').1.ptr with
    | none =>
      have hleaf : (delUnlinkT a').1 = T.leaf := by
        cases hq : (delUnlinkT a').1 with
        | leaf => rfl
        | nd _ _ _ _ => rw [hq] at hp; simp [T.ptr] at hp
      refine ⟨{ heap := h', root := none, number :=
          if b = true then (tr.number + 2 ^ 64 - 1) % 2 ^ 64 else tr.number }, ?_,
        ⟨?_, ?_, ?_, ?_⟩, rfl, hnext, ?_⟩
      · simp only [tree.delete, hroot, T.ptr_nd]
        simp only [hroot, T.ptr_nd] at hlp
        simp only [hlp, Option.bind_eq_bind, Option.some_bind, hun, u2, hp, hb]
        rfl
      · rw [← ht, hleaf]; trivial
      · rw [← ht, hleaf]; rfl
      · rw [← ht, hleaf]; simp [T.addrs]
      · rw [← ht, hleaf]
        intro x hx
        simp only [T.blacken, T.addrs, List.mem_cons, List.not_mem_nil, or_false] at hx
        rw [hx]
        show dummyAddr < h'.next
        rw [hnext]; exact hlt _ (by simp)
      · rw [← ht, hleaf]; intro x hx; simp [T.blacken, T.addrs] at hx
    | some m =>
      refine ⟨{ heap := h'.upd m (fun x => { x with red := false }), root := some m, number :=
          if b = true then (tr.number + 2 ^ 64 - 1) % 2 ^ 64 else tr.number }, ?_,
        ⟨?_, ?_, ?_, ?_⟩, rfl, hnext, ?_⟩
      · simp only [tree.delete, hroot, T.ptr_nd]
        simp only [hroot, T.ptr_nd] at hlp
        simp only [hlp, Option.bind_eq_bind, Option.some_bind, hun, u2, hp, hb]
        rfl
      · rw [← ht]; exact T.blacken_models hp u1 u5
      · rw [← ht, T.ptr_blacken, hp]
      · rw [← ht, T.addrs_blacken]; exact hnd'
      · rw [← ht, T.addrs_blacken]
        intro x hx
        show x < h'.next
        rw [hnext]
        rcases List.mem_cons.1 hx with e | e
        · rw [e]; exact hlt _ (by simp)
        · exact hlt x (List.mem_cons_of_mem _ (hsub x e))
      · rw [← ht, T.addrs_blacken]; exact hsub

/-! ## The descent of `delete` on trees: the path after one step -/

theorem T.cores_setRed (b : Bool) (t : T) : (t.setRed b).cores = t.cores := by
  cases t with
  | leaf => rfl
  | nd l x d r => simp [T.setRed, T.cores_nd, Item.core]

theorem T.addrs_setRed (b : Bool) (t : T) : (t.setRed b).addrs = t.addrs := by
  cases t <;> rfl

theorem T.item_setRed_core (b : Bool) (t : T) : (t.setRed b).item.core = t.item.core := by
  cases t <;> rfl

theorem T.addr_setRed (b : Bool) (t : T) : (t.setRed b).addr = t.addr := by
  cases t <;> rfl

theorem T.isRed_setRed (b : Bool) (t : T) (h : t.ptr ≠ none) : (t.setRed b).isRed = b := by
  cases t with
  | leaf => exact absurd rfl h
  | nd l x d r => rfl

theorem Item.agg_core (d : Item) (l r : T) : (d.agg l r).core = d.core := rfl

theorem T.item_core_mem_cores (t : T) (h : t.ptr ≠ none) : t.item.core ∈ t.cores :=
  T.item_core_mem t h

theorem T.isRed_nd (l r : T) (a : Nat) (d : Item) : (T.nd l a d r).isRed = d.red := rfl

theorem T.isRed_leaf : T.leaf.isRed = false := rfl

theorem T.item_nd (l r : T) (a : Nat) (d : Item) : (T.nd l a d r).item = d := rfl

theorem T.addr_nd (l r : T) (a : Nat) (d : Item) : (T.nd l a d r).addr = a := rfl

theorem T.setRed_nd (b : Bool) (l r : T) (a : Nat) (d : Item) :
    (T.nd l a d r).setRed b = T.nd l a { d with red := b } r := rfl

theorem T.setChild_zero (l r c : T) (a : Nat) (d : Item) :
    (T.nd l a d r).setChild 0 c = T.nd c a d r := rfl

theorem T.setChild_one (l r c : T) (a : Nat) (d : Item) :
    (T.nd l a d r).setChild 1 c = T.nd l a d c := rfl

theorem rotT_zero_nd (A B C : T) (p c : Nat) (dp dc : Item) :
    rotT 0 (T.nd A p dp (T.nd B c dc C)) =
      T.nd (T.nd A p (Item.agg { dp with red := true } A B) B) c
        (Item.agg { dc with red := false } (T.nd A p dp B) C) C := rfl

theorem rotT_one_nd (A B C : T) (p c : Nat) (dp dc : Item) :
    rotT 1 (T.nd (T.nd A c dc B) p dp C) =
      T.nd A c (Item.agg { dc with red := false } A (T.nd B p dp C))
        (T.nd B p (Item.agg { dp with red := true } B C) C) := rfl

theorem Item.agg_red (d : Item) (l r : T) : (d.agg l r).red = d.red := rfl

theorem delFixT_out (fp : Frame) (rest : List Frame) (q : T) (hd : fp.dir ≤ 1)
    (hq : q.ptr ≠ none) (ht : fp.sib.ptr ≠ none) :
    (zipDown rest (delFixT fp.dir (fp.plug q)).1 (delFixT fp.dir (fp.plug q)).2).2 =
        q.setRed true ∧
      (delFixT fp.dir (fp.plug q)).1.HasPath (delFixT fp.dir (fp.plug q)).2 ∧
      (delFixT fp.dir (fp.plug q)).1.cores = (fp.plug q).cores ∧
      ∃ fp' mid,
        (zipDown rest (delFixT fp.dir (fp.plug q)).1 (delFixT fp.dir (fp.plug q)).2).1 =
          fp' :: mid ++ rest ∧
        fp'.dir = fp.dir ∧ fp'.d.core = fp.d.core ∧ fp'.addr = fp.addr ∧
        ∀ f ∈ mid, f.dir = fp.dir ∧ f.d.core ∈ fp.sib.cores := by
  obtain ⟨pa, pd, dir, t⟩ := fp
  dsimp only at hd ht ⊢
  have h01 : dir = 0 ∨ dir = 1 := by omega
  cases q with
  | leaf => exact absurd rfl hq
  | nd ql qa qd qr =>
  cases t with
  | leaf => exact absurd rfl ht
  | nd tl ta td tr =>
  rcases h01 with e | e <;> subst e
  · -- `node` is the left child, its sibling `t` the right child
    cases h1 : tl.isRed
    · cases h2 : tr.isRed
      · -- recolouring
        simp [delFixT, delRecolT, Frame.plug, T.child_nd, takeOpposite,
          h1, h2, T.setChild_zero, T.setChild_one, T.setRed_nd, zipDown, T.frame, T.HasPath,
          T.ptr_nd, T.item_nd, T.addr_nd, T.cores_nd, Item.core]
        exact ⟨_, [], ⟨rfl, rfl⟩, by simp⟩
      · -- single rotation
        simp [delFixT, delRotT, delPaintT, Frame.plug, T.child_nd, takeOpposite,
          h1, h2, rotT_zero_nd, rotT_one_nd, T.setChild_zero, T.setChild_one, T.setRed_nd,
          zipDown, T.frame, T.HasPath, T.ptr_nd, T.item_nd, T.addr_nd, T.cores_nd, Item.core,
          Item.agg, T.cores_setRed]
        refine ⟨_, [_], ⟨rfl, rfl⟩, ?_⟩
        simp
    · -- double rotation
      cases tl with
      | leaf => simp [T.isRed_leaf] at h1
      | nd sl sa sd sr =>
        simp only [T.isRed_nd] at h1
        simp [delFixT, delRotT, delPaintT, Frame.plug, T.child_nd, takeOpposite,
          h1, rotT_zero_nd, rotT_one_nd, T.setChild_zero, T.setChild_one, T.setRed_nd,
          zipDown, T.frame, T.HasPath, T.ptr_nd, T.item_nd, T.addr_nd, T.cores_nd, Item.core,
          Item.agg, T.cores_setRed, T.isRed_nd]
        refine ⟨_, [_], ⟨rfl, rfl⟩, ?_⟩
        simp
  · -- `node` is the right child, its sibling `t` the left child
    cases h1 : tr.isRed
    · cases h2 : tl.isRed
      · -- recolouring
        simp [delFixT, delRecolT, Frame.plug, T.child_nd, takeOpposite,
          h1, h2, T.setChild_zero, T.setChild_one, T.setRed_nd, zipDown, T.frame, T.HasPath,
          T.ptr_nd, T.item_nd, T.addr_nd, T.cores_nd, Item.core]
        exact ⟨_, [], ⟨rfl, rfl⟩, by simp⟩
      · -- single rotation
        simp [delFixT, delRotT, delPaintT, Frame.plug, T.child_nd, takeOpposite,
          h1, h2, rotT_zero_nd, rotT_one_nd, T.setChild_zero, T.setChild_one, T.setRed_nd,
          zipDown, T.frame, T.HasPath, T.ptr_nd, T.item_nd, T.addr_nd, T.cores_nd, Item.core,
          Item.agg, T.cores_setRed]
        refine ⟨_, [_], ⟨rfl, rfl⟩, ?_⟩
        simp
    · -- double rotation
      cases tr with
      | leaf => simp [T.isRed_leaf] at h1
      | nd sl sa sd sr =>
        simp only [T.isRed_nd] at h1
        simp [delFixT, delRotT, delPaintT, Frame.plug, T.child_nd, takeOpposite,
          h1, rotT_zero_nd, rotT_one_nd, T.setChild_zero, T.setChild_one, T.setRed_nd,
          zipDown, T.frame, T.HasPath, T.ptr_nd, T.item_nd, T.addr_nd, T.cores_nd, Item.core,
          Item.agg, T.cores_setRed, T.isRed_nd]
        refine ⟨_, [_], ⟨rfl, rfl⟩, ?_⟩
        simp

theorem rotq_out (ctx : List Frame) (q : T) (dir : Nat) (hd : dir ≤ 1)
    (hs : (q.child (takeOpposite dir)).isRed = true) :
    (zipDown ctx (rotT dir q) [dir, dir]).2 = q.child dir ∧
      (rotT dir q).HasPath [dir, dir] ∧ (rotT dir q).cores = q.cores ∧
      ∃ q1 s1, (zipDown ctx (rotT dir q) [dir, dir]).1 = q1 :: s1 :: ctx ∧
        q1.dir = dir ∧ q1.d.core = q.item.core ∧ q1.addr = q.addr ∧ q1.d.red = true ∧
        s1.dir = dir ∧ s1.d.core ∈ (q.child (takeOpposite dir)).cores ∧ s1.d.red = false ∧
        s1.d.core = (q.child (takeOpposite dir)).item.core := by
  have h01 : dir = 0 ∨ dir = 1 := by omega
  cases q with
  | leaf => simp [T.child, T.isRed_leaf] at hs
  | nd ql qa qd qr =>
    rcases h01 with e | e <;> subst e
    · simp only [takeOpposite, T.child_nd] at hs
      cases qr with
      | leaf => simp [T.isRed_leaf] at hs
      | nd sl sa sd sr =>
        simp [T.child_nd, takeOpposite, rotT_zero_nd, zipDown, T.frame, T.HasPath, T.ptr_nd,
          T.item_nd, T.addr_nd, T.cores_nd, Item.core, Item.agg]
        exact ⟨_, _, ⟨rfl, rfl⟩, by simp⟩
    · simp only [takeOpposite, T.child_nd] at hs
      cases ql with
      | leaf => simp [T.isRed_leaf] at hs
      | nd sl sa sd sr =>
        simp [T.child_nd, takeOpposite, rotT_one_nd, zipDown, T.frame, T.HasPath, T.ptr_nd,
          T.item_nd, T.addr_nd, T.cores_nd, Item.core, Item.agg]
        exact ⟨_, _, ⟨rfl, rfl⟩, by simp⟩

theorem rotq_rb (q : T) (dir : Nat) (hd : dir ≤ 1) (hqb : q.isRed = false)
    (hc : (q.child dir).isRed = false) (hs : (q.child (takeOpposite dir)).isRed = true)
    (hN : q.NoRR) (hB : q.Balanced) :
    (rotT dir q).NoRR ∧ (rotT dir q).Balanced ∧ (rotT dir q).bh = q.bh ∧
      (rotT dir q).isRed = false := by
  have h01 : dir = 0 ∨ dir = 1 := by omega
  cases q with
  | leaf => simp [T.child, T.isRed_leaf] at hs
  | nd ql qa qd qr =>
    rcases h01 with e | e <;> subst e
    · simp only [takeOpposite, T.child_nd] at hs hc
      cases qr with
      | leaf => simp [T.isRed_leaf] at hs
      | nd sl sa sd sr =>
        simp only [T.isRed_nd, if_true, one_ne_zero, if_false, Nat.sub_zero, Nat.sub_self] at hs hc hqb
        simp only [T.NoRR, T.Balanced, T.bh, hs, hqb, T.isRed_nd] at hN hB
        simp only [rotT_zero_nd, T.NoRR, T.Balanced, T.bh, Item.agg, T.isRed_nd, hc]
        simp [hs, hqb] at hN hB ⊢
        repeat' constructor
        all_goals first | tauto | omega
    · simp only [takeOpposite, T.child_nd] at hs hc
      cases ql with
      | leaf => simp [T.isRed_leaf] at hs
      | nd sl sa sd sr =>
        simp only [T.isRed_nd, if_true, one_ne_zero, if_false, Nat.sub_zero, Nat.sub_self] at hs hc hqb
        simp only [T.NoRR, T.Balanced, T.bh, hs, hqb, T.isRed_nd] at hN hB
        simp only [rotT_one_nd, T.NoRR, T.Balanced, T.bh, Item.agg, T.isRed_nd, hc]
        simp [hs, hqb] at hN hB ⊢
        repeat' constructor
        all_goals first | tauto | omega

theorem delFixT_rb (fp : Frame) (q : T) (hd : fp.dir ≤ 1) (hq : q.ptr ≠ none)
    (ht : fp.sib.ptr ≠ none) (hqb : q.isRed = false) (hq0 : (q.child 0).isRed = false)
    (hq1 : (q.child 1).isRed = false) (htb : fp.sib.isRed = false)
    (hN : (fp.plug q).NoRR) (hB : (fp.plug q).Balanced) :
    (delFixT fp.dir (fp.plug q)).1.NoRR ∧ (delFixT fp.dir (fp.plug q)).1.Balanced ∧
      (fp.d.red = true → (delFixT fp.dir (fp.plug q)).1.bh = (fp.plug q).bh) := by
  obtain ⟨pa, pd, dir, t⟩ := fp
  dsimp only at hd ht htb ⊢
  have h01 : dir = 0 ∨ dir = 1 := by omega
  cases q with
  | leaf => exact absurd rfl hq
  | nd ql qa qd qr =>
  cases t with
  | leaf => exact absurd rfl ht
  | nd tl ta td tr =>
  simp only [T.isRed_nd, T.child_nd, if_true, one_ne_zero, if_false] at hqb hq0 hq1 htb
  rcases h01 with e | e <;> subst e
  · simp only [Frame.plug, if_true, T.NoRR, T.Balanced, T.bh, T.isRed_nd, hqb, htb] at hN hB
    cases h1 : tl.isRed
    · cases h2 : tr.isRed
      · -- recolouring
        simp [delFixT, delRecolT, Frame.plug, T.child_nd, takeOpposite,
          h1, h2, T.setChild_zero, T.setChild_one, T.setRed_nd, T.NoRR, T.Balanced, T.bh,
          T.isRed_nd, hqb, htb, hq0, hq1] at hN hB ⊢
        repeat' constructor
        all_goals first | tauto | omega
      · -- single rotation
        cases tr with
        | leaf => simp [T.isRed_leaf] at h2
        | nd sl sa sd sr =>
          simp only [T.isRed_nd] at h2
          simp [delFixT, delRotT, delPaintT, Frame.plug, T.child_nd, takeOpposite,
            h1, h2, rotT_zero_nd, rotT_one_nd, T.setChild_zero, T.setChild_one, T.setRed_nd,
            T.NoRR, T.Balanced, T.bh, T.isRed_nd, hqb, htb, hq0, hq1, Item.agg] at hN hB ⊢
          repeat' constructor
          all_goals first | tauto | omega
    · -- double rotation
      cases tl with
      | leaf => simp [T.isRed_leaf] at h1
      | nd sl sa sd sr =>
        simp only [T.isRed_nd] at h1
        simp [delFixT, delRotT, delPaintT, Frame.plug, T.child_nd, takeOpposite,
          h1, rotT_zero_nd, rotT_one_nd, T.setChild_zero, T.setChild_one, T.setRed_nd,
          T.NoRR, T.Balanced, T.bh, T.isRed_nd, hqb, htb, hq0, hq1, Item.agg] at hN hB ⊢
        repeat' constructor
        all_goals first | tauto | omega
  · simp only [Frame.plug, one_ne_zero, if_false, T.NoRR, T.Balanced, T.bh, T.isRed_nd, hqb,
      htb] at hN hB
    cases h1 : tr.isRed
    · cases h2 : tl.isRed
      · -- recolouring
        simp [delFixT, delRecolT, Frame.plug, T.child_nd, takeOpposite,
          h1, h2, T.setChild_zero, T.setChild_one, T.setRed_nd, T.NoRR, T.Balanced, T.bh,
          T.isRed_nd, hqb, htb, hq0, hq1] at hN hB ⊢
        repeat' constructor
        all_goals first | tauto | omega
      · -- single rotation
        cases tl with
        | leaf => simp [T.isRed_leaf] at h2
        | nd sl sa sd sr =>
          simp only [T.isRed_nd] at h2
          simp [delFixT, delRotT, delPaintT, Frame.plug, T.child_nd, takeOpposite,
            h1, h2, rotT_zero_nd, rotT_one_nd, T.setChild_zero, T.setChild_one, T.setRed_nd,
            T.NoRR, T.Balanced, T.bh, T.isRed_nd, hqb, htb, hq0, hq1, Item.agg] at hN hB ⊢
          repeat' constructor
          all_goals first | tauto | omega
    · -- double rotation
      cases tr with
      | leaf => simp [T.isRed_leaf] at h1
      | nd sl sa sd sr =>
        simp only [T.isRed_nd] at h1
        simp [delFixT, delRotT, delPaintT, Frame.plug, T.child_nd, takeOpposite,
          h1, rotT_zero_nd, rotT_one_nd, T.setChild_zero, T.setChild_one, T.setRed_nd,
          T.NoRR, T.Balanced, T.bh, T.isRed_nd, hqb, htb, hq0, hq1, Item.agg] at hN hB ⊢
        repeat' constructor
        all_goals first | tauto | omega

theorem delPaintT_addrs_perm (last : Nat) (hl : last ≤ 1) (X : T) :
    (delPaintT last X).addrs.Perm X.addrs := by
  unfold delPaintT
  have p1 : (X.setChild last ((X.child last).setChild last
      (((X.child last).child last).setRed true))).addrs.Perm X.addrs := by
    refine T.setChild_addrs_perm _ _ hl _ ?_
    refine T.setChild_addrs_perm _ _ hl _ ?_
    rw [T.addrs_setRed]
  refine (T.setChild_addrs_perm _ _ (by omega) _ (by rw [T.addrs_setRed])).trans ?_
  refine (T.setChild_addrs_perm _ _ (by omega) _ (by rw [T.addrs_setRed])).trans ?_
  rw [T.addrs_setRed]
  exact p1

theorem delFixT_addrs_perm (last : Nat) (hl : last ≤ 1) (P : T) :
    (delFixT last P).1.addrs.Perm P.addrs := by
  have hol := takeOpposite_le_one last
  unfold delFixT
  split
  · unfold delRecolT
    refine (T.setChild_addrs_perm _ _ hol _ ?_).trans ?_
    · rw [T.addrs_setRed, T.child_setChild_ne _ _ _ _ hl hol (takeOpposite_ne last hl),
        T.child_setRed]
    refine (T.setChild_addrs_perm _ _ hl _ ?_).trans ?_
    · rw [T.addrs_setRed, T.child_setRed]
    rw [T.addrs_setRed]
  · refine (delPaintT_addrs_perm last hl _).trans ?_
    unfold delRotT
    split
    · exact (rotT_addrs_perm _ _).trans
        (T.setChild_addrs_perm _ _ hol _ (rotT_addrs_perm _ _))
    · split
      · exact rotT_addrs_perm _ _
      · exact List.Perm.refl _

theorem T.frame_setRed_core (b : Bool) (t : T) (i : Nat) :
    ((t.setRed b).frame i).d.core = t.item.core ∧ ((t.setRed b).frame i).addr = t.addr ∧
      ((t.setRed b).frame i).dir = i := by
  cases t <;> exact ⟨rfl, rfl, rfl⟩

/-- The path and the subtree after the statement
`if !isRed(node) && !isRed(node.children[dir]) { ... }` of `delete`. -/
theorem delPushT_out (ctx : List Frame) (q : T) (dir : Nat) (hd : dir ≤ 1) (hq : q.ptr ≠ none)
    (hds : ∀ f ∈ ctx, f.dir ≤ 1) :
    (delPushT ctx q dir).2 = q.child dir ∧
      (plug (delPushT ctx q dir).1 (delPushT ctx q dir).2).cores = (plug ctx q).cores ∧
      ((delPushT ctx q dir).2.addrs ++ ctxAddrs (delPushT ctx q dir).1).Perm
        (q.addrs ++ ctxAddrs ctx) ∧
      ∃ q1 new, (delPushT ctx q dir).1 = q1 :: new ∧ q1.dir = dir ∧
        q1.d.core = q.item.core ∧ q1.addr = q.addr ∧
        (∀ f ∈ ctx, ∃ f' ∈ new, f'.dir = f.dir ∧ f'.d.core = f.d.core ∧ f'.addr = f.addr) ∧
        (∀ f' ∈ new, (∃ f ∈ ctx, f'.dir = f.dir ∧ f'.d.core = f.d.core ∧ f'.addr = f.addr) ∨
          (f'.dir = dir ∧ f'.d.core ∈ (q.child (takeOpposite dir)).cores) ∨
          (∃ fp rest, ctx = fp :: rest ∧ f'.dir = fp.dir ∧ f'.d.core ∈ fp.sib.cores)) := by
  have same : (zipDown ctx q [dir]).2 = q.child dir ∧
      (plug (zipDown ctx q [dir]).1 (zipDown ctx q [dir]).2).cores = (plug ctx q).cores ∧
      ((zipDown ctx q [dir]).2.addrs ++ ctxAddrs (zipDown ctx q [dir]).1).Perm
        (q.addrs ++ ctxAddrs ctx) ∧
      ∃ q1 new, (zipDown ctx q [dir]).1 = q1 :: new ∧ q1.dir = dir ∧
        q1.d.core = q.item.core ∧ q1.addr = q.addr ∧
        (∀ f ∈ ctx, ∃ f' ∈ new, f'.dir = f.dir ∧ f'.d.core = f.d.core ∧ f'.addr = f.addr) ∧
        (∀ f' ∈ new, (∃ f ∈ ctx, f'.dir = f.dir ∧ f'.d.core = f.d.core ∧ f'.addr = f.addr) ∨
          (f'.dir = dir ∧ f'.d.core ∈ (q.child (takeOpposite dir)).cores) ∨
          (∃ fp rest, ctx = fp :: rest ∧ f'.dir = fp.dir ∧ f'.d.core ∈ fp.sib.cores)) := by
    have hp : q.HasPath [dir] := ⟨hq, hd, trivial⟩
    refine ⟨rfl, by rw [zipDown_plug _ _ _ hp], zipDown_addrs_perm _ _ _ hp,
      q.frame dir, ctx, rfl, rfl, rfl, rfl, fun f hf => ⟨f, hf, rfl, rfl, rfl⟩,
      fun f' hf' => Or.inl ⟨f', hf', rfl, rfl, rfl⟩⟩
  unfold delPushT
  split
  swap
  · exact same
  split
  · rename_i hb hs
    obtain ⟨o1, o2, o3, q1, s1, o4, o5, o6, o7, -, o8, o9, -, -⟩ := rotq_out ctx q dir hd hs
    refine ⟨o1, ?_, ?_, q1, s1 :: ctx, o4, o5, o6, o7, ?_, ?_⟩
    · rw [zipDown_plug _ _ _ o2, plug_cores, plug_cores, o3]
    · exact (zipDown_addrs_perm _ _ _ o2).trans (List.Perm.append_right _ (rotT_addrs_perm _ _))
    · intro f hf
      exact ⟨f, List.mem_cons_of_mem _ hf, rfl, rfl, rfl⟩
    · intro f' hf'
      rcases List.mem_cons.1 hf' with e | e
      · right; left; rw [e]; exact ⟨o8, o9⟩
      · left; exact ⟨f', e, rfl, rfl, rfl⟩
  · cases ctx with
    | nil => exact same
    | cons fp rest =>
      simp only
      split
      · exact same
      · rename_i hb hs hsib
        have hfp := hds fp (List.mem_cons_self _ _)
        obtain ⟨o1, o2, o3, fp', mid, o4, o5, o6, o7, o8⟩ := delFixT_out fp rest q hfp hq hsib
        have hp2 : (delFixT fp.dir (fp.plug q)).1.HasPath
            ((delFixT fp.dir (fp.plug q)).2 ++ [dir]) :=
          @T.HasPath.append _ _ _ rest o2
            ⟨by rw [o1, T.ptr_setRed]; exact hq, hd, trivial⟩
        have hz := zipDown_append (delFixT fp.dir (fp.plug q)).2 [dir] rest
          (delFixT fp.dir (fp.plug q)).1
        rw [o1, o4] at hz
        refine ⟨?_, ?_, ?_, (q.setRed true).frame dir, fp' :: mid ++ rest, ?_, rfl,
          (T.frame_setRed_core true q dir).1, (T.frame_setRed_core true q dir).2.1, ?_, ?_⟩
        · rw [hz]; simp only [zipDown]; exact T.child_setRed _ _ _
        · rw [zipDown_plug _ _ _ hp2]
          exact plug_cores_congr rest o3
        · refine (zipDown_addrs_perm _ _ _ hp2).trans ?_
          refine (List.Perm.append_right _ (delFixT_addrs_perm fp.dir hfp _)).trans ?_
          rw [List.perm_iff_count]; intro z
          simp only [List.count_append, ctxAddrs, List.count_cons, Frame.count_plug,
            List.count_nil]
          omega
        · rw [hz]; rfl
        · intro f hf
          rcases List.mem_cons.1 hf with e | e
          · exact ⟨fp', by simp, by rw [e, o5], by rw [e, o6], by rw [e, o7]⟩
          · exact ⟨f, by simp [e], rfl, rfl, rfl⟩
        · intro f' hf'
          simp only [List.cons_append, List.mem_cons, List.mem_append] at hf'
          rcases hf' with e | e | e
          · left; exact ⟨fp, List.mem_cons_self _ _, by rw [e, o5], by rw [e, o6], by rw [e, o7]⟩
          · right; right
            exact ⟨fp, rest, rfl, (o8 f' e).1, (o8 f' e).2⟩
          · left; exact ⟨f', List.mem_cons_of_mem _ e, rfl, rfl, rfl⟩

/-! ## The loop of `delete` keeps the red-black invariants -/

theorem delLoopT_inv (iv : Interval) (I : DelAbs → Prop)
    (hstep : ∀ a, I a → a.focus.ptr ≠ none →
      I (delStepT iv a) ∧ (delStepT iv a).focus.height < a.focus.height) :
    ∀ (fuel : Nat) (a : DelAbs), I a → a.focus.height < fuel →
      ∃ a', delLoopT iv fuel a = some a' ∧ I a' ∧ a'.focus.ptr = none := by
  intro fuel
  induction fuel with
  | zero => intro a _ h; omega
  | succ fuel ih =>
    intro a hI hf
    unfold delLoopT
    split
    · rename_i hn
      exact ⟨a, rfl, hI, hn⟩
    · rename_i hn
      obtain ⟨h1, h2⟩ := hstep a hI hn
      exact ih _ h1 (by omega)

theorem T.height_child_lt (t : T) (i : Nat) (h : t.ptr ≠ none) :
    (t.child i).height < t.height := by
  cases t with
  | leaf => exact absurd rfl h
  | nd l x d r =>
    rw [T.child_nd]
    simp only [T.height, natMax_eq]
    split <;> omega

theorem delStepT_focus (iv : Interval) (a : DelAbs) (hq : a.focus.ptr ≠ none)
    (hds : ∀ f ∈ a.ctx, f.dir ≤ 1) :
    (delStepT iv a).focus = a.focus.child (a.focus.stepDir iv) ∧
      (delStepT iv a).focus.height < a.focus.height ∧
      ∀ f ∈ (delStepT iv a).ctx, f.dir ≤ 1 := by
  obtain ⟨o1, -, -, q1, new, o2, o3, -, -, -, o4⟩ :=
    delPushT_out a.ctx a.focus (a.focus.stepDir iv) (T.stepDir_le_one iv _) hq hds
  have e : (delStepT iv a).focus = (delPushT a.ctx a.focus (a.focus.stepDir iv)).2 := rfl
  have e2 : (delStepT iv a).ctx = (delPushT a.ctx a.focus (a.focus.stepDir iv)).1 := rfl
  refine ⟨by rw [e, o1], by rw [e, o1]; exact T.height_child_lt _ _ hq, ?_⟩
  intro f hf
  rw [e2, o2] at hf
  rcases List.mem_cons.1 hf with e' | e'
  · rw [e', o3]; exact T.stepDir_le_one iv _
  · rcases o4 f e' with ⟨f0, hf0, h1, -, -⟩ | ⟨h1, -⟩ | ⟨fp, rest, h0, h1, -⟩
    · rw [h1]; exact hds f0 hf0
    · rw [h1]; exact T.stepDir_le_one iv _
    · rw [h1]; exact hds fp (by rw [h0]; exact List.mem_cons_self _ _)

theorem plug_rb_congr (ctx : List Frame) (P Y : T) (hN : (plug ctx P).NoRR)
    (hB : (plug ctx P).Balanced) (hYN : Y.NoRR) (hYB : Y.Balanced)
    (hbh : ctx ≠ [] → Y.bh = P.bh) (hcol : ctx ≠ [] → Y.isRed = true → P.isRed = true) :
    (plug ctx Y).NoRR ∧ (plug ctx Y).Balanced := by
  rw [plug_noRR] at hN ⊢
  rw [plug_balanced] at hB ⊢
  refine ⟨⟨hYN, ?_⟩, hYB, ?_⟩
  · refine CtxNoRR.recolor _ hN.2 ?_
    intro fp rest hctx hr
    rw [hctx] at hN
    have hne : ctx ≠ [] := by rw [hctx]; simp
    have hP := (hN.2.1 hr).1
    cases hY : Y.isRed
    · rfl
    · rw [hcol hne hY] at hP; exact absurd hP (by simp)
  · cases ctx with
    | nil => trivial
    | cons f fs => rw [hbh (by simp)]; exact hB.2

theorem T.bh_pos_of_black {t : T} (hp : t.ptr ≠ none) (hb : t.isRed = false) : 1 ≤ t.bh := by
  cases t with
  | leaf => exact absurd rfl hp
  | nd l x d r =>
    simp only [T.isRed_nd] at hb
    simp only [T.bh, hb]
    simp

theorem T.item_red (t : T) : t.item.red = t.isRed := by
  cases t <;> rfl

theorem delPushT_rb (ctx : List Frame) (q : T) (dir : Nat) (hd : dir ≤ 1) (hq : q.ptr ≠ none)
    (hds : ∀ f ∈ ctx, f.dir ≤ 1) (hN : (plug ctx q).NoRR) (hB : (plug ctx q).Balanced)
    (hL : DelLocal ctx q) :
    (plug (delPushT ctx q dir).1 (delPushT ctx q dir).2).NoRR ∧
      (plug (delPushT ctx q dir).1 (delPushT ctx q dir).2).Balanced ∧
      DelLocal (delPushT ctx q dir).1 (delPushT ctx q dir).2 := by
  have hp : q.HasPath [dir] := ⟨hq, hd, trivial⟩
  have hqN := ((plug_noRR ctx q).1 hN).1
  have hqB := ((plug_balanced ctx q).1 hB).1
  have hcB := ((plug_balanced ctx q).1 hB).2
  have hcN := ((plug_noRR ctx q).1 hN).2
  unfold delPushT
  split
  swap
  · -- the current node or the next one is red
    rename_i hb
    rw [zipDown_plug _ _ _ hp]
    refine ⟨hN, hB, ?_⟩
    simp only [zipDown, DelLocal, T.frame, T.item_red]
    cases h1 : q.isRed
    · cases h2 : (q.child dir).isRed
      · simp [h1, h2] at hb
      · exact Or.inr (Or.inl rfl)
    · exact Or.inl rfl
  rename_i hb
  have hqb : q.isRed = false := by
    cases h1 : q.isRed
    · rfl
    · simp [h1] at hb
  have hcb : (q.child dir).isRed = false := by
    cases h1 : (q.child dir).isRed
    · rfl
    · simp [h1] at hb
  split
  · -- rotation around the current node
    rename_i hs
    obtain ⟨o1, o2, o3, q1, s1, o4, o5, o6, o7, o8, -⟩ := rotq_out ctx q dir hd hs
    obtain ⟨r1, r2, r3, r4⟩ := rotq_rb q dir hd hqb hcb hs hqN hqB
    rw [zipDown_plug _ _ _ o2]
    obtain ⟨c1, c2⟩ := plug_rb_congr ctx q (rotT dir q) hN hB r1 r2 (fun _ => r3)
      (fun _ h => by rw [r4] at h; exact absurd h (by simp))
    refine ⟨c1, c2, ?_⟩
    rw [o4]
    exact Or.inl o8
  · rename_i hs
    have hsb : (q.child (takeOpposite dir)).isRed = false := by
      cases h1 : (q.child (takeOpposite dir)).isRed
      · rfl
      · exact absurd h1 hs
    have hq01 : (q.child 0).isRed = false ∧ (q.child 1).isRed = false := by
      have h01 : dir = 0 ∨ dir = 1 := by omega
      rcases h01 with e | e <;> subst e <;> simp only [takeOpposite] at hsb
      · exact ⟨hcb, hsb⟩
      · exact ⟨hsb, hcb⟩
    cases ctx with
    | nil =>
      simp only
      rw [zipDown_plug _ _ _ hp]
      refine ⟨hN, hB, ?_⟩
      simp only [zipDown, DelLocal, T.frame]
      exact Or.inr (Or.inr ⟨trivial, hsb⟩)
    | cons fp rest =>
      simp only
      have hfp := hds fp (List.mem_cons_self _ _)
      have hbhq := T.bh_pos_of_black hq hqb
      split
      · -- no sibling: excluded by the balance
        rename_i hsib
        exfalso
        have hs0 : fp.sib.bh = 0 := by
          cases hsp : fp.sib with
          | leaf => rfl
          | nd _ _ _ _ => rw [hsp] at hsib; simp [T.ptr] at hsib
        have := hcB.1
        omega
      · rename_i hsib
        have hPN : (fp.plug q).NoRR := ((plug_noRR rest (fp.plug q)).1 hN).1
        have hPB : (fp.plug q).Balanced := ((plug_balanced rest (fp.plug q)).1 hB).1
        have htb : fp.sib.isRed = false := by
          rcases hL with h | h | h
          · exact (hcN.1 h).2
          · rw [hqb] at h; exact absurd h (by simp)
          · exact h.2
        obtain ⟨y1, y2, y3⟩ := delFixT_rb fp q hfp hq hsib hqb hq01.1 hq01.2 htb hPN hPB
        obtain ⟨o1, o2, -, fp', mid, o4, -⟩ := delFixT_out fp rest q hfp hq hsib
        have hp2 : (delFixT fp.dir (fp.plug q)).1.HasPath
            ((delFixT fp.dir (fp.plug q)).2 ++ [dir]) :=
          @T.HasPath.append _ _ _ rest o2
            ⟨by rw [o1, T.ptr_setRed]; exact hq, hd, trivial⟩
        have hz := zipDown_append (delFixT fp.dir (fp.plug q)).2 [dir] rest
          (delFixT fp.dir (fp.plug q)).1
        rw [o1, o4] at hz
        rw [zipDown_plug _ _ _ hp2]
        have hred : rest ≠ [] → fp.d.red = true := by
          intro hne
          rcases hL with h | h | h
          · exact h
          · rw [hqb] at h; exact absurd h (by simp)
          · exact absurd h.1 hne
        obtain ⟨c1, c2⟩ := plug_rb_congr rest (fp.plug q) _ hN hB y1 y2
          (fun hne => y3 (hred hne))
          (fun hne _ => by rw [Frame.isRed_plug]; exact hred hne)
        refine ⟨c1, c2, ?_⟩
        rw [hz]
        simp only [zipDown, DelLocal, T.frame, T.item_red]
        exact Or.inl (T.isRed_setRed true q hq)

theorem delStepT_rb (iv : Interval) (a : DelAbs) (hI : DelRB a) (hq : a.focus.ptr ≠ none) :
    DelRB (delStepT iv a) := by
  obtain ⟨hN, hB, hL, hds⟩ := hI
  obtain ⟨-, -, hds'⟩ := delStepT_focus iv a hq hds
  obtain ⟨r1, r2, r3⟩ := delPushT_rb a.ctx a.focus (a.focus.stepDir iv)
    (T.stepDir_le_one iv _) hq hds hN hB hL
  exact ⟨r1, r2, r3, hds'⟩

/-! ## The loop of `delete` keeps the stored intervals -/

theorem compare_ne_zero_iff (iv : Interval) (c : Interval × Nat) :
    compare c.1.Low iv.Low c.2 iv.ID ≠ 0 ↔ coreLt c (iv, iv.ID) := by
  unfold coreLt compare intFromBool
  dsimp only
  constructor
  · intro h
    by_cases h1 : iv.Low > c.1.Low
    · exact Or.inl h1
    · by_cases h2 : iv.Low < c.1.Low
      · simp [h1, h2] at h
      · by_cases h3 : iv.ID > c.2
        · right; omega
        · simp [h1, h2, h3] at h
  · intro h
    by_cases h1 : iv.Low > c.1.Low
    · simp [h1]
    · by_cases h2 : iv.Low < c.1.Low
      · omega
      · have h3 : iv.ID > c.2 := by omega
        simp [h1, h2, h3]

theorem compare_mono (iv : Interval) {x y : Interval × Nat} (h : coreLt x y) :
    (compare y.1.Low iv.Low y.2 iv.ID ≠ 0 → compare x.1.Low iv.Low x.2 iv.ID = 1) ∧
      (compare x.1.Low iv.Low x.2 iv.ID = 0 → compare y.1.Low iv.Low y.2 iv.ID = 0) := by
  have hx := compare_le_one x.1.Low iv.Low x.2 iv.ID
  have key : compare y.1.Low iv.Low y.2 iv.ID ≠ 0 → compare x.1.Low iv.Low x.2 iv.ID ≠ 0 := by
    rw [compare_ne_zero_iff, compare_ne_zero_iff]
    exact fun h2 => coreLt_trans h h2
  constructor
  · intro h1; have := key h1; omega
  · intro h1
    by_contra h2
    exact key h2 h1

theorem id_ne_of_lt (iv : Interval) {x y : Interval × Nat}
    (hH : y.2 = iv.ID → y.1.Low = iv.Low) :
    (coreLt y x → compare x.1.Low iv.Low x.2 iv.ID ≠ 0 → y.2 ≠ iv.ID) ∧
      (coreLt x y → compare x.1.Low iv.Low x.2 iv.ID = 0 → y.2 ≠ iv.ID) := by
  constructor
  · intro h1 h2 e
    rw [compare_ne_zero_iff] at h2
    have := hH e
    unfold coreLt at h1 h2
    dsimp only at h1 h2
    omega
  · intro h1 h2 e
    have h3 : ¬ coreLt x (iv, iv.ID) := by
      rw [← compare_ne_zero_iff]; simpa using h2
    have := hH e
    unfold coreLt at h1 h3
    dsimp only at h1 h3
    omega

theorem T.cores_child_sorted (q : T) (hq : q.ptr ≠ none) (hS : q.cores.Pairwise coreLt) :
    (∀ y ∈ (q.child 0).cores, coreLt y q.item.core) ∧
      (∀ y ∈ (q.child 1).cores, coreLt q.item.core y) ∧
      (∀ i, ∀ y ∈ (q.child i).cores, y ∈ q.cores) := by
  cases q with
  | leaf => exact absurd rfl hq
  | nd l x d r =>
    rw [T.cores_nd, List.pairwise_append] at hS
    obtain ⟨-, h2, h3⟩ := hS
    rw [List.pairwise_cons] at h2
    refine ⟨?_, ?_, ?_⟩
    · intro y hy
      exact h3 y hy _ (List.mem_cons_self _ _)
    · intro y hy
      exact h2.1 y hy
    · intro i y hy
      rw [T.child_nd] at hy
      rw [T.cores_nd]
      split at hy
      · exact List.mem_append_left _ hy
      · exact List.mem_append_right _ (List.mem_cons_of_mem _ hy)

theorem Frame.cores_plug_sorted (fp : Frame) (q : T)
    (hS : (fp.plug q).cores.Pairwise coreLt) :
    (fp.dir = 0 → ∀ y ∈ fp.sib.cores, coreLt fp.d.core y) ∧
      (fp.dir ≠ 0 → ∀ y ∈ fp.sib.cores, coreLt y fp.d.core) ∧
      (∀ y ∈ fp.sib.cores, y ∈ (fp.plug q).cores) ∧ (∀ y ∈ q.cores, y ∈ (fp.plug q).cores) := by
  rw [Frame.cores_plug] at hS ⊢
  split at hS
  · rename_i h0
    rw [List.pairwise_append, List.pairwise_cons] at hS
    simp only [h0, if_true]
    refine ⟨fun _ y hy => hS.2.1.1 y hy, fun h => absurd rfl h, ?_, ?_⟩
    · intro y hy; exact List.mem_append_right _ (List.mem_cons_of_mem _ hy)
    · intro y hy; exact List.mem_append_left _ hy
  · rename_i h0
    rw [List.pairwise_append] at hS
    simp only [h0, if_false]
    refine ⟨fun h => h.elim, fun _ y hy => hS.2.2 y hy _ (List.mem_cons_self _ _), ?_, ?_⟩
    · intro y hy; exact List.mem_append_left _ hy
    · intro y hy; exact List.mem_append_right _ (List.mem_cons_of_mem _ hy)

theorem plug_cores_sub (ctx : List Frame) (t : T) :
    (∀ y ∈ t.cores, y ∈ (plug ctx t).cores) ∧
      ((plug ctx t).cores.Pairwise coreLt → t.cores.Pairwise coreLt) := by
  rw [plug_cores]
  constructor
  · intro y hy
    exact List.mem_append_left _ (List.mem_append_right _ hy)
  · intro h
    exact ((List.pairwise_append.1 ((List.pairwise_append.1 h).1)).2.1)

theorem delStepT_ca (iv : Interval) (K : List (Interval × Nat)) (a : DelAbs)
    (hS : K.Pairwise coreLt) (hH : ∀ x ∈ K, x.2 = iv.ID → x.1.Low = iv.Low)
    (hI : DelCA iv K a) (hq : a.focus.ptr ≠ none) : DelCA iv K (delStepT iv a) := by
  obtain ⟨hK, hD, hnd, hF1, hF2⟩ := hI
  have hds := CtxDirs.le_one hD
  obtain ⟨o1, o2, o3, q1, new, o4, o5, o6, o7, o8, o9⟩ :=
    delPushT_out a.ctx a.focus (a.focus.stepDir iv) (T.stepDir_le_one iv _) hq hds
  have e : (delStepT iv a).focus = (delPushT a.ctx a.focus (a.focus.stepDir iv)).2 := rfl
  have e2 : (delStepT iv a).ctx = (delPushT a.ctx a.focus (a.focus.stepDir iv)).1 := rfl
  have e3 : (delStepT iv a).found =
      if a.focus.item.id = iv.ID then some a.focus.addr else a.found := rfl
  -- order facts around the current node
  have hqS : a.focus.cores.Pairwise coreLt := (plug_cores_sub a.ctx a.focus).2 (hK ▸ hS)
  obtain ⟨c0, c1, c2⟩ := T.cores_child_sorted a.focus hq hqS
  have hqK : ∀ y ∈ a.focus.cores, y ∈ K := fun y hy => hK ▸ (plug_cores_sub a.ctx a.focus).1 y hy
  have hsd : a.focus.stepDir iv =
      compare a.focus.item.core.1.Low iv.Low a.focus.item.core.2 iv.ID := rfl
  -- the frames that come into the path
  have hins : ∀ f' ∈ new,
      (∃ f ∈ a.ctx, f'.dir = f.dir ∧ f'.d.core = f.d.core ∧ f'.addr = f.addr) ∨
      (f'.dir = compare f'.d.core.1.Low iv.Low f'.d.core.2 iv.ID ∧ f'.d.core.2 ≠ iv.ID) := by
    intro f' hf'
    rcases o9 f' hf' with h | ⟨h1, h2⟩ | ⟨fp, rest, h0, h1, h2⟩
    · exact Or.inl h
    · right
      have h01 : a.focus.stepDir iv = 0 ∨ a.focus.stepDir iv = 1 := by
        have := T.stepDir_le_one iv a.focus; omega
      have hyK := hqK _ (c2 _ _ h2)
      rcases h01 with e' | e'
      · rw [e'] at h2
        simp only [takeOpposite] at h2
        have hlt := c1 _ h2
        rw [hsd] at e'
        exact ⟨by rw [h1, hsd, e']; exact ((compare_mono iv hlt).2 e').symm,
          (id_ne_of_lt iv (hH _ hyK)).2 hlt e'⟩
      · rw [e'] at h2
        simp only [takeOpposite] at h2
        have hlt := c0 _ h2
        rw [hsd] at e'
        have hne : compare a.focus.item.core.1.Low iv.Low a.focus.item.core.2 iv.ID ≠ 0 := by
          rw [e']; simp
        exact ⟨by rw [h1, hsd, e']; exact ((compare_mono iv hlt).1 hne).symm,
          (id_ne_of_lt iv (hH _ hyK)).1 hlt hne⟩
    · right
      have hPS : (fp.plug a.focus).cores.Pairwise coreLt := by
        have := (plug_cores_sub rest (fp.plug a.focus)).2
        apply this
        have hk : (plug a.ctx a.focus).cores = (plug rest (fp.plug a.focus)).cores := by
          rw [h0]; rfl
        rw [← hk, hK]; exact hS
      obtain ⟨p0, p1, p2, -⟩ := Frame.cores_plug_sorted fp a.focus hPS
      have hyK : f'.d.core ∈ K := by
        rw [← hK, h0]
        exact (plug_cores_sub rest (fp.plug a.focus)).1 _ (p2 _ h2)
      have hfpD := hD fp (by rw [h0]; exact List.mem_cons_self _ _)
      have hfpD' : fp.dir = compare fp.d.core.1.Low iv.Low fp.d.core.2 iv.ID := hfpD
      by_cases hz : fp.dir = 0
      · have hlt := p0 hz _ h2
        rw [hz] at hfpD'
        exact ⟨by rw [h1, hz]; exact ((compare_mono iv hlt).2 hfpD'.symm).symm,
          (id_ne_of_lt iv (hH _ hyK)).2 hlt hfpD'.symm⟩
      · have hlt := p1 hz _ h2
        have h1' : fp.dir = 1 := by
          have := hds fp (by rw [h0]; exact List.mem_cons_self _ _); omega
        have hne : compare fp.d.core.1.Low iv.Low fp.d.core.2 iv.ID ≠ 0 := by
          rw [← hfpD']; exact hz
        exact ⟨by rw [h1, h1']; exact ((compare_mono iv hlt).1 hne).symm,
          (id_ne_of_lt iv (hH _ hyK)).1 hlt hne⟩
  refine ⟨?_, ?_, ?_, ?_, ?_⟩
  · rw [e, e2, o2]; exact hK
  · rw [e2, o4]
    intro f hf
    rcases List.mem_cons.1 hf with e' | e'
    · rw [e', o5]
      have : f.d.core = a.focus.item.core := by rw [e']; exact o6
      show a.focus.stepDir iv = compare q1.d.core.1.Low iv.Low q1.d.core.2 iv.ID
      rw [o6]; rfl
    · rcases hins f e' with ⟨f0, hf0, h1, h2, -⟩ | ⟨h1, -⟩
      · show f.dir = compare f.d.core.1.Low iv.Low f.d.core.2 iv.ID
        rw [h1, h2]; exact hD f0 hf0
      · exact h1
  · rw [e, e2]; exact o3.nodup_iff.2 hnd
  · intro hnone f hf
    rw [e3] at hnone
    split at hnone
    · exact absurd hnone (by simp)
    rename_i hid
    rw [e2, o4] at hf
    rcases List.mem_cons.1 hf with e' | e'
    · have : f.d.core.2 = a.focus.item.core.2 := by rw [e', o6]
      exact fun h => hid (this.symm.trans h)
    · rcases hins f e' with ⟨f0, hf0, -, h2, -⟩ | ⟨-, h2⟩
      · have : f.d.core.2 = f0.d.core.2 := by rw [h2]
        exact fun h => hF1 hnone f0 hf0 (this.symm.trans h)
      · exact h2
  · intro fa hfa
    rw [e3] at hfa
    rw [e2, o4]
    split at hfa
    · rename_i hid
      simp only [Option.some.injEq] at hfa
      refine ⟨q1, List.mem_cons_self _ _, by rw [o7, hfa], ?_⟩
      have : q1.d.core.2 = a.focus.item.core.2 := by rw [o6]
      exact this.trans hid
    · obtain ⟨f0, hf0, h1, h2⟩ := hF2 fa hfa
      obtain ⟨f', hf', -, g2, g3⟩ := o8 f0 hf0
      refine ⟨f', List.mem_cons_of_mem _ hf', by rw [g3, h1], ?_⟩
      have : f'.d.core.2 = f0.d.core.2 := by rw [g2]
      exact this.trans h2

/-! ## The statement `if found != nil { ... }` of `delete` on trees -/

theorem ctxNoRR_setContent (fa : Nat) (c : Item) (rest : List Frame) (col : Bool)
    (h : CtxNoRR rest col) :
    CtxNoRR (rest.map (fun f => if f.addr = fa then f.setContent c else f)) col := by
  induction rest generalizing col with
  | nil => trivial
  | cons g gs ih =>
    obtain ⟨h1, h2, h3⟩ := h
    simp only [List.map_cons]
    split
    · exact ⟨h1, h2, ih _ h3⟩
    · exact ⟨h1, h2, ih _ h3⟩

theorem ctxBal_setContent (fa : Nat) (c : Item) (rest : List Frame) (n : Nat)
    (h : CtxBal rest n) :
    CtxBal (rest.map (fun f => if f.addr = fa then f.setContent c else f)) n := by
  induction rest generalizing n with
  | nil => trivial
  | cons g gs ih =>
    obtain ⟨h1, h2, h3⟩ := h
    simp only [List.map_cons]
    split
    · exact ⟨h1, h2, ih _ h3⟩
    · exact ⟨h1, h2, ih _ h3⟩

theorem T.eq_leaf_of_ptr {t : T} (h : t.ptr = none) : t = T.leaf := by
  cases t with
  | leaf => rfl
  | nd _ _ _ _ => simp [T.ptr] at h

theorem delUnlinkT_rb (a : DelAbs) (hI : DelRB a) (hn : a.focus.ptr = none) :
    (delUnlinkT a).1.NoRR ∧ (delUnlinkT a).1.Balanced := by
  obtain ⟨hN, hB, hL, -⟩ := hI
  have hleaf := T.eq_leaf_of_ptr hn
  unfold delUnlinkT
  split
  · rename_i fa c rest hf hctx
    rw [hctx, hleaf] at hN hB hL
    rw [plug_noRR] at hN
    rw [plug_balanced] at hB
    obtain ⟨-, n1, n2, n3⟩ := hN
    obtain ⟨-, b1, b2, b3⟩ := hB
    simp only [T.bh] at b1 b3
    dsimp only
    rw [plug_noRR, plug_balanced]
    rcases hL with h | h | h
    · refine ⟨⟨n2, ?_⟩, b2, ?_⟩
      · apply ctxNoRR_setContent
        rw [(n1 h).2]
        refine CtxNoRR.recolor _ n3 ?_
        intro _ _ _ _; rfl
      · apply ctxBal_setContent
        rw [b1]
        simpa [h] using b3
    · simp [T.isRed] at h
    · rw [h.1]
      exact ⟨⟨n2, trivial⟩, b2, trivial⟩
  · exact ⟨hN, hB⟩

theorem setContent_not_mem (fa : Nat) (c : Item) (rest : List Frame)
    (h : ∀ g ∈ rest, g.addr ≠ fa) :
    rest.map (fun f => if f.addr = fa then f.setContent c else f) = rest := by
  induction rest with
  | nil => rfl
  | cons g gs ih =>
    simp only [List.map_cons]
    rw [if_neg (h g (List.mem_cons_self _ _)), ih (fun g' hg' => h g' (List.mem_cons_of_mem _ hg'))]

theorem path_nodup {ctx : List Frame} (h : (ctxAddrs ctx).Nodup) : (ctx.map Frame.addr).Nodup := by
  induction ctx with
  | nil => exact List.nodup_nil
  | cons g gs ih =>
    simp only [ctxAddrs, List.nodup_cons, List.mem_append, not_or, List.nodup_append] at h
    simp only [List.map_cons, List.nodup_cons]
    exact ⟨fun hx => h.1.2 (path_mem_ctxAddrs hx), ih h.2.2.1⟩

theorem frame_core_mem_ctxCR {ctx : List Frame} {f : Frame} (hf : f ∈ ctx) (h0 : f.dir = 0) :
    f.d.core ∈ ctxCR ctx := by
  induction ctx with
  | nil => simp at hf
  | cons g gs ih =>
    rw [ctxCR_cons]
    rcases List.mem_cons.1 hf with e | e
    · rw [← e, h0]; simp
    · exact List.mem_append_right _ (ih e)

theorem frame_core_mem_plug {ctx : List Frame} {f : Frame} (t : T) (hf : f ∈ ctx) :
    f.d.core ∈ (plug ctx t).cores := by
  induction ctx generalizing t with
  | nil => simp at hf
  | cons g gs ih =>
    rcases List.mem_cons.1 hf with e | e
    · rw [plug]
      apply (plug_cores_sub gs (g.plug t)).1
      rw [Frame.cores_plug, e]
      split <;> simp
    · exact ih (g.plug t) e

theorem compare_zero_of_key (iv : Interval) (x : Interval × Nat) (h1 : x.1.Low = iv.Low)
    (h2 : x.2 = iv.ID) : compare x.1.Low iv.Low x.2 iv.ID = 0 := by
  by_contra h
  have h := (compare_ne_zero_iff iv x).1 h
  unfold coreLt at h
  dsimp only at h
  omega

theorem not_lt_key_of_dir_zero (iv : Interval) {x y : Interval × Nat}
    (hx : compare x.1.Low iv.Low x.2 iv.ID = 0) (h1 : y.1.Low = iv.Low) (h2 : y.2 = iv.ID) :
    ¬ coreLt x y := by
  intro h
  have h3 : ¬ coreLt x (iv, iv.ID) := by
    rw [← compare_ne_zero_iff]; simpa using hx
  unfold coreLt at h h3
  dsimp only at h h3
  omega

theorem ctx_found_cores (iv : Interval) (fa : Nat) (c : Item) (f : Frame) :
    ∀ (rest : List Frame) (M : List (Interval × Nat)), CtxDirs iv rest →
      (ctxCL rest ++ M ++ ctxCR rest).Pairwise coreLt → (rest.map Frame.addr).Nodup →
      f ∈ rest → f.addr = fa → f.d.core.1.Low = iv.Low → f.d.core.2 = iv.ID →
      ctxCL (rest.map (fun g => if g.addr = fa then g.setContent c else g)) = ctxCL rest ∧
      ∃ tail, ctxCR rest = f.d.core :: tail ∧
        ctxCR (rest.map (fun g => if g.addr = fa then g.setContent c else g)) = c.core :: tail := by
  intro rest
  induction rest with
  | nil => intro M _ _ _ hf; simp at hf
  | cons g gs ih =>
    intro M hD hS hnd hf hfa hk1 hk2
    simp only [List.map_cons, List.nodup_cons] at hnd
    have hf0 : f.dir = 0 := by
      rw [hD f hf]; exact compare_zero_of_key iv f.d.core hk1 hk2
    by_cases hg : g.addr = fa
    · -- the innermost frame is `found`
      have hgf : g = f := by
        rcases List.mem_cons.1 hf with e | e
        · exact e.symm
        · exfalso
          apply hnd.1
          rw [hg, ← hfa]
          exact List.mem_map_of_mem _ e
      have hrest : gs.map (fun g => if g.addr = fa then g.setContent c else g) = gs := by
        apply setContent_not_mem
        intro g' hg' e
        apply hnd.1
        rw [hg, ← e]
        exact List.mem_map_of_mem _ hg'
      simp only [List.map_cons, if_pos hg, hrest]
      rw [ctxCL_cons, ctxCL_cons, ctxCR_cons, ctxCR_cons]
      have hd0 : g.dir = 0 := by rw [hgf]; exact hf0
      have hd0' : (g.setContent c).dir = 0 := hd0
      simp only [hd0, hd0', if_true, List.append_nil, List.cons_append]
      refine ⟨trivial, g.sib.cores ++ ctxCR gs, by rw [hgf], rfl⟩
    · have hfg : f ∈ gs := by
        rcases List.mem_cons.1 hf with e | e
        · rw [e] at hfa; exact absurd hfa hg
        · exact e
      have hgd : g.dir ≠ 0 := by
        intro h0
        have hmem := frame_core_mem_ctxCR hfg hf0
        rw [ctxCR_cons, if_pos h0] at hS
        have hlt : coreLt g.d.core f.d.core := by
          have h1 := (List.pairwise_append.1 hS).2.1
          simp only [List.cons_append, List.pairwise_cons] at h1
          exact h1.1 _ (List.mem_append_right _ hmem)
        have hgD := hD g (List.mem_cons_self _ _)
        rw [h0] at hgD
        exact not_lt_key_of_dir_zero iv hgD.symm hk1 hk2 hlt
      simp only [List.map_cons, if_neg hg]
      have hgd' : (if g.addr = fa then g.setContent c else g).dir ≠ 0 := by
        rw [if_neg hg]; exact hgd
      rw [ctxCL_cons, ctxCL_cons, ctxCR_cons, ctxCR_cons]
      rw [ctxCL_cons, ctxCR_cons] at hS
      simp only [hgd, if_false, List.nil_append] at hS ⊢
      obtain ⟨i1, tail, i2, i3⟩ := ih ((g.sib.cores ++ [g.d.core]) ++ M)
        (fun f' hf' => hD f' (List.mem_cons_of_mem _ hf'))
        (by simpa [List.append_assoc] using hS) hnd.2 hfg hfa hk1 hk2
      exact ⟨by rw [i1], tail, i2, i3⟩

theorem delUnlinkT_cores (iv : Interval) (K : List (Interval × Nat)) (a : DelAbs)
    (hS : K.Pairwise coreLt) (hH : ∀ x ∈ K, x.2 = iv.ID → x.1.Low = iv.Low)
    (hI : DelCA iv K a) (hn : a.focus.ptr = none) :
    ((delUnlinkT a).2 = true →
        ∃ L e R, K = L ++ e :: R ∧ e.2 = iv.ID ∧ (delUnlinkT a).1.cores = L ++ R) ∧
      ((delUnlinkT a).2 = false → (delUnlinkT a).1.cores = K ∧ ∀ x ∈ K, x.2 ≠ iv.ID) := by
  obtain ⟨hK, hD, hnd, hF1, hF2⟩ := hI
  have hleaf := T.eq_leaf_of_ptr hn
  have hK' : ctxCL a.ctx ++ ctxCR a.ctx = K := by
    rw [← hK, plug_cores, hleaf, T.cores_leaf, List.append_nil]
  cases hfd : a.found with
  | none =>
    have e : delUnlinkT a = (plug a.ctx a.focus, false) := by
      unfold delUnlinkT; rw [hfd]
    rw [e]
    refine ⟨fun h => absurd h (by simp), fun _ => ⟨hK, ?_⟩⟩
    intro x hx hid
    obtain ⟨b1, b2⟩ := ctx_bounds iv a.ctx hD (hF1 hfd) (hK' ▸ hS)
    have hlow := hH x hx hid
    rw [← hK'] at hx
    rcases List.mem_append.1 hx with h | h
    · have := b1 x h
      unfold coreLt at this
      dsimp only at this
      omega
    · have := b2 x h
      unfold coreLt at this
      dsimp only at this
      omega
  | some fa =>
    obtain ⟨f, hf, hfa, hfid⟩ := hF2 fa hfd
    cases hctx : a.ctx with
    | nil => rw [hctx] at hf; simp at hf
    | cons c rest =>
      have e : delUnlinkT a =
          (plug (rest.map (fun f => if f.addr = fa then f.setContent c.d else f)) c.sib, true) := by
        unfold delUnlinkT; rw [hfd, hctx]
      rw [e]
      refine ⟨fun _ => ?_, fun h => absurd h (by simp)⟩
      dsimp only
      rw [hctx] at hf hD hnd hK'
      have hpn := path_nodup (hnd.of_append_right)
      simp only [List.map_cons, List.nodup_cons] at hpn
      have hfK : f.d.core ∈ K := by
        rw [← hK, hctx]; exact frame_core_mem_plug _ hf
      have hk2 : f.d.core.2 = iv.ID := hfid
      have hk1 : f.d.core.1.Low = iv.Low := hH _ hfK hk2
      rw [plug_cores]
      rw [ctxCL_cons, ctxCR_cons] at hK'
      rcases List.mem_cons.1 hf with efc | hfr
      · -- `found` is the last node of the path
        have hrest : rest.map (fun f => if f.addr = fa then f.setContent c.d else f) = rest := by
          apply setContent_not_mem
          intro g hg e'
          apply hpn.1
          rw [← efc, hfa, ← e']
          exact List.mem_map_of_mem _ hg
        rw [hrest]
        by_cases h0 : c.dir = 0
        · simp only [h0, if_true, List.append_nil] at hK'
          refine ⟨ctxCL rest, c.d.core, c.sib.cores ++ ctxCR rest, ?_, by rw [← efc]; exact hk2,
            by simp [List.append_assoc]⟩
          rw [← hK']; simp
        · simp only [h0, if_false, List.nil_append] at hK'
          refine ⟨ctxCL rest ++ c.sib.cores, c.d.core, ctxCR rest, ?_, by rw [← efc]; exact hk2,
            by simp [List.append_assoc]⟩
          rw [← hK']; simp
      · -- `found` is further up
        have hf0 : f.dir = 0 := by
          rw [hD f hf]; exact compare_zero_of_key iv f.d.core hk1 hk2
        have hcd : c.dir ≠ 0 := by
          intro h0
          have hmem := frame_core_mem_ctxCR hfr hf0
          rw [if_pos h0, if_pos h0] at hK'
          have hS' := hK' ▸ hS
          have hlt : coreLt c.d.core f.d.core := by
            have h1 := (List.pairwise_append.1 hS').2.1
            simp only [List.cons_append, List.pairwise_cons] at h1
            exact h1.1 _ (List.mem_append_right _ hmem)
          have hcD := hD c (List.mem_cons_self _ _)
          rw [h0] at hcD
          exact not_lt_key_of_dir_zero iv hcD.symm hk1 hk2 hlt
        rw [if_neg hcd, if_neg hcd] at hK'
        simp only [List.nil_append] at hK'
        obtain ⟨i1, tail, i2, i3⟩ := ctx_found_cores iv fa c.d f rest (c.sib.cores ++ [c.d.core])
          (fun f' hf' => hD f' (List.mem_cons_of_mem _ hf'))
          (by rw [← hK'] at hS; simpa [List.append_assoc] using hS) hpn.2 hfr hfa hk1 hk2
        rw [i1, i3]
        refine ⟨ctxCL rest ++ c.sib.cores ++ [c.d.core], f.d.core, tail, ?_, hk2, by simp⟩
        rw [← hK', i2]; simp

/-! ## `delete` on trees -/

theorem deleteT_total (iv : Interval) (t : T) (fuel : Nat) (hf : t.height < fuel) :
    ∃ r, deleteT fuel t iv = some r := by
  cases t with
  | leaf => exact ⟨_, rfl⟩
  | nd l n d r =>
    obtain ⟨a', hl, -, -⟩ := delLoopT_inv iv (fun a => ∀ f ∈ a.ctx, f.dir ≤ 1)
      (fun a hI hq => ⟨(delStepT_focus iv a hq hI).2.2, (delStepT_focus iv a hq hI).2.1⟩)
      fuel { ctx := [], focus := T.nd l n d r, found := none }
      (fun f hf => by simp at hf) hf
    exact ⟨((delUnlinkT a').1.blacken, (delUnlinkT a').2), by simp only [deleteT, hl]⟩

theorem deleteT_spec (iv : Interval) (t : T) (fuel : Nat) (hN : t.NoRR) (hB : t.Balanced)
    (hS : t.cores.Pairwise coreLt) (hnd : t.addrs.Nodup)
    (hH : ∀ x ∈ t.cores, x.2 = iv.ID → x.1.Low = iv.Low) (hf : t.height < fuel) :
    ∃ t' b, deleteT fuel t iv = some (t', b) ∧ t'.RedBlack ∧
      (b = true → ∃ L e R, t.cores = L ++ e :: R ∧ e.2 = iv.ID ∧ t'.cores = L ++ R) ∧
      (b = false → t'.cores = t.cores ∧ ∀ x ∈ t.cores, x.2 ≠ iv.ID) := by
  cases t with
  | leaf =>
    refine ⟨T.leaf, false, rfl, ⟨rfl, trivial, trivial⟩, fun h => absurd h (by simp),
      fun _ => ⟨rfl, fun x hx => by simp [T.cores_leaf] at hx⟩⟩
  | nd l n d r =>
    have hI0 : DelRB { ctx := [], focus := T.nd l n d r, found := none } ∧
        DelCA iv (T.nd l n d r).cores { ctx := [], focus := T.nd l n d r, found := none } := by
      refine ⟨⟨hN, hB, trivial, fun f hf => by simp at hf⟩, rfl, fun f hf => by simp at hf, ?_,
        fun _ f hf => by simp at hf, fun fa h => by simp at h⟩
      simpa [ctxAddrs] using hnd
    obtain ⟨a', hl, ⟨hRB, hCA⟩, hnone⟩ := delLoopT_inv iv
      (fun a => DelRB a ∧ DelCA iv (T.nd l n d r).cores a)
      (fun a hI hq => ⟨⟨delStepT_rb iv a hI.1 hq, delStepT_ca iv _ a hS hH hI.2 hq⟩,
        (delStepT_focus iv a hq hI.1.2.2.2).2.1⟩)
      fuel _ hI0 hf
    obtain ⟨u1, u2⟩ := delUnlinkT_rb a' hRB hnone
    obtain ⟨v1, v2⟩ := delUnlinkT_cores iv _ a' hS hH hCA hnone
    refine ⟨(delUnlinkT a').1.blacken, (delUnlinkT a').2, by simp only [deleteT, hl],
      T.redBlack_blacken _ u1 u2, ?_, ?_⟩
    · rw [T.cores_blacken]; exact v1
    · rw [T.cores_blacken]; exact v2

theorem addT_total (iv : Interval) (fresh : Nat) (t : T) (fuel : Nat) (hrb : t.RedBlack)
    (hf : 2 * t.height + 2 ≤ fuel) :
    ∃ t' c, addT fuel fresh t iv = some (t', c) ∧ t'.RedBlack := by
  cases t with
  | leaf =>
    refine ⟨_, true, rfl, ⟨rfl, ?_, ?_⟩⟩
    · simp [T.NoRR]
    · simp [T.Balanced]
  | nd l n d r =>
    obtain ⟨hr, hn, hb⟩ := hrb
    have hRB : AddRB iv ⟨[], T.nd l n d r, true, true⟩ := by
      refine ⟨hn, hb, trivial, trivial, fun f hf => by simp at hf, Or.inl ⟨rfl, rfl, ?_, ?_⟩,
        fun h => by simp [T.ptr] at h⟩
      · intro h; rw [hr] at h; exact absurd h (by simp)
      · intro f rest e; simp at e
    have hm : addMeasure iv ⟨[], T.nd l n d r, true, true⟩ < fuel := by
      have := pathLen_le_height iv (T.nd l n d r)
      simp only [addMeasure, if_true]
      omega
    obtain ⟨t1, c, hl, hn1, hb1⟩ := addLoopT_rb iv fresh fuel _ hRB hm
    exact ⟨t1.blacken, c, by simp only [addT, hl], T.redBlack_blacken t1 hn1 hb1⟩

/-! ## `delete` on valid trees -/

theorem pairwise_erase_mid {α : Type} {R : α → α → Prop} {L M : List α} {x : α}
    (h : (L ++ x :: M).Pairwise R) : (L ++ M).Pairwise R := by
  refine h.sublist ?_
  exact List.Sublist.append (List.Sublist.refl _) (List.sublist_cons_self _ _)

theorem filter_id_mid (iv : Interval) (L R : List (Interval × Nat)) (e : Interval × Nat)
    (he : e.2 = iv.ID) (hnd : ((L ++ e :: R).map Prod.snd).Nodup) :
    (L ++ e :: R).filter (fun x => decide (x.2 ≠ iv.ID)) = L ++ R := by
  simp only [List.map_append, List.map_cons] at hnd
  rw [List.nodup_append] at hnd
  obtain ⟨-, h2, h3⟩ := hnd
  rw [List.nodup_cons] at h2
  have hL : ∀ x ∈ L, x.2 ≠ iv.ID := by
    intro x hx e'
    exact h3 (List.mem_map_of_mem _ hx) (by rw [e', ← he]; exact List.mem_cons_self _ _)
  have hR : ∀ x ∈ R, x.2 ≠ iv.ID := by
    intro x hx e'
    exact h2.1 (by rw [he, ← e']; exact List.mem_map_of_mem _ hx)
  rw [List.filter_append, List.filter_cons]
  simp only [he, ne_eq, not_true_eq_false, decide_False, Bool.false_eq_true, if_false]
  rw [List.filter_eq_self.2 (fun x hx => by simpa using hL x hx),
    List.filter_eq_self.2 (fun x hx => by simpa using hR x hx)]

theorem delete_valid (tr : tree) (t : T) (iv : Interval) (fuel : Nat) (hV : Valid tr t)
    (hids : t.ids.Nodup) (hH : ∀ x ∈ t.cores, x.2 = iv.ID → x.1.Low = iv.Low)
    (hf : t.height < fuel) :
    ∃ tr' t', tr.delete fuel iv = some tr' ∧ Valid tr' t' ∧ t'.ids.Nodup ∧
      t'.cores = t.cores.filter (fun x => decide (x.2 ≠ iv.ID)) ∧
      tr'.heap.next = tr.heap.next := by
  obtain ⟨hR, ⟨hrb, hs, hic⟩, hnum⟩ := hV
  have hndA : t.addrs.Nodup := (List.nodup_cons.1 hR.2.2.1).2
  obtain ⟨t', b, hdel, hrb', hT, hF⟩ :=
    deleteT_spec iv t fuel hrb.2.1 hrb.2.2 hs hndA hH hf
  obtain ⟨tr', hdel', hR', hnum', hnext, -⟩ := delete_sim fuel tr iv t t' b hR hdel
  have hcores : t'.cores = t.cores.filter (fun x => decide (x.2 ≠ iv.ID)) ∧
      (t'.size + (if b = true then 1 else 0) = t.size) := by
    cases b with
    | true =>
      obtain ⟨L, e, R, hK, he, hK'⟩ := hT rfl
      refine ⟨?_, ?_⟩
      · rw [hK', hK]
        exact (filter_id_mid iv L R e he (by rw [← hK]; exact hids)).symm
      · rw [T.size_eq_cores, T.size_eq_cores, hK, hK']
        simp only [List.length_append, List.length_cons, if_true]
        omega
    | false =>
      obtain ⟨hK, hno⟩ := hF rfl
      refine ⟨?_, ?_⟩
      · rw [hK]
        exact (List.filter_eq_self.2 (fun x hx => by simpa using hno x hx)).symm
      · rw [T.size_eq_cores, T.size_eq_cores, hK]
        simp
  have hsub : List.Sublist t'.cores t.cores := by
    rw [hcores.1]; exact List.filter_sublist _
  refine ⟨tr', t', hdel', ⟨hR', ⟨hrb', ?_, ?_⟩, ?_⟩, ?_, hcores.1, hnext⟩
  · exact List.Pairwise.sublist hsub hs
  · rw [T.idCached_iff] at hic ⊢
    intro x hx
    exact hic x (hsub.subset hx)
  · rw [hnum', hnum]
    have h2 := hcores.2
    have h64 : (2 : Nat) ^ 64 = 18446744073709551616 := by norm_num
    rw [h64]
    cases b with
    | true =>
      simp only [if_true] at h2 ⊢
      omega
    | false =>
      simp only [Bool.false_eq_true, if_false] at h2 ⊢
      omega
  · exact List.Nodup.sublist (List.Sublist.map _ hsub) hids

theorem delAll_length_le : ∀ (ivs : List Interval) (K : List (Interval × Nat)),
    (delAll K ivs).length ≤ K.length := by
  intro ivs
  induction ivs with
  | nil => intro K; exact Nat.le_refl _
  | cons iv ivs ih =>
    intro K
    exact Nat.le_trans (ih _) (List.length_filter_le _ _)

/-! ## `Delete`: the deletions, then the aggregates -/

theorem T.cores_fixAgg (t : T) : t.fixAgg.cores = t.cores := by
  induction t with
  | leaf => rfl
  | nd l a d r ihl ihr => simp [T.fixAgg, T.cores_nd, ihl, ihr, Item.agg, Item.core]

theorem T.isRed_fixAgg (t : T) : t.fixAgg.isRed = t.isRed := by
  cases t <;> rfl

theorem T.bh_fixAgg (t : T) : t.fixAgg.bh = t.bh := by
  induction t with
  | leaf => rfl
  | nd l a d r ihl ihr => simp [T.fixAgg, T.bh, ihl, Item.agg]

theorem T.redBlack_fixAgg (t : T) (h : t.RedBlack) : t.fixAgg.RedBlack := by
  obtain ⟨h1, h2, h3⟩ := h
  refine ⟨by rw [T.isRed_fixAgg]; exact h1, ?_, ?_⟩
  · clear h1 h3
    induction t with
    | leaf => trivial
    | nd l a d r ihl ihr =>
      obtain ⟨a1, a2, a3⟩ := h2
      refine ⟨?_, ihl a2, ihr a3⟩
      rw [T.isRed_fixAgg, T.isRed_fixAgg]
      exact a1
  · clear h1 h2
    induction t with
    | leaf => trivial
    | nd l a d r ihl ihr =>
      obtain ⟨a1, a2, a3⟩ := h3
      refine ⟨?_, ihl a2, ihr a3⟩
      rw [T.bh_fixAgg, T.bh_fixAgg]
      exact a1

theorem T.struct_fixAgg (t : T) (h : t.Struct) : t.fixAgg.Struct := by
  obtain ⟨h1, h2, h3⟩ := h
  refine ⟨T.redBlack_fixAgg t h1, ?_, ?_⟩
  · unfold T.Sorted; rw [T.cores_fixAgg]; exact h2
  · rw [T.idCached_iff] at h3 ⊢
    rw [T.cores_fixAgg]; exact h3

theorem T.size_fixAgg (t : T) : t.fixAgg.size = t.size := by
  rw [T.size_eq_cores, T.size_eq_cores, T.cores_fixAgg]

/-- The deletions of `Delete` are admissible on the stored intervals `K`: each
interval in turn either has an id that is not stored, or the low bound of the stored
interval with its id. -/
theorem deleteAll_valid (fuel : Nat) : ∀ (ivs : List Interval) (tr : tree) (t : T),
    Valid tr t → t.ids.Nodup → DelsOk t.cores ivs → t.size < fuel →
    ∃ tr' t', tr.deleteAll fuel ivs = some tr' ∧ Valid tr' t' ∧ t'.ids.Nodup ∧
      t'.cores = delAll t.cores ivs ∧ tr'.heap.next = tr.heap.next := by
  intro ivs
  induction ivs with
  | nil =>
    intro tr t hV hnd _ _
    exact ⟨tr, t, rfl, hV, hnd, rfl, rfl⟩
  | cons iv ivs ih =>
    intro tr t hV hnd hok hf
    obtain ⟨h1, h2⟩ := hok
    have hh := T.height_le_size t
    obtain ⟨tr1, t1, hd, hV1, hnd1, hK1, hn1⟩ :=
      delete_valid tr t iv fuel hV hnd h1 (by omega)
    have hs1 : t1.size ≤ t.size := by
      rw [T.size_eq_cores, T.size_eq_cores, hK1]
      exact List.length_filter_le _ _
    have h2' : DelsOk t1.cores ivs := by rw [hK1]; exact h2
    obtain ⟨tr2, t2, hd2, hV2, hnd2, hK2, hn2⟩ := ih tr1 t1 hV1 hnd1 h2' (by omega)
    refine ⟨tr2, t2, ?_, hV2, hnd2, ?_, by rw [hn2, hn1]⟩
    · simp only [tree.deleteAll, hd, Option.bind_eq_bind, Option.some_bind]
      exact hd2
    · rw [hK2, hK1]; rfl

theorem Delete_good (fuel : Nat) (ivs : List Interval) (tr : tree) (t : T)
    (hV : Valid tr t) (hnd : t.ids.Nodup) (hok : DelsOk t.cores ivs) (hf : t.size < fuel) :
    ∃ tr' t', tr.Delete fuel ivs = some tr' ∧ Good tr' t' ∧
      t'.cores = delAll t.cores ivs ∧ tr'.heap.next = tr.heap.next := by
  obtain ⟨tr1, t1, hd, hV1, hnd1, hK1, hn1⟩ := deleteAll_valid fuel ivs tr t hV hnd hok hf
  have hs1 : t1.size ≤ t.size := by
    rw [T.size_eq_cores, T.size_eq_cores, hK1]
    exact delAll_length_le _ _
  obtain ⟨hR, hS, hnum⟩ := hV1
  obtain ⟨hm, hroot, hndA, hlt⟩ := hR
  have hh := T.height_le_size t1
  obtain ⟨h', e, m, n, f⟩ :=
    adjustChild_spec t1 fuel tr1.heap hm (List.nodup_cons.1 hndA).2 (by omega)
  cases hp : t1.ptr with
  | none =>
    have hl : t1 = T.leaf := T.eq_leaf_of_ptr hp
    refine ⟨tr1, t1, ?_, ⟨⟨⟨hm, hroot, hndA, hlt⟩, hS, hnum⟩, ?_, hnd1⟩, hK1, hn1⟩
    · simp only [tree.Delete, hd, Option.bind_eq_bind, Option.some_bind, hroot, hp]
      rfl
    · rw [hl]; trivial
  | some r =>
    rw [hp] at e
    refine ⟨{ tr1 with heap := h' }, t1.fixAgg, ?_, ⟨⟨⟨m, ?_, ?_, ?_⟩, T.struct_fixAgg t1 hS, ?_⟩,
      T.lexact_fixAgg t1, ?_⟩, ?_, ?_⟩
    · simp only [tree.Delete, hd, Option.bind_eq_bind, Option.some_bind, hroot, hp]
      have e' : adjustRanges fuel tr1.heap (some r) = some h' := e
      rw [e']
      rfl
    · rw [T.ptr_fixAgg]; exact hroot
    · rw [T.addrs_fixAgg]; exact hndA
    · rw [T.addrs_fixAgg]; intro x hx; show x < h'.next; rw [n]; exact hlt x hx
    · rw [T.size_fixAgg]; exact hnum
    · unfold T.ids; rw [T.cores_fixAgg]; exact hnd1
    · rw [T.cores_fixAgg]; exact hK1
    · show h'.next = tr.heap.next
      rw [n]; exact hn1

/-! ## Sequences of calls within the contract -/

theorem AddsOk_iff : ∀ (ivs : List Interval) (K : List (Interval × Nat)),
    AddsOk K ivs ↔ (ivs.map Interval.ID).Nodup ∧ ∀ iv ∈ ivs, iv.ID ∉ K.map Prod.snd := by
  intro ivs
  induction ivs with
  | nil => intro K; simp [AddsOk]
  | cons iv ivs ih =>
    intro K
    simp only [AddsOk, ih, List.map_cons, List.nodup_cons, List.mem_cons, coreOf,
      List.mem_map, forall_eq_or_imp, not_or, not_exists, not_and]
    constructor
    · rintro ⟨h1, h2, h3⟩
      refine ⟨⟨?_, h2⟩, h1, fun x hx => (h3 x hx).2⟩
      intro x hx e
      exact (h3 x hx).1 e
    · rintro ⟨⟨h1, h2⟩, h3, h4⟩
      exact ⟨h3, h2, fun x hx => ⟨fun e => h1 x hx e, h4 x hx⟩⟩

theorem addAll_perm : ∀ (ivs : List Interval) (K : List (Interval × Nat)),
    (addAll K ivs).Perm (ivs.map coreOf ++ K) := by
  intro ivs
  induction ivs with
  | nil => intro K; exact List.Perm.refl _
  | cons iv ivs ih =>
    intro K
    refine (ih _).trans ?_
    simp only [List.map_cons, List.cons_append]
    exact List.perm_middle

theorem addAll_length (ivs : List Interval) (K : List (Interval × Nat)) :
    (addAll K ivs).length = K.length + ivs.length := by
  rw [(addAll_perm ivs K).length_eq]
  simp; omega

theorem DelsOk_perm : ∀ (ivs : List Interval) (K K' : List (Interval × Nat)),
    K.Perm K' → DelsOk K ivs → DelsOk K' ivs := by
  intro ivs
  induction ivs with
  | nil => intro K K' _ _; trivial
  | cons iv ivs ih =>
    intro K K' hp h
    refine ⟨fun x hx => h.1 x (hp.symm.subset hx), ih _ _ (hp.filter _) h.2⟩

theorem delAll_perm : ∀ (ivs : List Interval) (K K' : List (Interval × Nat)),
    K.Perm K' → (delAll K ivs).Perm (delAll K' ivs) := by
  intro ivs
  induction ivs with
  | nil => intro K K' hp; exact hp
  | cons iv ivs ih =>
    intro K K' hp
    exact ih _ _ (hp.filter _)

theorem delAll_sub : ∀ (ivs : List Interval) (K : List (Interval × Nat)),
    ∀ x ∈ delAll K ivs, x ∈ K := by
  intro ivs
  induction ivs with
  | nil => intro K x hx; exact hx
  | cons iv ivs ih =>
    intro K x hx
    exact (List.mem_filter.1 (ih _ x hx)).1

theorem Call.apply_length (calls : List Call) (c : Call) (K : List (Interval × Nat)) :
    (c.apply K).length + addCount calls ≤ K.length + addCount (c :: calls) := by
  cases c with
  | Add ivs => simp only [Call.apply, addAll_length, addCount]; omega
  | Delete ivs =>
    have := delAll_length_le ivs K
    simp only [Call.apply, addCount]; omega

theorem Call.apply_wide (c : Call) (K : List (Interval × Nat))
    (hK : ∀ x ∈ K, x.2 < 2 ^ 32) (hc : ∀ iv ∈ c.intervals, iv.ID < 2 ^ 32) :
    ∀ x ∈ c.apply K, x.2 < 2 ^ 32 := by
  cases c with
  | Add ivs =>
    intro x hx
    have hx := (addAll_perm ivs K).subset hx
    rcases List.mem_append.1 hx with h | h
    · obtain ⟨iv, hiv, rfl⟩ := List.mem_map.1 h
      exact hc iv hiv
    · exact hK x h
  | Delete ivs =>
    intro x hx
    exact hK x (delAll_sub ivs K x hx)

theorem contents_wide : ∀ (calls : List Call) (K : List (Interval × Nat)),
    (∀ x ∈ K, x.2 < 2 ^ 32) → CallsWide calls → ∀ x ∈ contents K calls, x.2 < 2 ^ 32 := by
  intro calls
  induction calls with
  | nil => intro K hK _ x hx; exact hK x hx
  | cons c calls ih =>
    intro K hK hw
    exact ih _ (Call.apply_wide c K hK (hw c (List.mem_cons_self _ _)))
      (fun c' hc' => hw c' (List.mem_cons_of_mem _ hc'))

theorem run_good (fuel : Nat) : ∀ (calls : List Call) (tr : tree) (t : T)
    (K : List (Interval × Nat)), Good tr t → t.cores.Perm K → Admissible K calls →
    2 * (K.length + addCount calls) + 2 ≤ fuel →
    ∃ tr' t', tr.run fuel calls = some tr' ∧ Good tr' t' ∧
      t'.cores.Perm (contents K calls) := by
  intro calls
  induction calls with
  | nil =>
    intro tr t K hG hp _ _
    exact ⟨tr, t, rfl, hG, hp⟩
  | cons c calls ih =>
    intro tr t K hG hp hadm hf
    obtain ⟨hok, hrest⟩ := hadm
    have hsz : t.size = K.length := T.size_of_perm hp
    have hlen := Call.apply_length calls c K
    cases c with
    | Add ivs =>
      have hok' := (AddsOk_iff ivs K).1 hok
      have hid : ∀ iv ∈ ivs, iv.ID ∉ t.ids := by
        intro iv hiv hmem
        exact hok'.2 iv hiv ((hp.map Prod.snd).subset hmem)
      have hfa : 2 * (t.size + ivs.length) + 2 ≤ fuel := by
        simp only [addCount] at hf; omega
      obtain ⟨tr1, t1, hAdd, hG1, -, hp1⟩ := Add_good fuel ivs tr t hG hok'.1 hid hfa
      have hp1' : t1.cores.Perm (addAll K ivs) :=
        (hp1.trans (List.Perm.append_left _ hp)).trans (addAll_perm ivs K).symm
      obtain ⟨tr2, t2, hrun, hG2, hp2⟩ := ih tr1 t1 _ hG1 hp1' hrest
        (by simp only [Call.apply] at hlen; omega)
      refine ⟨tr2, t2, ?_, hG2, hp2⟩
      simp only [tree.run, hAdd, Option.bind_eq_bind, Option.some_bind]
      exact hrun
    | Delete ivs =>
      have hok' : DelsOk t.cores ivs := DelsOk_perm ivs K t.cores hp.symm hok
      obtain ⟨tr1, t1, hDel, hG1, hK1, -⟩ :=
        Delete_good fuel ivs tr t hG.1 hG.2.2 hok' (by omega)
      have hp1' : t1.cores.Perm (delAll K ivs) := by
        rw [hK1]; exact delAll_perm ivs _ _ hp
      obtain ⟨tr2, t2, hrun, hG2, hp2⟩ := ih tr1 t1 _ hG1 hp1' hrest
        (by simp only [Call.apply] at hlen; omega)
      refine ⟨tr2, t2, ?_, hG2, hp2⟩
      simp only [tree.run, hDel, Option.bind_eq_bind, Option.some_bind]
      exact hrun

theorem New_run_good (fuel : Nat) (calls : List Call) (hadm : Admissible [] calls)
    (hf : 2 * addCount calls + 2 ≤ fuel) :
    ∃ tr t, New.run fuel calls = some tr ∧ Good tr t ∧ t.cores.Perm (contents [] calls) := by
  refine run_good fuel calls New T.leaf [] New_good ?_ hadm (by simp only [List.length_nil]; omega)
  rw [T.cores_leaf]

theorem Good.size_lt {tr : tree} {t : T} (hG : Good tr t) (hw : ∀ x ∈ t.cores, x.2 < 2 ^ 32) :
    t.size < 2 ^ 64 := by
  have h := length_le_of_nodup_lt t.ids (2 ^ 32) hG.2.2
    (fun x hx => by
      obtain ⟨y, hy, rfl⟩ := (T.mem_ids t x).1 hx
      exact hw y hy)
  have e : t.ids.length = t.size := by rw [T.size_eq_cores]; simp [T.ids]
  rw [e] at h
  exact lt_of_le_of_lt h (by norm_num)

theorem Good.len {tr : tree} {t : T} (hG : Good tr t) (hw : ∀ x ∈ t.cores, x.2 < 2 ^ 32) :
    tr.Len = t.size := by
  have h := hG.size_lt hw
  show tr.number = t.size
  rw [hG.1.2.2]
  exact Nat.mod_eq_of_lt h

/-! ## Consequences of the invariants -/

theorem compare_eq_one_iff (a b : Interval × Nat) :
    compare a.1.Low b.1.Low a.2 b.2 = 1 ↔ coreLt a b := by
  unfold coreLt compare intFromBool
  by_cases h1 : b.1.Low > a.1.Low
  · rw [if_pos h1]
    exact ⟨fun _ => Or.inl h1, fun _ => rfl⟩
  · rw [if_neg h1]
    by_cases h2 : b.1.Low < a.1.Low
    · rw [if_pos h2]
      constructor
      · intro h; exact absurd h (by decide)
      · intro h; exfalso; omega
    · rw [if_neg h2]
      by_cases h3 : b.2 > a.2
      · rw [decide_eq_true h3, if_pos rfl]
        exact ⟨fun _ => Or.inr ⟨by omega, h3⟩, fun _ => rfl⟩
      · rw [decide_eq_false h3]
        constructor
        · intro h; exact absurd h (by decide)
        · intro h; exfalso; omega

theorem T.ordered_of_sorted (t : T) (h : t.cores.Pairwise coreLt) : t.Ordered := by
  induction t with
  | leaf => trivial
  | nd l a d r ihl ihr =>
    rw [T.cores_nd, List.pairwise_append] at h
    obtain ⟨hl, hr, hlr⟩ := h
    rw [List.pairwise_cons] at hr
    refine ⟨?_, ?_, ihl hl, ihr hr.2⟩
    · intro x hx
      exact (compare_eq_one_iff x d.core).2 (hlr x hx d.core (List.mem_cons_self _ _))
    · intro y hy
      exact (compare_eq_one_iff d.core y).2 (hr.1 y hy)

theorem T.intervals_sorted (t : T) (h : t.cores.Pairwise coreLt) (hic : t.IdCached) :
    t.intervals.Pairwise keyLt := by
  rw [T.intervals_eq_cores, List.pairwise_map]
  rw [T.idCached_iff] at hic
  refine List.Pairwise.imp_of_mem ?_ h
  intro a b ha hb hab
  unfold coreLt at hab
  unfold keyLt
  rw [← hic a ha, ← hic b hb]
  exact hab

theorem T.Exact.bounded {t : T} (h : t.Exact) : t.Bounded := by
  induction t with
  | leaf => trivial
  | nd l a d r ihl ihr => exact ⟨h.1.1, ihl h.2.1, ihr h.2.2⟩

theorem Query_rep (tr : tree) (t : T) (q : Interval) (fuel : Nat) (hR : Rep tr t)
    (hb : t.Bounded) (hf : t.height ≤ fuel) :
    tr.Query fuel q = some ((t.intervals.filter (closedOverlap q)).map some) := by
  obtain ⟨hm, hroot, -, -⟩ := hR
  cases t with
  | leaf =>
    simp only [T.ptr] at hroot
    simp [tree.Query, hroot, T.intervals, T.items]
  | nd l a d r =>
    simp only [T.ptr] at hroot
    simp only [tree.Query, hroot]
    cases fuel with
    | zero => simp [T.height] at hf
    | succ fuel =>
      have hiv : (tr.heap.cell a).interval = some d.interval := by rw [hm.1]; rfl
      have h0 : (tr.heap.cell a).c0 = l.ptr := by rw [hm.1]; rfl
      have h1 : (tr.heap.cell a).c1 = r.ptr := by rw [hm.1]; rfl
      simp only [T.height, Nat.add_le_add_iff_right] at hf
      rw [query_succ, h0, h1,
        queryChild_spec tr.heap q l fuel _ hm.2.1 hb.2.1 (le_trans (Nat.le_max_left _ _) hf),
        intervalOverlaps_closed tr.heap q a l r d hm.1]
      simp only [Option.some_bind]
      rw [queryChild_spec tr.heap q r fuel _ hm.2.2 hb.2.2 (le_trans (Nat.le_max_right _ _) hf),
        hiv]
      simp only [T.intervals, T.items, List.map_append, List.map_cons, List.filter_append,
        List.filter_cons, intervalsPoolGet]
      cases closedOverlap q d.interval <;> simp

theorem contents_length_le : ∀ (calls : List Call) (K : List (Interval × Nat)),
    (contents K calls).length ≤ K.length + addCount calls := by
  intro calls
  induction calls with
  | nil => intro K; exact Nat.le_add_right _ _
  | cons c calls ih =>
    intro K
    have h1 := ih (c.apply K)
    have h2 := Call.apply_length calls c K
    simp only [contents]
    omega

theorem deleteT_rb (iv : Interval) (t : T) (fuel : Nat) (hN : t.NoRR) (hB : t.Balanced)
    (hf : t.height < fuel) :
    ∃ t' b, deleteT fuel t iv = some (t', b) ∧ t'.RedBlack := by
  cases t with
  | leaf => exact ⟨T.leaf, false, rfl, ⟨rfl, trivial, trivial⟩⟩
  | nd l n d r =>
    have hI0 : DelRB { ctx := [], focus := T.nd l n d r, found := none } :=
      ⟨hN, hB, trivial, fun f hf => by simp at hf⟩
    obtain ⟨a', hl, hRB, hnone⟩ := delLoopT_inv iv DelRB
      (fun a hI hq => ⟨delStepT_rb iv a hI hq, (delStepT_focus iv a hq hI.2.2.2).2.1⟩)
      fuel _ hI0 hf
    obtain ⟨u1, u2⟩ := delUnlinkT_rb a' hRB hnone
    exact ⟨(delUnlinkT a').1.blacken, (delUnlinkT a').2, by simp only [deleteT, hl],
      T.redBlack_blacken _ u1 u2⟩

theorem eraseId_perm (K : List (Interval × Nat)) (iv : Interval)
    (hnd : (K.map Prod.snd).Nodup) (x : Interval × Nat) (hx : x ∈ K) (hid : x.2 = iv.ID) :
    K.Perm (x :: eraseId K iv) := by
  obtain ⟨L, R, rfl⟩ := List.append_of_mem hx
  unfold eraseId
  rw [filter_id_mid iv L R x hid hnd]
  exact List.perm_middle

theorem eraseId_absent (K : List (Interval × Nat)) (iv : Interval)
    (h : ∀ x ∈ K, x.2 ≠ iv.ID) : eraseId K iv = K :=
  List.filter_eq_self.2 (fun x hx => by simpa using h x hx)

theorem eraseId_not_mem (K : List (Interval × Nat)) (iv : Interval) :
    iv.ID ∉ (eraseId K iv).map Prod.snd := by
  intro h
  obtain ⟨x, hx, e⟩ := List.mem_map.1 h
  have := (List.mem_filter.1 hx).2
  simp [e] at this

theorem Delete_one (fuel : Nat) (tr : tree) (t : T) (iv : Interval) (hG : Good tr t)
    (hok : DelOk t.cores iv) (hf : t.size < fuel) :
    ∃ tr' t', tr.Delete fuel [iv] = some tr' ∧ Good tr' t' ∧
      t'.cores = eraseId t.cores iv ∧ tr'.heap.next = tr.heap.next :=
  Delete_good fuel [iv] tr t hG.1 hG.2.2 ⟨hok, trivial⟩ hf

theorem T.cores_eq_map_coreOf (t : T) (h : t.IdCached) : t.cores = t.intervals.map coreOf := by
  rw [T.intervals_eq_cores, List.map_map]
  rw [T.idCached_iff] at h
  conv_lhs => rw [← List.map_id t.cores]
  refine List.map_congr_left ?_
  intro x hx
  show x = (x.1, x.1.ID)
  rw [← h x hx]

theorem T.eq_leaf_of_cores {t : T} (h : t.cores = []) : t = T.leaf := by
  cases t with
  | leaf => rfl
  | nd l a d r => rw [T.cores_nd] at h; simp at h

theorem DelsOk_all : ∀ (ivs : List Interval) (K : List (Interval × Nat)),
    (K.map Prod.snd).Nodup → (ivs.map coreOf).Perm K → DelsOk K ivs ∧ delAll K ivs = [] := by
  intro ivs
  induction ivs with
  | nil =>
    intro K _ hp
    exact ⟨trivial, (List.Perm.nil_eq hp).symm⟩
  | cons iv ivs ih =>
    intro K hnd hp
    have hmem : coreOf iv ∈ K := hp.subset (List.mem_cons_self _ _)
    have hp2 : K.Perm (coreOf iv :: eraseId K iv) := eraseId_perm K iv hnd _ hmem rfl
    have hp3 : (ivs.map coreOf).Perm (eraseId K iv) :=
      List.Perm.cons_inv (hp.trans hp2)
    have hnd2 : ((eraseId K iv).map Prod.snd).Nodup :=
      List.Nodup.sublist (List.Sublist.map _ (List.filter_sublist _)) hnd
    obtain ⟨h1, h2⟩ := ih _ hnd2 hp3
    refine ⟨⟨?_, h1⟩, h2⟩
    intro x hx e
    rw [core_eq_of_ids_nodup hnd hx hmem e]
    rfl

theorem deletes_admissible : ∀ (dcalls : List (List Interval)) (K : List (Interval × Nat)),
    DelsOk K dcalls.flatten →
    Admissible K (dcalls.map Call.Delete) ∧
      contents K (dcalls.map Call.Delete) = delAll K dcalls.flatten ∧
      addCount (dcalls.map Call.Delete) = 0 := by
  have happ : ∀ (a b : List Interval) (K : List (Interval × Nat)),
      DelsOk K (a ++ b) → DelsOk K a ∧ DelsOk (delAll K a) b ∧
        delAll K (a ++ b) = delAll (delAll K a) b := by
    intro a
    induction a with
    | nil => intro b K h; exact ⟨trivial, h, rfl⟩
    | cons x a ih =>
      intro b K h
      obtain ⟨h1, h2, h3⟩ := ih b _ h.2
      exact ⟨⟨h.1, h1⟩, h2, h3⟩
  intro dcalls
  induction dcalls with
  | nil => intro K _; exact ⟨trivial, rfl, rfl⟩
  | cons ivs dcalls ih =>
    intro K h
    simp only [List.flatten_cons] at h
    obtain ⟨h1, h2, h3⟩ := happ ivs dcalls.flatten K h
    obtain ⟨i1, i2, i3⟩ := ih _ h2
    refine ⟨⟨h1, i1⟩, ?_, i3⟩
    simp only [List.map_cons, contents, Call.apply, List.flatten_cons]
    rw [i2, h3]

theorem Good.wide_of_perm {tr : tree} {t : T} (_hG : Good tr t) {K : List (Interval × Nat)}
    (hp : t.cores.Perm K) (hw : ∀ x ∈ K, x.2 < 2 ^ 32) : ∀ x ∈ t.cores, x.2 < 2 ^ 32 :=
  fun x hx => hw x (hp.subset hx)

theorem Good.empty {tr : tree} {t : T} (hG : Good tr t) (h : t.cores = []) :
    tr.Len = 0 ∧ tr.root = none := by
  have hl := T.eq_leaf_of_cores h
  subst hl
  exact ⟨hG.1.2.2, hG.1.1.2.1⟩

/-! ## `Delete` of one interval -/

theorem Delete_absent (fuel : Nat) (tr : tree) (t : T) (iv : Interval) (hG : Good tr t)
    (hid : ∀ x ∈ t.cores, x.2 ≠ iv.ID) (hf : t.size < fuel) :
    ∃ tr' t', tr.Delete fuel [iv] = some tr' ∧ Good tr' t' ∧ t'.cores = t.cores ∧
      tr'.Len = tr.Len ∧ tr'.heap.next = tr.heap.next := by
  obtain ⟨tr', t', hD, hG', hK, hn⟩ :=
    Delete_one fuel tr t iv hG (fun x hx e => absurd e (hid x hx)) hf
  rw [eraseId_absent _ _ hid] at hK
  refine ⟨tr', t', hD, hG', hK, ?_, hn⟩
  show tr'.number = tr.number
  rw [hG'.1.2.2, hG.1.2.2, T.size_eq_cores, T.size_eq_cores, hK]

theorem Delete_stored (fuel : Nat) (tr : tree) (t : T) (iv s : Interval) (hG : Good tr t)
    (hw : ∀ x ∈ t.cores, x.2 < 2 ^ 32) (hs : coreOf s ∈ t.cores) (hid : s.ID = iv.ID)
    (hlow : s.Low = iv.Low) (hf : t.size < fuel) :
    ∃ tr' t', tr.Delete fuel [iv] = some tr' ∧ Good tr' t' ∧
      t'.cores = eraseId t.cores iv ∧ tr'.Len + 1 = tr.Len ∧
      t.intervals.Perm (s :: t'.intervals) ∧ ∀ x ∈ t'.intervals, x.ID ≠ iv.ID := by
  have hnd : (t.cores.map Prod.snd).Nodup := hG.2.2
  have hok : DelOk t.cores iv := by
    intro x hx e
    have e' : x.2 = (coreOf s).2 := e.trans hid.symm
    rw [core_eq_of_ids_nodup hnd hx hs e']
    exact hlow
  obtain ⟨tr', t', hD, hG', hK, -⟩ := Delete_one fuel tr t iv hG hok hf
  have hperm : t.cores.Perm (coreOf s :: t'.cores) := by
    rw [hK]; exact eraseId_perm _ iv hnd _ hs hid
  have hw' : ∀ x ∈ t'.cores, x.2 < 2 ^ 32 := by
    intro x hx
    rw [hK] at hx
    exact hw x (List.mem_filter.1 hx).1
  refine ⟨tr', t', hD, hG', hK, ?_, ?_, ?_⟩
  · rw [hG.len hw, hG'.len hw', T.size_of_perm hperm, T.size_eq_cores]
    rfl
  · rw [T.intervals_eq_cores, T.intervals_eq_cores]
    exact hperm.map Prod.fst
  · intro x hx e
    rw [T.intervals_eq_cores] at hx
    obtain ⟨c, hc, rfl⟩ := List.mem_map.1 hx
    have hic := (T.idCached_iff t').1 hG'.1.2.1.2.2 c hc
    rw [hK] at hc
    have := (List.mem_filter.1 hc).2
    simp only [ne_eq, decide_not, Bool.not_eq_eq_eq_not, Bool.not_true,
      decide_eq_false_iff_not] at this
    exact this (hic.trans e)

theorem adds_as_calls (fuel : Nat) (calls : List (List Interval))
    (hnd : (calls.flatten.map Interval.ID).Nodup) (hf : 2 * calls.flatten.length + 2 ≤ fuel) :
    ∃ tr t, New.run fuel (calls.map Call.Add) = some tr ∧ Good tr t ∧
      t.cores.Perm (calls.flatten.map coreOf) ∧ t.size < fuel := by
  obtain ⟨tr, t, hrun, hG, hp⟩ := New_run_adds fuel calls hnd hf
  refine ⟨tr, t, hrun, hG, hp, ?_⟩
  rw [T.size_of_perm hp, List.length_map]
  omega

/-! ## Claims on sequences of `Add` and `Delete` -/

/-- C2: starting from `New()`, every sequence of calls in which each `Add` is of ids
that are not stored at that moment and each `Delete` is of intervals that are stored
(same low bound and id) or whose id is not stored returns, and the tree then
satisfies the red-black invariants: the root is black, no red node has a red child,
and every path from a node to an absent child link has the same number of black
nodes. -/
theorem c2_red_black_after_calls (fuel : Nat) (calls : List Call)
    (hadm : Admissible [] calls) (hf : 2 * addCount calls + 2 ≤ fuel) :
    ∃ tr t, New.run fuel calls = some tr ∧ Rep tr t ∧
      t.isRed = false ∧ t.NoRR ∧ t.Balanced := by
  obtain ⟨tr, t, hrun, hG, -⟩ := New_run_good fuel calls hadm hf
  exact ⟨tr, t, hrun, hG.1.1, hG.1.2.1.1⟩

/-- C2 on a sequence of two `Add` and two `Delete` calls. -/
theorem c2_scenario :
    ∃ tr t, New.run 12 demoCalls = some tr ∧ Rep tr t ∧
      t.isRed = false ∧ t.NoRR ∧ t.Balanced :=
  c2_red_black_after_calls 12 demoCalls (by decide) (by decide)

/-- C3: starting from `New()`, after every sequence of calls within the contract
(`Add` of ids not stored, `Delete` of stored intervals, or of ids not stored) the
`max` of every node is the largest high bound, and its `min` the smallest low bound,
among its own interval and the intervals of both its subtrees. -/
theorem c3_aggregates_exact_after_calls (fuel : Nat) (calls : List Call)
    (hadm : Admissible [] calls) (hf : 2 * addCount calls + 2 ≤ fuel) :
    ∃ tr t, New.run fuel calls = some tr ∧ Rep tr t ∧ t.Exact := by
  obtain ⟨tr, t, hrun, hG, -⟩ := New_run_good fuel calls hadm hf
  exact ⟨tr, t, hrun, hG.1.1, hG.2.1.exact⟩

/-- C3 on a sequence of two `Add` and two `Delete` calls. -/
theorem c3_scenario :
    ∃ tr t, New.run 12 demoCalls = some tr ∧ Rep tr t ∧ t.Exact :=
  c3_aggregates_exact_after_calls 12 demoCalls (by decide) (by decide)

/-- C17: starting from `New()`, after every sequence of calls within the contract the
stored intervals in order (left subtree, node, right subtree) are strictly ascending
in (low, id); at every node `compare` places the keys of the left subtree before the
key of the node and those of the right subtree after it; and `Query` returns, for
every probe, the overlapping intervals in ascending (low, id) order. -/
theorem c17_search_tree_order (fuel : Nat) (calls : List Call)
    (hadm : Admissible [] calls) (hf : 2 * addCount calls + 2 ≤ fuel) :
    ∃ tr t, New.run fuel calls = some tr ∧ Rep tr t ∧
      t.intervals.Pairwise keyLt ∧ t.Ordered ∧
      ∀ q : Interval,
        tr.Query fuel q = some ((t.intervals.filter (closedOverlap q)).map some) ∧
          (t.intervals.filter (closedOverlap q)).Pairwise keyLt := by
  obtain ⟨tr, t, hrun, hG, hp⟩ := New_run_good fuel calls hadm hf
  have hs : t.intervals.Pairwise keyLt := T.intervals_sorted t hG.1.2.1.2.1 hG.1.2.1.2.2
  have hsz : t.height ≤ fuel := by
    have h1 := T.height_le_size t
    have h2 := contents_length_le calls []
    rw [T.size_of_perm hp] at h1
    simp only [List.length_nil] at h2
    omega
  refine ⟨tr, t, hrun, hG.1.1, hs, T.ordered_of_sorted t hG.1.2.1.2.1, fun q => ⟨?_, ?_⟩⟩
  · exact Query_rep tr t q fuel hG.1.1 hG.2.1.exact.bounded hsz
  · exact List.Pairwise.sublist (List.filter_sublist _) hs

/-- C17 on a sequence of two `Add` and two `Delete` calls. -/
theorem c17_scenario :
    ∃ tr t, New.run 12 demoCalls = some tr ∧ Rep tr t ∧
      t.intervals.Pairwise keyLt ∧ t.Ordered ∧
      ∀ q : Interval,
        tr.Query 12 q = some ((t.intervals.filter (closedOverlap q)).map some) ∧
          (t.intervals.filter (closedOverlap q)).Pairwise keyLt :=
  c17_search_tree_order 12 demoCalls (by decide) (by decide)

/-- C6: on a tree built from `New()` by calls within the contract (ids fitting
`uint32`), `Delete(iv)` of a stored interval `iv` returns and removes exactly that
interval: `Len()` decreases by one and the stored intervals are the previous ones
minus `iv`.  Deleting all stored intervals, in any order and in any number of
`Delete` calls, leaves `Len() = 0` and no root. -/
theorem c6_Delete_removes_exactly (fuel : Nat) (calls : List Call) (iv : Interval)
    (hadm : Admissible [] calls) (hw : CallsWide calls)
    (hst : coreOf iv ∈ contents [] calls) (hf : 2 * addCount calls + 2 ≤ fuel) :
    ∃ tr t tr' t', New.run fuel calls = some tr ∧ Rep tr t ∧
      t.cores.Perm (contents [] calls) ∧
      tr.Delete fuel [iv] = some tr' ∧ Rep tr' t' ∧ tr'.Len + 1 = tr.Len ∧
      t.intervals.Perm (iv :: t'.intervals) ∧
      ∀ dcalls : List (List Interval), dcalls.flatten.Perm t.intervals →
        ∃ tr0, tr.run fuel (dcalls.map Call.Delete) = some tr0 ∧ tr0.Len = 0 ∧
          tr0.root = none := by
  obtain ⟨tr, t, hrun, hG, hp⟩ := New_run_good fuel calls hadm hf
  have hwt : ∀ x ∈ t.cores, x.2 < 2 ^ 32 := fun x hx =>
    contents_wide calls [] (fun y hy => by simp at hy) hw x (hp.subset hx)
  have hsz : t.size ≤ addCount calls := by
    have h2 := contents_length_le calls []
    rw [T.size_of_perm hp]
    simp only [List.length_nil] at h2
    omega
  obtain ⟨tr', t', hD, hG', -, hlen, hpi, -⟩ :=
    Delete_stored fuel tr t iv iv hG hwt (hp.symm.subset hst) rfl rfl (by omega)
  refine ⟨tr, t, tr', t', hrun, hG.1.1, hp, hD, hG'.1.1, hlen, hpi, ?_⟩
  intro dcalls hpd
  have hcm : (dcalls.flatten.map coreOf).Perm t.cores := by
    rw [T.cores_eq_map_coreOf t hG.1.2.1.2.2]; exact hpd.map _
  obtain ⟨d1, d2⟩ := DelsOk_all dcalls.flatten t.cores hG.2.2 hcm
  obtain ⟨a1, a2, a3⟩ := deletes_admissible dcalls t.cores d1
  obtain ⟨tr0, t0, hr0, hG0, hp0⟩ := run_good fuel _ tr t t.cores hG (List.Perm.refl _) a1
    (by rw [a3, ← T.size_eq_cores]; omega)
  rw [a2, d2] at hp0
  obtain ⟨e1, e2⟩ := hG0.empty (List.Perm.eq_nil hp0)
  exact ⟨tr0, hr0, e1, e2⟩

/-- C6 on the scenario: `(5,15,2)` deleted from the tree of the three additions. -/
theorem c6_scenario :
    ∃ tr t tr' t',
      New.run 8 [Call.Add [⟨10, 20, 1⟩, ⟨5, 15, 2⟩, ⟨30, 40, 3⟩]] = some tr ∧ Rep tr t ∧
      t.cores.Perm (contents [] [Call.Add [⟨10, 20, 1⟩, ⟨5, 15, 2⟩, ⟨30, 40, 3⟩]]) ∧
      tr.Delete 8 [⟨5, 15, 2⟩] = some tr' ∧ Rep tr' t' ∧ tr'.Len + 1 = tr.Len ∧
      t.intervals.Perm (⟨5, 15, 2⟩ :: t'.intervals) ∧
      ∀ dcalls : List (List Interval), dcalls.flatten.Perm t.intervals →
        ∃ tr0, tr.run 8 (dcalls.map Call.Delete) = some tr0 ∧ tr0.Len = 0 ∧
          tr0.root = none :=
  c6_Delete_removes_exactly 8 [Call.Add [⟨10, 20, 1⟩, ⟨5, 15, 2⟩, ⟨30, 40, 3⟩]] ⟨5, 15, 2⟩
    (by decide) (by decide) (by decide) (by decide)

/-- C10: on a tree built from `New()` by calls of `Add` with pairwise distinct ids,
`Delete` of an interval whose id is not stored returns, and `Len()` and the multiset
of stored intervals are unchanged. -/
theorem c10_Delete_absent_id_keeps_contents (fuel : Nat) (calls : List (List Interval))
    (iv : Interval) (hnd : (calls.flatten.map Interval.ID).Nodup)
    (hid : iv.ID ∉ calls.flatten.map Interval.ID)
    (hf : 2 * calls.flatten.length + 2 ≤ fuel) :
    ∃ tr t tr' t', New.run fuel (calls.map Call.Add) = some tr ∧ Rep tr t ∧
      tr.Delete fuel [iv] = some tr' ∧ Rep tr' t' ∧ tr'.Len = tr.Len ∧
      t'.intervals.Perm t.intervals := by
  obtain ⟨tr, t, hrun, hG, hp, hsz⟩ := adds_as_calls fuel calls hnd hf
  have hno : ∀ x ∈ t.cores, x.2 ≠ iv.ID := by
    intro x hx e
    obtain ⟨y, hy, rfl⟩ := List.mem_map.1 (hp.subset hx)
    exact hid (List.mem_map.2 ⟨y, hy, e⟩)
  obtain ⟨tr', t', hD, hG', hK, hlen, -⟩ := Delete_absent fuel tr t iv hG hno hsz
  refine ⟨tr, t, tr', t', hrun, hG.1.1, hD, hG'.1.1, hlen, ?_⟩
  rw [T.intervals_eq_cores, T.intervals_eq_cores, hK]

/-- C10 on the scenario: `Delete` of `(50,60,9)` after the three additions. -/
theorem c10_scenario :
    ∃ tr t tr' t',
      New.run 8 ([[⟨10, 20, 1⟩, ⟨5, 15, 2⟩], [⟨30, 40, 3⟩]].map Call.Add) = some tr ∧
      Rep tr t ∧ tr.Delete 8 [⟨50, 60, 9⟩] = some tr' ∧ Rep tr' t' ∧ tr'.Len = tr.Len ∧
      t'.intervals.Perm t.intervals :=
  c10_Delete_absent_id_keeps_contents 8 [[⟨10, 20, 1⟩, ⟨5, 15, 2⟩], [⟨30, 40, 3⟩]] ⟨50, 60, 9⟩
    (by decide) (by decide) (by decide)

/-- C11, as it holds: on a tree built from `New()` by calls of `Add` with pairwise
distinct ids, `Delete` of an interval whose id is not stored returns and leaves the
stored intervals and ids in order, `Len()`, the red-black invariants and the
exactness of every `min`/`max` in place, and allocates no node.  (The root, the
links, the colours and the `min`/`max` of single nodes are not preserved: the
descent of `delete` rebalances on its way down.) -/
theorem c11_Delete_absent_id_keeps_order_and_invariants (fuel : Nat)
    (calls : List (List Interval)) (iv : Interval)
    (hnd : (calls.flatten.map Interval.ID).Nodup)
    (hid : iv.ID ∉ calls.flatten.map Interval.ID)
    (hf : 2 * calls.flatten.length + 2 ≤ fuel) :
    ∃ tr t tr' t', New.run fuel (calls.map Call.Add) = some tr ∧ Rep tr t ∧
      tr.Delete fuel [iv] = some tr' ∧ Rep tr' t' ∧
      t'.cores = t.cores ∧ t'.RedBlack ∧ t'.Exact ∧ tr'.Len = tr.Len ∧
      tr'.heap.next = tr.heap.next := by
  obtain ⟨tr, t, hrun, hG, hp, hsz⟩ := adds_as_calls fuel calls hnd hf
  have hno : ∀ x ∈ t.cores, x.2 ≠ iv.ID := by
    intro x hx e
    obtain ⟨y, hy, rfl⟩ := List.mem_map.1 (hp.subset hx)
    exact hid (List.mem_map.2 ⟨y, hy, e⟩)
  obtain ⟨tr', t', hD, hG', hK, hlen, hn⟩ := Delete_absent fuel tr t iv hG hno hsz
  exact ⟨tr, t, tr', t', hrun, hG.1.1, hD, hG'.1.1, hK, hG'.1.2.1.1, hG'.2.1.exact, hlen, hn⟩

/-- C11 on the scenario: `Delete` of `(30,40,3)` after `Add` of `(10,20,1)` and
`(5,15,2)`. -/
theorem c11_scenario :
    ∃ tr t tr' t',
      New.run 6 ([[⟨10, 20, 1⟩, ⟨5, 15, 2⟩]].map Call.Add) = some tr ∧ Rep tr t ∧
      tr.Delete 6 [⟨30, 40, 3⟩] = some tr' ∧ Rep tr' t' ∧
      t'.cores = t.cores ∧ t'.RedBlack ∧ t'.Exact ∧ tr'.Len = tr.Len ∧
      tr'.heap.next = tr.heap.next :=
  c11_Delete_absent_id_keeps_order_and_invariants 6 [[⟨10, 20, 1⟩, ⟨5, 15, 2⟩]] ⟨30, 40, 3⟩
    (by decide) (by decide) (by decide)

/-- C11 as stated fails: after `Add` of `(10,20,1)` and `(5,15,2)` to `New()` the
memory holds `pairT` (root `(10,20,1)`, black, at address 1, with the red left child
`(5,15,2)`); `Delete` of `(30,40,3)`, whose id is not stored, returns a tree in
memory that is `pairRotatedT`: the root is now the node `(5,15,2)` at address 2, it
is black with `max = 20`, and `(10,20,1)` is its red right child with `min = 10`. -/
theorem c11_Delete_absent_id_rotates :
    ∃ tr tr', New.Add 6 [⟨10, 20, 1⟩, ⟨5, 15, 2⟩] = some tr ∧
      tr.Delete 6 [⟨30, 40, 3⟩] = some tr' ∧ Rep tr pairT ∧ Rep tr' pairRotatedT ∧
      tr.root = some 1 ∧ tr'.root = some 2 ∧ (3 : Nat) ∉ pairT.ids :=
  ⟨_, _, rfl, rfl, by decide, by decide, by decide, by decide, by decide⟩

/-- C12, as it holds: on a tree built from `New()` by calls of `Add` with pairwise
distinct ids (fitting `uint32`), for every interval `iv` that has the id and the low
bound of a stored interval `s` (whatever high bound `iv` carries), `Delete(iv)`
returns; after it no stored interval has that id, `Len()` has decreased by one, and
the stored intervals are the previous ones without `s`. -/
theorem c12_Delete_by_id_and_low (fuel : Nat) (calls : List (List Interval))
    (iv s : Interval) (hnd : (calls.flatten.map Interval.ID).Nodup)
    (hw : ∀ x ∈ calls.flatten, x.ID < 2 ^ 32) (hs : s ∈ calls.flatten)
    (hid : s.ID = iv.ID) (hlow : s.Low = iv.Low)
    (hf : 2 * calls.flatten.length + 2 ≤ fuel) :
    ∃ tr t tr' t', New.run fuel (calls.map Call.Add) = some tr ∧ Rep tr t ∧
      tr.Delete fuel [iv] = some tr' ∧ Rep tr' t' ∧
      (∀ x ∈ t'.intervals, x.ID ≠ iv.ID) ∧ tr'.Len + 1 = tr.Len ∧
      t.intervals.Perm (s :: t'.intervals) := by
  obtain ⟨tr, t, hrun, hG, hp, hsz⟩ := adds_as_calls fuel calls hnd hf
  have hwt : ∀ x ∈ t.cores, x.2 < 2 ^ 32 := by
    intro x hx
    obtain ⟨y, hy, rfl⟩ := List.mem_map.1 (hp.subset hx)
    exact hw y hy
  obtain ⟨tr', t', hD, hG', -, hlen, hpi, hno⟩ :=
    Delete_stored fuel tr t iv s hG hwt (hp.symm.subset (List.mem_map_of_mem _ hs)) hid hlow hsz
  exact ⟨tr, t, tr', t', hrun, hG.1.1, hD, hG'.1.1, hno, hlen, hpi⟩

/-- C12 on the scenario: `Delete` of `(5,99,2)`, which has the low bound and the id
of the stored `(5,15,2)` and another high bound. -/
theorem c12_scenario :
    ∃ tr t tr' t',
      New.run 8 ([[⟨10, 20, 1⟩, ⟨5, 15, 2⟩], [⟨30, 40, 3⟩]].map Call.Add) = some tr ∧
      Rep tr t ∧ tr.Delete 8 [⟨5, 99, 2⟩] = some tr' ∧ Rep tr' t' ∧
      (∀ x ∈ t'.intervals, x.ID ≠ (⟨5, 99, 2⟩ : Interval).ID) ∧ tr'.Len + 1 = tr.Len ∧
      t.intervals.Perm (⟨5, 15, 2⟩ :: t'.intervals) :=
  c12_Delete_by_id_and_low 8 [[⟨10, 20, 1⟩, ⟨5, 15, 2⟩], [⟨30, 40, 3⟩]] ⟨5, 99, 2⟩ ⟨5, 15, 2⟩
    (by decide) (by decide) (by decide) (by decide) (by decide) (by decide)

/-- C12 as stated fails: after `Add` of `(10,20,1)`, `(5,15,2)`, `(30,40,3)` to
`New()` (the memory holds `scenarioT`), `Delete` of `(50,60,2)`, which has the id of
the stored `(5,15,2)` and another low bound, descends to the right of `(10,20,1)` and
of `(30,40,3)`, never meets the node with id 2, and removes nothing: the memory
holds `scenarioT` again, `(5,15,2)` is still stored and `Len()` is still 3. -/
theorem c12_Delete_other_low_removes_nothing :
    ∃ tr tr', New.Add 8 [⟨10, 20, 1⟩, ⟨5, 15, 2⟩, ⟨30, 40, 3⟩] = some tr ∧
      tr.Delete 8 [⟨50, 60, 2⟩] = some tr' ∧ Rep tr scenarioT ∧ Rep tr' scenarioT ∧
      (⟨5, 15, 2⟩ : Interval) ∈ scenarioT.intervals ∧ tr.Len = 3 ∧ tr'.Len = 3 :=
  ⟨_, _, rfl, rfl, by decide, by decide, by decide, by decide, by decide⟩

/-- C14 fails on a truncation inside the count: the tree with the single interval
`(10,20,1)` is written as the 30 bytes `oneNodeBytes` (count 1, one node record).  On
the first 7 of these bytes, all zero, the `Read` of the count in `NewFromFile` gets 7
bytes and no error, the count is 0, and the loader returns the `nil` tree with a
`nil` error instead of a decode error. -/
theorem c14_truncated_count_is_accepted :
    (∃ tr, New.Add 4 [⟨10, 20, 1⟩] = some tr ∧ tr.root ≠ none ∧
      WriteToFile 4 tr = some oneNodeBytes) ∧
      oneNodeBytes.take 7 = [0, 0, 0, 0, 0, 0, 0] ∧ oneNodeBytes.take 7 ≠ oneNodeBytes ∧
      NewFromFile 4 (some (oneNodeBytes.take 7)) = Except.ok none :=
  ⟨⟨_, rfl, by decide, by decide⟩, by decide, by decide, rfl⟩

/-- C20: `add` and `delete` are total on red-black trees: for every finite tree in
memory that satisfies the red-black invariants and every interval, `add` and
`delete` return (with any bound on the iterations of at least twice the height plus
two): the loops end and no absent node is dereferenced; the results are again trees
in memory satisfying the red-black invariants. -/
theorem c20_add_delete_total (tr : tree) (t : T) (iv : Interval) (fuel : Nat)
    (hR : Rep tr t) (hrb : t.RedBlack) (hf : 2 * t.height + 2 ≤ fuel) :
    (∃ tr' t', tr.add fuel iv = some tr' ∧ Rep tr' t' ∧ t'.RedBlack) ∧
      ∃ tr' t', tr.delete fuel iv = some tr' ∧ Rep tr' t' ∧ t'.RedBlack := by
  constructor
  · obtain ⟨t', c, hadd, hrb'⟩ := addT_total iv tr.heap.next t fuel hrb hf
    obtain ⟨tr', h1, h2, -⟩ := add_sim fuel tr iv t t' c hR hadd
    exact ⟨tr', t', h1, h2, hrb'⟩
  · obtain ⟨t', b, hdel, hrb'⟩ := deleteT_rb iv t fuel hrb.2.1 hrb.2.2 (by omega)
    obtain ⟨tr', h1, h2, -⟩ := delete_sim fuel tr iv t t' b hR hdel
    exact ⟨tr', t', h1, h2, hrb'⟩

/-- C20 on the tree of the scenario, with an interval that is not stored. -/
theorem c20_scenario :
    (∃ tr' t', scenarioTree.add 6 ⟨7, 9, 4⟩ = some tr' ∧ Rep tr' t' ∧ t'.RedBlack) ∧
      ∃ tr' t', scenarioTree.delete 6 ⟨7, 9, 4⟩ = some tr' ∧ Rep tr' t' ∧ t'.RedBlack :=
  c20_add_delete_total scenarioTree scenarioT ⟨7, 9, 4⟩ 6 (by decide) (by decide) (by decide)

/-! ## The descent of `add` on the stored intervals, whatever the aggregates -/

theorem visit_ptr (iv : Interval) (fresh : Nat) (t : T) :
    (bumpT iv (visitT iv fresh t)).ptr ≠ none := by
  cases t with
  | leaf => simp [visitT, bumpT, T.ptr]
  | nd l n d r =>
    have h : ∀ u : T, u.ptr ≠ none → (bumpT iv u).ptr ≠ none := by
      intro u hu
      cases u with
      | leaf => exact absurd rfl hu
      | nd _ _ _ _ => simp [bumpT, T.ptr]
    apply h
    simp only [visitT]
    unfold flipT
    split
    · split <;> simp [T.ptr]
    · simp [T.ptr]

theorem fixT_ptr (a : AddAbs) (q : T) {ctx : List Frame} {w : T} {ps gs hs : Bool}
    (hq : q.ptr ≠ none) (hfix : fixT a q = some (ctx, w, ps, gs, hs)) : w.ptr ≠ none := by
  rcases fixT_cases a q hfix with ⟨-, e2⟩ | ⟨fp, fg, rest, -, -, -, e2⟩ |
    ⟨fp, fg, rest, -, -, -, e2, -⟩
  · rw [e2]; exact hq
  · rw [e2]; exact hq
  · rw [e2]
    unfold Frame.plug
    split <;> simp [T.ptr]

theorem addStepT_c (iv : Interval) (fresh : Nat) (a : AddAbs) (K : List (Interval × Nat))
    (h : AddC iv K a) :
    (∀ a', addStepT iv fresh a = some (Sum.inl a') → AddC iv K a') ∧
    (∀ t' c, addStepT iv fresh a = some (Sum.inr (t', c)) →
      c = decide (a.focus.ptr = none) ∧
      t'.cores = (plug a.ctx (visitT iv fresh a.focus)).cores ∧
      (a.focus.ptr ≠ none → ∃ x ∈ K, x.2 = iv.ID)) := by
  obtain ⟨hK, hD, hI, hne⟩ := h
  refine ⟨?_, ?_⟩
  · intro a' hstep
    unfold addStepT at hstep
    split at hstep
    · exact absurd hstep (by simp)
    split at hstep
    · exact absurd hstep (by simp)
    rename_i ctx w ps gs hs hfix
    split at hstep
    · exact absurd hstep (by simp)
    rename_i hid
    simp only [Option.some.injEq, Sum.inl.injEq] at hstep
    subst hstep
    obtain ⟨c1, c2⟩ := fixT_cores a _ hD.le_one hfix
    obtain ⟨d1, d2⟩ := fixT_dirs iv a _ hD hI hfix
    have hnl : a.focus.ptr ≠ none := fun hl => hid (fixT_leaf_id iv fresh a hl hfix)
    have hw := fixT_ptr a _ (visit_ptr iv fresh a.focus) hfix
    cases w with
    | leaf => exact absurd rfl hw
    | nd l n d r =>
      have hi := compare_le_one (T.nd l n d r).item.interval.Low iv.Low (T.nd l n d r).item.id
        iv.ID
      refine ⟨?_, ?_, ?_, fun _ => by simp⟩
      · show (plug ctx (((T.nd l n d r).frame _).plug ((T.nd l n d r).child _))).cores = K
        rw [T.frame_plug_child l r n d _ hi, c1, ← hK]
        refine plug_cores_congr _ ?_
        rw [T.cores_bumpT]
        cases hf : a.focus with
        | leaf => rw [hf] at hnl; exact absurd rfl hnl
        | nd _ _ _ _ => exact T.cores_flipT _
      · intro f hf
        rcases List.mem_cons.1 hf with e | e
        · rw [e]; rfl
        · exact d1 f e
      · intro f hf
        rcases List.mem_cons.1 hf with e | e
        · rw [e]; exact hid
        · exact d2 f e
  · intro t' c hstep
    unfold addStepT at hstep
    split at hstep
    · exact absurd hstep (by simp)
    split at hstep
    · exact absurd hstep (by simp)
    rename_i ctx w ps gs hs hfix
    split at hstep
    swap
    · exact absurd hstep (by simp)
    rename_i hid
    simp only [Option.some.injEq, Sum.inr.injEq, Prod.mk.injEq] at hstep
    obtain ⟨e1, e2⟩ := hstep
    subst e1
    obtain ⟨c1, c2⟩ := fixT_cores a _ hD.le_one hfix
    obtain ⟨i1, i2⟩ := fixT_item a _ hfix
    refine ⟨e2.symm, ?_, ?_⟩
    · rw [c1]
      exact plug_cores_congr _ (T.cores_bumpT _ _)
    · intro hnl
      cases hf : a.focus with
      | leaf => rw [hf] at hnl; exact absurd rfl hnl
      | nd l n d r =>
        have hc : (bumpT iv (visitT iv fresh a.focus)).item.core = (T.nd l n d r).item.core := by
          rw [hf, T.item_bumpT_core]; exact T.item_flipT_core _
        refine ⟨(T.nd l n d r).item.core, ?_, ?_⟩
        · rw [← hK, plug_cores, hf]
          simp only [List.mem_append]
          exact Or.inl (Or.inr (T.item_core_mem _ (by simp [T.ptr])))
        · rw [← hc]
          show (bumpT iv (visitT iv fresh a.focus)).item.id = iv.ID
          rw [← i1]; exact hid

theorem addLoopT_c (iv : Interval) (fresh : Nat) (K : List (Interval × Nat))
    (hS : K.Pairwise coreLt) :
    ∀ (fuel : Nat) (a : AddAbs) (t' : T) (c : Bool), AddC iv K a →
      addLoopT iv fresh fuel a = some (t', c) →
      (c = true → ∃ L R, K = L ++ R ∧ t'.cores = L ++ (iv, iv.ID) :: R ∧
        (∀ x ∈ L, coreLt x (iv, iv.ID)) ∧ (∀ x ∈ R, coreLt (iv, iv.ID) x)) ∧
      (c = false → t'.cores = K ∧ ∃ x ∈ K, x.2 = iv.ID) := by
  intro fuel
  induction fuel with
  | zero => intro a t' c _ h; simp [addLoopT] at h
  | succ fuel ih =>
    intro a t' c hI hl
    obtain ⟨s1, s2⟩ := addStepT_c iv fresh a K hI
    unfold addLoopT at hl
    split at hl
    · exact absurd hl (by simp)
    · rename_i tc hstep
      simp only [Option.some.injEq] at hl
      subst hl
      obtain ⟨r1, r2, r4⟩ := s2 _ _ hstep
      obtain ⟨hK, hD, hId, hne⟩ := hI
      refine ⟨?_, ?_⟩
      · intro hc
        rw [r1] at hc
        simp only [decide_eq_true_eq] at hc
        cases hf : a.focus with
        | nd l n d r => rw [hf] at hc; simp [T.ptr] at hc
        | leaf =>
          rw [hf] at r2 hK
          rw [plug_cores] at r2 hK
          simp only [visitT, T.cores_nd, T.cores_leaf, List.nil_append, List.append_nil] at r2 hK
          rw [← hK] at hS
          obtain ⟨b1, b2⟩ := ctx_bounds iv a.ctx hD hId hS
          refine ⟨ctxCL a.ctx, ctxCR a.ctx, hK.symm, ?_, b1, b2⟩
          rw [r2]
          simp [newItem, Item.core]
      · intro hc
        rw [r1] at hc
        simp only [decide_eq_false_iff_not] at hc
        refine ⟨?_, r4 hc⟩
        rw [r2, ← hK]
        refine plug_cores_congr _ ?_
        cases hf : a.focus with
        | leaf => rw [hf] at hc; exact absurd rfl hc
        | nd l n d r => exact T.cores_flipT _
    · rename_i a1 hstep
      exact ih a1 t' c (s1 a1 hstep) hl

theorem addT_cores (iv : Interval) (fresh : Nat) (t : T) (fuel : Nat) (hrb : t.RedBlack)
    (hs : t.cores.Pairwise coreLt) (hf : 2 * t.height + 2 ≤ fuel) :
    ∃ t' c, addT fuel fresh t iv = some (t', c) ∧ t'.RedBlack ∧
      (c = true → ∃ L R, t.cores = L ++ R ∧ t'.cores = L ++ (iv, iv.ID) :: R ∧
        (∀ x ∈ L, coreLt x (iv, iv.ID)) ∧ (∀ x ∈ R, coreLt (iv, iv.ID) x)) ∧
      (c = false → t'.cores = t.cores ∧ ∃ x ∈ t.cores, x.2 = iv.ID) := by
  cases t with
  | leaf =>
    refine ⟨_, true, rfl, ⟨rfl, ?_, ?_⟩, ?_, ?_⟩
    · simp [T.NoRR]
    · simp [T.Balanced]
    · intro _
      exact ⟨[], [], rfl, by simp [T.cores_nd, T.cores_leaf, newItem, Item.core], by simp, by simp⟩
    · intro h; exact absurd h (by simp)
  | nd l n d r =>
    obtain ⟨hr, hn, hb⟩ := hrb
    have hRB : AddRB iv ⟨[], T.nd l n d r, true, true⟩ := by
      refine ⟨hn, hb, trivial, trivial, fun f hf => by simp at hf, Or.inl ⟨rfl, rfl, ?_, ?_⟩,
        fun h => by simp [T.ptr] at h⟩
      · intro h; rw [hr] at h; exact absurd h (by simp)
      · intro f rest e; simp at e
    have hC : AddC iv (T.nd l n d r).cores ⟨[], T.nd l n d r, true, true⟩ :=
      ⟨rfl, fun f hf => by simp at hf, fun f hf => by simp at hf, fun h => by simp [T.ptr] at h⟩
    have hm : addMeasure iv ⟨[], T.nd l n d r, true, true⟩ < fuel := by
      have := pathLen_le_height iv (T.nd l n d r)
      simp only [addMeasure, if_true]
      omega
    obtain ⟨t1, c, hl, hn1, hb1⟩ := addLoopT_rb iv fresh fuel _ hRB hm
    obtain ⟨a2, a3⟩ := addLoopT_c iv fresh _ hs fuel _ t1 c hC hl
    refine ⟨t1.blacken, c, ?_, T.redBlack_blacken t1 hn1 hb1, ?_, ?_⟩
    · simp only [addT, hl]
    · rw [T.cores_blacken]; exact a2
    · rw [T.cores_blacken]; exact a3

/-! ## Calls that carry the stored low bound -/

theorem not_coreLt_same_key {x : Interval × Nat} {iv : Interval} (h1 : x.1.Low = iv.Low)
    (h2 : x.2 = iv.ID) : ¬ coreLt x (iv, iv.ID) ∧ ¬ coreLt (iv, iv.ID) x := by
  unfold coreLt
  dsimp only
  omega

theorem add_keyed (tr : tree) (t : T) (iv : Interval) (fuel : Nat) (hV : Valid tr t)
    (hnd : t.ids.Nodup) (hok : AddOk t.cores iv) (hf : 2 * t.height + 2 ≤ fuel) :
    ∃ tr' t', tr.add fuel iv = some tr' ∧ Valid tr' t' ∧ t'.ids.Nodup ∧
      t'.cores.Perm (addOne t.cores iv) := by
  obtain ⟨hR, ⟨hrb, hs, hic⟩, hnum⟩ := hV
  obtain ⟨t', c, hadd, hrb', hct, hcf⟩ := addT_cores iv tr.heap.next t fuel hrb hs hf
  obtain ⟨tr', hadd', hR', hnum', -, -⟩ := add_sim fuel tr iv t t' c hR hadd
  cases c with
  | true =>
    obtain ⟨L, R, hK, hK', b1, b2⟩ := hct rfl
    have hid : iv.ID ∉ t.ids := by
      intro hmem
      obtain ⟨x, hx, e⟩ := (T.mem_ids t _).1 hmem
      obtain ⟨n1, n2⟩ := not_coreLt_same_key (hok x hx e) e
      rw [hK] at hx
      rcases List.mem_append.1 hx with h | h
      · exact n1 (b1 x h)
      · exact n2 (b2 x h)
    have hone : addOne t.cores iv = coreOf iv :: t.cores := by
      unfold addOne
      exact if_neg hid
    have hp : t'.cores.Perm (coreOf iv :: t.cores) := by
      rw [hK', hK]; exact List.perm_middle
    refine ⟨tr', t', hadd', ⟨hR', ⟨hrb', ?_, ?_⟩, ?_⟩, ?_, by rw [hone]; exact hp⟩
    · unfold T.Sorted
      rw [hK']
      unfold T.Sorted at hs
      rw [hK] at hs
      exact pairwise_insert hs b1 b2
    · rw [T.idCached_iff] at hic ⊢
      intro x hx
      rw [hK'] at hx
      simp only [List.mem_append, List.mem_cons] at hx
      rcases hx with hx | hx | hx
      · exact hic x (by rw [hK]; simp [hx])
      · rw [hx]
      · exact hic x (by rw [hK]; simp [hx])
    · rw [hnum', hnum]
      simp only [if_true]
      rw [T.size_eq_cores, T.size_eq_cores, hK', hK]
      simp only [List.length_append, List.length_cons]
      omega
    · unfold T.ids
      refine (List.Perm.nodup_iff (List.Perm.map Prod.snd hp)).2 ?_
      simp only [List.map_cons, List.nodup_cons]
      exact ⟨hid, hnd⟩
  | false =>
    obtain ⟨hK, x, hx, e⟩ := hcf rfl
    have hid : iv.ID ∈ t.ids := (T.mem_ids t _).2 ⟨x, hx, e⟩
    have hone : addOne t.cores iv = t.cores := by
      unfold addOne
      exact if_pos hid
    refine ⟨tr', t', hadd', ⟨hR', ⟨hrb', ?_, ?_⟩, ?_⟩, ?_, by rw [hone, hK]⟩
    · unfold T.Sorted; rw [hK]; exact hs
    · rw [T.idCached_iff] at hic ⊢
      rw [hK]; exact hic
    · rw [hnum', hnum, T.size_eq_cores, T.size_eq_cores, hK]
      simp
    · unfold T.ids; rw [hK]; exact hnd

theorem addOne_perm {K K' : List (Interval × Nat)} (iv : Interval) (hp : K.Perm K') :
    (addOne K iv).Perm (addOne K' iv) := by
  unfold addOne
  by_cases h : iv.ID ∈ K.map Prod.snd
  · rw [if_pos h, if_pos ((hp.map Prod.snd).subset h)]; exact hp
  · rw [if_neg h, if_neg (fun h' => h ((hp.map Prod.snd).symm.subset h'))]
    exact hp.cons _

theorem addOne_length (K : List (Interval × Nat)) (iv : Interval) :
    (addOne K iv).length ≤ K.length + 1 := by
  unfold addOne
  split
  · omega
  · simp

theorem addOne_mem (K : List (Interval × Nat)) (iv : Interval) (x : Interval × Nat)
    (hx : x ∈ addOne K iv) : x ∈ K ∨ x = coreOf iv := by
  unfold addOne at hx
  split at hx
  · exact Or.inl hx
  · rcases List.mem_cons.1 hx with e | e
    · exact Or.inr e
    · exact Or.inl e

theorem Add_keyed (fuel : Nat) : ∀ (ivs : List Interval) (tr : tree) (t : T)
    (K : List (Interval × Nat)), Valid tr t → t.ids.Nodup → t.cores.Perm K →
    AddsKeyed K ivs → 2 * (K.length + ivs.length) + 2 ≤ fuel →
    ∃ tr' t', tr.Add fuel ivs = some tr' ∧ Valid tr' t' ∧ t'.ids.Nodup ∧
      t'.cores.Perm (addAllK K ivs) := by
  intro ivs
  induction ivs with
  | nil =>
    intro tr t K hV hnd hp _ _
    exact ⟨tr, t, rfl, hV, hnd, hp⟩
  | cons iv ivs ih =>
    intro tr t K hV hnd hp hok hf
    obtain ⟨h1, h2⟩ := hok
    simp only [List.length_cons] at hf
    have hh := T.height_le_size t
    have hsz : t.size = K.length := T.size_of_perm hp
    obtain ⟨tr1, t1, hadd, hV1, hnd1, hp1⟩ :=
      add_keyed tr t iv fuel hV hnd (fun x hx => h1 x (hp.subset hx)) (by omega)
    have hp1' : t1.cores.Perm (addOne K iv) := hp1.trans (addOne_perm iv hp)
    have hl := addOne_length K iv
    obtain ⟨tr2, t2, hAdd, hV2, hnd2, hp2⟩ := ih tr1 t1 _ hV1 hnd1 hp1' h2 (by omega)
    refine ⟨tr2, t2, ?_, hV2, hnd2, hp2⟩
    simp only [tree.Add, hadd, Option.bind_eq_bind, Option.some_bind]
    exact hAdd

theorem addAllK_length : ∀ (ivs : List Interval) (K : List (Interval × Nat)),
    (addAllK K ivs).length ≤ K.length + ivs.length := by
  intro ivs
  induction ivs with
  | nil => intro K; exact Nat.le_refl _
  | cons iv ivs ih =>
    intro K
    have h1 := ih (addOne K iv)
    have h2 := addOne_length K iv
    simp only [addAllK, List.length_cons]
    omega

theorem addAllK_mem : ∀ (ivs : List Interval) (K : List (Interval × Nat))
    (x : Interval × Nat), x ∈ addAllK K ivs → x ∈ K ∨ ∃ iv ∈ ivs, x = coreOf iv := by
  intro ivs
  induction ivs with
  | nil => intro K x hx; exact Or.inl hx
  | cons iv ivs ih =>
    intro K x hx
    rcases ih _ x hx with h | ⟨y, hy, e⟩
    · rcases addOne_mem K iv x h with h | h
      · exact Or.inl h
      · exact Or.inr ⟨iv, List.mem_cons_self _ _, h⟩
    · exact Or.inr ⟨y, List.mem_cons_of_mem _ hy, e⟩

theorem Call.store_length (calls : List Call) (c : Call) (K : List (Interval × Nat)) :
    (c.store K).length + addCount calls ≤ K.length + addCount (c :: calls) := by
  cases c with
  | Add ivs =>
    have := addAllK_length ivs K
    simp only [Call.store, addCount]; omega
  | Delete ivs =>
    have := delAll_length_le ivs K
    simp only [Call.store, addCount]; omega

theorem stored_length_le : ∀ (calls : List Call) (K : List (Interval × Nat)),
    (stored K calls).length ≤ K.length + addCount calls := by
  intro calls
  induction calls with
  | nil => intro K; exact Nat.le_add_right _ _
  | cons c calls ih =>
    intro K
    have h1 := ih (c.store K)
    have h2 := Call.store_length calls c K
    simp only [stored]
    omega

theorem stored_wide : ∀ (calls : List Call) (K : List (Interval × Nat)),
    (∀ x ∈ K, x.2 < 2 ^ 32) → CallsWide calls → ∀ x ∈ stored K calls, x.2 < 2 ^ 32 := by
  intro calls
  induction calls with
  | nil => intro K hK _ x hx; exact hK x hx
  | cons c calls ih =>
    intro K hK hw
    refine ih _ ?_ (fun c' hc' => hw c' (List.mem_cons_of_mem _ hc'))
    have hc := hw c (List.mem_cons_self _ _)
    cases c with
    | Add ivs =>
      intro x hx
      rcases addAllK_mem ivs K x hx with h | ⟨iv, hiv, rfl⟩
      · exact hK x h
      · exact hc iv hiv
    | Delete ivs =>
      intro x hx
      exact hK x (delAll_sub ivs K x hx)

theorem run_keyed (fuel : Nat) : ∀ (calls : List Call) (tr : tree) (t : T)
    (K : List (Interval × Nat)), Valid tr t → t.ids.Nodup → t.cores.Perm K → Keyed K calls →
    2 * (K.length + addCount calls) + 2 ≤ fuel →
    ∃ tr' t', tr.run fuel calls = some tr' ∧ Valid tr' t' ∧ t'.ids.Nodup ∧
      t'.cores.Perm (stored K calls) := by
  intro calls
  induction calls with
  | nil =>
    intro tr t K hV hnd hp _ _
    exact ⟨tr, t, rfl, hV, hnd, hp⟩
  | cons c calls ih =>
    intro tr t K hV hnd hp hadm hf
    obtain ⟨hok, hrest⟩ := hadm
    have hsz : t.size = K.length := T.size_of_perm hp
    have hlen := Call.store_length calls c K
    cases c with
    | Add ivs =>
      obtain ⟨tr1, t1, hAdd, hV1, hnd1, hp1⟩ := Add_keyed fuel ivs tr t K hV hnd hp hok
        (by simp only [addCount] at hf; omega)
      obtain ⟨tr2, t2, hrun, hV2, hnd2, hp2⟩ := ih tr1 t1 _ hV1 hnd1 hp1 hrest
        (by simp only [Call.store] at hlen; omega)
      refine ⟨tr2, t2, ?_, hV2, hnd2, hp2⟩
      simp only [tree.run, hAdd, Option.bind_eq_bind, Option.some_bind]
      exact hrun
    | Delete ivs =>
      have hok' : DelsOk t.cores ivs := DelsOk_perm ivs K t.cores hp.symm hok
      obtain ⟨tr1, t1, hDel, hG1, hK1, -⟩ :=
        Delete_good fuel ivs tr t hV hnd hok' (by omega)
      have hp1' : t1.cores.Perm (delAll K ivs) := by
        rw [hK1]; exact delAll_perm ivs _ _ hp
      obtain ⟨tr2, t2, hrun, hV2, hnd2, hp2⟩ := ih tr1 t1 _ hG1.1 hG1.2.2 hp1' hrest
        (by simp only [Call.store] at hlen; omega)
      refine ⟨tr2, t2, ?_, hV2, hnd2, hp2⟩
      simp only [tree.run, hDel, Option.bind_eq_bind, Option.some_bind]
      exact hrun

theorem New_run_keyed (fuel : Nat) (calls : List Call) (hadm : Keyed [] calls)
    (hf : 2 * addCount calls + 2 ≤ fuel) :
    ∃ tr t, New.run fuel calls = some tr ∧ Valid tr t ∧ t.ids.Nodup ∧
      t.cores.Perm (stored [] calls) := by
  refine run_keyed fuel calls New T.leaf [] New_good.1 New_good.2.2 ?_ hadm
    (by simp only [List.length_nil]; omega)
  rw [T.cores_leaf]

/-- C13, as it holds: starting from `New()`, after every sequence of `Add` and
`Delete` calls in which every interval whose id is stored when its turn comes
carries the low bound of the stored interval with that id (the high bound is
arbitrary, and so is an interval whose id is not stored; ids fit `uint32`), the calls
return, no two nodes share an id, the id of every node is that of its interval, and
`Len()` is the number of distinct ids in the tree.  This covers `Add` of a stored id
with the same bounds or with another high bound, and leaves out only `Add` and
`Delete` of a stored id with another low bound. -/
theorem c13_ids_distinct_within_contract (fuel : Nat) (calls : List Call)
    (hadm : Keyed [] calls) (hw : CallsWide calls)
    (hf : 2 * addCount calls + 2 ≤ fuel) :
    ∃ tr t, New.run fuel calls = some tr ∧ Rep tr t ∧ t.ids.Nodup ∧
      t.ids = t.intervals.map Interval.ID ∧ tr.Len = t.ids.dedup.length := by
  obtain ⟨tr, t, hrun, hV, hnd, hp⟩ := New_run_keyed fuel calls hadm hf
  have hwt : ∀ x ∈ t.cores, x.2 < 2 ^ 32 := fun x hx =>
    stored_wide calls [] (fun y hy => by simp at hy) hw x (hp.subset hx)
  have hlen : t.ids.length = t.size := by rw [T.size_eq_cores]; simp [T.ids]
  have hsz : t.size < 2 ^ 64 := by
    have h := length_le_of_nodup_lt t.ids (2 ^ 32) hnd
      (fun x hx => by
        obtain ⟨y, hy, rfl⟩ := (T.mem_ids t x).1 hx
        exact hwt y hy)
    rw [hlen] at h
    exact lt_of_le_of_lt h (by norm_num)
  refine ⟨tr, t, hrun, hV.1, hnd, ?_, ?_⟩
  · unfold T.ids
    rw [T.cores_eq_map_coreOf t hV.2.1.2.2, List.map_map]
    rfl
  · rw [List.Nodup.dedup hnd, hlen]
    show tr.number = t.size
    rw [hV.2.2]
    exact Nat.mod_eq_of_lt hsz

/-- C13 on a sequence of calls with ids that are stored: an `Add` with the low bound
and id of a stored interval and another high bound, a `Delete` likewise, an `Add` of
a stored interval, and a `Delete` of an id that is not stored. -/
theorem c13_scenario :
    ∃ tr t, New.run 16 keyedCalls = some tr ∧ Rep tr t ∧ t.ids.Nodup ∧
      t.ids = t.intervals.map Interval.ID ∧ tr.Len = t.ids.dedup.length :=
  c13_ids_distinct_within_contract 16 keyedCalls (by decide) (by decide) (by decide)

/-- C13 as stated fails, for `Add` and for `Delete` of a stored id with another low
bound.  First: `Add` of `(10,20,1)` and `(5,15,2)` to `New()`, then `Add` of
`(30,40,2)`, whose id is stored with another low bound: the descent goes to the right
of `(10,20,1)`, does not meet the node with id 2, and a node is created.  The memory
holds `dupT`: the ids in order are 2, 1, 2 and `Len()` is 3, for two distinct ids.
Second: `Add` of `(10,20,1)`, `(5,15,2)`, `(30,40,3)`, `(3,4,4)`, then `Delete` of
`(0,100,1)`, whose id is stored with another low bound: the node with id 1 is the
root, the descent goes on to the left down to `(3,4,4)`, whose interval is moved into
the root, so that `(5,15,2)` is now on the wrong side of the root; `Add` of the
stored `(5,15,2)` then goes to the right of the root and creates a second node with
id 2.  The memory holds `dupAfterDeleteT`: ids in order 2, 4, 2, 3 and `Len()` 4, for
three distinct ids. -/
theorem c13_Add_stored_id_other_low_duplicates :
    (∃ tr, New.run 8 [Call.Add [⟨10, 20, 1⟩, ⟨5, 15, 2⟩], Call.Add [⟨30, 40, 2⟩]] = some tr ∧
      Rep tr dupT ∧ dupT.ids = [2, 1, 2] ∧ ¬ dupT.ids.Nodup ∧ tr.Len = 3 ∧
      dupT.ids.dedup.length = 2) ∧
    ∃ tr, New.run 12 [Call.Add [⟨10, 20, 1⟩, ⟨5, 15, 2⟩, ⟨30, 40, 3⟩, ⟨3, 4, 4⟩],
        Call.Delete [⟨0, 100, 1⟩], Call.Add [⟨5, 15, 2⟩]] = some tr ∧
      Rep tr dupAfterDeleteT ∧ dupAfterDeleteT.ids = [2, 4, 2, 3] ∧
      ¬ dupAfterDeleteT.ids.Nodup ∧ tr.Len = 4 ∧ dupAfterDeleteT.ids.dedup.length = 3 :=
  ⟨⟨_, rfl, by decide, by decide, by decide, by decide, by decide⟩,
    ⟨_, rfl, by decide, by decide, by decide, by decide, by decide⟩⟩

end rbtree
